import Mathlib

/-!
# Streamline: a verification development

Shallow embedding of the extraction core of the Streamline repository
(`internal/downloader/drive.go`, `internal/downloader/factory.go`,
`cmd/streamline_core/zip.go`, `cmd/streamline/main.go`) and of the session
handling of its web backend (`handlers/zip.go`, `server.go`,
`main.go`, `models/request.go`), and theorems about them.

Conventions of the embedding:

* Go `int64` values are `Int`; every `int64` operation of the source is
  followed by `wrapInt64`, the two's complement wrap-around of Go.
* Go byte slices are `List Byte`; Go strings are `List Char`.
* A loop is a function recursive on a fuel argument; the entry point supplies
  the fuel and the theorems show that it suffices.
* External effects (the Drive range request, the file system write of
  `ExtractFile`, the cancellation signal) are explicit parameters and the
  calls made to them are recorded in the result.
* Calls that overlap in time are sequences of steps taken in the order of a
  schedule; a step is a piece of code that runs under one lock or touches the
  shared state once.
-/

namespace Streamline

/-! ## `internal/downloader/drive.go`: `DriveReaderAt` -/

/-- A byte of a Go `[]byte`. -/
abbrev Byte := Nat

/-- Two's complement wrap-around of a Go `int64` operation. -/
def wrapInt64 (x : Int) : Int := (x + 2 ^ 63) % 2 ^ 64 - 2 ^ 63

/-- The largest `int64`. -/
def maxInt64 : Int := 2 ^ 63 - 1

/-- `const defaultChunkSize = 1 << 20`. -/
def defaultChunkSize : Int := 2 ^ 20

/-- What the range request `call.Download()` followed by `io.ReadAll(resp.Body)`
can produce: a body, a failed download, or a failed read of the body. -/
inductive FetchResult where
  | ok (data : List Byte)
  | downloadFailed
  | readFailed
  deriving DecidableEq, Repr

/-- The errors `ReadAt` returns (`io.EOF` included). -/
inductive ReadErr where
  | negativeOffset
  | eof
  | rangeDownloadFailed
  | readResponseFailed
  | offsetOutsideChunk
  deriving DecidableEq, Repr

/-- The run-time panics the Go code of `ReadAt` could raise. -/
inductive Panic where
  | divideByZero
  | sliceBounds
  deriving DecidableEq, Repr

/-- A range request as issued by `ReadAt`: the index of the chunk it is for and
the two numbers of the header `Range: bytes=first-last`. -/
structure RangeReq where
  chunkIdx : Int
  first : Int
  last : Int
  deriving DecidableEq, Repr

/-- The struct `DriveReaderAt`; `svc` and `fileID` are the backend, which the
embedding passes separately, and the mutex has no sequential content. -/
structure DriveReaderAt where
  size : Int
  chunkSize : Int
  cache : Int → Option (List Byte)

/-- The backend behind `d.svc.Files.Get(d.fileID)`: a state and the answer to a
request with header `Range: bytes=a-b`. -/
abbrev Fetch (β : Type) := β → Int → Int → FetchResult × β

/-- `NewDriveReaderAt`: a non-positive chunk size is replaced by the default;
the cache starts empty. -/
def NewDriveReaderAt (size chunkSize : Int) : DriveReaderAt :=
  { size := size
    chunkSize := if chunkSize ≤ 0 then defaultChunkSize else chunkSize
    cache := fun _ => none }

/-- `d.cache[chunkIdx] = data`. -/
def cacheSet (cache : Int → Option (List Byte)) (k : Int) (data : List Byte) :
    Int → Option (List Byte) :=
  fun j => if j = k then some data else cache j

/-- `minInt64`. -/
def minInt64 (a b : Int) : Int := if a < b then a else b

/-- `copy(p[n:n+toCopy], buf[o:o+toCopy])` for in-range bounds. -/
def copyInto (p : List Byte) (n : Nat) (buf : List Byte) (o toCopy : Nat) : List Byte :=
  p.take n ++ (buf.drop o).take toCopy ++ p.drop (n + toCopy)

/-- The local variables of `ReadAt` together with the state it acts on. -/
structure LoopState (β : Type) where
  n : Int
  remaining : Int
  pos : Int
  p : List Byte
  cache : Int → Option (List Byte)
  svc : β
  fetches : List RangeReq

/-- What a call of `ReadAt` leaves behind: the returned `(n, err)` (or a
panic), the caller's buffer, the cache, the backend state and the range
requests issued, oldest first. -/
structure ReadResult (β : Type) where
  n : Int
  err : Option ReadErr
  panicked : Option Panic
  p : List Byte
  cache : Int → Option (List Byte)
  svc : β
  fetches : List RangeReq

/-- Leave `ReadAt` with `return n, err`. -/
def LoopState.ret {β : Type} (st : LoopState β) (err : Option ReadErr) : ReadResult β :=
  { n := st.n, err := err, panicked := none, p := st.p, cache := st.cache,
    svc := st.svc, fetches := st.fetches }

/-- Leave `ReadAt` by a run-time panic. -/
def LoopState.panic {β : Type} (st : LoopState β) (e : Panic) : ReadResult β :=
  { n := st.n, err := none, panicked := some e, p := st.p, cache := st.cache,
    svc := st.svc, fetches := st.fetches }

/-- The part of the loop body after `buf` is known (lines 86 to 96): the
offset check, the copy and the three updates. `Sum.inr` is "go on with this
state", `Sum.inl` a return. The two slice expressions of line 92 panic when
their bounds are out of range; the capacity of a slice is taken to be its
length. -/
def copyStep {β : Type} (st : LoopState β) (chunkStart : Int) (buf : List Byte) :
    ReadResult β ⊕ LoopState β :=
  let offsetInChunk := wrapInt64 (st.pos - chunkStart)
  if offsetInChunk < 0 ∨ offsetInChunk ≥ (buf.length : Int) then
    .inl (st.ret (some .offsetOutsideChunk))
  else
    let toCopy := minInt64 st.remaining (wrapInt64 ((buf.length : Int) - offsetInChunk))
    let hi := wrapInt64 (st.n + toCopy)
    let bhi := wrapInt64 (offsetInChunk + toCopy)
    if st.n < 0 ∨ hi < st.n ∨ (st.p.length : Int) < hi ∨
        bhi < offsetInChunk ∨ (buf.length : Int) < bhi then
      .inl (st.panic .sliceBounds)
    else
      .inr { st with
        p := copyInto st.p st.n.toNat buf offsetInChunk.toNat toCopy.toNat
        n := hi
        remaining := wrapInt64 (st.remaining - toCopy)
        pos := wrapInt64 (st.pos + toCopy) }

/-- One pass through the body of `for remaining > 0 && pos < d.size`
(lines 56 to 96). -/
def loopBody {β : Type} (fetch : Fetch β) (size chunkSize : Int) (st : LoopState β) :
    ReadResult β ⊕ LoopState β :=
  if chunkSize = 0 then .inl (st.panic .divideByZero) else
  let chunkIdx := wrapInt64 (Int.tdiv st.pos chunkSize)
  let chunkStart := wrapInt64 (chunkIdx * chunkSize)
  let chunkEnd0 := wrapInt64 (wrapInt64 (chunkStart + chunkSize) - 1)
  let chunkEnd := if chunkEnd0 ≥ size then wrapInt64 (size - 1) else chunkEnd0
  match st.cache chunkIdx with
  | some buf => copyStep st chunkStart buf
  | none =>
    match fetch st.svc chunkStart chunkEnd with
    | (.downloadFailed, svc) =>
      .inl ({ st with svc := svc, fetches := st.fetches ++ [RangeReq.mk chunkIdx chunkStart chunkEnd] }.ret
        (some .rangeDownloadFailed))
    | (.readFailed, svc) =>
      .inl ({ st with svc := svc, fetches := st.fetches ++ [RangeReq.mk chunkIdx chunkStart chunkEnd] }.ret
        (some .readResponseFailed))
    | (.ok data, svc) =>
      copyStep { st with svc := svc, fetches := st.fetches ++ [RangeReq.mk chunkIdx chunkStart chunkEnd],
                         cache := cacheSet st.cache chunkIdx data } chunkStart data

/-- The loop of `ReadAt` and the two returns after it (lines 55 to 102);
`none` only when the fuel runs out. -/
def readLoop {β : Type} (fetch : Fetch β) (size chunkSize : Int) :
    Nat → LoopState β → Option (ReadResult β)
  | fuel, st =>
    if st.remaining > 0 ∧ st.pos < size then
      match fuel with
      | 0 => none
      | fuel + 1 =>
        match loopBody fetch size chunkSize st with
        | .inl r => some r
        | .inr st1 => readLoop fetch size chunkSize fuel st1
    else if st.n < (st.p.length : Int) then some (st.ret (some .eof))
    else some (st.ret none)

/-- `DriveReaderAt.ReadAt(p, off)` against the backend state `svc`. The loop
gets `len(p)` units of fuel: every pass that does not return copies at least
one byte. -/
def ReadAt {β : Type} (fetch : Fetch β) (d : DriveReaderAt) (svc : β) (p : List Byte)
    (off : Int) : Option (ReadResult β) :=
  let st : LoopState β :=
    { n := 0, remaining := p.length, pos := off, p := p, cache := d.cache, svc := svc,
      fetches := [] }
  if off < 0 then some (st.ret (some .negativeOffset))
  else if off ≥ d.size then some (st.ret (some .eof))
  else readLoop fetch d.size d.chunkSize p.length st

/-- The bytes `[a, a + len)` of a remote object whose byte at position `i` is
`obj i`. -/
def objBytes (obj : Nat → Byte) (a len : Nat) : List Byte :=
  (List.range' a len).map obj

/-- The backend of the object `obj` that serves every request `[a, b]` with
exactly the bytes `a..b` of the object (none when `b < a`). -/
def exactFetch (obj : Nat → Byte) : Fetch Unit :=
  fun _ a b => (.ok (objBytes obj a.toNat (b + 1 - a).toNat), ())

/-- The caches a reader of the object `obj` (size `S`, chunk size `c`) can hold:
the empty cache of `NewDriveReaderAt`, and the cache left by a call
`ReadAt(p, off)` with `0 ≤ off < S` on a reader holding such a cache. -/
inductive ReachableCache (obj : Nat → Byte) (S c : Int) : (Int → Option (List Byte)) → Prop where
  | init : ReachableCache obj S c (fun _ => none)
  | readAt (cache : Int → Option (List Byte)) (p : List Byte) (off : Int)
      (r : ReadResult Unit) :
      ReachableCache obj S c cache → 0 ≤ off → off < S → (p.length : Int) ≤ maxInt64 →
      ReadAt (exactFetch obj) { size := S, chunkSize := c, cache := cache } () p off = some r →
      ReachableCache obj S c r.cache

/-- The chunk with index `k` of the object: bytes `[k*c, min(k*c + c, S))`. -/
def chunkBytes (obj : Nat → Byte) (S c k : Int) : List Byte :=
  objBytes obj (k * c).toNat (min (k * c + c) S - k * c).toNat

/-- Every cached chunk holds the bytes of its range of the object. -/
def CacheOK (obj : Nat → Byte) (S c : Int) (cache : Int → Option (List Byte)) : Prop :=
  ∀ k buf, cache k = some buf → buf = chunkBytes obj S c k

/-- The loop invariant of `ReadAt` against an exact backend. -/
structure ReadInv (obj : Nat → Byte) (S c : Int) (p0 : List Byte) (off : Int)
    (st : LoopState Unit) : Prop where
  n_nonneg : 0 ≤ st.n
  rem_nonneg : 0 ≤ st.remaining
  n_rem : st.n + st.remaining = p0.length
  pos_eq : st.pos = off + st.n
  pos_le : st.pos ≤ S
  len_eq : st.p.length = p0.length
  copied : st.p.take st.n.toNat = objBytes obj off.toNat st.n.toNat
  rest : st.p.drop st.n.toNat = p0.drop st.n.toNat
  cache_ok : CacheOK obj S c st.cache

/-- A client that reads front to back: one `ReadAt` per buffer length, each at
the offset where the previous call stopped, on the same reader; the result is
the concatenation of the `p[0:n]` of the calls. -/
def readConcat (obj : Nat → Byte) (S c : Int) :
    List Nat → Int → (Int → Option (List Byte)) → Option (List Byte)
  | [], _, _ => some []
  | len :: rest, off, cache =>
    match ReadAt (exactFetch obj) { size := S, chunkSize := c, cache := cache } ()
        (List.replicate len 0) off with
    | none => none
    | some r => (readConcat obj S c rest (off + r.n) r.cache).map (r.p.take r.n.toNat ++ ·)

/-- The two errors of `ReadAt` that report a failed range fetch ("range
download failed", "read response failed"). -/
def isFetchFailure : Option ReadErr → Bool
  | some .rangeDownloadFailed => true
  | some .readResponseFailed => true
  | _ => false

/-- The index of the chunk that holds position `pos` (line 56). -/
def chunkIdxOf (chunkSize pos : Int) : Int := wrapInt64 (Int.tdiv pos chunkSize)

/-- Go typing of the backend: a body read by `io.ReadAll` is a slice, so its
length is an `int`. -/
def FetchBounded {β : Type} (fetch : Fetch β) : Prop :=
  ∀ s a b data s1, fetch s a b = (.ok data, s1) → (data.length : Int) ≤ maxInt64

/-- Go typing of the cache: every stored chunk is a slice. -/
def CacheBounded (cache : Int → Option (List Byte)) : Prop :=
  ∀ k buf, cache k = some buf → (buf.length : Int) ≤ maxInt64

/-- The cache `c2` holds every entry of `c1`, unchanged. -/
def CacheExtends (c1 c2 : Int → Option (List Byte)) : Prop :=
  ∀ k buf, c1 k = some buf → c2 k = some buf

/-- Counters of the loop of `ReadAt` for a buffer of length `len`. -/
structure CountInv {β : Type} (len : Nat) (st : LoopState β) : Prop where
  n_nonneg : 0 ≤ st.n
  rem_nonneg : 0 ≤ st.remaining
  n_rem : st.n + st.remaining = len
  len_eq : st.p.length = len

/-- The request `ReadAt` issues for the chunk that holds position `pos`
(lines 56 to 61 and 69). -/
def reqFor (size chunkSize pos : Int) : RangeReq :=
  let chunkIdx := wrapInt64 (Int.tdiv pos chunkSize)
  let chunkStart := wrapInt64 (chunkIdx * chunkSize)
  let chunkEnd0 := wrapInt64 (wrapInt64 (chunkStart + chunkSize) - 1)
  { chunkIdx := chunkIdx
    first := chunkStart
    last := if chunkEnd0 ≥ size then wrapInt64 (size - 1) else chunkEnd0 }

/-- What a run of the loop of `ReadAt` from the state `st` to the result `r`
does to the cache and which requests it adds: entries are only added, every
added request is for a chunk that was not cached, no chunk is requested twice,
the chunk of every request that succeeded is cached in the end, and a failed
request is the last one, for the chunk at position `off + n`, which stays
uncached. -/
structure RunTrace {β : Type} (c off : Int) (st : LoopState β) (r : ReadResult β) : Prop where
  extends_cache : CacheExtends st.cache r.cache
  only_new : ∀ k, st.cache k = none → (∀ q ∈ r.fetches.drop st.fetches.length, q.chunkIdx ≠ k) →
    r.cache k = none
  fetched : ∃ new, r.fetches = st.fetches ++ new ∧
    (∀ q ∈ new, st.cache q.chunkIdx = none) ∧
    (new.map (fun q => q.chunkIdx)).Nodup ∧
    (isFetchFailure r.err = false → ∀ q ∈ new, (r.cache q.chunkIdx).isSome = true) ∧
    (isFetchFailure r.err = true → ∃ pre q, new = pre ++ [q] ∧ r.cache q.chunkIdx = none ∧
      (∀ q1 ∈ pre, (r.cache q1.chunkIdx).isSome = true) ∧
      q.chunkIdx = chunkIdxOf c (wrapInt64 (off + r.n)))

/-- Two loop states of `ReadAt` that stand at the same point of the same call:
equal counters, buffers of equal length that agree on the part already
filled. -/
structure SameCall {β γ : Type} (st : LoopState β) (st2 : LoopState γ) : Prop where
  n_eq : st2.n = st.n
  rem_eq : st2.remaining = st.remaining
  pos_eq : st2.pos = st.pos
  len_eq : st2.p.length = st.p.length
  filled : st2.p.take st.n.toNat = st.p.take st.n.toNat

/-- The state in which `ReadAt(p, off)` enters its loop (lines 51 to 53). -/
def initState {β : Type} (d : DriveReaderAt) (svc : β) (p : List Byte) (off : Int) :
    LoopState β :=
  { n := 0, remaining := p.length, pos := off, p := p, cache := d.cache, svc := svc,
    fetches := [] }

/-- A backend that answers every request with the same four bytes. -/
def fourBytes : Fetch Unit := fun _ _ _ => (.ok [1, 2, 3, 4], ())

/-- A backend whose every download fails. -/
def alwaysFails : Fetch Unit := fun _ _ _ => (.downloadFailed, ())

/-- A backend that serves `[1, 2, 3, 4]` as long as its counter is positive and
fails afterwards; the counter goes down with every request. -/
def failsAfter : Fetch Nat := fun s _ _ =>
  match s with
  | 0 => (.downloadFailed, 0)
  | s + 1 => (.ok [1, 2, 3, 4], s)

/-! ## Go's `path/filepath` and `strings` on Unix, as used by `zip.go`

Go strings are `List Char`. The functions below follow the documented behaviour
of the standard library on Unix (separator `/`, no volume names). -/

/-- A Go string. -/
abbrev GoString := List Char

/-- `os.PathSeparator` on Unix. -/
def Separator : Char := '/'

/-- `strings.HasPrefix(s, pre)`. -/
def HasPrefix : GoString → GoString → Bool
  | _, [] => true
  | [], _ :: _ => false
  | c :: s, d :: pre => c == d && HasPrefix s pre

/-- `strings.Split(s, "/")`: the maximal runs between separators; never empty. -/
def splitSep : GoString → List GoString
  | [] => [[]]
  | c :: cs =>
    if c = Separator then [] :: splitSep cs
    else
      match splitSep cs with
      | [] => [[c]]
      | s :: ss => (c :: s) :: ss

/-- `strings.Join(segs, "/")`. -/
def joinSep : List GoString → GoString
  | [] => []
  | [s] => s
  | s :: t :: ss => s ++ Separator :: joinSep (t :: ss)

/-- One path element processed by `filepath.Clean`; `stack` holds the elements
kept so far, last one first. Empty elements and `.` are dropped; `..` removes
the last kept element if there is one that is not `..`, is dropped at the root
of a rooted path, and is kept otherwise; any other element is kept. -/
def cleanStep (rooted : Bool) (stack : List GoString) (seg : GoString) : List GoString :=
  if seg = [] ∨ seg = ['.'] then stack
  else if seg = ['.', '.'] then
    match stack with
    | [] => if rooted then [] else [seg]
    | top :: below => if top = ['.', '.'] then seg :: top :: below else below
  else seg :: stack

/-- The elements `filepath.Clean` keeps, first one first. -/
def cleanSegs (rooted : Bool) (path : GoString) : List GoString :=
  ((splitSep path).foldl (cleanStep rooted) []).reverse

/-- `filepath.IsAbs` on Unix. -/
def IsAbs (path : GoString) : Bool := HasPrefix path [Separator]

/-- `filepath.Clean` on Unix: the shortest equivalent path by lexical
processing; the empty path and a path that cleans to nothing give `"."`. -/
def Clean (path : GoString) : GoString :=
  if path = [] then ['.']
  else
    let out := (if IsAbs path then [Separator] else []) ++ joinSep (cleanSegs (IsAbs path) path)
    if out = [] then ['.'] else out

/-- `filepath.Join(a, b)`: the non-empty arguments joined by a separator and
cleaned; the empty string when both are empty. -/
def Join (a b : GoString) : GoString :=
  if a ≠ [] then Clean (a ++ Separator :: b)
  else if b ≠ [] then Clean b
  else []

/-- `filepath.Abs` on Unix; `wd` is the result of `os.Getwd()`, `none` when it
fails. -/
def Abs (wd : Option GoString) (path : GoString) : Option GoString :=
  if IsAbs path then some (Clean path)
  else
    match wd with
    | none => none
    | some w => some (Join w path)

/-- `filepath.Base` on Unix. -/
def Base (path : GoString) : GoString :=
  if path = [] then ['.']
  else
    let stripped := (path.reverse.dropWhile (fun c => c == Separator)).reverse
    let last := (stripped.reverse.takeWhile (fun c => c != Separator)).reverse
    if last = [] then [Separator] else last

/-! ## `cmd/streamline_core/zip.go` -/

/-- `IsPathWithinBase(base, target)`. -/
def IsPathWithinBase (wd : Option GoString) (base target : GoString) : Bool :=
  match Abs wd base with
  | none => false
  | some absBase =>
    match Abs wd target with
    | none => false
    | some absTarget => HasPrefix absTarget (absBase ++ [Separator])

/-- The two results of `filepath.Match(pattern, name)`: `matched`, and whether
`err` is non-nil (`ErrBadPattern`). -/
abbrev MatchFn := GoString → GoString → Bool × Bool

/-- `ShouldExtract(name, include, exclude)`; the error of `filepath.Match` is
discarded, as in `matched, _ := filepath.Match(...)`. -/
def ShouldExtract (fpMatch : MatchFn) (name incl excl : GoString) : Bool :=
  if incl ≠ [] ∧ ¬ (fpMatch incl (Base name)).1 then false
  else if excl ≠ [] ∧ (fpMatch excl (Base name)).1 then false
  else true

/-- A path element that names a directory entry: not empty, without separator,
and neither `.` nor `..`. -/
def ProperSeg (s : GoString) : Prop :=
  s ≠ [] ∧ Separator ∉ s ∧ s ≠ ['.'] ∧ s ≠ ['.', '.']

/-- A `*zip.File` as far as the extraction loops look at it: its name. -/
structure ZipFile where
  Name : GoString
  deriving DecidableEq, Repr

/-- The outside world of an extraction run, with state `σ`: what a call
`ExtractFile(f, targetPath)` returns (`none` for `nil`, `some msg` for an error
with text `msg`) and does to the state; what sending a line on the log channel
does to the state; whether `ctx.Done()` is closed; the text of `ctx.Err()`.
Calls of `ExtractFile` return and sends on the channel complete (somebody
receives). -/
structure World (σ : Type) where
  extractFile : σ → ZipFile → GoString → Option GoString × σ
  send : σ → GoString → σ
  done : σ → Bool
  ctxErr : σ → GoString

/-- What an extraction run does, in order: a poll of `ctx.Done()` with its
answer, a line sent on the log channel, a call `ExtractFile(f, target)` for the
entry `name` with the error it returned, a call of `util.PrintProgress`. -/
inductive Event where
  | poll (cancelled : Bool)
  | sent (line : GoString)
  | extract (name target : GoString) (err : Option GoString)
  | progress (current total : Nat)
  deriving DecidableEq, Repr

/-- `fmt.Sprintf("Extracting %s...", name)`. -/
def extractingLine (name : GoString) : GoString :=
  "Extracting ".toList ++ name ++ "...".toList

/-- `fmt.Errorf("extract %s: %w", name, err).Error()`. -/
def extractError (name err : GoString) : GoString :=
  "extract ".toList ++ name ++ ": ".toList ++ err

/-- What `ExtractSelectedFiles` returns and leaves behind. -/
structure SessionResult (σ : Type) where
  err : Option GoString
  events : List Event
  world : σ

/-- The loop of `ExtractSelectedFiles` (lines 117 to 137) over the entries not
yet visited; `selectedSet[f.Name]` is membership in `selected`. -/
def selectedLoop {σ : Type} (w : World σ) (outputDir : GoString) (selected : List GoString) :
    List ZipFile → σ → List Event → SessionResult σ
  | [], s, ev =>
    { err := none, events := ev ++ [.sent "Extraction complete.".toList],
      world := w.send s "Extraction complete.".toList }
  | f :: rest, s, ev =>
    if w.done s then
      { err := some (w.ctxErr s), events := ev ++ [.poll true, .sent "Aborted".toList],
        world := w.send s "Aborted".toList }
    else if ¬ (f.Name ∈ selected) then
      selectedLoop w outputDir selected rest s (ev ++ [.poll false])
    else
      let s1 := w.send s (extractingLine f.Name)
      let targetPath := Join outputDir f.Name
      match w.extractFile s1 f targetPath with
      | (some e, s2) =>
        { err := some (extractError f.Name e),
          events := ev ++ [.poll false, .sent (extractingLine f.Name),
            .extract f.Name targetPath (some e)],
          world := s2 }
      | (none, s2) =>
        selectedLoop w outputDir selected rest s2
          (ev ++ [.poll false, .sent (extractingLine f.Name), .extract f.Name targetPath none])

/-- `ExtractSelectedFiles(ctx, zipPath, outputDir, selected, logChan)`;
`archive` is the result of `zip.OpenReader(zipPath)`: the entries in archive
order, or the text of the error. -/
def ExtractSelectedFiles {σ : Type} (w : World σ) (archive : GoString ⊕ List ZipFile)
    (outputDir : GoString) (selected : List GoString) (s : σ) : SessionResult σ :=
  match archive with
  | .inl e => { err := some ("open zip: ".toList ++ e), events := [], world := s }
  | .inr files => selectedLoop w outputDir selected files s []

/-! ## `cmd/streamline/main.go`: the extraction part of `main` -/

/-- The struct `ExtractionError`. -/
structure ExtractionError where
  File : GoString
  Reason : GoString
  deriving DecidableEq, Repr

/-- The flags and the environment the extraction part of `main` reads. -/
structure Flags where
  outDir : GoString
  skipErrors : Bool
  incl : GoString
  excl : GoString
  wd : Option GoString
  fpMatch : MatchFn

/-- The variables of the sequential loop of `main` (lines 146 to 149) and what
the run has done so far. -/
structure MainState (σ : Type) where
  skippedCount : Nat
  errorList : List ExtractionError
  events : List Event
  world : σ

/-- One pass through the body of the sequential loop of `main` (lines 193 to
212) for the entry `f` at index `i`. The `log.Printf` lines go to the log file
and are not events. -/
def seqBody {σ : Type} (w : World σ) (fl : Flags) (totalFiles i : Nat) (f : ZipFile)
    (st : MainState σ) : MainState σ :=
  if ¬ ShouldExtract fl.fpMatch f.Name fl.incl fl.excl = true then
    { st with skippedCount := st.skippedCount + 1 }
  else
    let targetPath := Join fl.outDir f.Name
    if ¬ IsPathWithinBase fl.wd fl.outDir targetPath = true then st
    else
      match w.extractFile st.world f targetPath with
      | (some e, s1) =>
        { st with
          errorList := if ¬ fl.skipErrors = true then st.errorList ++ [⟨f.Name, e⟩]
                       else st.errorList
          events := st.events ++
            [.extract f.Name targetPath (some e), .progress (i + 1) totalFiles]
          world := s1 }
      | (none, s1) =>
        { st with
          events := st.events ++ [.extract f.Name targetPath none, .progress (i + 1) totalFiles]
          world := s1 }

/-- The sequential loop of `main`, `for i, f := range zr.File`, from index `i`. -/
def seqLoop {σ : Type} (w : World σ) (fl : Flags) (totalFiles : Nat) :
    Nat → List ZipFile → MainState σ → MainState σ
  | _, [], st => st
  | i, f :: rest, st => seqLoop w fl totalFiles (i + 1) rest (seqBody w fl totalFiles i f st)

/-- The result of a sequential run: the three numbers of the final log line
`Extraction complete. Total: %d, Skipped: %d, Errors: %d` come from
`totalFiles`, `skippedCount` and `errorList`. -/
structure MainResult (σ : Type) where
  totalFiles : Nat
  skippedCount : Nat
  errorList : List ExtractionError
  events : List Event
  world : σ

/-- The extraction part of `main` without `-boost` (lines 146 to 217). -/
def mainSequential {σ : Type} (w : World σ) (fl : Flags) (files : List ZipFile) (s : σ) :
    MainResult σ :=
  let st := seqLoop w fl files.length 0 files
    { skippedCount := 0, errorList := [], events := [], world := s }
  { totalFiles := files.length, skippedCount := st.skippedCount, errorList := st.errorList,
    events := st.events, world := st.world }

/-- The names and targets of the calls of `ExtractFile` among the events, in
order. -/
def extractCalls : List Event → List (GoString × GoString)
  | [] => []
  | .extract name target _ :: rest => (name, target) :: extractCalls rest
  | _ :: rest => extractCalls rest

/-- The failed calls of `ExtractFile` among the events, in order, each as an
`ExtractionError{File: name, Reason: err.Error()}`. -/
def failedCalls : List Event → List ExtractionError
  | [] => []
  | .extract name _ (some e) :: rest => ⟨name, e⟩ :: failedCalls rest
  | _ :: rest => failedCalls rest

/-- The lines sent on the log channel among the events, in order. -/
def sentLines : List Event → List GoString
  | [] => []
  | .sent line :: rest => line :: sentLines rest
  | _ :: rest => sentLines rest

/-- `filepath.Match` on patterns without metacharacters: the name has to be
the pattern itself; never an error. Used in examples. -/
def literalMatch : MatchFn := fun pattern name => (decide (pattern = name), false)

/-- A world for examples: the state counts the calls of `ExtractFile`; call
number `failAt` (from 1) fails with "permission denied", and `ctx.Done()` is
closed once `cancelAfter` calls have begun. -/
def countingWorld (failAt cancelAfter : Nat) : World Nat where
  extractFile := fun s _ _ =>
    (if s + 1 = failAt then some "permission denied".toList else none, s + 1)
  send := fun s _ => s
  done := fun s => decide (cancelAfter ≤ s)
  ctxErr := fun _ => "context canceled".toList

/-- A world for examples in which the context is never cancelled and every
call of `ExtractFile` succeeds; the state counts the calls. -/
def calmWorld : World Nat where
  extractFile := fun s _ _ => (none, s + 1)
  send := fun s _ => s
  done := fun _ => false
  ctxErr := fun _ => "context canceled".toList

/-- The part of the loop of `ExtractSelectedFiles` that handles the entries
`pre`: the state and the events with which the loop reaches the entry after
`pre`, or `none` when it returns before (cancelled, or an entry failed). -/
def selectedReach {σ : Type} (w : World σ) (outputDir : GoString) (selected : List GoString) :
    List ZipFile → σ → List Event → Option (σ × List Event)
  | [], s, ev => some (s, ev)
  | f :: rest, s, ev =>
    if w.done s then none
    else if ¬ (f.Name ∈ selected) then
      selectedReach w outputDir selected rest s (ev ++ [.poll false])
    else
      match w.extractFile (w.send s (extractingLine f.Name)) f (Join outputDir f.Name) with
      | (some _, _) => none
      | (none, s2) =>
        selectedReach w outputDir selected rest s2
          (ev ++ [.poll false, .sent (extractingLine f.Name),
            .extract f.Name (Join outputDir f.Name) none])

/-- The events of an entry the loop of `ExtractSelectedFiles` gets past: the
poll, and for a selected entry the announcement and the call of `ExtractFile`
that returned `nil`. -/
def entryEvents (outputDir : GoString) (selected : List GoString) (f : ZipFile) : List Event :=
  if f.Name ∈ selected then
    [.poll false, .sent (extractingLine f.Name), .extract f.Name (Join outputDir f.Name) none]
  else [.poll false]

/-- The test of the sequential loop of `main` an entry has to pass to reach
`ExtractFile`: the filter, then the path guard on its target. -/
def passesChecks (fl : Flags) (f : ZipFile) : Bool :=
  ShouldExtract fl.fpMatch f.Name fl.incl fl.excl &&
    IsPathWithinBase fl.wd fl.outDir (Join fl.outDir f.Name)

/-- Flags for examples: output directory `/out`, no filter, working directory
`/`. -/
def plainFlags (skipErrors : Bool) : Flags :=
  { outDir := "/out".toList, skipErrors := skipErrors, incl := [], excl := [],
    wd := some "/".toList, fpMatch := literalMatch }

/-- `filepath.Join(elem...)`: the elements from the first non-empty one on,
joined by separators and cleaned; the empty string when all are empty. -/
def JoinList : List GoString → GoString
  | [] => []
  | e :: rest => if e ≠ [] then Clean (joinSep (e :: rest)) else JoinList rest

/-- The path that `filepath.Abs` cleans: `path` itself when it is absolute,
the working directory, a separator and `path` otherwise. -/
def absPath (wd : Option GoString) (path : GoString) : Option GoString :=
  if IsAbs path then some path
  else
    match wd with
    | none => none
    | some w => some (w ++ Separator :: path)

/-- The path elements of `filepath.Abs(path)`. -/
def absSegs (wd : Option GoString) (path : GoString) : Option (List GoString) :=
  (absPath wd path).map (cleanSegs true)

/-- A path element that `filepath.Clean` can leave in a relative path: a
proper one or `..`. -/
def KeptSeg (s : GoString) : Prop := ProperSeg s ∨ s = ['.', '.']

/-- `fmt.Errorf("illegal path: %s", targetPath).Error()` of `ExtractZip`. -/
def illegalPathError (targetPath : GoString) : GoString :=
  "illegal path: ".toList ++ targetPath

/-- `fmt.Errorf("illegal file path: %s", targetPath).Error()` of
`DownloadAndUpload`. -/
def illegalFilePathError (targetPath : GoString) : GoString :=
  "illegal file path: ".toList ++ targetPath

/-- The loop of `ExtractZip` (lines 73 to 86) over the entries not yet
visited: the path guard first, then the filter, then `ExtractFile`; a failed
guard and a failed `ExtractFile` both return. The result has the shape of a
`SessionResult`: the returned error, the events and the world. -/
def extractZipLoop {σ : Type} (w : World σ) (wd : Option GoString) (fpMatch : MatchFn)
    (outputDir incl excl : GoString) : List ZipFile → σ → List Event → SessionResult σ
  | [], s, ev => { err := none, events := ev, world := s }
  | f :: rest, s, ev =>
    let targetPath := Join outputDir f.Name
    if ¬ IsPathWithinBase wd outputDir targetPath = true then
      { err := some (illegalPathError targetPath), events := ev, world := s }
    else if ¬ ShouldExtract fpMatch f.Name incl excl = true then
      extractZipLoop w wd fpMatch outputDir incl excl rest s ev
    else
      match w.extractFile s f targetPath with
      | (some e, s1) =>
        { err := some (extractError f.Name e),
          events := ev ++ [.extract f.Name targetPath (some e)], world := s1 }
      | (none, s1) =>
        extractZipLoop w wd fpMatch outputDir incl excl rest s1
          (ev ++ [.extract f.Name targetPath none])

/-- `ExtractZip(zipPath, outputDir, include, exclude)`; `archive` is the result
of `zip.OpenReader(zipPath)`. -/
def ExtractZip {σ : Type} (w : World σ) (wd : Option GoString) (fpMatch : MatchFn)
    (archive : GoString ⊕ List ZipFile) (outputDir incl excl : GoString) (s : σ) :
    SessionResult σ :=
  match archive with
  | .inl e => { err := some ("open zip: ".toList ++ e), events := [], world := s }
  | .inr files => extractZipLoop w wd fpMatch outputDir incl excl files s []

/-- The struct `DriveExtractor`. -/
structure DriveExtractor where
  FileID : GoString
  OutDir : GoString
  deriving DecidableEq, Repr

/-- The loop of `DriveExtractor.DownloadAndUpload` (lines 135 to 143): the path
guard, then `ExtractFile`; no filter. -/
def downloadLoop {σ : Type} (w : World σ) (wd : Option GoString) (outDir : GoString) :
    List ZipFile → σ → List Event → SessionResult σ
  | [], s, ev => { err := none, events := ev, world := s }
  | f :: rest, s, ev =>
    let targetPath := Join outDir f.Name
    if ¬ IsPathWithinBase wd outDir targetPath = true then
      { err := some (illegalFilePathError targetPath), events := ev, world := s }
    else
      match w.extractFile s f targetPath with
      | (some e, s1) =>
        { err := some (extractError f.Name e),
          events := ev ++ [.extract f.Name targetPath (some e)], world := s1 }
      | (none, s1) =>
        downloadLoop w wd outDir rest s1 (ev ++ [.extract f.Name targetPath none])

/-- `DriveExtractor.DownloadAndUpload`; `meta` is the result of the metadata
request (the size, or the text of the error) and `archive` the result of
`zip.NewReader` on the Drive file. The returned string is `d.FileID` exactly
when the error is `nil`. -/
def DownloadAndUpload {σ : Type} (w : World σ) (wd : Option GoString) (d : DriveExtractor)
    (metaSize : GoString ⊕ Int) (archive : GoString ⊕ List ZipFile) (s : σ) :
    SessionResult σ :=
  match metaSize with
  | .inl e => { err := some ("get file metadata: ".toList ++ e), events := [], world := s }
  | .inr size =>
    if size = 0 then
      { err := some "file size is 0 or unknown; ensure it's a ZIP and accessible".toList,
        events := [], world := s }
    else
      match archive with
      | .inl e => { err := some ("zip reader: ".toList ++ e), events := [], world := s }
      | .inr files => downloadLoop w wd d.OutDir files s []

/-! ## `internal/downloader/factory.go` and the start of `main` -/

/-- The three implementations of the interface `Downloader`. -/
inductive Downloader where
  | url (URL : GoString)
  | torrent (MagnetURI : GoString)
  | drive (d : DriveExtractor)
  deriving DecidableEq, Repr

/-- `NewDownloaderFromFlags(urlFlag, torrentFlag, fileId, outDir)`; `none` is
the `nil` interface value. -/
def NewDownloaderFromFlags (urlFlag torrentFlag fileId outDir : GoString) : Option Downloader :=
  if urlFlag ≠ [] then some (.url urlFlag)
  else if torrentFlag ≠ [] then some (.torrent torrentFlag)
  else if fileId ≠ [] ∧ outDir ≠ [] then some (.drive { FileID := fileId, OutDir := outDir })
  else none

/-- The events of a run of `main` with `-fileId` and `-out` and without
`-url`, `-torrent`, `-list` and `-boost`: the downloader chosen by
`NewDownloaderFromFlags` is the `DriveExtractor`, `main` calls its
`DownloadAndUpload` first (line 109) and stops with `log.Fatalf` if that fails;
otherwise it goes on to the sequential extraction (lines 146 to 217) of the
same archive, whose metadata and catalog are read a second time with the same
result. -/
def mainDriveEvents {σ : Type} (w : World σ) (fl : Flags) (fileId : GoString)
    (metaSize : GoString ⊕ Int) (files : List ZipFile) (s : σ) : List Event :=
  match NewDownloaderFromFlags [] [] fileId fl.outDir with
  | some (.drive d) =>
    let r1 := DownloadAndUpload w fl.wd d metaSize (.inr files) s
    match r1.err with
    | some _ => r1.events
    | none => r1.events ++ (mainSequential w fl files r1.world).events
  | _ => []

/-- Flags for examples: output directory `/out`, the exclude pattern
`malware.exe` (no metacharacters), working directory `/`. -/
def excludeFlags : Flags :=
  { outDir := "/out".toList, skipErrors := false, incl := [], excl := "malware.exe".toList,
    wd := some "/".toList, fpMatch := literalMatch }

/-! ## The web backend: `handlers/zip.go` and `server.go` -/

/-- The lines a session goroutine puts on `logChan` before it closes the
channel: those `ExtractSelectedFiles` sent, then, when it returned an error,
one line made of `tag` and the text of the error. The handler receives them in
this order and writes each one as the event `data: <line>` followed by an empty
line. -/
def sessionLines {σ : Type} (tag : GoString) (r : SessionResult σ) : List GoString :=
  sentLines r.events ++
    (match r.err with
     | none => []
     | some e => [tag ++ e])

/-- The dynamic type of the `http.ResponseWriter` a handler is called with, as
far as the handlers look at it: the response writer of the `net/http` server,
which has a `Flush` method, or the `*responseWriter` that `wrapHandler` of
`backend/main.go` (lines 104 to 139) puts around it, which has the methods
`Header`, `Write` and `WriteHeader` only. -/
inductive ResponseWriter where
  | server
  | wrapped
  deriving DecidableEq, Repr

/-- The `ok` of `flusher, ok := w.(http.Flusher)`. -/
def ResponseWriter.isFlusher : ResponseWriter → Bool
  | .server => true
  | .wrapped => false

/-- The writer with which the routes of `setupRoutes` (`backend/main.go`,
lines 75 to 128) call the handlers of `handlers/zip.go`: `wrapHandler` is the
outermost wrapper and calls `h.ServeHTTP(rw, r)` with its `*responseWriter`;
`CORS` and `OptionalAuthMiddleware` pass on the writer they are given. -/
def backendWriter : ResponseWriter := .wrapped

/-- The writer with which the minimal server `server.go` calls its handlers:
they are registered by `http.HandleFunc` (lines 84 to 86) with no wrapper. -/
def minimalWriter : ResponseWriter := .server

/-- What a streaming handler writes after the headers: the message of the error
response, if it sends one, and the lines it streams as events `data: <line>`. -/
structure StreamResponse where
  errorMessage : Option GoString
  lines : List GoString
  deriving DecidableEq, Repr

/-- `ExtractZipHandler`, lines 113 to 115: an empty `req.OutDir` is replaced by
`./extracted_files`. -/
def defaultOutDir (outDir : GoString) : GoString :=
  if outDir = [] then "./extracted_files".toList else outDir

/-- What `ExtractZipHandler` of `handlers/zip.go` writes once the request is
accepted (lines 112 to 180), `rw` being its writer `w`. When `w` is not an
`http.Flusher` the handler sends the error "Streaming not supported" and
returns (lines 162 to 166) without reading `logChan`. Otherwise it streams every
line the goroutine of lines 141 to 152 puts on the channel: those of
`ExtractSelectedFiles`, run with the output directory of lines 113 to 115, and
`ERROR: <error>` when that call returned an error. -/
def ExtractZipHandlerStream {σ : Type} (w : World σ) (archive : GoString ⊕ List ZipFile)
    (outDir : GoString) (files : List GoString) (s : σ) (rw : ResponseWriter) :
    StreamResponse :=
  if rw.isFlusher = false then
    { errorMessage := some "Streaming not supported".toList, lines := [] }
  else
    { errorMessage := none
      lines := sessionLines "ERROR: ".toList
        (ExtractSelectedFiles w archive (defaultOutDir outDir) files s) }

/-- What `extractZipHandler` of the minimal server `server.go` writes once the
request is decoded (lines 43 to 70): the error "Streaming unsupported" when `w`
is not an `http.Flusher` (lines 61 to 65); otherwise the lines of the
goroutine of lines 47 to 53, which runs `ExtractSelectedFiles` with the output
directory `./output` and reports an error as `Error: <error>`. -/
def extractZipHandlerStream {σ : Type} (w : World σ) (archive : GoString ⊕ List ZipFile)
    (files : List GoString) (s : σ) (rw : ResponseWriter) : StreamResponse :=
  if rw.isFlusher = false then
    { errorMessage := some "Streaming unsupported".toList, lines := [] }
  else
    { errorMessage := none
      lines := sessionLines "Error: ".toList
        (ExtractSelectedFiles w archive "./output".toList files s) }

/-! ## `cmd/streamline/main.go`: the extraction part of `main` with `-boost` -/

/-- Where a worker goroutine of `main` (lines 157 to 176) stands. The statement
`errorList = append(errorList, ...)` of line 168 is not guarded by a lock or an
atomic operation, so it is two steps: the worker loads the slice `errorList`
and builds the longer slice from it, then stores the result in the variable.
`atomic.AddInt32(&progressCount, 1)` of line 173 is one step. -/
inductive WorkerPc where
  | recv
  | appendLoad (file reason : GoString)
  | appendStore (result : List ExtractionError)
  | count
  | exited
  deriving DecidableEq, Repr

/-- The variables shared by the goroutines of a boost run (lines 146 to 152):
the queue `jobs` after the producer closed it, the counters, the error list,
where each worker stands, and what the run has done so far. -/
structure BoostState (σ : Type) where
  jobs : List ZipFile
  skippedCount : Nat
  errorList : List ExtractionError
  progressCount : Nat
  pcs : List WorkerPc
  events : List Event
  world : σ

/-- One step of worker `i`. At `recv` the worker takes the next entry from
`jobs`, or leaves the loop when the closed queue is empty; an entry whose
target is not within the output directory is dropped (`continue`), any other
is passed to `ExtractFile`. After a failure without `-skipErrors` the worker
goes on to the append, otherwise to the counter. -/
def workerStep {σ : Type} (w : World σ) (fl : Flags) (totalFiles i : Nat)
    (st : BoostState σ) : BoostState σ :=
  match st.pcs.get? i with
  | none => st
  | some .recv =>
    match st.jobs with
    | [] => { st with pcs := st.pcs.set i .exited }
    | f :: rest =>
      let targetPath := Join fl.outDir f.Name
      if ¬ IsPathWithinBase fl.wd fl.outDir targetPath = true then { st with jobs := rest }
      else
        match w.extractFile st.world f targetPath with
        | (some e, s1) =>
          { st with
            jobs := rest
            pcs := st.pcs.set i (if ¬ fl.skipErrors = true then .appendLoad f.Name e else .count)
            events := st.events ++ [.extract f.Name targetPath (some e)]
            world := s1 }
        | (none, s1) =>
          { st with
            jobs := rest
            pcs := st.pcs.set i .count
            events := st.events ++ [.extract f.Name targetPath none]
            world := s1 }
  | some (.appendLoad file reason) =>
    { st with pcs := st.pcs.set i (.appendStore (st.errorList ++ [⟨file, reason⟩])) }
  | some (.appendStore result) =>
    { st with errorList := result, pcs := st.pcs.set i .count }
  | some .count =>
    { st with
      progressCount := st.progressCount + 1
      pcs := st.pcs.set i .recv
      events := st.events ++ [.progress (st.progressCount + 1) totalFiles] }
  | some .exited => st

/-- The producer loop of `main` with `-boost` (lines 180 to 190): the entries
that pass `ShouldExtract` go to `jobs` in archive order, the others are
counted in `skippedCount`. The channel has room for `totalFiles` entries, so
the producer never waits for a worker. -/
def boostProduce (fl : Flags) : List ZipFile → List ZipFile × Nat
  | [] => ([], 0)
  | f :: rest =>
    if ¬ ShouldExtract fl.fpMatch f.Name fl.incl fl.excl = true then
      ((boostProduce fl rest).1, (boostProduce fl rest).2 + 1)
    else (f :: (boostProduce fl rest).1, (boostProduce fl rest).2)

/-- The extraction part of `main` with `-boost` and `workers` workers (lines
146 to 217), for the runs in which the producer has filled and closed `jobs`
before the first worker receives, and the workers then take their steps in the
order `schedule` (a list of worker indices). `wg.Wait()` returns once every
worker has left its loop: the result is `none` when `schedule` ends before
that. -/
def mainBoost {σ : Type} (w : World σ) (fl : Flags) (workers : Nat) (files : List ZipFile)
    (schedule : List Nat) (s : σ) : Option (MainResult σ) :=
  let st := schedule.foldl (fun st i => workerStep w fl files.length i st)
    { jobs := (boostProduce fl files).1, skippedCount := (boostProduce fl files).2,
      errorList := [], progressCount := 0, pcs := List.replicate workers .recv,
      events := [], world := s }
  if st.pcs.all (fun pc => decide (pc = .exited)) then
    some { totalFiles := files.length, skippedCount := st.skippedCount,
           errorList := st.errorList, events := st.events, world := st.world }
  else none

/-- A world for examples in which the context is never cancelled and every
call of `ExtractFile` fails with "permission denied"; the state counts the
calls. -/
def failingWorld : World Nat where
  extractFile := fun s _ _ => (some "permission denied".toList, s + 1)
  send := fun s _ => s
  done := fun _ => false
  ctxErr := fun _ => "context canceled".toList

/-! ## The web backend: the registry of cancel functions -/

/-- The state of the backend of `handlers/zip.go` that matters for
cancellation: the map `extractionManager.extractions` from extraction id to
cancel function, a cancel function being identified by the number of the
context it cancels, and the contexts whose call of `ExtractSelectedFiles` has
returned. -/
structure Backend where
  extractions : GoString → Option Nat
  finished : List Nat

/-- The backend before any request: `make(map[string]context.CancelFunc)`. -/
def newBackend : Backend := { extractions := fun _ => none, finished := [] }

/-- `fmt.Sprintf("%s_%d", userEmail, getCurrentTimestamp())` (line 121), `now`
being the value of `time.Now().UnixMilli()`. -/
def extractionID (userEmail : GoString) (now : Int) : GoString :=
  userEmail ++ "_".toList ++ (toString now).toList

/-- `ExtractZipHandler`, lines 117 to 126: the handler makes the context `ctx`
with its cancel function and stores the cancel function under the extraction
id, whatever the map holds there. -/
def ExtractZipHandlerEnter (b : Backend) (userEmail : GoString) (now : Int) (ctx : Nat) :
    Backend :=
  { b with
    extractions := fun id =>
      if id = extractionID userEmail now then some ctx else b.extractions id }

/-- The goroutine of `ExtractZipHandler`, lines 141 to 152: the call of
`ExtractSelectedFiles` with the context `ctx` has returned. A handler whose
writer can flush is still in its loop over `logChan` until the channel is
closed and drained. -/
def runReturned (b : Backend) (ctx : Nat) : Backend :=
  { b with finished := b.finished ++ [ctx] }

/-- `ExtractZipHandler`, lines 129 to 133: the deferred function, run when the
handler returns, deletes the handler's extraction id from the map. -/
def ExtractZipHandlerReturn (b : Backend) (userEmail : GoString) (now : Int) : Backend :=
  { b with
    extractions := fun id => if id = extractionID userEmail now then none else b.extractions id }

/-- The answer of `CancelHandler`: the status code, the `message` of the JSON
body, and the context whose cancel function the handler invoked, if any. -/
structure CancelResponse where
  status : Nat
  message : GoString
  invoked : Option Nat
  deriving DecidableEq, Repr

/-- `CancelHandler` (lines 186 to 241). `method` is `r.Method`, `queryID` the
query parameter `extractionId` (empty when absent), `bodyID` the field
`extractionId` of the JSON body, `none` when the body does not decode. -/
def CancelHandler (b : Backend) (method queryID : GoString) (bodyID : Option GoString) :
    CancelResponse :=
  if method ≠ "POST".toList then
    { status := 405, message := "Method not allowed".toList, invoked := none }
  else
    let extractionID :=
      if queryID = [] then
        match bodyID with
        | some id => if id ≠ [] then id else queryID
        | none => queryID
      else queryID
    if extractionID = [] then
      { status := 400, message := "Missing extractionId parameter".toList, invoked := none }
    else
      match b.extractions extractionID with
      | none =>
        { status := 404, message := "Extraction not found: ".toList ++ extractionID,
          invoked := none }
      | some cancel =>
        { status := 200, message := "Extraction cancelled successfully".toList,
          invoked := some cancel }

/-- `extractZipHandler` of the minimal server `server.go`, lines 43 to 45: the
cancel function of the new context `ctx` is stored in the one global variable
`currentCancel`, whose value is passed and returned. -/
def extractZipHandlerEnter (_currentCancel : Option Nat) (ctx : Nat) : Option Nat :=
  some ctx

/-- `cancelHandler` of the minimal server (lines 74 to 81): the context whose
cancel function is invoked, if any, and the line written to the response. -/
def cancelHandler (currentCancel : Option Nat) : Option Nat × GoString :=
  match currentCancel with
  | some cancel => (some cancel, "Aborted".toList)
  | none => (none, "No process to cancel".toList)

/-- The registry when `ExtractZipHandler` returns, for the session with context
`ctx` that the handler started from the registry `b` (lines 117 to 183), other
requests aside. The handler stores the cancel function and starts the goroutine
of the run. When its writer is not an `http.Flusher` it returns at line 165
while the goroutine goes on: the deferred delete removes the id, and the run
has not returned. Otherwise it returns after its loop over `logChan`, which
ends when the goroutine has closed the channel, that is after the call of
`ExtractSelectedFiles` has returned. -/
def ExtractZipHandlerRun (b : Backend) (userEmail : GoString) (now : Int) (ctx : Nat)
    (rw : ResponseWriter) : Backend :=
  if rw.isFlusher = false then
    ExtractZipHandlerReturn (ExtractZipHandlerEnter b userEmail now ctx) userEmail now
  else
    ExtractZipHandlerReturn (runReturned (ExtractZipHandlerEnter b userEmail now ctx) ctx)
      userEmail now

/-! ## Reading the events of a run of `main` -/

/-- The calls of `util.PrintProgress(current, total)` among the events, in
order. -/
def progressCalls : List Event → List (Nat × Nat)
  | [] => []
  | .progress current total :: rest => (current, total) :: progressCalls rest
  | _ :: rest => progressCalls rest

/-- The names and targets of the calls of `ExtractFile` that returned `nil`
among the events, in order. -/
def succeededCalls : List Event → List (GoString × GoString)
  | [] => []
  | .extract name target none :: rest => (name, target) :: succeededCalls rest
  | _ :: rest => succeededCalls rest

/-- The arguments `(i + 1, totalFiles)` for the entries of a catalog, counted
from index `i`, that pass the filter and the path guard. -/
def progressFrom (fl : Flags) (totalFiles : Nat) : Nat → List ZipFile → List (Nat × Nat)
  | _, [] => []
  | i, f :: rest =>
    (if passesChecks fl f = true then [(i + 1, totalFiles)] else []) ++
      progressFrom fl totalFiles (i + 1) rest

/-- The test of an entry the sequential loop of `main` drops at the path guard
(lines 199 to 203): it passes the filter and its target is not within the
output directory. -/
def rejectedByGuard (fl : Flags) (f : ZipFile) : Bool :=
  ShouldExtract fl.fpMatch f.Name fl.incl fl.excl &&
    ! IsPathWithinBase fl.wd fl.outDir (Join fl.outDir f.Name)

/-- The number of worker goroutines the loop `for w := 0; w < *workers; w++`
of `main` (line 155) starts for the value `workers` of the flag `-workers`. -/
def startedWorkers (workers : Int) : Nat := workers.toNat

/-- A backend that answers every request with the same two bytes, whatever
range is asked for. -/
def twoBytes : Fetch Unit := fun _ _ _ => (.ok [7, 8], ())

/-! ## The web backend: `models/request.go` and `models/errors.go` -/

/-- The number of bytes of the UTF-8 encoding of a character. -/
def runeLen (c : Char) : Nat :=
  if c.toNat < 0x80 then 1 else if c.toNat < 0x800 then 2 else if c.toNat < 0x10000 then 3 else 4

/-- Go's `len(s)` for a string: its length in bytes. -/
def byteLen (s : GoString) : Nat := (s.map runeLen).sum

/-- The struct `ValidationError`. -/
structure ValidationError where
  Code : GoString
  Message : GoString
  Details : GoString
  deriving DecidableEq, Repr

/-- `NewValidationError(code, message, args...)`; `formatted` is
`fmt.Sprintf(message, args...)` when there are arguments and `none` when there
are none. -/
def NewValidationError (code message : GoString) (formatted : Option GoString) :
    ValidationError :=
  match formatted with
  | some details =>
    { Code := code, Message := "validation failed: ".toList ++ message, Details := details }
  | none => { Code := code, Message := message, Details := [] }

/-- The helper `contains(s, substr)` of `request.go`: the loop over the start
positions `i = 0 .. len(s) - len(substr)`, none when `substr` is longer than
`s`. Positions are counted in characters here and in bytes in Go; for the
ASCII patterns of `containsPathTraversal` the two searches find the same
occurrences. -/
def contains (s substr : GoString) : Bool :=
  (List.range (s.length + 1 - substr.length)).any
    (fun i => decide ((s.drop i).take substr.length = substr))

/-- The slice `dangerous` of `containsPathTraversal`. -/
def dangerous : List GoString :=
  ["..".toList, "~".toList, "|".toList, ";".toList, ['\x60'], "$".toList, "&".toList,
   ">".toList, "<".toList]

/-- `containsPathTraversal(path)`. -/
def containsPathTraversal (path : GoString) : Bool :=
  dangerous.any (fun pattern => contains path pattern)

/-- The struct `ExtractZipRequest`. -/
structure ExtractZipRequest where
  ZipPath : GoString
  Files : List GoString
  OutDir : GoString
  deriving DecidableEq, Repr

/-- The loop `for i, file := range r.Files` of `ExtractZipRequest.Validate`
(lines 49 to 62), from index `i`. -/
def validateFiles : Nat → List GoString → Option ValidationError
  | _, [] => none
  | i, file :: rest =>
    if file = [] then
      some (NewValidationError "empty_file_path".toList "File path cannot be empty".toList none)
    else if byteLen file > 1000 then
      some (NewValidationError "file_path_too_long".toList
        "File path is too long (max 1000 characters)".toList none)
    else if containsPathTraversal file then
      some (NewValidationError "invalid_file_path".toList
        "File path contains invalid characters (file #%d: %s)".toList
        (some ("File path contains invalid characters (file #".toList ++
          (toString (i + 1)).toList ++ ": ".toList ++ file ++ ")".toList)))
    else validateFiles (i + 1) rest

/-- `ExtractZipRequest.Validate`; `none` is the `nil` error. -/
def ExtractZipRequest.Validate (r : ExtractZipRequest) : Option ValidationError :=
  if r.ZipPath = [] then
    some (NewValidationError "zip_path_required".toList "ZIP file path is required".toList none)
  else if byteLen r.ZipPath > 1000 then
    some (NewValidationError "zip_path_too_long".toList
      "ZIP file path is too long (max 1000 characters)".toList none)
  else if r.Files.length = 0 then
    some (NewValidationError "files_required".toList
      "At least one file must be selected for extraction".toList none)
  else if r.Files.length > 10000 then
    some (NewValidationError "too_many_files".toList
      "Too many files selected (max 10000)".toList none)
  else validateFiles 0 r.Files

/-- The path elements of `name` that `filepath.Clean` keeps when none of them
is `..`: those that are neither empty nor `.`. -/
def keptElems (name : GoString) : List GoString :=
  (splitSep name).filter (fun s => decide (s ≠ [] ∧ s ≠ ['.']))

/-! ## Go's `path/filepath.Match` on Unix, as used by `ShouldExtract`

The functions below follow `path/filepath/match.go` and
`utf8.DecodeRuneInString` of the Go standard library. Strings are sequences of
bytes here, because `Match` steps through the name byte by byte. -/

/-- A Go string as its bytes. -/
abbrev Bytes := List Nat

/-- The UTF-8 encoding of a character. -/
def utf8Encode (c : Char) : Bytes :=
  if c.toNat < 0x80 then [c.toNat]
  else if c.toNat < 0x800 then [0xC0 + c.toNat / 64, 0x80 + c.toNat % 64]
  else if c.toNat < 0x10000 then
    [0xE0 + c.toNat / 4096, 0x80 + c.toNat / 64 % 64, 0x80 + c.toNat % 64]
  else
    [0xF0 + c.toNat / 262144, 0x80 + c.toNat / 4096 % 64, 0x80 + c.toNat / 64 % 64,
     0x80 + c.toNat % 64]

/-- The bytes of a Go string given by its characters. -/
def toBytes (s : GoString) : Bytes := s.flatMap utf8Encode

/-- `utf8.RuneError`. -/
def RuneError : Nat := 0xFFFD

/-- The part of `utf8.DecodeRuneInString` after the first byte `s0` of a
multi-byte encoding: `sz` is the width the first byte announces, `lo` and `hi`
bound the second byte, `t` holds the bytes after the first. -/
def decodeTail (s0 sz lo hi : Nat) (t : Bytes) : Nat × Nat :=
  match t with
  | [] => (RuneError, 1)
  | s1 :: t1 =>
    if s1 < lo ∨ hi < s1 then (RuneError, 1)
    else if sz ≤ 2 then (s0 % 32 * 64 + s1 % 64, 2)
    else
      match t1 with
      | [] => (RuneError, 1)
      | s2 :: t2 =>
        if s2 < 0x80 ∨ 0xBF < s2 then (RuneError, 1)
        else if sz ≤ 3 then (s0 % 16 * 4096 + s1 % 64 * 64 + s2 % 64, 3)
        else
          match t2 with
          | [] => (RuneError, 1)
          | s3 :: _ =>
            if s3 < 0x80 ∨ 0xBF < s3 then (RuneError, 1)
            else (s0 % 8 * 262144 + s1 % 64 * 4096 + s2 % 64 * 64 + s3 % 64, 4)

/-- `utf8.DecodeRuneInString(s)`: the first rune of `s` and its width in
bytes; `(RuneError, 0)` for the empty string and `(RuneError, 1)` for an
invalid encoding. -/
def DecodeRune (s : Bytes) : Nat × Nat :=
  match s with
  | [] => (RuneError, 0)
  | s0 :: t =>
    if s0 < 0x80 then (s0, 1)
    else if s0 < 0xC2 ∨ 0xF4 < s0 then (RuneError, 1)
    else if t.length + 1 < (if s0 < 0xE0 then 2 else if s0 < 0xF0 then 3 else 4) then
      (RuneError, 1)
    else
      decodeTail s0 (if s0 < 0xE0 then 2 else if s0 < 0xF0 then 3 else 4)
        (if s0 = 0xE0 then 0xA0 else if s0 = 0xF0 then 0x90 else 0x80)
        (if s0 = 0xED then 0x9F else if s0 = 0xF4 then 0x8F else 0xBF) t

/-- The first loop of `scanChunk`: the pattern without its leading stars. -/
def stripStars : Bytes → Bytes
  | [] => []
  | b :: rest => if b = 42 then stripStars rest else b :: rest

/-- The loop `Scan` of `scanChunk`: the index at which it stops, the first
star outside a character class or the end of the pattern. A backslash skips
the byte after it. -/
def scanLen (inrange : Bool) : Bytes → Nat
  | [] => 0
  | b :: rest =>
    if b = 92 then
      match rest with
      | [] => 1
      | _ :: rest2 => 2 + scanLen inrange rest2
    else if b = 91 then 1 + scanLen true rest
    else if b = 93 then 1 + scanLen false rest
    else if b = 42 then (if inrange then 1 + scanLen inrange rest else 0)
    else 1 + scanLen inrange rest

/-- `scanChunk(pattern)`: whether the pattern starts with a star, the chunk
after the stars and the rest of the pattern. -/
def scanChunk (pattern : Bytes) : Bool × Bytes × Bytes :=
  (decide (pattern.head? = some 42),
   (stripStars pattern).take (scanLen false (stripStars pattern)),
   (stripStars pattern).drop (scanLen false (stripStars pattern)))

/-- `getEsc(chunk)`: a possibly escaped character of a character class and the
chunk after it; `none` is `ErrBadPattern`. -/
def getEsc (chunk : Bytes) : Option (Nat × Bytes) :=
  match chunk with
  | [] => none
  | c0 :: t =>
    if c0 = 45 ∨ c0 = 93 then none
    else
      let chunk1 := if c0 = 92 then t else c0 :: t
      if chunk1 = [] then none
      else if (DecodeRune chunk1).1 = RuneError ∧ (DecodeRune chunk1).2 = 1 then none
      else if chunk1.drop (DecodeRune chunk1).2 = [] then none
      else some ((DecodeRune chunk1).1, chunk1.drop (DecodeRune chunk1).2)

/-- The loop "parse all ranges" of `matchChunk` for the rune `r`: the chunk
after the closing bracket and whether a range held `r`; the inner `none` is
`ErrBadPattern`, the outer one the end of the fuel. -/
def classLoop : Nat → Bytes → Nat → Bool → Nat → Option (Option (Bytes × Bool))
  | 0, _, _, _, _ => none
  | fuel + 1, chunk, r, m, nrange =>
    if chunk.head? = some 93 ∧ nrange > 0 then some (some (chunk.tail, m))
    else
      match getEsc chunk with
      | none => some none
      | some (lo, chunk1) =>
        if chunk1.head? = some 45 then
          match getEsc chunk1.tail with
          | none => some none
          | some (hi, chunk2) =>
            classLoop fuel chunk2 r (m || (decide (lo ≤ r) && decide (r ≤ hi))) (nrange + 1)
        else classLoop fuel chunk1 r (m || (decide (lo ≤ r) && decide (r ≤ lo))) (nrange + 1)

/-- The three outcomes of `matchChunk`: `(rest, true, nil)`, `("", false, nil)`
and `("", false, ErrBadPattern)`. -/
inductive ChunkResult where
  | ok (rest : Bytes)
  | fail
  | bad
  deriving DecidableEq, Repr

/-- The loop of `matchChunk(chunk, s)`; `failed` records that the match has
failed, after which the loop goes on checking the chunk without reading `s`.
`none` only when the fuel runs out. -/
def matchChunkLoop : Nat → Bytes → Bytes → Bool → Option ChunkResult
  | 0, _, _, _ => none
  | fuel + 1, chunk, s, failed0 =>
    match chunk with
    | [] => some (if failed0 then .fail else .ok s)
    | c0 :: ctail =>
      let failed := failed0 || decide (s = [])
      if c0 = 91 then
        let r := if failed then 0 else (DecodeRune s).1
        let s1 := if failed then s else s.drop (DecodeRune s).2
        let negated := decide (ctail.head? = some 94)
        let chunk1 := if negated then ctail.tail else ctail
        match classLoop (chunk1.length + 1) chunk1 r false 0 with
        | none => none
        | some none => some .bad
        | some (some (chunk2, m)) =>
          matchChunkLoop fuel chunk2 s1 (failed || decide (m = negated))
      else if c0 = 63 then
        matchChunkLoop fuel ctail (if failed then s else s.drop (DecodeRune s).2)
          (failed || decide (s.head? = some 47))
      else if c0 = 92 then
        match ctail with
        | [] => some .bad
        | c1 :: ctail1 =>
          matchChunkLoop fuel ctail1 (if failed then s else s.tail)
            (failed || decide (s.head? ≠ some c1))
      else
        matchChunkLoop fuel ctail (if failed then s else s.tail)
          (failed || decide (s.head? ≠ some c0))

/-- `matchChunk(chunk, s)`: every pass of its loop takes at least one byte of
the chunk. -/
def matchChunk (chunk s : Bytes) : Option ChunkResult :=
  matchChunkLoop (chunk.length + 1) chunk s false

/-- The outcomes of the loop of `Match` that looks for a match of a chunk
after a star: the rest of the name after a match, no match, or
`ErrBadPattern`. -/
inductive StarResult where
  | found (rest : Bytes)
  | notFound
  | bad
  deriving DecidableEq, Repr

/-- The loop `for i := 0; i < len(name) && name[i] != Separator; i++` of
`Match`, which tries the chunk after skipping `i + 1` bytes; `lastChunk` says
that the pattern ends with this chunk, which then has to match the whole rest
of the name. -/
def starLoop (chunk : Bytes) (lastChunk : Bool) : Bytes → Option StarResult
  | [] => some .notFound
  | b :: rest =>
    if b = 47 then some .notFound
    else
      match matchChunk chunk rest with
      | none => none
      | some (.ok t) =>
        if lastChunk ∧ t ≠ [] then starLoop chunk lastChunk rest else some (.found t)
      | some .bad => some .bad
      | some .fail => starLoop chunk lastChunk rest

/-- The last loop of `Match`: whether the rest of the pattern has a syntax
error. -/
def checkRest : Nat → Bytes → Option Bool
  | 0, _ => none
  | fuel + 1, pattern =>
    if pattern = [] then some false
    else
      match matchChunk (scanChunk pattern).2.1 [] with
      | none => none
      | some .bad => some true
      | some _ => checkRest fuel (scanChunk pattern).2.2

/-- The loop `Pattern` of `Match`: `(matched, err != nil)`; `none` only when
the fuel runs out. -/
def matchLoop : Nat → Bytes → Bytes → Option (Bool × Bool)
  | 0, _, _ => none
  | fuel + 1, pattern, name =>
    if pattern = [] then some (decide (name = []), false)
    else if (scanChunk pattern).1 = true ∧ (scanChunk pattern).2.1 = [] then
      some (! name.contains 47, false)
    else
      match matchChunk (scanChunk pattern).2.1 name with
      | none => none
      | some res =>
        match (match res with
               | .ok t => if t = [] ∨ (scanChunk pattern).2.2 ≠ [] then some t else none
               | _ => none) with
        | some t => matchLoop fuel (scanChunk pattern).2.2 t
        | none =>
          if res = .bad then some (false, true)
          else
            match (if (scanChunk pattern).1 = true then
                     starLoop (scanChunk pattern).2.1
                       (decide ((scanChunk pattern).2.2 = [])) name
                   else some .notFound) with
            | none => none
            | some (.found t) => matchLoop fuel (scanChunk pattern).2.2 t
            | some .bad => some (false, true)
            | some .notFound =>
              match checkRest ((scanChunk pattern).2.2.length + 1) (scanChunk pattern).2.2 with
              | none => none
              | some true => some (false, true)
              | some false => some (false, false)

/-- `filepath.Match(pattern, name)` on bytes: every pass of the loop takes at
least one byte of the pattern. -/
def Match (pattern name : Bytes) : Option (Bool × Bool) :=
  matchLoop (pattern.length + 1) pattern name

/-- `filepath.Match` on Go strings given by their characters, as a `MatchFn`.
`Match` always returns (`match_total`), so the last case does not occur. -/
def filepathMatch : MatchFn := fun pattern name =>
  match Match (toBytes pattern) (toBytes name) with
  | some r => r
  | none => (false, true)

/-- Whether a pattern is malformed: the syntax check that `Match` runs on the
rest of a pattern before it returns `false` without an error
(`matchChunk(chunk, "")` for every chunk), run on the whole pattern, finds an
error. -/
def badPattern (pattern : Bytes) : Bool :=
  decide (checkRest (pattern.length + 1) pattern = some true)

/-! ## `ExtractFile` of `cmd/streamline_core/zip.go` over a file system

The file system is a tree of directories and regular files without symbolic
links. The system looks a path up element by element: every element that is
followed by another one has to name an existing directory. -/

/-- A location in the file system: the names from the root down. -/
abbrev Path := List GoString

/-- What a location can hold. -/
inductive Node where
  | dir
  | file (content : List Byte)
  deriving DecidableEq, Repr

/-- A file system: the working directory of the process and what every location
holds, `none` when nothing exists there. The root always is a directory. -/
structure FileSys where
  wd : GoString
  node : Path → Option Node

/-- The errors of the system calls behind `os.MkdirAll` and `os.Create`, each
with the location it is about: `ENOTDIR`, `EISDIR`, `ENOENT`. -/
inductive OSError where
  | notDir (path : Path)
  | isDir (path : Path)
  | notExist (path : Path)
  deriving DecidableEq, Repr

/-- What `f.Open()` and the reads from the entry give: an error of `Open`, or
the decompressed bytes followed by the end of the stream or by a read error
(such as a checksum mismatch). -/
inductive EntryData where
  | openFails (err : GoString)
  | stream (bytes : List Byte) (readErr : Option GoString)
  deriving DecidableEq, Repr

/-- A `*zip.File` as `ExtractFile` looks at it: `f.FileInfo().IsDir()` and
what `f.Open()` gives. -/
structure ZipEntry where
  Name : GoString
  IsDir : Bool
  data : EntryData
  deriving DecidableEq, Repr

/-- The errors `ExtractFile` returns: the error of `os.MkdirAll(targetPath)`
as it is for a directory entry, and for a file entry the errors wrapped as
`mkdir parents: %w`, `open zip entry: %w`, `create file: %w` and
`write file: %w`. -/
inductive ExtractFileError where
  | mkdirAll (e : OSError)
  | mkdirParents (e : OSError)
  | openZipEntry (e : GoString)
  | createFile (e : OSError)
  | writeFile (e : GoString)
  deriving DecidableEq, Repr

/-- The path elements of `filepath.Abs(path)` in a process with working
directory `wd`: the lexical resolution of the path. -/
def absElems (wd path : GoString) : Path := (absSegs (some wd) path).getD []

/-- The part `path[:i+1]` of a path up to and with its last separator; empty
when there is none. -/
def dirPart (path : GoString) : GoString :=
  (path.reverse.dropWhile (fun c => c != Separator)).reverse

/-- The part of a path after its last separator. -/
def lastElem (path : GoString) : GoString :=
  (path.reverse.takeWhile (fun c => c != Separator)).reverse

/-- `filepath.Dir` on Unix. -/
def Dir (path : GoString) : GoString := Clean (dirPart path)

/-- The non-empty prefixes of a location, shortest first: its ancestors below
the root and the location itself. -/
def prefixesOf (T : Path) : List Path := (List.range T.length).map (fun k => T.take (k + 1))

/-- The file system with the node `n` at the location `P`. -/
def FileSys.set (fs : FileSys) (P : Path) (n : Node) : FileSys :=
  { fs with node := fun Q => if Q = P then some n else fs.node Q }

/-- Whether a location holds a directory. -/
def FileSys.isDirAt (fs : FileSys) (P : Path) : Bool :=
  decide (P = []) || decide (fs.node P = some .dir)

/-- The working directory of the process exists: it and its ancestors are
directories. -/
def FileSys.WorkingDirExists (fs : FileSys) : Prop :=
  ∀ P ∈ prefixesOf (cleanSegs true fs.wd), fs.node P = some .dir

/-- The directory in which the lookup of a path starts: the root for an
absolute path, the working directory otherwise. -/
def startDir (fs : FileSys) (path : GoString) : Path :=
  if IsAbs path then [] else cleanSegs true fs.wd

/-- The locations a lookup of the path elements `elems` names on its way from
the directory `cur`, in order: an empty element and `.` stay where they are,
`..` goes to the parent, a name goes down to the location of that name. -/
def visits : Path → List GoString → List Path
  | _, [] => []
  | cur, e :: rest =>
    if e = [] ∨ e = ['.'] then visits cur rest
    else if e = ['.', '.'] then visits cur.dropLast rest
    else (cur ++ [e]) :: visits (cur ++ [e]) rest

/-- The lookup of the path elements `elems` from the directory `cur`, as the
system does it: a name that is followed by another element has to be an
existing directory (`ENOENT` when nothing is there, `ENOTDIR` for a regular
file); the name in last place is not looked at. The result is the location the
path names. -/
def lookup (fs : FileSys) : Path → List GoString → Except OSError Path
  | cur, [] => .ok cur
  | cur, e :: rest =>
    if e = [] ∨ e = ['.'] then lookup fs cur rest
    else if e = ['.', '.'] then lookup fs cur.dropLast rest
    else if rest = [] then .ok (cur ++ [e])
    else
      match fs.node (cur ++ [e]) with
      | some .dir => lookup fs (cur ++ [e]) rest
      | some (.file _) => .error (.notDir (cur ++ [e]))
      | none => .error (.notExist (cur ++ [e]))

/-- The directories `os.MkdirAll` goes through, from the top: an existing
directory is kept, a missing one is made, a regular file in the way is the
error `ENOTDIR`. -/
def mkdirList (fs : FileSys) : List Path → Option OSError × FileSys
  | [] => (none, fs)
  | P :: rest =>
    match fs.node P with
    | some (.file _) => (some (.notDir P), fs)
    | some .dir => mkdirList fs rest
    | none => mkdirList (fs.set P .dir) rest

/-- `os.MkdirAll(path, 0o755)`: it makes the directory the path names along
with any necessary parents, that is every directory the path names on its way
that does not exist yet; the empty path is the error `ENOENT`. -/
def MkdirAll (fs : FileSys) (path : GoString) : Option OSError × FileSys :=
  if path = [] then (some (.notExist []), fs)
  else mkdirList fs (visits (startDir fs path) (splitSep path))

/-- Whether a path element is the name of a directory entry: not empty and
neither `.` nor `..`. -/
def properName (s : GoString) : Bool := decide (s ≠ [] ∧ s ≠ ['.'] ∧ s ≠ ['.', '.'])

/-- `os.Create(path)`: the location of the created file and the file system
with the file, empty, at that location (created, or truncated when it
existed). The path is looked up element by element, so a directory on the way
that is missing or a regular file is `ENOENT` or `ENOTDIR`; a path whose last
element is not a name (it ends with a separator, `.` or `..`) or that names a
directory is `EISDIR`. An error leaves the file system as it is. -/
def Create (fs : FileSys) (path : GoString) : Except OSError (Path × FileSys) :=
  if path = [] then .error (.notExist [])
  else
    match lookup fs (startDir fs path) (splitSep path) with
    | .error e => .error e
    | .ok T =>
      if properName (lastElem path) = false then .error (.isDir T)
      else if fs.isDirAt T.dropLast = false then
        .error (match fs.node T.dropLast with
                | some (.file _) => .notDir T.dropLast
                | _ => .notExist T.dropLast)
      else
        match fs.node T with
        | some .dir => .error (.isDir T)
        | _ => .ok (T, fs.set T (.file []))

/-- `ExtractFile(f, targetPath)`: the error it returns, `none` for `nil`, and
the file system it leaves. `io.CopyBuffer` writes every byte it has read to the
created file, so after the copy the file holds the bytes of the stream, also
when the stream ends with a read error. -/
def ExtractFile (fs : FileSys) (f : ZipEntry) (targetPath : GoString) :
    Option ExtractFileError × FileSys :=
  if f.IsDir = true then
    ((MkdirAll fs targetPath).1.map .mkdirAll, (MkdirAll fs targetPath).2)
  else
    match MkdirAll fs (Dir targetPath) with
    | (some e, fs1) => (some (.mkdirParents e), fs1)
    | (none, fs1) =>
      match f.data with
      | .openFails e => (some (.openZipEntry e), fs1)
      | .stream bytes readErr =>
        match Create fs1 targetPath with
        | .error e => (some (.createFile e), fs1)
        | .ok (T, fs2) =>
          match readErr with
          | some e => (some (.writeFile e), fs2.set T (.file bytes))
          | none => (none, fs2.set T (.file bytes))

/-- A target `ExtractFile` can write a file to: its last element is a name, no
ancestor of it is a regular file, and it does not name a directory. -/
def Writable (fs : FileSys) (targetPath : GoString) : Prop :=
  properName (lastElem targetPath) = true ∧
  (∀ P ∈ prefixesOf (absElems fs.wd targetPath).dropLast, ∀ c, fs.node P ≠ some (.file c)) ∧
  fs.node (absElems fs.wd targetPath) ≠ some .dir

/-- An empty file system with working directory `/`. -/
def emptyFS : FileSys := { wd := "/".toList, node := fun _ => none }

/-! ## The answers of the backend during a call of `ReadAt` -/

/-- The answers of the backend to the range requests `reqs`, issued in this
order from the backend state `s`, and the state the backend is left in. -/
def fetchRun {β : Type} (fetch : Fetch β) : β → List RangeReq → List FetchResult × β
  | s, [] => ([], s)
  | s, q :: qs =>
    ((fetch s q.first q.last).1 :: (fetchRun fetch (fetch s q.first q.last).2 qs).1,
     (fetchRun fetch (fetch s q.first q.last).2 qs).2)

/-- The answer of the backend to each of the requests `reqs`. -/
def fetchOutcomes {β : Type} (fetch : Fetch β) (s : β) (reqs : List RangeReq) :
    List FetchResult :=
  (fetchRun fetch s reqs).1

/-- The error with which `ReadAt` returns when the fetch of a chunk had the
result `res` (lines 71 to 78): "range download failed" when `call.Download()`
failed, "read response failed" when `io.ReadAll` failed, none for a body. -/
def fetchError : FetchResult → Option ReadErr
  | .downloadFailed => some .rangeDownloadFailed
  | .readFailed => some .readResponseFailed
  | .ok _ => none

/-- The failed answer behind a fetch error of `ReadAt`; empty for any other
result of the call. -/
def failureTail : Option ReadErr → List FetchResult
  | some .rangeDownloadFailed => [.downloadFailed]
  | some .readResponseFailed => [.readFailed]
  | _ => []

/-! ## Overlapping calls of `ReadAt` on one reader

`ReadAt` holds the mutex `d.mu` only while it looks the chunk up (lines 63 to
65) and while it stores a fetched body (lines 80 to 82). A call is therefore a
sequence of steps between which another call on the same reader can run: the
loop test with the lookup, the range request, the store, and the copy. The
boost mode of `main` shares one reader among its workers. -/

/-- Where a call of `ReadAt` stands between two steps: at the loop test of line
55; after a lookup that found no entry, before the request of lines 68 to 78;
after the body was read, before the store of lines 80 to 83; with `buf` known,
before the check and the copy of lines 86 to 96; or returned. -/
inductive CallPc where
  | lookup
  | fetching (chunkIdx chunkStart chunkEnd : Int)
  | storing (chunkIdx chunkStart : Int) (data : List Byte)
  | copying (chunkStart : Int) (buf : List Byte)
  | returned (err : Option ReadErr) (panicked : Option Panic)
  deriving DecidableEq, Repr

/-- A call of `ReadAt` in progress: its local variables `n`, `remaining`,
`pos`, the caller's buffer, and where it stands. -/
structure Call where
  n : Int
  remaining : Int
  pos : Int
  p : List Byte
  pc : CallPc
  deriving DecidableEq, Repr

/-- What the calls on one reader share: the cache and the backend; `fetches`
records the range requests issued so far, oldest first. -/
structure Shared (β : Type) where
  cache : Int → Option (List Byte)
  svc : β
  fetches : List RangeReq

/-- A call `ReadAt(p, off)` after its two tests and the initialisation of lines
44 to 53. -/
def startCall (d : DriveReaderAt) (p : List Byte) (off : Int) : Call :=
  { n := 0, remaining := p.length, pos := off, p := p
    pc := if off < 0 then .returned (some .negativeOffset) none
          else if off ≥ d.size then .returned (some .eof) none
          else .lookup }

/-- The local variables of a call together with the shared state, as a loop
state of `ReadAt`. -/
def Call.loopState {β : Type} (c : Call) (sh : Shared β) : LoopState β :=
  { n := c.n, remaining := c.remaining, pos := c.pos, p := c.p, cache := sh.cache,
    svc := sh.svc, fetches := sh.fetches }

/-- One step of a call of `ReadAt` on the shared state. -/
def callStep {β : Type} (fetch : Fetch β) (size chunkSize : Int) (sh : Shared β) (c : Call) :
    Shared β × Call :=
  match c.pc with
  | .returned _ _ => (sh, c)
  | .lookup =>
    if c.remaining > 0 ∧ c.pos < size then
      if chunkSize = 0 then (sh, { c with pc := .returned none (some .divideByZero) })
      else
        let chunkIdx := wrapInt64 (Int.tdiv c.pos chunkSize)
        let chunkStart := wrapInt64 (chunkIdx * chunkSize)
        let chunkEnd0 := wrapInt64 (wrapInt64 (chunkStart + chunkSize) - 1)
        let chunkEnd := if chunkEnd0 ≥ size then wrapInt64 (size - 1) else chunkEnd0
        match sh.cache chunkIdx with
        | some buf => (sh, { c with pc := .copying chunkStart buf })
        | none => (sh, { c with pc := .fetching chunkIdx chunkStart chunkEnd })
    else if c.n < (c.p.length : Int) then (sh, { c with pc := .returned (some .eof) none })
    else (sh, { c with pc := .returned none none })
  | .fetching chunkIdx chunkStart chunkEnd =>
    match fetch sh.svc chunkStart chunkEnd with
    | (.downloadFailed, svc) =>
      ({ sh with svc := svc, fetches := sh.fetches ++ [RangeReq.mk chunkIdx chunkStart chunkEnd] },
       { c with pc := .returned (some .rangeDownloadFailed) none })
    | (.readFailed, svc) =>
      ({ sh with svc := svc, fetches := sh.fetches ++ [RangeReq.mk chunkIdx chunkStart chunkEnd] },
       { c with pc := .returned (some .readResponseFailed) none })
    | (.ok data, svc) =>
      ({ sh with svc := svc, fetches := sh.fetches ++ [RangeReq.mk chunkIdx chunkStart chunkEnd] },
       { c with pc := .storing chunkIdx chunkStart data })
  | .storing chunkIdx chunkStart data =>
    ({ sh with cache := cacheSet sh.cache chunkIdx data }, { c with pc := .copying chunkStart data })
  | .copying chunkStart buf =>
    match copyStep (c.loopState sh) chunkStart buf with
    | .inl r => (sh, { c with pc := .returned r.err r.panicked })
    | .inr st1 =>
      (sh, { n := st1.n, remaining := st1.remaining, pos := st1.pos, p := st1.p, pc := .lookup })

/-- A call that runs `k` steps with no other call in between. -/
def callRun {β : Type} (fetch : Fetch β) (size chunkSize : Int) :
    Nat → Shared β × Call → Shared β × Call
  | 0, s => s
  | k + 1, s => callRun fetch size chunkSize k (callStep fetch size chunkSize s.1 s.2)

/-- One step of the call number `i` among the calls in progress on a reader. -/
def sysStep {β : Type} (fetch : Fetch β) (size chunkSize : Int) (s : Shared β × List Call)
    (i : Nat) : Shared β × List Call :=
  match s.2.get? i with
  | none => s
  | some c =>
    ((callStep fetch size chunkSize s.1 c).1, s.2.set i (callStep fetch size chunkSize s.1 c).2)

/-- The calls in progress after the steps of a schedule, which names the call
that takes each step. -/
def runSchedule {β : Type} (fetch : Fetch β) (size chunkSize : Int) (schedule : List Nat)
    (s : Shared β × List Call) : Shared β × List Call :=
  schedule.foldl (sysStep fetch size chunkSize) s

/-- A backend that answers its `k`-th request (from 0) with four bytes `k`. -/
def numbered : Fetch Nat := fun s _ _ => (.ok [s, s, s, s], s + 1)

/-- Two calls `ReadAt(p, 0)` with two-byte buffers on a fresh reader of an
8-byte object with chunk size 4, before their first step. -/
def twoCalls : Shared Nat × List Call :=
  ({ cache := (NewDriveReaderAt 8 4).cache, svc := 0, fetches := [] },
   [startCall (NewDriveReaderAt 8 4) [0, 0] 0, startCall (NewDriveReaderAt 8 4) [0, 0] 0])

/-! # Theorems -/

/-! ## Theorems: `DriveReaderAt.ReadAt` against an exact backend -/

/-! ### Arithmetic of chunks -/

theorem wrapInt64_eq (x : Int) (h1 : -2 ^ 63 ≤ x) (h2 : x ≤ maxInt64) : wrapInt64 x = x := by
  unfold wrapInt64 maxInt64 at *
  omega

theorem chunk_geom (S c pos : Int) (hc : 0 < c) (h0 : 0 ≤ pos) (h1 : pos < S)
    (hfit : (S - 1) / c * c + c - 1 ≤ maxInt64) :
    Int.tdiv pos c = pos / c ∧ 0 ≤ pos / c ∧ pos / c * c ≤ pos ∧ pos < pos / c * c + c ∧
      pos / c * c + c - 1 ≤ maxInt64 ∧ pos / c ≤ maxInt64 := by
  have hk : 0 ≤ pos / c := Int.ediv_nonneg h0 hc.le
  have h2 : pos / c * c ≤ pos := Int.ediv_mul_le pos hc.ne'
  have h3 : pos < pos / c * c + c := by
    have := Int.lt_ediv_add_one_mul_self pos hc
    linarith
  have h4 : pos / c ≤ (S - 1) / c := Int.ediv_le_ediv hc (by omega)
  have h5 : pos / c * c ≤ (S - 1) / c * c := Int.mul_le_mul_of_nonneg_right h4 hc.le
  have h6 : pos / c ≤ pos / c * c := by nlinarith
  refine ⟨Int.tdiv_eq_ediv h0 hc.le, hk, h2, h3, by omega, by omega⟩

/-! ### Bytes of the object -/

theorem objBytes_length (obj : Nat → Byte) (a len : Nat) : (objBytes obj a len).length = len := by
  simp [objBytes]

theorem objBytes_append (obj : Nat → Byte) (a m n : Nat) :
    objBytes obj a m ++ objBytes obj (a + m) n = objBytes obj a (m + n) := by
  unfold objBytes
  rw [← List.map_append]
  have := List.range'_append a m n 1
  simp only [one_mul] at this
  rw [this, Nat.add_comm]

theorem objBytes_drop_take (obj : Nat → Byte) (a len o t : Nat) (h : o + t ≤ len) :
    ((objBytes obj a len).drop o).take t = objBytes obj (a + o) t := by
  obtain ⟨k, rfl⟩ : ∃ k, len = o + (t + k) := ⟨len - o - t, by omega⟩
  rw [← objBytes_append obj a o (t + k), ← objBytes_append obj (a + o) t k]
  rw [List.drop_left' (objBytes_length obj a o), List.take_left' (objBytes_length obj (a + o) t)]

theorem chunkBytes_length (obj : Nat → Byte) (S c k : Int) :
    ((chunkBytes obj S c k).length : Int) = max (min (k * c + c) S - k * c) 0 := by
  unfold chunkBytes
  rw [objBytes_length]
  omega

theorem copyInto_length (p buf : List Byte) (n o t : Nat) (h1 : n + t ≤ p.length)
    (h2 : o + t ≤ buf.length) : (copyInto p n buf o t).length = p.length := by
  simp only [copyInto, List.length_append, List.length_take, List.length_drop]
  omega

theorem copyInto_take (p buf : List Byte) (n o t : Nat) (h1 : n + t ≤ p.length)
    (h2 : o + t ≤ buf.length) :
    (copyInto p n buf o t).take (n + t) = p.take n ++ (buf.drop o).take t := by
  unfold copyInto
  apply List.take_left'
  simp only [List.length_append, List.length_take, List.length_drop]
  omega

theorem copyInto_drop (p buf : List Byte) (n o t : Nat) (h1 : n + t ≤ p.length)
    (h2 : o + t ≤ buf.length) :
    (copyInto p n buf o t).drop (n + t) = p.drop (n + t) := by
  unfold copyInto
  apply List.drop_left'
  simp only [List.length_append, List.length_take, List.length_drop]
  omega

theorem copyStep_exact (obj : Nat → Byte) (S c : Int) (p0 : List Byte) (off : Int)
    (st : LoopState Unit) (cs : Int) (buf : List Byte)
    (hp : (p0.length : Int) ≤ maxInt64) (hoff : 0 ≤ off)
    (inv : ReadInv obj S c p0 off st) (hrem : 0 < st.remaining) (hpos : st.pos < S)
    (g0 : 0 ≤ cs) (g1 : cs ≤ st.pos) (g2 : st.pos < cs + c) (g3 : cs + c - 1 ≤ maxInt64)
    (g5 : S ≤ maxInt64)
    (hbuf : buf = objBytes obj cs.toNat (min (cs + c) S - cs).toNat) :
    ∃ st1, copyStep st cs buf = .inr st1 ∧
      ReadInv obj S c p0 off st1 ∧ st1.remaining < st.remaining ∧ st1.cache = st.cache ∧
      st1.fetches = st.fetches := by
  obtain ⟨hn, hr, hnr, hpe, hpl, hlen, hcop, hrest, hcache⟩ := inv
  have hmax : maxInt64 = 2 ^ 63 - 1 := rfl
  have hbl2 : (buf.length : Int) = min (cs + c) S - cs := by
    rw [hbuf, objBytes_length]
    have := le_min (a := cs + c) (b := S) (c := cs) (by omega) (by omega)
    omega
  have hm1 : min (cs + c) S ≤ cs + c := min_le_left _ _
  have hm2 : min (cs + c) S ≤ S := min_le_right _ _
  have hm3 : st.pos < min (cs + c) S := lt_min g2 hpos
  generalize min (cs + c) S = m at hbuf hbl2 hm1 hm2 hm3
  have e1 : wrapInt64 (st.pos - cs) = st.pos - cs :=
    wrapInt64_eq _ (by omega) (by omega)
  have e2 : wrapInt64 ((buf.length : Int) - (st.pos - cs))
      = (buf.length : Int) - (st.pos - cs) := wrapInt64_eq _ (by omega) (by omega)
  obtain ⟨t, ht⟩ : ∃ t, minInt64 st.remaining ((buf.length : Int) - (st.pos - cs)) = t :=
    ⟨_, rfl⟩
  have ht1 : 1 ≤ t := by rw [← ht]; unfold minInt64; split_ifs <;> omega
  have ht2 : t ≤ st.remaining := by rw [← ht]; unfold minInt64; split_ifs <;> omega
  have ht3 : t ≤ (buf.length : Int) - (st.pos - cs) := by
    rw [← ht]; unfold minInt64; split_ifs <;> omega
  have e3 : wrapInt64 (st.n + t) = st.n + t := wrapInt64_eq _ (by omega) (by omega)
  have e4 : wrapInt64 (st.pos - cs + t) = st.pos - cs + t :=
    wrapInt64_eq _ (by omega) (by omega)
  have e5 : wrapInt64 (st.remaining - t) = st.remaining - t := wrapInt64_eq _ (by omega) (by omega)
  have e6 : wrapInt64 (st.pos + t) = st.pos + t := wrapInt64_eq _ (by omega) (by omega)
  have c1 : ¬ (st.pos - cs < 0 ∨ st.pos - cs ≥ (buf.length : Int)) := by
    omega
  have c2 : ¬ (st.n < 0 ∨ st.n + t < st.n ∨ (st.p.length : Int) < st.n + t ∨
      st.pos - cs + t < st.pos - cs ∨
      (buf.length : Int) < st.pos - cs + t) := by
    omega
  have hstep : copyStep st cs buf = .inr { st with
      p := copyInto st.p st.n.toNat buf (st.pos - cs).toNat t.toNat
      n := st.n + t
      remaining := st.remaining - t
      pos := st.pos + t } := by
    simp only [copyStep, e1, e2, ht, e3, e4, e5, e6, if_neg c1, if_neg c2]
  refine ⟨_, hstep, ?_⟩
  · have b1 : st.n.toNat + t.toNat ≤ st.p.length := by omega
    have b2 : (st.pos - cs).toNat + t.toNat ≤ buf.length := by omega
    have n2 : (st.n + t).toNat = st.n.toNat + t.toNat := by omega
    refine ⟨⟨?_, ?_, ?_, ?_, ?_, ?_, ?_, ?_, hcache⟩, ?_, rfl, rfl⟩
    · show 0 ≤ st.n + t
      omega
    · show 0 ≤ st.remaining - t
      omega
    · show st.n + t + (st.remaining - t) = p0.length
      omega
    · show st.pos + t = off + (st.n + t)
      omega
    · show st.pos + t ≤ S
      omega
    · show (copyInto st.p st.n.toNat buf _ t.toNat).length = p0.length
      rw [copyInto_length _ _ _ _ _ b1 b2, hlen]
    · show (copyInto st.p st.n.toNat buf _ t.toNat).take (st.n + t).toNat = _
      rw [n2, copyInto_take _ _ _ _ _ b1 b2, hcop, hbuf]
      rw [objBytes_drop_take, ← objBytes_append]
      · congr 2
        omega
      · omega
    · show (copyInto st.p st.n.toNat buf _ t.toNat).drop (st.n + t).toNat = _
      rw [n2, copyInto_drop _ _ _ _ _ b1 b2, ← List.drop_drop, ← List.drop_drop, hrest]
    · show st.remaining - t < st.remaining
      omega

theorem loopBody_exact (obj : Nat → Byte) (S c : Int) (p0 : List Byte) (off : Int)
    (st : LoopState Unit) (hc : 0 < c) (hfit : (S - 1) / c * c + c - 1 ≤ maxInt64)
    (hS : S ≤ maxInt64) (hp : (p0.length : Int) ≤ maxInt64) (hoff : 0 ≤ off)
    (inv : ReadInv obj S c p0 off st) (hrem : 0 < st.remaining) (hpos : st.pos < S) :
    ∃ st1, loopBody (exactFetch obj) S c st = .inr st1 ∧
      ReadInv obj S c p0 off st1 ∧ st1.remaining < st.remaining := by
  have h0 : 0 ≤ st.pos := by have := inv.pos_eq; have := inv.n_nonneg; omega
  obtain ⟨hdiv, hk, g1, g2, g3, g4⟩ := chunk_geom S c st.pos hc h0 hpos hfit
  have hmax : maxInt64 = 2 ^ 63 - 1 := rfl
  have hk0 : 0 ≤ st.pos / c * c := Int.mul_nonneg hk hc.le
  have ek : wrapInt64 (Int.tdiv st.pos c) = st.pos / c := by
    rw [hdiv]; exact wrapInt64_eq _ (by omega) (by omega)
  have ecs : wrapInt64 (st.pos / c * c) = st.pos / c * c :=
    wrapInt64_eq _ (by omega) (by omega)
  unfold loopBody
  rw [if_neg hc.ne']
  simp only [ek, ecs]
  generalize hcs : st.pos / c * c = cs at g1 g2 g3 hk0
  cases hcache : st.cache (st.pos / c) with
  | some buf =>
    have hb := inv.cache_ok _ _ hcache
    simp only [chunkBytes, hcs] at hb
    obtain ⟨st1, h1, h2, h3, -, -⟩ :=
      copyStep_exact obj S c p0 off st cs buf hp hoff inv hrem hpos hk0 g1 g2 g3 hS hb
    exact ⟨st1, h1, h2, h3⟩
  | none =>
    have ee : (if wrapInt64 (wrapInt64 (cs + c) - 1) ≥ S then wrapInt64 (S - 1)
        else wrapInt64 (wrapInt64 (cs + c) - 1)) = min (cs + c) S - 1 := by
      by_cases hov : cs + c ≤ maxInt64
      · rw [wrapInt64_eq (cs + c) (by omega) hov, wrapInt64_eq (cs + c - 1) (by omega) (by omega)]
        split_ifs with h
        · rw [wrapInt64_eq _ (by omega) (by omega), min_eq_right (by omega)]
        · rw [min_eq_left (by omega)]
      · have hov2 : cs + c = 2 ^ 63 := by omega
        have : wrapInt64 (cs + c) = -2 ^ 63 := by rw [hov2]; decide
        rw [this]
        have : wrapInt64 (-2 ^ 63 - 1) = maxInt64 := by decide
        rw [this, if_pos (by omega), wrapInt64_eq _ (by omega) (by omega),
          min_eq_right (by omega)]
    simp only [exactFetch, ee]
    have hdata : objBytes obj cs.toNat (min (cs + c) S - 1 + 1 - cs).toNat
        = objBytes obj cs.toNat (min (cs + c) S - cs).toNat := by
      congr 2; omega
    rw [hdata]
    have inv2 : ReadInv obj S c p0 off
        { st with svc := (), fetches := st.fetches ++ [⟨st.pos / c, cs, min (cs + c) S - 1⟩],
                  cache := cacheSet st.cache (st.pos / c)
                    (objBytes obj cs.toNat (min (cs + c) S - cs).toNat) } := by
      refine ⟨inv.n_nonneg, inv.rem_nonneg, inv.n_rem, inv.pos_eq, inv.pos_le, inv.len_eq,
        inv.copied, inv.rest, ?_⟩
      intro k buf hkb
      simp only [cacheSet] at hkb
      split_ifs at hkb with hkk
      · subst hkk
        simp only [Option.some.injEq] at hkb
        rw [← hkb, chunkBytes, hcs]
      · exact inv.cache_ok k buf hkb
    obtain ⟨st1, h1, h2, h3, -, -⟩ :=
      copyStep_exact obj S c p0 off _ cs _ hp hoff inv2 hrem hpos hk0 g1 g2 g3 hS rfl
    exact ⟨st1, h1, h2, h3⟩

theorem readLoop_exact (obj : Nat → Byte) (S c : Int) (p0 : List Byte) (off : Int)
    (hc : 0 < c) (hfit : (S - 1) / c * c + c - 1 ≤ maxInt64)
    (hS : S ≤ maxInt64) (hp : (p0.length : Int) ≤ maxInt64) (hoff : 0 ≤ off) :
    ∀ (fuel : Nat) (st : LoopState Unit), ReadInv obj S c p0 off st →
      st.remaining.toNat ≤ fuel →
      ∃ r, readLoop (exactFetch obj) S c fuel st = some r ∧ r.panicked = none ∧
        r.n = min (p0.length : Int) (S - off) ∧
        r.p.take r.n.toNat = objBytes obj off.toNat r.n.toNat ∧
        r.p.drop r.n.toNat = p0.drop r.n.toNat ∧
        r.p.length = p0.length ∧
        r.err = (if r.n < (p0.length : Int) then some .eof else none) ∧
        CacheOK obj S c r.cache := by
  intro fuel
  induction fuel with
  | zero =>
    intro st inv hfuel
    have hr := inv.rem_nonneg
    have hcond : ¬ (st.remaining > 0 ∧ st.pos < S) := by omega
    have hn : st.n = min (p0.length : Int) (S - off) := by
      have := inv.n_rem; have := inv.pos_eq; have := inv.pos_le
      rw [min_def]; split_ifs <;> omega
    unfold readLoop
    rw [if_neg hcond, inv.len_eq]
    split_ifs with h
    · exact ⟨_, rfl, rfl, hn, inv.copied, inv.rest, inv.len_eq, by simp [LoopState.ret, h],
        inv.cache_ok⟩
    · exact ⟨_, rfl, rfl, hn, inv.copied, inv.rest, inv.len_eq, by simp [LoopState.ret, h],
        inv.cache_ok⟩
  | succ fuel ih =>
    intro st inv hfuel
    unfold readLoop
    by_cases hcond : st.remaining > 0 ∧ st.pos < S
    · rw [if_pos hcond]
      obtain ⟨st1, h1, h2, h3⟩ :=
        loopBody_exact obj S c p0 off st hc hfit hS hp hoff inv hcond.1 hcond.2
      simp only [h1]
      exact ih st1 h2 (by omega)
    · have hn : st.n = min (p0.length : Int) (S - off) := by
        have := inv.n_rem; have := inv.pos_eq; have := inv.pos_le; have := inv.rem_nonneg
        rw [min_def]; split_ifs <;> omega
      rw [if_neg hcond, inv.len_eq]
      split_ifs with h
      · exact ⟨_, rfl, rfl, hn, inv.copied, inv.rest, inv.len_eq, by simp [LoopState.ret, h],
          inv.cache_ok⟩
      · exact ⟨_, rfl, rfl, hn, inv.copied, inv.rest, inv.len_eq, by simp [LoopState.ret, h],
          inv.cache_ok⟩

theorem readAt_exact (obj : Nat → Byte) (S c : Int) (cache : Int → Option (List Byte))
    (p : List Byte) (off : Int)
    (hc : 0 < c) (hfit : (S - 1) / c * c + c - 1 ≤ maxInt64)
    (hS : S ≤ maxInt64) (hp : (p.length : Int) ≤ maxInt64) (hoff : 0 ≤ off) (hoff2 : off < S)
    (hcache : CacheOK obj S c cache) :
    ∃ r, ReadAt (exactFetch obj) { size := S, chunkSize := c, cache := cache } () p off = some r ∧
        r.panicked = none ∧
        r.n = min (p.length : Int) (S - off) ∧
        r.p.take r.n.toNat = objBytes obj off.toNat r.n.toNat ∧
        r.p.drop r.n.toNat = p.drop r.n.toNat ∧
        r.p.length = p.length ∧
        r.err = (if r.n < (p.length : Int) then some .eof else none) ∧
        CacheOK obj S c r.cache := by
  unfold ReadAt
  simp only [if_neg (not_lt.mpr hoff), if_neg (not_le.mpr hoff2)]
  apply readLoop_exact obj S c p off hc hfit hS hp hoff
  · refine ⟨le_refl _, by simp, by simp, by simp, by simpa using hoff2.le, rfl, ?_, rfl, hcache⟩
    simp [objBytes]
  · simp

theorem reachable_cacheOK (obj : Nat → Byte) (S c : Int) (hc : 0 < c)
    (hfit : (S - 1) / c * c + c - 1 ≤ maxInt64) (hS : S ≤ maxInt64)
    (cache : Int → Option (List Byte)) (h : ReachableCache obj S c cache) :
    CacheOK obj S c cache := by
  induction h with
  | init => intro k buf hk; simp at hk
  | readAt cache p off r _ h0 h1 hp hr ih =>
    obtain ⟨r2, e, -, -, -, -, -, -, hok⟩ :=
      readAt_exact obj S c cache p off hc hfit hS hp h0 h1 ih
    rw [hr] at e
    cases e
    exact hok

theorem readConcat_exact (obj : Nat → Byte) (S c : Int) (hc : 0 < c)
    (hfit : (S - 1) / c * c + c - 1 ≤ maxInt64) (hS : S ≤ maxInt64) :
    ∀ (lens : List Nat) (off : Int) (cache : Int → Option (List Byte)),
      CacheOK obj S c cache → 0 ≤ off → (∀ l ∈ lens, 0 < l) → off + (lens.sum : Int) = S →
      readConcat obj S c lens off cache = some (objBytes obj off.toNat lens.sum) := by
  intro lens
  induction lens with
  | nil => intro off cache _ _ _ _; simp [readConcat, objBytes]
  | cons len rest ih =>
    intro off cache hcache hoff hpos hsum
    have hl := hpos len (List.mem_cons_self _ _)
    simp only [List.sum_cons, Nat.cast_add] at hsum
    have hmax : maxInt64 = 2 ^ 63 - 1 := rfl
    obtain ⟨r, e, -, hn, htake, -, -, -, hok⟩ :=
      readAt_exact obj S c cache (List.replicate len 0) off hc hfit hS
        (by simp only [List.length_replicate]; omega) hoff (by omega) hcache
    simp only [List.length_replicate] at hn
    have hn2 : r.n = len := by rw [hn]; exact min_eq_left (by omega)
    unfold readConcat
    simp only [e]
    rw [ih (off + r.n) r.cache hok (by omega)
      (fun l hl => hpos l (List.mem_cons_of_mem _ hl)) (by omega), htake]
    simp only [Option.map_some', List.sum_cons, Option.some.injEq]
    rw [hn2]
    have : (off + (len : Int)).toNat = off.toNat + len := by omega
    rw [this]
    simpa using objBytes_append obj off.toNat len rest.sum

/-- C1 (as amended): for an object of size `S > 0` and a chunk size `c > 0`
such that the nominal end `((S-1)/c)*c + c - 1` of the last chunk is an `int64`,
against a backend that serves every range request exactly, every
`ReadAt(p, off)` with `0 ≤ off < S`, on a reader holding any cache left by
earlier such calls, returns `n = min(len(p), S - off)`, leaves
`p[0:n] = object[off:off+n]` (and the rest of `p` untouched), and returns
`io.EOF` exactly when `n < len(p)` and `nil` otherwise; and front-to-back reads
whose buffer lengths add up to `S` concatenate to the object. -/
theorem C1_readAt_round_trip (obj : Nat → Byte) (S c : Int)
    (cache : Int → Option (List Byte)) (p : List Byte) (off : Int)
    (hS : 0 < S) (hS64 : S ≤ maxInt64) (hc : 0 < c)
    (hfit : (S - 1) / c * c + c - 1 ≤ maxInt64)
    (hp : (p.length : Int) ≤ maxInt64) (hoff : 0 ≤ off) (hoff2 : off < S)
    (hreach : ReachableCache obj S c cache) :
    (∃ r, ReadAt (exactFetch obj) { size := S, chunkSize := c, cache := cache } () p off = some r ∧
        r.panicked = none ∧
        r.n = min (p.length : Int) (S - off) ∧
        r.p.take r.n.toNat = objBytes obj off.toNat r.n.toNat ∧
        r.p.drop r.n.toNat = p.drop r.n.toNat ∧
        (r.err = some .eof ↔ r.n < (p.length : Int)) ∧
        (r.err = none ↔ ¬ r.n < (p.length : Int))) ∧
    (∀ lens : List Nat, (∀ l ∈ lens, 0 < l) → (lens.sum : Int) = S →
        readConcat obj S c lens 0 cache = some (objBytes obj 0 S.toNat)) := by
  have hok := reachable_cacheOK obj S c hc hfit hS64 cache hreach
  constructor
  · obtain ⟨r, e, h1, h2, h3, h4, -, h6, -⟩ :=
      readAt_exact obj S c cache p off hc hfit hS64 hp hoff hoff2 hok
    refine ⟨r, e, h1, h2, h3, h4, ?_, ?_⟩
    · rw [h6]; split_ifs with h <;> simp [h]
    · rw [h6]; split_ifs with h <;> simp [h]
  · intro lens hpos hsum
    have := readConcat_exact obj S c hc hfit hS64 lens 0 cache hok (le_refl _) hpos (by omega)
    rw [this]
    congr 2
    omega

/-- C1, witness: a 10-byte object read with chunk size 4 into a 6-byte buffer
at offset 7, on a fresh reader. -/
theorem C1_readAt_round_trip_witness :
    (∃ r, ReadAt (exactFetch (fun i => i + 10)) { size := 10, chunkSize := 4, cache := fun _ => none }
          () [0, 0, 0, 0, 0, 0] 7 = some r ∧
        r.panicked = none ∧
        r.n = min (([0, 0, 0, 0, 0, 0] : List Byte).length : Int) (10 - 7) ∧
        r.p.take r.n.toNat = objBytes (fun i => i + 10) (7 : Int).toNat r.n.toNat ∧
        r.p.drop r.n.toNat = ([0, 0, 0, 0, 0, 0] : List Byte).drop r.n.toNat ∧
        (r.err = some .eof ↔ r.n < (([0, 0, 0, 0, 0, 0] : List Byte).length : Int)) ∧
        (r.err = none ↔ ¬ r.n < (([0, 0, 0, 0, 0, 0] : List Byte).length : Int))) ∧
    (∀ lens : List Nat, (∀ l ∈ lens, 0 < l) → (lens.sum : Int) = 10 →
        readConcat (fun i => i + 10) 10 4 lens 0 (fun _ => none)
          = some (objBytes (fun i => i + 10) 0 (10 : Int).toNat)) :=
  C1_readAt_round_trip (fun i => i + 10) 10 4 (fun _ => none) [0, 0, 0, 0, 0, 0] 7
    (by decide) (by decide) (by decide) (by decide) (by decide) (by decide) (by decide)
    ReachableCache.init

/-- C1, counterexample to the claim as stated (any `S > 0`, any `c > 0`): with
`S = 2^62 + 5` and `c = 2^62 + 1` the `int64` sum `chunkStart + chunkSize - 1`
of the second chunk wraps to a negative number, the request is for the range
`[2^62 + 1, -2^63 + 1]`, and a one-byte read at offset `2^62 + 1` returns
`n = 0` with the error "offset outside chunk" instead of `n = 1`. -/
theorem C1_counterexample :
    ¬ (∀ (obj : Nat → Byte) (S c : Int) (p : List Byte) (off : Int),
        0 < S → S ≤ maxInt64 → 0 < c → c ≤ maxInt64 → (p.length : Int) ≤ maxInt64 →
        0 ≤ off → off < S →
        ∃ r, ReadAt (exactFetch obj) (NewDriveReaderAt S c) () p off = some r ∧
          r.n = min (p.length : Int) (S - off)) := by
  intro h
  obtain ⟨r, e, hn⟩ := h (fun _ => 0) (2 ^ 62 + 5) (2 ^ 62 + 1) [0] (2 ^ 62 + 1)
    (by decide) (by decide) (by decide) (by decide) (by decide) (by decide) (by decide)
  have ev : (ReadAt (exactFetch (fun _ => 0)) (NewDriveReaderAt (2 ^ 62 + 5) (2 ^ 62 + 1)) ()
      [0] (2 ^ 62 + 1)).map (fun r => (r.n, r.err, r.fetches))
      = some (0, some .offsetOutsideChunk, [⟨1, 2 ^ 62 + 1, -2 ^ 63 + 1⟩]) := by decide!
  rw [e] at ev
  simp only [Option.map_some', Option.some.injEq, Prod.mk.injEq] at ev
  rw [ev.1] at hn
  revert hn
  decide

/-! ## Theorems: `DriveReaderAt.ReadAt` against any backend -/

theorem wrapInt64_add_left (a b : Int) : wrapInt64 (wrapInt64 a + b) = wrapInt64 (a + b) := by
  unfold wrapInt64
  omega

theorem wrapInt64_add_right (a b : Int) : wrapInt64 (a + wrapInt64 b) = wrapInt64 (a + b) := by
  unfold wrapInt64
  omega

theorem copyStep_inl {β : Type} (st : LoopState β) (cs : Int) (buf : List Byte)
    (r : ReadResult β) (h : copyStep st cs buf = .inl r) :
    r.cache = st.cache ∧ r.fetches = st.fetches ∧ r.svc = st.svc ∧ r.n = st.n ∧ r.p = st.p ∧
      isFetchFailure r.err = false := by
  unfold copyStep at h
  simp only at h
  split_ifs at h <;> (cases h; simp [LoopState.ret, LoopState.panic, isFetchFailure])

theorem copyStep_inr {β : Type} (st : LoopState β) (cs : Int) (buf : List Byte)
    (st1 : LoopState β) (h : copyStep st cs buf = .inr st1) :
    st1.cache = st.cache ∧ st1.fetches = st.fetches ∧ st1.svc = st.svc ∧
      ∃ t, st1.n = wrapInt64 (st.n + t) ∧ st1.pos = wrapInt64 (st.pos + t) := by
  unfold copyStep at h
  simp only at h
  split_ifs at h
  cases h
  exact ⟨rfl, rfl, rfl, _, rfl, rfl⟩

/-- The shapes of one pass through the loop body. -/
theorem loopBody_cases {β : Type} (fetch : Fetch β) (size c : Int) (st : LoopState β)
    (hc : c ≠ 0) :
    (∃ buf, st.cache (chunkIdxOf c st.pos) = some buf ∧
      loopBody fetch size c st = copyStep st (wrapInt64 (chunkIdxOf c st.pos * c)) buf) ∨
    (st.cache (chunkIdxOf c st.pos) = none ∧ ∃ q svc1, q.chunkIdx = chunkIdxOf c st.pos ∧
      q = reqFor size c st.pos ∧
      ((∃ e, isFetchFailure (some e) = true ∧ loopBody fetch size c st =
          .inl ({ st with svc := svc1, fetches := st.fetches ++ [q] }.ret (some e))) ∨
       (∃ data, fetch st.svc q.first q.last = (.ok data, svc1) ∧
          loopBody fetch size c st =
            copyStep { st with svc := svc1, fetches := st.fetches ++ [q],
                               cache := cacheSet st.cache (chunkIdxOf c st.pos) data }
              (wrapInt64 (chunkIdxOf c st.pos * c)) data))) := by
  unfold loopBody chunkIdxOf
  rw [if_neg hc]
  simp only
  cases hk : st.cache (wrapInt64 (Int.tdiv st.pos c)) with
  | some buf => left; exact ⟨buf, rfl, rfl⟩
  | none =>
    right
    refine ⟨rfl, ?_⟩
    simp only
    generalize hq : RangeReq.mk (wrapInt64 (Int.tdiv st.pos c))
      (wrapInt64 (wrapInt64 (Int.tdiv st.pos c) * c)) _ = q
    have hq1 : q.chunkIdx = wrapInt64 (Int.tdiv st.pos c) := by rw [← hq]
    have hq2 : q.first = wrapInt64 (wrapInt64 (Int.tdiv st.pos c) * c) := by rw [← hq]
    have hq3 : (if wrapInt64 (wrapInt64 (wrapInt64 (wrapInt64 (Int.tdiv st.pos c) * c) + c) - 1)
          ≥ size
        then wrapInt64 (size - 1)
        else wrapInt64 (wrapInt64 (wrapInt64 (wrapInt64 (Int.tdiv st.pos c) * c) + c) - 1))
        = q.last := by
      rw [← hq]
    rw [hq3]
    rcases hf : fetch st.svc (wrapInt64 (wrapInt64 (Int.tdiv st.pos c) * c)) q.last
      with ⟨res, svc1⟩
    refine ⟨q, svc1, hq1, by rw [← hq]; rfl, ?_⟩
    rw [hq2]
    cases res with
    | ok data => right; exact ⟨data, hf, rfl⟩
    | downloadFailed => left; exact ⟨.rangeDownloadFailed, rfl, rfl⟩
    | readFailed => left; exact ⟨.readResponseFailed, rfl, rfl⟩

theorem loopBody_zero {β : Type} (fetch : Fetch β) (size : Int) (st : LoopState β) :
    loopBody fetch size 0 st = .inl (st.panic .divideByZero) := by
  simp [loopBody]

theorem runTrace_refl {β : Type} (c off : Int) (st : LoopState β) (r : ReadResult β)
    (h1 : r.cache = st.cache) (h2 : r.fetches = st.fetches)
    (h3 : isFetchFailure r.err = false) : RunTrace c off st r := by
  refine ⟨fun k buf h => by rw [h1]; exact h, fun k hk _ => by rw [h1]; exact hk,
    [], by simp [h2], by simp, by simp, by simp, ?_⟩
  intro h; rw [h3] at h; cases h

theorem runTrace_step {β : Type} (c off : Int) (st st1 : LoopState β) (r : ReadResult β)
    (h1 : st1.cache = st.cache) (h2 : st1.fetches = st.fetches)
    (h : RunTrace c off st1 r) : RunTrace c off st r := by
  obtain ⟨e, o, new, hnew⟩ := h
  rw [h1] at e o
  rw [h2] at o
  refine ⟨e, o, new, ?_⟩
  rw [h1, h2] at hnew
  exact hnew

theorem runTrace_fetch {β : Type} (c off : Int) (st st1 : LoopState β) (r : ReadResult β)
    (q : RangeReq) (data : List Byte) (hq : st.cache q.chunkIdx = none)
    (h1 : st1.cache = cacheSet st.cache q.chunkIdx data) (h2 : st1.fetches = st.fetches ++ [q])
    (h : RunTrace c off st1 r) : RunTrace c off st r := by
  obtain ⟨e, o, new, hf, hnone, hnd, hok, hfail⟩ := h
  have hq1 : st1.cache q.chunkIdx = some data := by rw [h1]; simp [cacheSet]
  have hmem : ∀ q1 ∈ new, q1.chunkIdx ≠ q.chunkIdx := by
    intro q1 hq1m heq
    have := hnone q1 hq1m
    rw [heq, hq1] at this
    cases this
  have hdrop : r.fetches.drop st.fetches.length = q :: new := by
    rw [hf, h2, List.append_assoc, List.drop_left]; rfl
  have hdrop1 : r.fetches.drop st1.fetches.length = new := by
    rw [hf, List.drop_left]
  refine ⟨?_, ?_, q :: new, ?_, ?_, ?_, ?_, ?_⟩
  · intro k buf hk
    apply e
    rw [h1]
    simp only [cacheSet]
    split_ifs with hkq
    · rw [hkq, hq] at hk; cases hk
    · exact hk
  · intro k hk hall
    rw [hdrop] at hall
    apply o
    · rw [h1]
      simp only [cacheSet]
      rw [if_neg (fun h => hall q (List.mem_cons_self _ _) h.symm)]
      exact hk
    · rw [hdrop1]
      exact fun q1 hq1m => hall q1 (List.mem_cons_of_mem _ hq1m)
  · rw [hf, h2, List.append_assoc]; rfl
  · intro q1 hq1m
    rcases List.mem_cons.mp hq1m with rfl | hm
    · exact hq
    · have := hnone q1 hm
      rw [h1] at this
      simp only [cacheSet] at this
      split_ifs at this
      exact this
  · simp only [List.map_cons, List.nodup_cons, List.mem_map, not_exists, not_and]
    exact ⟨fun q1 hq1m => hmem q1 hq1m, hnd⟩
  · intro hnf q1 hq1m
    rcases List.mem_cons.mp hq1m with rfl | hm
    · rw [e _ _ hq1]; rfl
    · exact hok hnf q1 hm
  · intro hfl
    obtain ⟨pre, q2, hnew, hq2, hpre, hidx⟩ := hfail hfl
    refine ⟨q :: pre, q2, by rw [hnew]; rfl, hq2, ?_, hidx⟩
    intro q1 hq1m
    rcases List.mem_cons.mp hq1m with rfl | hm
    · rw [e _ _ hq1]; rfl
    · exact hpre q1 hm

/-- Every returning run of the loop of `ReadAt` has the trace properties. -/
theorem readLoop_trace {β : Type} (fetch : Fetch β) (size c off : Int) :
    ∀ (fuel : Nat) (st : LoopState β) (r : ReadResult β),
      st.pos = wrapInt64 (off + st.n) →
      readLoop fetch size c fuel st = some r → RunTrace c off st r := by
  intro fuel
  induction fuel with
  | zero =>
    intro st r _ h
    unfold readLoop at h
    split_ifs at h <;> cases h <;> exact runTrace_refl c off st _ rfl rfl rfl
  | succ fuel ih =>
    intro st r hpos h
    unfold readLoop at h
    split_ifs at h with hcond hlt
    · simp only at h
      have hstep : ∀ (st1 : LoopState β) (t : Int), st1.n = wrapInt64 (st.n + t) → st1.pos = wrapInt64 (st.pos + t) →
          st1.pos = wrapInt64 (off + st1.n) := by
        intro st1 t h1 h2
        rw [h2, h1, hpos, wrapInt64_add_left, wrapInt64_add_right, add_assoc]
      by_cases hc : c = 0
      · subst hc
        rw [loopBody_zero] at h
        cases h
        exact runTrace_refl 0 off st _ rfl rfl rfl
      · rcases loopBody_cases fetch size c st hc with
          ⟨buf, hk, hb⟩ | ⟨hk, q, svc1, hq, hqr, ⟨e, he, hb⟩ | ⟨data, -, hb⟩⟩
        · rw [hb] at h
          cases hcs : copyStep st (wrapInt64 (chunkIdxOf c st.pos * c)) buf with
          | inl r1 =>
            rw [hcs] at h
            cases h
            obtain ⟨h1, h2, -, -, -, h6⟩ := copyStep_inl _ _ _ _ hcs
            exact runTrace_refl c off st _ h1 h2 h6
          | inr st1 =>
            rw [hcs] at h
            obtain ⟨h1, h2, -, t, h4, h5⟩ := copyStep_inr _ _ _ _ hcs
            exact runTrace_step c off st st1 r h1 h2 (ih st1 r (hstep st1 t h4 h5) h)
        · rw [hb] at h
          cases h
          have hkq : st.cache q.chunkIdx = none := by rw [hq]; exact hk
          refine ⟨fun k buf h => h, ?_, [q], rfl, ?_, by simp, ?_, ?_⟩
          · intro k hk _; exact hk
          · intro q1 hq1; rw [List.mem_singleton.mp hq1]; exact hkq
          · intro hnf; simp only [LoopState.ret] at hnf; rw [he] at hnf; cases hnf
          · intro _
            refine ⟨[], q, rfl, hkq, by simp, ?_⟩
            rw [hq]; simp only [LoopState.ret]; rw [hpos]
        · rw [hb] at h
          have hkq : st.cache q.chunkIdx = none := by rw [hq]; exact hk
          obtain ⟨st2, hst2⟩ : ∃ st2 : LoopState β, st2 = { st with
              svc := svc1, fetches := st.fetches ++ [q],
              cache := cacheSet st.cache (chunkIdxOf c st.pos) data } := ⟨_, rfl⟩
          rw [← hst2] at h
          have hc2 : st2.cache = cacheSet st.cache q.chunkIdx data := by rw [hst2, hq]
          have hf2 : st2.fetches = st.fetches ++ [q] := by rw [hst2]
          have hn2 : st2.n = st.n := by rw [hst2]
          have hp2 : st2.pos = st.pos := by rw [hst2]
          cases hcs : copyStep st2 (wrapInt64 (chunkIdxOf c st.pos * c)) data with
          | inl r1 =>
            rw [hcs] at h
            cases h
            obtain ⟨h1, h2, -, -, -, h6⟩ := copyStep_inl _ _ _ _ hcs
            apply runTrace_fetch c off st st2 _ q data hkq hc2 hf2
            exact runTrace_refl c off _ _ h1 h2 h6
          | inr st1 =>
            rw [hcs] at h
            obtain ⟨h1, h2, -, t, h4, h5⟩ := copyStep_inr _ _ _ _ hcs
            rw [hn2] at h4
            rw [hp2] at h5
            apply runTrace_fetch c off st st2 r q data hkq hc2 hf2
            exact runTrace_step c off _ st1 r h1 h2 (ih st1 r (hstep st1 t h4 h5) h)
    · cases h; exact runTrace_refl c off st _ rfl rfl rfl
    · cases h; exact runTrace_refl c off st _ rfl rfl rfl

theorem loopBody_cached {β : Type} (fetch : Fetch β) (size c : Int) (st : LoopState β)
    (buf : List Byte) (hc : c ≠ 0) (h : st.cache (chunkIdxOf c st.pos) = some buf) :
    loopBody fetch size c st = copyStep st (wrapInt64 (chunkIdxOf c st.pos * c)) buf := by
  unfold loopBody
  unfold chunkIdxOf at h ⊢
  rw [if_neg hc]
  simp only [h]

/-- The copy step on well-formed counters: it either reports "offset outside
chunk" or copies `t ≥ 1` bytes; it never panics. -/
theorem copyStep_count {β : Type} (len : Nat) (st : LoopState β) (cs : Int) (buf : List Byte)
    (inv : CountInv len st) (hlen : (len : Int) ≤ maxInt64)
    (hbuf : (buf.length : Int) ≤ maxInt64) (hrem : 0 < st.remaining) :
    ((wrapInt64 (st.pos - cs) < 0 ∨ wrapInt64 (st.pos - cs) ≥ (buf.length : Int)) ∧
      copyStep st cs buf = .inl (st.ret (some .offsetOutsideChunk))) ∨
    ∃ o t : Int, o = wrapInt64 (st.pos - cs) ∧ t = minInt64 st.remaining ((buf.length : Int) - o) ∧
      0 ≤ o ∧ 1 ≤ t ∧ t ≤ st.remaining ∧ o + t ≤ (buf.length : Int) ∧
      copyStep st cs buf = .inr { st with
        p := copyInto st.p st.n.toNat buf o.toNat t.toNat
        n := st.n + t
        remaining := st.remaining - t
        pos := wrapInt64 (st.pos + t) } := by
  obtain ⟨hn, hr, hnr, hl⟩ := inv
  have hmax : maxInt64 = 2 ^ 63 - 1 := rfl
  obtain ⟨o, ho⟩ : ∃ o, o = wrapInt64 (st.pos - cs) := ⟨_, rfl⟩
  by_cases c1 : o < 0 ∨ o ≥ (buf.length : Int)
  · left
    rw [← ho]
    refine ⟨c1, ?_⟩
    simp only [copyStep, ← ho, if_pos c1]
  · right
    obtain ⟨t, ht⟩ : ∃ t, t = minInt64 st.remaining ((buf.length : Int) - o) := ⟨_, rfl⟩
    have e2 : wrapInt64 ((buf.length : Int) - o) = (buf.length : Int) - o :=
      wrapInt64_eq _ (by omega) (by omega)
    have ht1 : 1 ≤ t := by rw [ht]; unfold minInt64; split_ifs <;> omega
    have ht2 : t ≤ st.remaining := by rw [ht]; unfold minInt64; split_ifs <;> omega
    have ht3 : t ≤ (buf.length : Int) - o := by rw [ht]; unfold minInt64; split_ifs <;> omega
    have e3 : wrapInt64 (st.n + t) = st.n + t := wrapInt64_eq _ (by omega) (by omega)
    have e4 : wrapInt64 (o + t) = o + t := wrapInt64_eq _ (by omega) (by omega)
    have e5 : wrapInt64 (st.remaining - t) = st.remaining - t :=
      wrapInt64_eq _ (by omega) (by omega)
    have c2 : ¬ (st.n < 0 ∨ st.n + t < st.n ∨ (st.p.length : Int) < st.n + t ∨
        o + t < o ∨ (buf.length : Int) < o + t) := by
      omega
    refine ⟨o, t, ho, ht, by omega, ht1, ht2, by omega, ?_⟩
    simp only [copyStep, ← ho, e2, ← ht, e3, e4, e5, if_neg c1, if_neg c2]

theorem countInv_copy {β : Type} (len : Nat) (st : LoopState β) (buf : List Byte) (o t : Int)
    (inv : CountInv len st) (h0 : 0 ≤ o) (h1 : 1 ≤ t) (h2 : t ≤ st.remaining)
    (h3 : o + t ≤ (buf.length : Int)) :
    CountInv len { st with
        p := copyInto st.p st.n.toNat buf o.toNat t.toNat
        n := st.n + t
        remaining := st.remaining - t
        pos := wrapInt64 (st.pos + t) } := by
  obtain ⟨hn, hr, hnr, hl⟩ := inv
  refine ⟨?_, ?_, ?_, ?_⟩
  · show 0 ≤ st.n + t
    omega
  · show 0 ≤ st.remaining - t
    omega
  · show st.n + t + (st.remaining - t) = len
    omega
  · show (copyInto st.p st.n.toNat buf o.toNat t.toNat).length = len
    rw [copyInto_length _ _ _ _ _ (by omega) (by omega), hl]

theorem cacheBounded_set (cache : Int → Option (List Byte)) (k : Int) (data : List Byte)
    (h : CacheBounded cache) (hd : (data.length : Int) ≤ maxInt64) :
    CacheBounded (cacheSet cache k data) := by
  intro j buf hj
  simp only [cacheSet] at hj
  split_ifs at hj
  · cases hj; exact hd
  · exact h j buf hj

/-- With `int`-sized slices the loop of `ReadAt` returns within `remaining`
passes, without a panic when the chunk size is not zero, and `0 ≤ n ≤ len(p)`. -/
theorem readLoop_total {β : Type} (fetch : Fetch β) (size c : Int) (len : Nat)
    (hlen : (len : Int) ≤ maxInt64) (hf : FetchBounded fetch) :
    ∀ (fuel : Nat) (st : LoopState β), CountInv len st → CacheBounded st.cache →
      st.remaining.toNat ≤ fuel →
      ∃ r, readLoop fetch size c fuel st = some r ∧ CacheBounded r.cache ∧
        0 ≤ r.n ∧ r.n ≤ (len : Int) ∧ r.p.length = len ∧
        (c ≠ 0 → r.panicked = none) := by
  intro fuel
  induction fuel with
  | zero =>
    intro st inv hcb hfuel
    have := inv.rem_nonneg
    have := inv.n_rem
    have hcond : ¬ (st.remaining > 0 ∧ st.pos < size) := by omega
    unfold readLoop
    rw [if_neg hcond]
    split_ifs <;> exact ⟨_, rfl, hcb, inv.n_nonneg, by simp only [LoopState.ret]; omega,
      inv.len_eq, fun _ => rfl⟩
  | succ fuel ih =>
    intro st inv hcb hfuel
    have hr0 := inv.rem_nonneg
    have hnr := inv.n_rem
    unfold readLoop
    by_cases hcond : st.remaining > 0 ∧ st.pos < size
    · rw [if_pos hcond]
      simp only
      have key : ∀ (st2 : LoopState β) (cs : Int) (buf : List Byte), CountInv len st2 →
          CacheBounded st2.cache → st2.remaining = st.remaining →
          (buf.length : Int) ≤ maxInt64 →
          ∃ r, (match copyStep st2 cs buf with
              | .inl r => some r
              | .inr st1 => readLoop fetch size c fuel st1) = some r ∧ CacheBounded r.cache ∧
            0 ≤ r.n ∧ r.n ≤ (len : Int) ∧ r.p.length = len ∧ (c ≠ 0 → r.panicked = none) := by
        intro st2 cs buf inv2 hcb2 hrem2 hb
        have hn2 := inv2.n_rem
        have hr2 := inv2.rem_nonneg
        rcases copyStep_count len st2 cs buf inv2 hlen hb (by omega) with
          ⟨-, h⟩ | ⟨o, t, -, -, h0, h1, h2, h3, h⟩
        · rw [h]
          exact ⟨_, rfl, hcb2, inv2.n_nonneg, by simp only [LoopState.ret]; omega, inv2.len_eq,
            fun _ => rfl⟩
        · rw [h]
          exact ih _ (countInv_copy len st2 buf o t inv2 h0 h1 h2 h3) hcb2
            (by show (st2.remaining - t).toNat ≤ fuel; omega)
      by_cases hc : c = 0
      · subst hc
        rw [loopBody_zero]
        exact ⟨_, rfl, hcb, inv.n_nonneg, by simp only [LoopState.panic]; omega, inv.len_eq,
          fun h => absurd rfl h⟩
      · rcases loopBody_cases fetch size c st hc with
          ⟨buf, hk, hb⟩ | ⟨hk, q, svc1, hq, hqr, ⟨e, he, hb⟩ | ⟨data, hfd, hb⟩⟩
        · rw [hb]
          exact key st _ buf inv hcb rfl (hcb _ _ hk)
        · rw [hb]
          exact ⟨_, rfl, hcb, inv.n_nonneg, by simp only [LoopState.ret]; omega, inv.len_eq,
            fun _ => rfl⟩
        · rw [hb]
          have hd := hf _ _ _ _ _ hfd
          exact key _ _ data ⟨inv.n_nonneg, inv.rem_nonneg, inv.n_rem, inv.len_eq⟩
            (cacheBounded_set _ _ _ hcb hd) rfl hd
    · rw [if_neg hcond]
      split_ifs <;> exact ⟨_, rfl, hcb, inv.n_nonneg, by simp only [LoopState.ret]; omega,
        inv.len_eq, fun _ => rfl⟩

/-- The copy step does the same on two states that stand at the same point of
the same call. -/
theorem copyStep_same {β γ : Type} (len : Nat) (st : LoopState β) (st2 : LoopState γ)
    (cs : Int) (buf : List Byte) (inv : CountInv len st) (inv2 : CountInv len st2)
    (same : SameCall st st2) (hlen : (len : Int) ≤ maxInt64)
    (hbuf : (buf.length : Int) ≤ maxInt64) (hrem : 0 < st.remaining) :
    (copyStep st cs buf = .inl (st.ret (some .offsetOutsideChunk)) ∧
      copyStep st2 cs buf = .inl (st2.ret (some .offsetOutsideChunk))) ∨
    ∃ st1 st12, copyStep st cs buf = .inr st1 ∧ copyStep st2 cs buf = .inr st12 ∧
      SameCall st1 st12 ∧ CountInv len st1 ∧ CountInv len st12 ∧
      st1.cache = st.cache ∧ st12.cache = st2.cache ∧
      st1.fetches = st.fetches ∧ st12.fetches = st2.fetches ∧ st12.svc = st2.svc ∧
      st1.remaining < st.remaining ∧
      ∃ t, st1.n = wrapInt64 (st.n + t) ∧ st1.pos = wrapInt64 (st.pos + t) := by
  obtain ⟨sn, sr, sp, sl, sf⟩ := same
  have hn := inv.n_nonneg
  have hnr := inv.n_rem
  have hl := inv.len_eq
  have hl2 := inv2.len_eq
  have hmax : maxInt64 = 2 ^ 63 - 1 := rfl
  rcases copyStep_count len st cs buf inv hlen hbuf hrem with
    ⟨c1, h⟩ | ⟨o, t, ho, ht, h0, h1, h2, h3, h⟩
  · rcases copyStep_count len st2 cs buf inv2 hlen hbuf (by omega) with
      ⟨-, h'⟩ | ⟨o', t', ho', -, h0', h1', -, h3', -⟩
    · exact Or.inl ⟨h, h'⟩
    · rw [sp] at ho'; omega
  · rcases copyStep_count len st2 cs buf inv2 hlen hbuf (by omega) with
      ⟨c1', -⟩ | ⟨o', t', ho', ht', h0', h1', h2', h3', h'⟩
    · rw [sp] at c1'; omega
    · have eo : o' = o := by rw [ho', ho, sp]
      have et : t' = t := by rw [ht', ht, sr, eo]
      subst eo et
      right
      refine ⟨_, _, h, h', ⟨?_, ?_, ?_, ?_, ?_⟩, countInv_copy len st buf o' t' inv h0 h1 h2 h3,
        countInv_copy len st2 buf o' t' inv2 h0' h1' h2' h3', rfl, rfl, rfl, rfl, rfl, ?_,
        t', ?_, rfl⟩
      · show st2.n + t' = st.n + t'
        rw [sn]
      · show st2.remaining - t' = st.remaining - t'
        rw [sr]
      · show wrapInt64 (st2.pos + t') = wrapInt64 (st.pos + t')
        rw [sp]
      · show (copyInto st2.p st2.n.toNat buf o'.toNat t'.toNat).length
          = (copyInto st.p st.n.toNat buf o'.toNat t'.toNat).length
        rw [copyInto_length _ _ _ _ _ (by omega) (by omega),
          copyInto_length _ _ _ _ _ (by omega) (by omega), sl]
      · show (copyInto st2.p st2.n.toNat buf o'.toNat t'.toNat).take (st.n + t').toNat
          = (copyInto st.p st.n.toNat buf o'.toNat t'.toNat).take (st.n + t').toNat
        have n2 : (st.n + t').toNat = st.n.toNat + t'.toNat := by omega
        rw [n2, sn, copyInto_take _ _ _ _ _ (by omega) (by omega),
          copyInto_take _ _ _ _ _ (by omega) (by omega), sf]
      · show st.remaining - t' < st.remaining
        omega
      · show st.n + t' = wrapInt64 (st.n + t')
        exact (wrapInt64_eq _ (by omega) (by omega)).symm

/-- A returning run of the loop only appends to the list of requests. -/
theorem readLoop_fetches_grow {β : Type} (fetch : Fetch β) (size c : Int) :
    ∀ (fuel : Nat) (st : LoopState β) (r : ReadResult β),
      readLoop fetch size c fuel st = some r → ∃ new, r.fetches = st.fetches ++ new := by
  intro fuel
  induction fuel with
  | zero =>
    intro st r h
    unfold readLoop at h
    split_ifs at h <;> cases h <;> exact ⟨[], by simp [LoopState.ret]⟩
  | succ fuel ih =>
    intro st r h
    unfold readLoop at h
    split_ifs at h with hcond hlt
    · simp only at h
      cases hb : loopBody fetch size c st with
      | inl r1 =>
        rw [hb] at h
        cases h
        by_cases hc : c = 0
        · subst hc
          rw [loopBody_zero] at hb
          cases hb
          exact ⟨[], by simp [LoopState.panic]⟩
        · rcases loopBody_cases fetch size c st hc with
            ⟨buf, hk, hb2⟩ | ⟨hk, q, svc1, hq, hqr, ⟨e, he, hb2⟩ | ⟨data, -, hb2⟩⟩
          · rw [hb2] at hb
            exact ⟨[], by rw [(copyStep_inl _ _ _ _ hb).2.1]; simp⟩
          · rw [hb2] at hb
            cases hb
            exact ⟨[q], rfl⟩
          · rw [hb2] at hb
            exact ⟨[q], by rw [(copyStep_inl _ _ _ _ hb).2.1]⟩
      | inr st1 =>
        rw [hb] at h
        simp only at h
        obtain ⟨new, hnew⟩ := ih st1 r h
        by_cases hc : c = 0
        · subst hc
          rw [loopBody_zero] at hb
          cases hb
        · rcases loopBody_cases fetch size c st hc with
            ⟨buf, hk, hb2⟩ | ⟨hk, q, svc1, hq, hqr, ⟨e, he, hb2⟩ | ⟨data, -, hb2⟩⟩
          · rw [hb2] at hb
            exact ⟨new, by rw [hnew, (copyStep_inr _ _ _ _ hb).2.1]⟩
          · rw [hb2] at hb
            cases hb
          · rw [hb2] at hb
            exact ⟨q :: new, by rw [hnew, (copyStep_inr _ _ _ _ hb).2.1]; simp⟩
    · cases h; exact ⟨[], by simp [LoopState.ret]⟩
    · cases h; exact ⟨[], by simp [LoopState.ret]⟩

/-- A run of the loop that starts on a position whose chunk is not cached
issues the request for that chunk first. -/
theorem readLoop_first_fetch {β : Type} (fetch : Fetch β) (size c : Int) (fuel : Nat)
    (st : LoopState β) (r : ReadResult β) (hc : c ≠ 0)
    (hcond : st.remaining > 0 ∧ st.pos < size)
    (hnone : st.cache (chunkIdxOf c st.pos) = none)
    (h : readLoop fetch size c fuel st = some r) :
    ∃ rest, r.fetches = st.fetches ++ reqFor size c st.pos :: rest := by
  unfold readLoop at h
  rw [if_pos hcond] at h
  cases fuel with
  | zero => cases h
  | succ fuel =>
    simp only at h
    rcases loopBody_cases fetch size c st hc with
      ⟨buf, hk, hb2⟩ | ⟨hk, q, svc1, hq, hqr, ⟨e, he, hb2⟩ | ⟨data, -, hb2⟩⟩
    · rw [hnone] at hk; cases hk
    · rw [hb2] at h
      cases h
      exact ⟨[], by rw [← hqr]; rfl⟩
    · rw [hb2] at h
      obtain ⟨st2, hst2⟩ : ∃ st2 : LoopState β, st2 = { st with
          svc := svc1, fetches := st.fetches ++ [q],
          cache := cacheSet st.cache (chunkIdxOf c st.pos) data } := ⟨_, rfl⟩
      rw [← hst2] at h
      have hf2 : st2.fetches = st.fetches ++ [q] := by rw [hst2]
      cases hcs : copyStep st2 (wrapInt64 (chunkIdxOf c st.pos * c)) data with
      | inl r1 =>
        rw [hcs] at h
        cases h
        exact ⟨[], by rw [(copyStep_inl _ _ _ _ hcs).2.1, hf2, hqr]⟩
      | inr st1 =>
        rw [hcs] at h
        simp only at h
        obtain ⟨new, hnew⟩ := readLoop_fetches_grow fetch size c fuel st1 r h
        exact ⟨new, by rw [hnew, (copyStep_inr _ _ _ _ hcs).2.1, hf2, hqr]; simp⟩

theorem countInv_frame {β γ : Type} (len : Nat) (st : LoopState β) (st2 : LoopState γ)
    (inv : CountInv len st) (h1 : st2.n = st.n) (h2 : st2.remaining = st.remaining)
    (h3 : st2.p = st.p) : CountInv len st2 :=
  ⟨by rw [h1]; exact inv.n_nonneg, by rw [h2]; exact inv.rem_nonneg,
    by rw [h1, h2]; exact inv.n_rem, by rw [h3]; exact inv.len_eq⟩

/-- Replaying a call. Let a run of the loop from `st` return `r`, and let `st2`
stand at the same point of the same call on a cache that holds every entry of
`r.cache`. If the first run met no failed fetch, the second run issues no
request and returns the same `n`, error and bytes, leaving cache and backend
as they were. If the first run ended in a failed fetch `q` whose chunk is not
in the second cache, the second run issues `q` as its first request. -/
theorem readLoop_replay {β γ : Type} (f : Fetch β) (g : Fetch γ) (size c off : Int) (len : Nat)
    (hlen : (len : Int) ≤ maxInt64) (hf : FetchBounded f) (hg : FetchBounded g) :
    ∀ (fuel : Nat) (st : LoopState β) (st2 : LoopState γ) (r : ReadResult β),
      readLoop f size c fuel st = some r → st.pos = wrapInt64 (off + st.n) →
      CountInv len st → CountInv len st2 → SameCall st st2 →
      CacheBounded st.cache → CacheBounded st2.cache → CacheExtends r.cache st2.cache →
      st.remaining.toNat ≤ fuel →
      (isFetchFailure r.err = false →
        ∃ r2, readLoop g size c fuel st2 = some r2 ∧ r2.fetches = st2.fetches ∧
          r2.cache = st2.cache ∧ r2.svc = st2.svc ∧ r2.n = r.n ∧ r2.err = r.err ∧
          r2.panicked = r.panicked ∧ r2.p.take r.n.toNat = r.p.take r.n.toNat) ∧
      (isFetchFailure r.err = true → ∀ q, r.fetches.getLast? = some q →
        st2.cache q.chunkIdx = none →
        ∃ r2 rest, readLoop g size c fuel st2 = some r2 ∧
          r2.fetches = st2.fetches ++ q :: rest) := by
  intro fuel
  induction fuel with
  | zero =>
    intro st st2 r h hpos inv inv2 same hcb hcb2 hext hfuel
    have := inv.rem_nonneg
    have hcond : ¬ (st.remaining > 0 ∧ st.pos < size) := by omega
    have hcond2 : ¬ (st2.remaining > 0 ∧ st2.pos < size) := by
      rw [same.rem_eq, same.pos_eq]; exact hcond
    unfold readLoop at h ⊢
    rw [if_neg hcond] at h
    rw [if_neg hcond2, same.n_eq, same.len_eq]
    split_ifs at h ⊢ <;> cases h <;>
      exact ⟨fun _ => ⟨_, rfl, rfl, rfl, rfl, same.n_eq, rfl, rfl, same.filled⟩,
        fun hx => by simp [LoopState.ret, isFetchFailure] at hx⟩
  | succ fuel ih =>
    intro st st2 r h hpos inv inv2 same hcb hcb2 hext hfuel
    by_cases hcond : st.remaining > 0 ∧ st.pos < size
    · have hcond2 : st2.remaining > 0 ∧ st2.pos < size := by
        rw [same.rem_eq, same.pos_eq]; exact hcond
      have htr := readLoop_trace f size c off (fuel + 1) st r hpos h
      unfold readLoop at h ⊢
      rw [if_pos hcond] at h
      rw [if_pos hcond2]
      simp only at h ⊢
      by_cases hc : c = 0
      · subst hc
        rw [loopBody_zero] at h ⊢
        cases h
        exact ⟨fun _ => ⟨_, rfl, rfl, rfl, rfl, same.n_eq, rfl, rfl, same.filled⟩,
          fun hx => by simp [LoopState.panic, isFetchFailure] at hx⟩
      · -- the continuation after the chunk `buf` is known, on both sides
        have key : ∀ (sta : LoopState β) (buf : List Byte),
            (match copyStep sta (wrapInt64 (chunkIdxOf c st.pos * c)) buf with
              | .inl r => some r
              | .inr st1 => readLoop f size c fuel st1) = some r →
            sta.n = st.n → sta.remaining = st.remaining → sta.pos = st.pos → sta.p = st.p →
            CacheBounded sta.cache → (buf.length : Int) ≤ maxInt64 →
            sta.cache (chunkIdxOf c st.pos) = some buf →
            (isFetchFailure r.err = false →
              ∃ r2, (match loopBody g size c st2 with
                  | .inl r => some r
                  | .inr st1 => readLoop g size c fuel st1) = some r2 ∧
                r2.fetches = st2.fetches ∧
                r2.cache = st2.cache ∧ r2.svc = st2.svc ∧ r2.n = r.n ∧ r2.err = r.err ∧
                r2.panicked = r.panicked ∧ r2.p.take r.n.toNat = r.p.take r.n.toNat) ∧
            (isFetchFailure r.err = true → ∀ q, r.fetches.getLast? = some q →
              st2.cache q.chunkIdx = none →
              ∃ r2 rest, (match loopBody g size c st2 with
                  | .inl r => some r
                  | .inr st1 => readLoop g size c fuel st1) = some r2 ∧
                r2.fetches = st2.fetches ++ q :: rest) := by
          intro sta buf h e1 e2 e3 e4 hcba hb hka
          have inva : CountInv len sta := countInv_frame len st sta inv e1 e2 e4
          have samea : SameCall sta st2 :=
            ⟨by rw [e1]; exact same.n_eq, by rw [e2]; exact same.rem_eq,
              by rw [e3]; exact same.pos_eq, by rw [e4]; exact same.len_eq,
              by rw [e1, e4]; exact same.filled⟩
          have hk2' : CacheExtends sta.cache r.cache →
              loopBody g size c st2 = copyStep st2 (wrapInt64 (chunkIdxOf c st.pos * c)) buf := by
            intro hx
            have : st2.cache (chunkIdxOf c st2.pos) = some buf := by
              rw [same.pos_eq]; exact hext _ _ (hx _ _ hka)
            rw [loopBody_cached g size c st2 buf hc this, same.pos_eq]
          rcases copyStep_same len sta st2 (wrapInt64 (chunkIdxOf c st.pos * c)) buf inva inv2
              samea hlen hb (by rw [e2]; exact hcond.1) with
            ⟨ha, hb2⟩ | ⟨st1, st12, ha, hb2, same1, inv1, inv12, c1, c12, f1, f12, s12, hlt,
              t, hn1, hp1⟩
          · rw [ha] at h
            cases h
            rw [hk2' (fun _ _ hx => hx), hb2]
            exact ⟨fun _ => ⟨_, rfl, rfl, rfl, rfl, samea.n_eq, rfl, rfl, samea.filled⟩,
              fun hx => by simp [LoopState.ret, isFetchFailure] at hx⟩
          · rw [ha] at h
            simp only at h
            have hpos1 : st1.pos = wrapInt64 (off + st1.n) := by
              rw [hp1, hn1, e3, e1, hpos, wrapInt64_add_left, wrapInt64_add_right, add_assoc]
            have htr1 := readLoop_trace f size c off fuel st1 r hpos1 h
            rw [hk2' (by rw [← c1]; exact htr1.extends_cache), hb2]
            simp only
            have := ih st1 st12 r h hpos1 inv1 inv12 same1 (by rw [c1]; exact hcba)
              (by rw [c12]; exact hcb2) (by rw [c12]; exact hext) (by rw [e2] at hlt; omega)
            rw [c12, f12, s12] at this
            exact this
        rcases loopBody_cases f size c st hc with
          ⟨buf, hk, hb⟩ | ⟨hk, q, svc1, hq, hqr, ⟨e, he, hb⟩ | ⟨data, hfd, hb⟩⟩
        · rw [hb] at h
          exact key st buf h rfl rfl rfl rfl hcb (hcb _ _ hk) hk
        · rw [hb] at h
          cases h
          refine ⟨fun hx => absurd hx (by simp only [LoopState.ret]; rw [he]; simp), ?_⟩
          intro _ q' hq' hnone
          have hq'' : q = q' := by
            simpa [LoopState.ret, List.getLast?_append] using hq'
          subst hq''
          obtain ⟨r2, hr2, -⟩ := readLoop_total g size c len hlen hg (fuel + 1) st2 inv2 hcb2
            (by rw [same.rem_eq]; exact hfuel)
          have hn2 : st2.cache (chunkIdxOf c st2.pos) = none := by
            rw [same.pos_eq, ← hq]; exact hnone
          obtain ⟨rest, hrest⟩ := readLoop_first_fetch g size c (fuel + 1) st2 r2 hc hcond2 hn2 hr2
          unfold readLoop at hr2
          rw [if_pos hcond2] at hr2
          simp only at hr2
          exact ⟨r2, rest, hr2, by rw [hrest, same.pos_eq, hqr]⟩
        · rw [hb] at h
          have hd := hf _ _ _ _ _ hfd
          exact key _ data h rfl rfl rfl rfl (cacheBounded_set _ _ _ hcb hd) hd
            (by simp [cacheSet])
    · have hcond2 : ¬ (st2.remaining > 0 ∧ st2.pos < size) := by
        rw [same.rem_eq, same.pos_eq]; exact hcond
      unfold readLoop at h ⊢
      rw [if_neg hcond] at h
      rw [if_neg hcond2, same.n_eq, same.len_eq]
      split_ifs at h ⊢ <;> cases h <;>
        exact ⟨fun _ => ⟨_, rfl, rfl, rfl, rfl, same.n_eq, rfl, rfl, same.filled⟩,
          fun hx => by simp [LoopState.ret, isFetchFailure] at hx⟩

/-! ### `ReadAt` itself -/

theorem readAt_cases {β : Type} (fetch : Fetch β) (d : DriveReaderAt) (svc : β)
    (p : List Byte) (off : Int) :
    (off < 0 ∧ ReadAt fetch d svc p off = some ((initState d svc p off).ret (some .negativeOffset)))
    ∨ (0 ≤ off ∧ d.size ≤ off ∧
        ReadAt fetch d svc p off = some ((initState d svc p off).ret (some .eof)))
    ∨ (0 ≤ off ∧ off < d.size ∧
        ReadAt fetch d svc p off = readLoop fetch d.size d.chunkSize p.length (initState d svc p off))
    := by
  unfold ReadAt initState
  by_cases h1 : off < 0
  · left; exact ⟨h1, by simp only [if_pos h1]⟩
  · by_cases h2 : off ≥ d.size
    · right; left; exact ⟨by omega, h2, by simp only [if_neg h1, if_pos h2]⟩
    · right; right; exact ⟨by omega, by omega, by simp only [if_neg h1, if_neg h2]⟩

theorem initState_count {β : Type} (d : DriveReaderAt) (svc : β) (p : List Byte) (off : Int) :
    CountInv p.length (initState d svc p off) :=
  ⟨le_refl _, by simp [initState], by simp [initState], rfl⟩

theorem initState_pos {β : Type} (d : DriveReaderAt) (svc : β) (p : List Byte) (off : Int)
    (h0 : 0 ≤ off) (h1 : off ≤ maxInt64) :
    (initState d svc p off).pos = wrapInt64 (off + (initState d svc p off).n) := by
  have hmax : maxInt64 = 2 ^ 63 - 1 := rfl
  simp only [initState, add_zero]
  exact (wrapInt64_eq off (by omega) h1).symm

/-- With `int`-sized slices `ReadAt` returns, with `0 ≤ n ≤ len(p)`, a buffer
of unchanged length and the trace properties of its loop. -/
theorem readAt_total {β : Type} (fetch : Fetch β) (d : DriveReaderAt) (svc : β)
    (p : List Byte) (off : Int) (hoff : off ≤ maxInt64) (hp : (p.length : Int) ≤ maxInt64)
    (hf : FetchBounded fetch) (hcb : CacheBounded d.cache) :
    ∃ r, ReadAt fetch d svc p off = some r ∧ CacheBounded r.cache ∧ 0 ≤ r.n ∧
      r.n ≤ (p.length : Int) ∧ r.p.length = p.length ∧
      RunTrace d.chunkSize off (initState d svc p off) r := by
  rcases readAt_cases fetch d svc p off with ⟨h0, h⟩ | ⟨h0, h1, h⟩ | ⟨h0, h1, h⟩
  · exact ⟨_, h, hcb, le_refl _, by simp [LoopState.ret, initState], rfl,
      runTrace_refl _ _ _ _ rfl rfl rfl⟩
  · exact ⟨_, h, hcb, le_refl _, by simp [LoopState.ret, initState], rfl,
      runTrace_refl _ _ _ _ rfl rfl rfl⟩
  · obtain ⟨r, hr, h2, h3, h4, h5, -⟩ := readLoop_total fetch d.size d.chunkSize p.length hp hf
      p.length (initState d svc p off) (initState_count d svc p off) hcb (by simp [initState])
    rw [← h] at hr
    exact ⟨r, hr, h2, h3, h4, h5,
      readLoop_trace fetch d.size d.chunkSize off p.length _ r (initState_pos d svc p off h0 hoff)
        (by rw [← h]; exact hr)⟩

theorem readAt_replay {β γ : Type} (f : Fetch β) (g : Fetch γ) (d : DriveReaderAt) (svc : β)
    (svc2 : γ) (p p2 : List Byte) (off : Int) (r : ReadResult β)
    (cache2 : Int → Option (List Byte))
    (hoff : off ≤ maxInt64) (hp : (p.length : Int) ≤ maxInt64) (hp2 : p2.length = p.length)
    (hf : FetchBounded f) (hg : FetchBounded g) (hcb : CacheBounded d.cache)
    (hcb2 : CacheBounded cache2) (h : ReadAt f d svc p off = some r)
    (hext : CacheExtends r.cache cache2) :
    (isFetchFailure r.err = false →
      ∃ r2, ReadAt g { d with cache := cache2 } svc2 p2 off = some r2 ∧ r2.fetches = [] ∧
        r2.cache = cache2 ∧ r2.svc = svc2 ∧ r2.n = r.n ∧ r2.err = r.err ∧
        r2.panicked = r.panicked ∧ r2.p.take r.n.toNat = r.p.take r.n.toNat) ∧
    (isFetchFailure r.err = true → ∀ q, r.fetches.getLast? = some q →
      cache2 q.chunkIdx = none →
      ∃ r2 rest, ReadAt g { d with cache := cache2 } svc2 p2 off = some r2 ∧
        r2.fetches = q :: rest) := by
  rcases readAt_cases f d svc p off with ⟨h0, e⟩ | ⟨h0, h1, e⟩ | ⟨h0, h1, e⟩
  · rw [e] at h; cases h
    rcases readAt_cases g { d with cache := cache2 } svc2 p2 off with
      ⟨_, e2⟩ | ⟨_, _, e2⟩ | ⟨_, _, e2⟩
    · exact ⟨fun _ => ⟨_, e2, rfl, rfl, rfl, rfl, rfl, rfl, rfl⟩,
        fun hx => by simp [LoopState.ret, isFetchFailure] at hx⟩
    · omega
    · omega
  · rw [e] at h; cases h
    rcases readAt_cases g { d with cache := cache2 } svc2 p2 off with
      ⟨_, e2⟩ | ⟨_, _, e2⟩ | ⟨_, h3, e2⟩
    · omega
    · exact ⟨fun _ => ⟨_, e2, rfl, rfl, rfl, rfl, rfl, rfl, rfl⟩,
        fun hx => by simp [LoopState.ret, isFetchFailure] at hx⟩
    · simp only at h3; omega
  · rcases readAt_cases g { d with cache := cache2 } svc2 p2 off with
      ⟨_, e2⟩ | ⟨_, h3, e2⟩ | ⟨_, _, e2⟩
    · omega
    · simp only at h3; omega
    · rw [e] at h
      rw [e2, hp2]
      have same : SameCall (initState d svc p off)
          (initState { d with cache := cache2 } svc2 p2 off) :=
        ⟨rfl, by simp [initState, hp2], rfl, by simp [initState, hp2], by simp [initState]⟩
      have inv2 : CountInv p.length (initState { d with cache := cache2 } svc2 p2 off) := by
        rw [← hp2]; exact initState_count _ svc2 p2 off
      have := readLoop_replay f g d.size d.chunkSize off p.length hp hf hg p.length
        (initState d svc p off) (initState { d with cache := cache2 } svc2 p2 off) r h
        (initState_pos d svc p off h0 hoff) (initState_count d svc p off) inv2 same hcb hcb2
        hext (by simp [initState])
      simpa [initState] using this

theorem fourBytes_bounded : FetchBounded fourBytes := by
  intro s a b data s1 h
  simp only [fourBytes, Prod.mk.injEq, FetchResult.ok.injEq] at h
  rw [← h.1]
  decide

theorem alwaysFails_bounded : FetchBounded alwaysFails := by
  intro s a b data s1 h
  simp [alwaysFails] at h

theorem failsAfter_bounded : FetchBounded failsAfter := by
  intro s a b data s1 h
  cases s with
  | zero => simp [failsAfter] at h
  | succ s =>
    simp only [failsAfter, Prod.mk.injEq, FetchResult.ok.injEq] at h
    rw [← h.1]
    decide

theorem emptyCache_bounded : CacheBounded (fun _ => none) := by
  intro k buf h
  cases h

theorem readLoop_zero_chunk {β : Type} (fetch : Fetch β) (size : Int) (fuel : Nat)
    (st : LoopState β) (r : ReadResult β) (h : readLoop fetch size 0 fuel st = some r) :
    isFetchFailure r.err = false := by
  unfold readLoop at h
  split_ifs at h
  · cases fuel with
    | zero => cases h
    | succ fuel =>
      simp only [loopBody_zero] at h
      cases h
      rfl
  · cases h; rfl
  · cases h; rfl

theorem fetchRun_append {β : Type} (fetch : Fetch β) (a b : List RangeReq) :
    ∀ s : β, fetchRun fetch s (a ++ b)
      = ((fetchRun fetch s a).1 ++ (fetchRun fetch (fetchRun fetch s a).2 b).1,
         (fetchRun fetch (fetchRun fetch s a).2 b).2) := by
  induction a with
  | nil => intro s; rfl
  | cons q a ih =>
    intro s
    show fetchRun fetch s (q :: (a ++ b)) = _
    simp only [fetchRun]
    rw [ih]
    rfl

theorem fetchRun_length {β : Type} (fetch : Fetch β) (a : List RangeReq) :
    ∀ s : β, (fetchRun fetch s a).1.length = a.length := by
  induction a with
  | nil => intro s; rfl
  | cons q a ih =>
    intro s
    simp only [fetchRun, List.length_cons, ih]

theorem failureTail_nil (e : Option ReadErr) (h : isFetchFailure e = false) :
    failureTail e = [] := by
  cases e with
  | none => rfl
  | some e => cases e <;> first | rfl | cases h

/-- One pass through the loop body of `ReadAt` whose chunk is not cached, by the
answer of the backend: a failed download or a failed read of the body returns
the error with the counters, the buffer and the cache as they were; a body is
stored and copied from. -/
theorem loopBody_miss {β : Type} (fetch : Fetch β) (size c : Int) (st : LoopState β)
    (hc : c ≠ 0) (hk : st.cache (chunkIdxOf c st.pos) = none) :
    ((fetch st.svc (reqFor size c st.pos).first (reqFor size c st.pos).last).1
        = .downloadFailed →
      loopBody fetch size c st = .inl
        { n := st.n, err := some .rangeDownloadFailed, panicked := none, p := st.p,
          cache := st.cache,
          svc := (fetch st.svc (reqFor size c st.pos).first (reqFor size c st.pos).last).2,
          fetches := st.fetches ++ [reqFor size c st.pos] }) ∧
    ((fetch st.svc (reqFor size c st.pos).first (reqFor size c st.pos).last).1
        = .readFailed →
      loopBody fetch size c st = .inl
        { n := st.n, err := some .readResponseFailed, panicked := none, p := st.p,
          cache := st.cache,
          svc := (fetch st.svc (reqFor size c st.pos).first (reqFor size c st.pos).last).2,
          fetches := st.fetches ++ [reqFor size c st.pos] }) ∧
    (∀ data, (fetch st.svc (reqFor size c st.pos).first (reqFor size c st.pos).last).1
        = .ok data →
      loopBody fetch size c st = copyStep
        { st with
          svc := (fetch st.svc (reqFor size c st.pos).first (reqFor size c st.pos).last).2
          fetches := st.fetches ++ [reqFor size c st.pos]
          cache := cacheSet st.cache (chunkIdxOf c st.pos) data }
        (reqFor size c st.pos).first data) := by
  unfold chunkIdxOf at hk
  have e : loopBody fetch size c st
      = match fetch st.svc (reqFor size c st.pos).first (reqFor size c st.pos).last with
        | (.downloadFailed, svc) =>
          .inl ({ st with svc := svc, fetches := st.fetches ++ [reqFor size c st.pos] }.ret
            (some .rangeDownloadFailed))
        | (.readFailed, svc) =>
          .inl ({ st with svc := svc, fetches := st.fetches ++ [reqFor size c st.pos] }.ret
            (some .readResponseFailed))
        | (.ok data, svc) =>
          copyStep { st with svc := svc, fetches := st.fetches ++ [reqFor size c st.pos],
                             cache := cacheSet st.cache (chunkIdxOf c st.pos) data }
            (reqFor size c st.pos).first data := by
    unfold loopBody reqFor chunkIdxOf
    rw [if_neg hc]
    simp only
    rw [hk]
  rw [e]
  rcases hx : fetch st.svc (reqFor size c st.pos).first (reqFor size c st.pos).last
    with ⟨res, svc1⟩
  refine ⟨?_, ?_, ?_⟩
  · intro h
    simp only at h
    subst h
    rfl
  · intro h
    simp only at h
    subst h
    rfl
  · intro data h
    simp only at h
    subst h
    rfl

/-- The answers of the backend along one pass through the loop body of `ReadAt`:
the pass issues at most one request, to which the backend answers with a body
unless the pass returns a fetch error, and then the failed answer is the one
that goes with the error. -/
theorem loopBody_run {β : Type} (fetch : Fetch β) (size c : Int) (st : LoopState β) :
    (∀ st1, loopBody fetch size c st = .inr st1 →
      ∃ new oks, st1.fetches = st.fetches ++ new ∧ fetchRun fetch st.svc new = (oks, st1.svc) ∧
        ∀ o ∈ oks, ∃ data, o = FetchResult.ok data) ∧
    (∀ r, loopBody fetch size c st = .inl r →
      ∃ new oks, r.fetches = st.fetches ++ new ∧
        fetchRun fetch st.svc new = (oks ++ failureTail r.err, r.svc) ∧
        ∀ o ∈ oks, ∃ data, o = FetchResult.ok data) := by
  by_cases hc : c = 0
  · subst hc
    rw [loopBody_zero]
    refine ⟨fun st1 h => (by cases h), fun r h => ?_⟩
    cases h
    exact ⟨[], [], by simp [LoopState.panic], rfl, by simp⟩
  · have hcached : ∀ (st0 : LoopState β) (cs : Int) (buf : List Byte),
        st0.fetches = st.fetches → st0.svc = st.svc →
        (∀ st1, copyStep st0 cs buf = .inr st1 →
          ∃ new oks, st1.fetches = st.fetches ++ new ∧
            fetchRun fetch st.svc new = (oks, st1.svc) ∧
            ∀ o ∈ oks, ∃ data, o = FetchResult.ok data) ∧
        (∀ r, copyStep st0 cs buf = .inl r →
          ∃ new oks, r.fetches = st.fetches ++ new ∧
            fetchRun fetch st.svc new = (oks ++ failureTail r.err, r.svc) ∧
            ∀ o ∈ oks, ∃ data, o = FetchResult.ok data) := by
      intro st0 cs buf hf hs
      constructor
      · intro st1 h
        obtain ⟨-, h2, h3, -⟩ := copyStep_inr _ _ _ _ h
        exact ⟨[], [], by rw [h2, hf]; simp, by rw [h3, hs]; rfl, by simp⟩
      · intro r h
        obtain ⟨-, h2, h3, -, -, h6⟩ := copyStep_inl _ _ _ _ h
        exact ⟨[], [], by rw [h2, hf]; simp,
          by rw [h3, hs, failureTail_nil _ h6]; rfl, by simp⟩
    rcases loopBody_cases fetch size c st hc with ⟨buf, -, hb⟩ | ⟨hk, -⟩
    · rw [hb]
      exact hcached st _ buf rfl rfl
    · obtain ⟨m1, m2, m3⟩ := loopBody_miss fetch size c st hc hk
      rcases hx : fetch st.svc (reqFor size c st.pos).first (reqFor size c st.pos).last
        with ⟨res, svc1⟩
      rw [hx] at m1 m2 m3
      have hrun : fetchRun fetch st.svc [reqFor size c st.pos] = ([res], svc1) := by
        simp only [fetchRun, hx]
      cases res with
      | downloadFailed =>
        rw [m1 rfl]
        refine ⟨fun st1 h => (by cases h), fun r h => ?_⟩
        cases h
        exact ⟨[reqFor size c st.pos], [], rfl, hrun, by simp⟩
      | readFailed =>
        rw [m2 rfl]
        refine ⟨fun st1 h => (by cases h), fun r h => ?_⟩
        cases h
        exact ⟨[reqFor size c st.pos], [], rfl, hrun, by simp⟩
      | ok data =>
        rw [m3 data rfl]
        constructor
        · intro st1 h
          obtain ⟨-, h2, h3, -⟩ := copyStep_inr _ _ _ _ h
          exact ⟨[reqFor size c st.pos], [FetchResult.ok data], h2, by rw [hrun, h3],
            by simp⟩
        · intro r h
          obtain ⟨-, h2, h3, -, -, h6⟩ := copyStep_inl _ _ _ _ h
          exact ⟨[reqFor size c st.pos], [FetchResult.ok data], h2,
            by rw [hrun, h3, failureTail_nil _ h6]; rfl, by simp⟩

/-- The answers of the backend along a run of the loop of `ReadAt`: every
request but the last got a body, and so did the last one unless the run returns
a fetch error, which then is the error of the failed last answer. -/
theorem readLoop_run {β : Type} (fetch : Fetch β) (size c : Int) :
    ∀ (fuel : Nat) (st : LoopState β) (r : ReadResult β),
      readLoop fetch size c fuel st = some r →
      ∃ new oks, r.fetches = st.fetches ++ new ∧
        fetchRun fetch st.svc new = (oks ++ failureTail r.err, r.svc) ∧
        ∀ o ∈ oks, ∃ data, o = FetchResult.ok data := by
  intro fuel
  induction fuel with
  | zero =>
    intro st r h
    unfold readLoop at h
    split_ifs at h <;> cases h <;> exact ⟨[], [], by simp [LoopState.ret], rfl, by simp⟩
  | succ fuel ih =>
    intro st r h
    unfold readLoop at h
    split_ifs at h with hcond hlt
    · simp only at h
      obtain ⟨hr1, hr2⟩ := loopBody_run fetch size c st
      cases hb : loopBody fetch size c st with
      | inl r1 =>
        rw [hb] at h
        cases h
        exact hr2 r hb
      | inr st1 =>
        rw [hb] at h
        obtain ⟨new1, oks1, e1, e2, e3⟩ := hr1 st1 hb
        obtain ⟨new2, oks2, f1, f2, f3⟩ := ih st1 r h
        refine ⟨new1 ++ new2, oks1 ++ oks2, by rw [f1, e1, List.append_assoc], ?_, ?_⟩
        · rw [fetchRun_append, e2]
          simp only
          rw [f2, List.append_assoc]
        · intro o ho
          rcases List.mem_append.1 ho with ho | ho
          · exact e3 o ho
          · exact f3 o ho
    · cases h; exact ⟨[], [], by simp [LoopState.ret], rfl, by simp⟩
    · cases h; exact ⟨[], [], by simp [LoopState.ret], rfl, by simp⟩

/-- The answers of the backend along a call of `ReadAt`. -/
theorem readAt_run {β : Type} (fetch : Fetch β) (d : DriveReaderAt) (svc : β)
    (p : List Byte) (off : Int) (r : ReadResult β) (h : ReadAt fetch d svc p off = some r) :
    ∃ oks, fetchRun fetch svc r.fetches = (oks ++ failureTail r.err, r.svc) ∧
      ∀ o ∈ oks, ∃ data, o = FetchResult.ok data := by
  rcases readAt_cases fetch d svc p off with ⟨_, e⟩ | ⟨_, _, e⟩ | ⟨_, _, e⟩
  · rw [e] at h
    cases h
    exact ⟨[], rfl, by simp⟩
  · rw [e] at h
    cases h
    exact ⟨[], rfl, by simp⟩
  · rw [e] at h
    obtain ⟨new, oks, h1, h2, h3⟩ := readLoop_run fetch d.size d.chunkSize p.length _ r h
    have h1' : r.fetches = new := by simpa [initState] using h1
    rw [h1']
    exact ⟨oks, by simpa [initState] using h2, h3⟩

/-- C6: a failed fetch is not cached. If during a call `ReadAt(p, off)` the
backend answers a request `q` of the call with a failed download or a failed
read of the body, then the call returns the error of that failure; `q` is the
last request it issued and is for the chunk that holds position `off + n`,
where `n` (with `0 ≤ n ≤ len(p)`) is the number of bytes returned; the cache
has no entry for that chunk afterwards, every entry cached before the call is
still there unchanged, every chunk requested earlier in the call is cached; and
the next call on this reader that needs the chunk requests it again: a
repetition of the call issues `q` as its first request, and so does every call
that starts inside that chunk. In terms of one pass through the loop: when the
chunk is not cached and the backend's answer is a failure, the pass returns the
error of the failure with the counters, the buffer and the cache as they
were. -/
theorem C6_failed_fetch_not_cached {β γ : Type} (f : Fetch β) (g : Fetch γ)
    (d : DriveReaderAt) (svc : β) (svc2 : γ) (p p2 : List Byte) (off : Int)
    (r : ReadResult β) (q : RangeReq) (res : FetchResult)
    (hoff : off ≤ maxInt64) (hp : (p.length : Int) ≤ maxInt64) (hp2 : p2.length = p.length)
    (hf : FetchBounded f) (hg : FetchBounded g) (hcb : CacheBounded d.cache)
    (h : ReadAt f d svc p off = some r)
    (hq : (q, res) ∈ List.zip r.fetches (fetchOutcomes f svc r.fetches))
    (hres : res = .downloadFailed ∨ res = .readFailed) :
    r.err = fetchError res ∧
    (∃ pre, r.fetches = pre ++ [q] ∧
      q.chunkIdx = chunkIdxOf d.chunkSize (wrapInt64 (off + r.n)) ∧
      0 ≤ r.n ∧ r.n ≤ (p.length : Int) ∧
      r.cache q.chunkIdx = none ∧
      CacheExtends d.cache r.cache ∧
      (∀ q1 ∈ pre, (r.cache q1.chunkIdx).isSome = true) ∧
      (∃ r2 rest, ReadAt g { d with cache := r.cache } svc2 p2 off = some r2 ∧
        r2.fetches = q :: rest) ∧
      (∀ (p3 : List Byte) (off3 : Int), 0 ≤ off3 → off3 < d.size → off3 ≤ maxInt64 → p3 ≠ [] →
        (p3.length : Int) ≤ maxInt64 → chunkIdxOf d.chunkSize off3 = q.chunkIdx →
        ∃ r3 rest, ReadAt g { d with cache := r.cache } svc2 p3 off3 = some r3 ∧
          r3.fetches = reqFor d.size d.chunkSize off3 :: rest)) ∧
    (∀ (st : LoopState β) (res1 : FetchResult), d.chunkSize ≠ 0 →
      st.cache (chunkIdxOf d.chunkSize st.pos) = none →
      (f st.svc (reqFor d.size d.chunkSize st.pos).first
        (reqFor d.size d.chunkSize st.pos).last).1 = res1 →
      res1 = .downloadFailed ∨ res1 = .readFailed →
      ∃ r1, loopBody f d.size d.chunkSize st = .inl r1 ∧ r1.err = fetchError res1 ∧
        r1.n = st.n ∧ r1.p = st.p ∧ r1.cache = st.cache ∧
        r1.fetches = st.fetches ++ [reqFor d.size d.chunkSize st.pos]) := by
  obtain ⟨oks, hrun, hoks⟩ := readAt_run f d svc p off r h
  have hlen := fetchRun_length f r.fetches svc
  unfold fetchOutcomes at hq
  rw [hrun] at hq hlen
  simp only at hq hlen
  have hnotok : res ∉ oks := by
    intro hm
    obtain ⟨data, hd⟩ := hoks res hm
    rcases hres with h1 | h1 <;> rw [h1] at hd <;> cases hd
  have htail : res ∈ failureTail r.err := by
    rcases List.mem_append.1 (List.of_mem_zip hq).2 with hm | hm
    · exact absurd hm hnotok
    · exact hm
  have herr : r.err = fetchError res ∧ isFetchFailure r.err = true ∧
      failureTail r.err = [res] := by
    cases he : r.err with
    | none => rw [he] at htail; simp [failureTail] at htail
    | some e =>
      rw [he] at htail
      cases e <;> simp only [failureTail, List.mem_singleton, List.not_mem_nil] at htail <;>
        (subst htail; exact ⟨rfl, rfl, rfl⟩)
  obtain ⟨herr1, hfail, htl⟩ := herr
  rw [htl] at hq hlen
  obtain ⟨r', hr', hcbr, hn0, hn1, -, htr⟩ := readAt_total f d svc p off hoff hp hf hcb
  rw [h] at hr'
  cases hr'
  obtain ⟨new, hnew, -, -, -, hfl⟩ := htr.fetched
  obtain ⟨pre, q', hpq, hqnone, hpre, hqidx⟩ := hfl hfail
  have hnew' : r.fetches = pre ++ [q'] := by rw [← hpq]; simpa [initState] using hnew
  have hqq : q = q' := by
    rw [hnew'] at hq hlen
    have hl : pre.length = oks.length := by
      simp only [List.length_append, List.length_singleton] at hlen
      omega
    rw [List.zip_append hl] at hq
    rcases List.mem_append.1 hq with hm | hm
    · exact absurd (List.of_mem_zip hm).2 hnotok
    · simp only [List.zip_cons_cons, List.zip_nil_right, List.mem_singleton,
        Prod.mk.injEq] at hm
      exact hm.1
  subst hqq
  have hc : d.chunkSize ≠ 0 := by
    intro hc
    rcases readAt_cases f d svc p off with ⟨_, e⟩ | ⟨_, _, e⟩ | ⟨_, _, e⟩
    · rw [e] at h; cases h; cases hfail
    · rw [e] at h; cases h; cases hfail
    · rw [e, hc] at h
      rw [readLoop_zero_chunk f d.size p.length _ r h] at hfail
      cases hfail
  refine ⟨herr1, ⟨pre, hnew', hqidx, hn0, hn1, hqnone, htr.extends_cache, hpre, ?_, ?_⟩, ?_⟩
  · exact (readAt_replay f g d svc svc2 p p2 off r r.cache hoff hp hp2 hf hg hcb hcbr h
      (fun _ _ hx => hx)).2 hfail q (by rw [hnew']; simp) hqnone
  · intro p3 off3 h0 h1 h64 hne hp3 hk
    have hmax : maxInt64 = 2 ^ 63 - 1 := rfl
    obtain ⟨r3, hr3, -⟩ := readAt_total g { d with cache := r.cache } svc2 p3 off3
      h64 hp3 hg hcbr
    rcases readAt_cases g { d with cache := r.cache } svc2 p3 off3 with
      ⟨_, e⟩ | ⟨_, h3, e⟩ | ⟨_, _, e⟩
    · omega
    · simp only at h3; omega
    · rw [e] at hr3
      have hlen3 : 0 < p3.length := List.length_pos.mpr hne
      obtain ⟨rest, hrest⟩ := readLoop_first_fetch g d.size d.chunkSize p3.length
        (initState { d with cache := r.cache } svc2 p3 off3) r3 hc
        ⟨by simp only [initState]; omega, h1⟩
        (by simp only [initState]; rw [hk]; exact hqnone) hr3
      exact ⟨r3, rest, by rw [e]; exact hr3, by simpa [initState] using hrest⟩
  · intro st res1 hc1 hk hx hr1
    obtain ⟨m1, m2, -⟩ := loopBody_miss f d.size d.chunkSize st hc1 hk
    rcases hr1 with h1 | h1
    · subst h1
      exact ⟨_, m1 hx, rfl, rfl, rfl, rfl, rfl⟩
    · subst h1
      exact ⟨_, m2 hx, rfl, rfl, rfl, rfl, rfl⟩

/-- The result of the failing call of the C6 witness. -/
theorem failsAfter_run :
    ReadAt failsAfter (NewDriveReaderAt 8 4) 1 [0, 0, 0, 0, 0, 0] 2 = some
      { n := 2, err := some .rangeDownloadFailed, panicked := none, p := [3, 4, 0, 0, 0, 0],
        cache := cacheSet (fun _ => none) 0 [1, 2, 3, 4], svc := 0,
        fetches := [⟨0, 0, 3⟩, ⟨1, 4, 7⟩] } := by
  rfl
/-- C6, witness: chunk 0 is served, the request for chunk 1 fails. -/
theorem C6_failed_fetch_not_cached_witness :
    fetchOutcomes failsAfter 1 [(⟨0, 0, 3⟩ : RangeReq), ⟨1, 4, 7⟩]
      = [.ok [1, 2, 3, 4], .downloadFailed] ∧
    (some ReadErr.rangeDownloadFailed = fetchError .downloadFailed ∧
    (∃ pre, [(⟨0, 0, 3⟩ : RangeReq), ⟨1, 4, 7⟩] = pre ++ [⟨1, 4, 7⟩] ∧
      (1 : Int) = chunkIdxOf (NewDriveReaderAt 8 4).chunkSize (wrapInt64 (2 + 2)) ∧
      (0 : Int) ≤ 2 ∧ (2 : Int) ≤ (([0, 0, 0, 0, 0, 0] : List Byte).length : Int) ∧
      cacheSet (fun _ => none) 0 [1, 2, 3, 4] 1 = none ∧
      CacheExtends (NewDriveReaderAt 8 4).cache (cacheSet (fun _ => none) 0 [1, 2, 3, 4]) ∧
      (∀ q1 ∈ pre, (cacheSet (fun _ => none) 0 [1, 2, 3, 4] q1.chunkIdx).isSome = true) ∧
      (∃ r2 rest, ReadAt fourBytes
          { NewDriveReaderAt 8 4 with cache := cacheSet (fun _ => none) 0 [1, 2, 3, 4] } ()
          [9, 9, 9, 9, 9, 9] 2 = some r2 ∧
        r2.fetches = ⟨1, 4, 7⟩ :: rest) ∧
      (∀ (p3 : List Byte) (off3 : Int), 0 ≤ off3 → off3 < (NewDriveReaderAt 8 4).size →
        off3 ≤ maxInt64 → p3 ≠ [] →
        (p3.length : Int) ≤ maxInt64 →
        chunkIdxOf (NewDriveReaderAt 8 4).chunkSize off3 = 1 →
        ∃ r3 rest, ReadAt fourBytes
            { NewDriveReaderAt 8 4 with cache := cacheSet (fun _ => none) 0 [1, 2, 3, 4] } ()
            p3 off3 = some r3 ∧
          r3.fetches = reqFor (NewDriveReaderAt 8 4).size (NewDriveReaderAt 8 4).chunkSize off3
            :: rest))) :=
  ⟨by decide,
   (C6_failed_fetch_not_cached failsAfter fourBytes (NewDriveReaderAt 8 4) 1 () [0, 0, 0, 0, 0, 0]
    [9, 9, 9, 9, 9, 9] 2 _ ⟨1, 4, 7⟩ .downloadFailed (by decide) (by decide) rfl
    failsAfter_bounded fourBytes_bounded emptyCache_bounded failsAfter_run (by decide)
    (Or.inl rfl)).1,
   (C6_failed_fetch_not_cached failsAfter fourBytes (NewDriveReaderAt 8 4) 1 () [0, 0, 0, 0, 0, 0]
    [9, 9, 9, 9, 9, 9] 2 _ ⟨1, 4, 7⟩ .downloadFailed (by decide) (by decide) rfl
    failsAfter_bounded fourBytes_bounded emptyCache_bounded failsAfter_run (by decide)
    (Or.inl rfl)).2.1⟩
/-! ## Theorems: paths -/

theorem hasPrefix_iff (s pre : GoString) : HasPrefix s pre = true ↔ ∃ rest, s = pre ++ rest := by
  induction pre generalizing s with
  | nil => simp [HasPrefix]
  | cons d pre ih =>
    cases s with
    | nil => simp [HasPrefix]
    | cons c s =>
      simp only [HasPrefix, Bool.and_eq_true, beq_iff_eq, ih, List.cons_append, List.cons.injEq]
      constructor
      · rintro ⟨rfl, rest, rfl⟩; exact ⟨rest, rfl, rfl⟩
      · rintro ⟨rest, rfl, rfl⟩; exact ⟨rfl, rest, rfl⟩

theorem splitSep_ne_nil (p : GoString) : splitSep p ≠ [] := by
  cases p with
  | nil => simp [splitSep]
  | cons c cs =>
    simp only [splitSep]
    split_ifs
    · simp
    · split <;> simp

theorem splitSep_no_sep (p : GoString) : ∀ s ∈ splitSep p, Separator ∉ s := by
  induction p with
  | nil => simp [splitSep]
  | cons c cs ih =>
    simp only [splitSep]
    split_ifs with hc
    · intro s hs
      rcases List.mem_cons.mp hs with rfl | hs
      · simp
      · exact ih s hs
    · cases hsp : splitSep cs with
      | nil => exact absurd hsp (splitSep_ne_nil cs)
      | cons s0 ss =>
        rw [hsp] at ih
        intro s hs
        simp only [List.mem_cons] at hs
        rcases hs with rfl | hs
        · intro hmem
          rcases List.mem_cons.mp hmem with h | h
          · exact hc h.symm
          · exact ih s0 (List.mem_cons_self _ _) h
        · exact ih s (List.mem_cons_of_mem _ hs)

theorem cleanStep_proper (stack : List GoString) (seg : GoString)
    (hst : ∀ s ∈ stack, ProperSeg s) (hseg : Separator ∉ seg) :
    ∀ s ∈ cleanStep true stack seg, ProperSeg s := by
  unfold cleanStep
  by_cases h1 : seg = [] ∨ seg = ['.']
  · rw [if_pos h1]; exact hst
  · rw [if_neg h1]
    by_cases h2 : seg = ['.', '.']
    · rw [if_pos h2]
      cases stack with
      | nil => simp
      | cons top below =>
        simp only
        have htop := hst top (List.mem_cons_self _ _)
        rw [if_neg htop.2.2.2]
        exact fun s hs => hst s (List.mem_cons_of_mem _ hs)
    · rw [if_neg h2]
      intro s hs
      rcases List.mem_cons.mp hs with rfl | hs
      · exact ⟨fun h => h1 (Or.inl h), hseg, fun h => h1 (Or.inr h), h2⟩
      · exact hst s hs

theorem foldl_cleanStep_proper (segs : List GoString) (hsegs : ∀ s ∈ segs, Separator ∉ s) :
    ∀ stack : List GoString, (∀ s ∈ stack, ProperSeg s) →
      ∀ s ∈ segs.foldl (cleanStep true) stack, ProperSeg s := by
  induction segs with
  | nil => intro stack h; simpa using h
  | cons seg rest ih =>
    intro stack h
    simp only [List.foldl_cons]
    exact ih (fun s hs => hsegs s (List.mem_cons_of_mem _ hs)) _
      (cleanStep_proper stack seg h (hsegs seg (List.mem_cons_self _ _)))

theorem cleanSegs_proper (p : GoString) : ∀ s ∈ cleanSegs true p, ProperSeg s := by
  intro s hs
  unfold cleanSegs at hs
  rw [List.mem_reverse] at hs
  exact foldl_cleanStep_proper _ (splitSep_no_sep p) [] (by simp) s hs

theorem isAbs_iff (p : GoString) : IsAbs p = true ↔ ∃ rest, p = Separator :: rest := by
  unfold IsAbs
  rw [hasPrefix_iff]
  simp

theorem clean_rooted (p : GoString) (h : IsAbs p = true) :
    Clean p = Separator :: joinSep (cleanSegs true p) := by
  obtain ⟨rest, rfl⟩ := (isAbs_iff p).mp h
  unfold Clean
  rw [if_neg (by simp), h]
  simp

/-- With a rooted working directory `filepath.Abs` returns the root followed by
proper path elements. -/
theorem abs_form (wd : Option GoString) (hwd : ∀ w, wd = some w → IsAbs w = true)
    (p a : GoString) (h : Abs wd p = some a) :
    ∃ segs, (∀ s ∈ segs, ProperSeg s) ∧ a = Separator :: joinSep segs := by
  unfold Abs at h
  split_ifs at h with hp
  · cases h
    exact ⟨_, cleanSegs_proper p, clean_rooted p hp⟩
  · cases wd with
    | none => cases h
    | some w =>
      simp only [Option.some.injEq] at h
      obtain ⟨rest, hw⟩ := (isAbs_iff w).mp (hwd w rfl)
      have hne : w ≠ [] := by rw [hw]; simp
      have habs : IsAbs (w ++ Separator :: p) = true := by
        rw [isAbs_iff]; exact ⟨rest ++ Separator :: p, by rw [hw]; rfl⟩
      unfold Join at h
      rw [if_pos hne] at h
      rw [← h]
      exact ⟨_, cleanSegs_proper _, clean_rooted _ habs⟩

theorem joinSep_cons (s : GoString) (ss : List GoString) :
    joinSep (s :: ss) = s ++ (if ss = [] then [] else Separator :: joinSep ss) := by
  cases ss with
  | nil => simp [joinSep]
  | cons t ts => simp [joinSep]

theorem joinSep_append (bs segs : List GoString) (hb : bs ≠ []) (hs : segs ≠ []) :
    joinSep (bs ++ segs) = joinSep bs ++ Separator :: joinSep segs := by
  induction bs with
  | nil => exact absurd rfl hb
  | cons b bs ih =>
    cases bs with
    | nil =>
      cases segs with
      | nil => exact absurd rfl hs
      | cons t ts => simp [joinSep]
    | cons b2 bs2 =>
      have := ih (by simp)
      simp only [List.cons_append] at this ⊢
      simp only [joinSep, this, List.append_assoc, List.cons_append]

/-- Two elements without separator that are followed by a separator or the end
of the string and start the same string are equal. -/
theorem seg_unique (a b x y : GoString) (ha : Separator ∉ a) (hb : Separator ∉ b)
    (hy : y = [] ∨ ∃ y1, y = Separator :: y1) (h : a ++ Separator :: x = b ++ y) :
    a = b ∧ Separator :: x = y := by
  induction a generalizing b with
  | nil =>
    cases b with
    | nil => exact ⟨rfl, by simpa using h⟩
    | cons c b =>
      simp only [List.nil_append, List.cons_append, List.cons.injEq] at h
      exact absurd (h.1 ▸ List.mem_cons_self _ _) hb
  | cons c a ih =>
    cases b with
    | nil =>
      simp only [List.nil_append, List.cons_append] at h
      rcases hy with rfl | ⟨y1, rfl⟩
      · cases h
      · simp only [List.cons.injEq] at h
        exact absurd (h.1 ▸ List.mem_cons_self _ _) ha
    | cons c2 b =>
      simp only [List.cons_append, List.cons.injEq] at h
      obtain ⟨h1, h2⟩ := ih b (fun hm => ha (List.mem_cons_of_mem _ hm))
        (fun hm => hb (List.mem_cons_of_mem _ hm)) h.2
      exact ⟨by rw [h.1, h1], h2⟩

/-- A string of joined proper elements that continues, after a separator, to a
second string of joined proper elements: the second list of elements extends
the first one. -/
theorem joinSep_extends (bs ts : List GoString) (rest : GoString) (hb : bs ≠ [])
    (hbs : ∀ s ∈ bs, ProperSeg s) (hts : ∀ s ∈ ts, ProperSeg s)
    (h : joinSep bs ++ Separator :: rest = joinSep ts) :
    ∃ segs, segs ≠ [] ∧ ts = bs ++ segs ∧ rest = joinSep segs := by
  induction bs generalizing ts with
  | nil => exact absurd rfl hb
  | cons b bs ih =>
    cases ts with
    | nil =>
      rw [joinSep_cons] at h
      simp [joinSep] at h
    | cons t ts =>
      have hbp := hbs b (List.mem_cons_self _ _)
      have htp := hts t (List.mem_cons_self _ _)
      rw [joinSep_cons b, joinSep_cons t, List.append_assoc] at h
      by_cases hbe : bs = []
      · subst hbe
        simp only [if_true, List.nil_append] at h
        have hy : (if ts = [] then [] else Separator :: joinSep ts) = [] ∨
            ∃ y1, (if ts = [] then [] else Separator :: joinSep ts) = Separator :: y1 := by
          split_ifs
          · exact Or.inl rfl
          · exact Or.inr ⟨_, rfl⟩
        obtain ⟨h1, h2⟩ := seg_unique b t rest _ hbp.2.1 htp.2.1 hy h
        by_cases hte : ts = []
        · rw [if_pos hte] at h2; cases h2
        · rw [if_neg hte] at h2
          simp only [List.cons.injEq, true_and] at h2
          exact ⟨ts, hte, by rw [h1]; rfl, h2⟩
      · rw [if_neg hbe] at h
        simp only [List.cons_append] at h
        have hy : (if ts = [] then [] else Separator :: joinSep ts) = [] ∨
            ∃ y1, (if ts = [] then [] else Separator :: joinSep ts) = Separator :: y1 := by
          split_ifs
          · exact Or.inl rfl
          · exact Or.inr ⟨_, rfl⟩
        obtain ⟨h1, h2⟩ := seg_unique b t _ _ hbp.2.1 htp.2.1 hy h
        by_cases hte : ts = []
        · rw [if_pos hte] at h2; cases h2
        · rw [if_neg hte] at h2
          simp only [List.cons.injEq, true_and] at h2
          obtain ⟨segs, hs1, hs2, hs3⟩ := ih ts hbe
            (fun s hs => hbs s (List.mem_cons_of_mem _ hs))
            (fun s hs => hts s (List.mem_cons_of_mem _ hs)) h2
          exact ⟨segs, hs1, by rw [h1, hs2]; rfl, hs3⟩

theorem joinSep_injective (as bs : List GoString) (ha : ∀ s ∈ as, ProperSeg s)
    (hb : ∀ s ∈ bs, ProperSeg s) (h : joinSep as = joinSep bs) : as = bs := by
  induction as generalizing bs with
  | nil =>
    cases bs with
    | nil => rfl
    | cons b bs =>
      have hbp := hb b (List.mem_cons_self _ _)
      rw [joinSep_cons] at h
      cases b with
      | nil => exact absurd rfl hbp.1
      | cons c b => simp [joinSep] at h
  | cons a as ih =>
    have hap := ha a (List.mem_cons_self _ _)
    cases bs with
    | nil =>
      rw [joinSep_cons] at h
      cases a with
      | nil => exact absurd rfl hap.1
      | cons c a => simp [joinSep] at h
    | cons b bs =>
      have hbp := hb b (List.mem_cons_self _ _)
      rw [joinSep_cons a, joinSep_cons b] at h
      by_cases hae : as = []
      · subst hae
        rw [if_pos rfl] at h
        by_cases hbe : bs = []
        · subst hbe
          simpa using h
        · rw [if_neg hbe] at h
          have := seg_unique b a (joinSep bs) [] hbp.2.1 hap.2.1 (Or.inl rfl) h.symm
          cases this.2
      · rw [if_neg hae] at h
        have hy : (if bs = [] then [] else Separator :: joinSep bs) = [] ∨
            ∃ y1, (if bs = [] then [] else Separator :: joinSep bs) = Separator :: y1 := by
          split_ifs
          · exact Or.inl rfl
          · exact Or.inr ⟨_, rfl⟩
        obtain ⟨h1, h2⟩ := seg_unique a b _ _ hap.2.1 hbp.2.1 hy h
        by_cases hbe : bs = []
        · rw [if_pos hbe] at h2; cases h2
        · rw [if_neg hbe] at h2
          simp only [List.cons.injEq, true_and] at h2
          rw [h1, ih bs (fun s hs => ha s (List.mem_cons_of_mem _ hs))
            (fun s hs => hb s (List.mem_cons_of_mem _ hs)) h2]

/-- What `IsPathWithinBase` decides, in terms of path elements: the cleaned
absolute base has at least one element and the cleaned absolute target
consists of the elements of the base followed by at least one more. -/
theorem isPathWithinBase_iff (wd : Option GoString) (hwd : ∀ w, wd = some w → IsAbs w = true)
    (base target : GoString) :
    IsPathWithinBase wd base target = true ↔
      ∃ bs segs, (∀ s ∈ bs, ProperSeg s) ∧ (∀ s ∈ segs, ProperSeg s) ∧ bs ≠ [] ∧ segs ≠ [] ∧
        Abs wd base = some (Separator :: joinSep bs) ∧
        Abs wd target = some (Separator :: joinSep (bs ++ segs)) := by
  constructor
  · intro h
    unfold IsPathWithinBase at h
    cases hb : Abs wd base with
    | none => rw [hb] at h; cases h
    | some ab =>
      cases ht : Abs wd target with
      | none => rw [hb, ht] at h; cases h
      | some at1 =>
        rw [hb, ht] at h
        simp only at h
        obtain ⟨rest, hrest⟩ := (hasPrefix_iff _ _).mp h
        obtain ⟨bs, hbs, rfl⟩ := abs_form wd hwd base ab hb
        obtain ⟨ts, hts, rfl⟩ := abs_form wd hwd target at1 ht
        simp only [List.cons_append, List.append_assoc, List.singleton_append,
          List.cons.injEq, true_and] at hrest
        by_cases hbe : bs = []
        · subst hbe
          cases ts with
          | nil => simp [joinSep] at hrest
          | cons t ts =>
            have htp := hts t (List.mem_cons_self _ _)
            rw [joinSep_cons] at hrest
            cases t with
            | nil => exact absurd rfl htp.1
            | cons c t =>
              simp only [joinSep, List.nil_append, List.cons_append, List.cons.injEq] at hrest
              exact absurd (hrest.1 ▸ List.mem_cons_self _ _) htp.2.1
        · obtain ⟨segs, hs1, hs2, -⟩ := joinSep_extends bs ts rest hbe hbs hts hrest.symm
          subst hs2
          exact ⟨bs, segs, hbs, fun s hs => hts s (List.mem_append_right _ hs), hbe, hs1, rfl, rfl⟩
  · rintro ⟨bs, segs, -, -, hbe, hse, hb, ht⟩
    unfold IsPathWithinBase
    rw [hb, ht]
    simp only
    rw [hasPrefix_iff]
    exact ⟨joinSep segs, by rw [joinSep_append bs segs hbe hse]; simp⟩

theorem splitSep_append (a b : GoString) :
    splitSep (a ++ Separator :: b) = splitSep a ++ splitSep b := by
  induction a with
  | nil => simp [splitSep]
  | cons c a ih =>
    rw [List.cons_append]
    by_cases hc : c = Separator
    · simp only [splitSep, if_pos hc, ih, List.cons_append]
    · simp only [splitSep, if_neg hc, ih]
      cases hsp : splitSep a with
      | nil => exact absurd hsp (splitSep_ne_nil a)
      | cons s ss => rfl

theorem splitSep_of_no_sep (x : GoString) (hx : Separator ∉ x) : splitSep x = [x] := by
  induction x with
  | nil => rfl
  | cons c x ih =>
    have hc : ¬ c = Separator := fun h => hx (by rw [h]; exact List.mem_cons_self _ _)
    simp only [splitSep, if_neg hc, ih (fun h => hx (List.mem_cons_of_mem _ h))]

/-- The elements of `P/../x` for a cleaned rooted `P` and a proper element `x`:
those of `P` without the last one, then `x`. -/
theorem cleanSegs_dotdot (P x : GoString) (hx : ProperSeg x) :
    cleanSegs true (P ++ Separator :: '.' :: '.' :: Separator :: x)
      = (cleanSegs true P).dropLast ++ [x] := by
  have e : P ++ Separator :: '.' :: '.' :: Separator :: x
      = P ++ Separator :: (['.', '.'] ++ Separator :: x) := by simp
  unfold cleanSegs
  rw [e, splitSep_append, splitSep_append, splitSep_of_no_sep x hx.2.1,
    splitSep_of_no_sep ['.', '.'] (by decide), List.foldl_append]
  have hproper := foldl_cleanStep_proper _ (splitSep_no_sep P) [] (by simp)
  generalize (splitSep P).foldl (cleanStep true) [] = stack at hproper
  have hx1 : ¬ (x = [] ∨ x = ['.']) := fun h => h.elim hx.1 hx.2.2.1
  cases stack with
  | nil =>
    simp [cleanStep, hx1, hx.2.2.2]
  | cons top below =>
    have htop := hproper top (List.mem_cons_self _ _)
    simp [cleanStep, hx1, hx.2.2.2, htop.2.2.2]

/-- The path that `filepath.Abs` cleans: `p` itself when it is absolute, the
working directory followed by `p` otherwise; appending to a non-empty `p`
appends to that path. -/
theorem abs_input (wd : Option GoString) (hwd : ∀ w, wd = some w → IsAbs w = true)
    (p a : GoString) (h : Abs wd p = some a) :
    ∃ P, a = Separator :: joinSep (cleanSegs true P) ∧
      ∀ y, p ≠ [] → Abs wd (p ++ y) = some (Separator :: joinSep (cleanSegs true (P ++ y))) := by
  unfold Abs at h
  by_cases hp : IsAbs p = true
  · rw [if_pos hp] at h
    cases h
    refine ⟨p, clean_rooted p hp, ?_⟩
    intro y _
    obtain ⟨rest, rfl⟩ := (isAbs_iff p).mp hp
    have : IsAbs (Separator :: rest ++ y) = true := (isAbs_iff _).mpr ⟨rest ++ y, rfl⟩
    unfold Abs
    rw [if_pos this, clean_rooted _ this]
  · rw [if_neg hp] at h
    cases wd with
    | none => cases h
    | some w =>
      simp only [Option.some.injEq] at h
      obtain ⟨rest, hw⟩ := (isAbs_iff w).mp (hwd w rfl)
      have hne : w ≠ [] := by rw [hw]; simp
      have habs : ∀ z, IsAbs (w ++ Separator :: z) = true := by
        intro z; rw [isAbs_iff]; exact ⟨rest ++ Separator :: z, by rw [hw]; rfl⟩
      unfold Join at h
      rw [if_pos hne] at h
      refine ⟨w ++ Separator :: p, by rw [← h]; exact clean_rooted _ (habs p), ?_⟩
      intro y hpne
      have hpy : ¬ IsAbs (p ++ y) = true := by
        intro hx
        apply hp
        obtain ⟨r2, hr2⟩ := (isAbs_iff _).mp hx
        cases p with
        | nil => exact absurd rfl hpne
        | cons c p =>
          simp only [List.cons_append, List.cons.injEq] at hr2
          exact (isAbs_iff _).mpr ⟨p, by rw [hr2.1]⟩
      unfold Abs
      rw [if_neg hpy]
      simp only [Join, if_pos hne]
      rw [clean_rooted _ (habs (p ++ y))]
      simp

/-- `IsPathWithinBase(base, base/../x)` is false for a proper element `x`. -/
theorem isPathWithinBase_dotdot (wd : Option GoString)
    (hwd : ∀ w, wd = some w → IsAbs w = true) (base x : GoString) (hb : base ≠ [])
    (hx : ProperSeg x) :
    IsPathWithinBase wd base (base ++ Separator :: '.' :: '.' :: Separator :: x) = false := by
  rw [Bool.eq_false_iff]
  intro h
  obtain ⟨bs, segs, hbs, hsegs, hbe, hse, hab, hat⟩ := (isPathWithinBase_iff wd hwd _ _).mp h
  obtain ⟨P, hP, hPy⟩ := abs_input wd hwd base _ hab
  have e1 : bs = cleanSegs true P :=
    joinSep_injective _ _ hbs (cleanSegs_proper P) (by simpa using hP)
  have hat2 := hPy (Separator :: '.' :: '.' :: Separator :: x) hb
  rw [hat, cleanSegs_dotdot P x hx, ← e1] at hat2
  simp only [Option.some.injEq, List.cons.injEq, true_and] at hat2
  have hpr : ∀ s ∈ bs.dropLast ++ [x], ProperSeg s := by
    intro s hs
    rcases List.mem_append.mp hs with h1 | h1
    · exact hbs s (List.dropLast_subset _ h1)
    · rw [List.mem_singleton.mp h1]; exact hx
  have e2 := joinSep_injective _ _
    (fun s hs => (List.mem_append.mp hs).elim (hbs s) (hsegs s)) hpr hat2
  have hl := congrArg List.length e2
  simp only [List.length_append, List.length_dropLast, List.length_singleton] at hl
  have : 0 < bs.length := List.length_pos.mpr hbe
  have : 0 < segs.length := List.length_pos.mpr hse
  omega

/-- C2: zip-slip soundness of `IsPathWithinBase` (Unix paths, rooted working
directory). `IsPathWithinBase(base, target)` is true only if the cleaned
absolute target is the cleaned absolute base followed by a separator and one
or more proper path elements (not empty, not `.`, not `..`) joined by
separators, so the target is a strict descendant of the base. It is false when
the target resolves to the base itself, when the target is `base/../x`, for
the absolute path `/etc/passwd` outside the base `/tmp/output`, and for the
sibling `/tmp/output2/f` of the base `/tmp/output`. -/
theorem C2_isPathWithinBase_sound (wd : Option GoString) (base target x : GoString)
    (hwd : ∀ w, wd = some w → IsAbs w = true) :
    (IsPathWithinBase wd base target = true →
      ∃ absBase absTarget segs, Abs wd base = some absBase ∧ Abs wd target = some absTarget ∧
        segs ≠ [] ∧ (∀ s ∈ segs, ProperSeg s) ∧
        absTarget = absBase ++ Separator :: joinSep segs) ∧
    (Abs wd target = Abs wd base → IsPathWithinBase wd base target = false) ∧
    (base ≠ [] → ProperSeg x →
      IsPathWithinBase wd base (base ++ "/../".toList ++ x) = false) ∧
    IsPathWithinBase wd "/tmp/output".toList "/tmp/output/../etc/passwd".toList = false ∧
    IsPathWithinBase wd "/tmp/output".toList "/etc/passwd".toList = false ∧
    IsPathWithinBase wd "/tmp/output".toList "/tmp/output2/f".toList = false ∧
    IsPathWithinBase wd "/tmp/output".toList "/tmp/output".toList = false := by
  refine ⟨?_, ?_, ?_, rfl, rfl, rfl, rfl⟩
  · intro h
    obtain ⟨bs, segs, hbs, hsegs, hbe, hse, hab, hat⟩ := (isPathWithinBase_iff wd hwd _ _).mp h
    exact ⟨_, _, segs, hab, hat, hse, hsegs, by rw [joinSep_append bs segs hbe hse]; simp⟩
  · intro heq
    rw [Bool.eq_false_iff]
    intro h
    obtain ⟨bs, segs, hbs, hsegs, hbe, hse, hab, hat⟩ := (isPathWithinBase_iff wd hwd _ _).mp h
    rw [heq, hab] at hat
    simp only [Option.some.injEq, List.cons.injEq, true_and] at hat
    have e := joinSep_injective _ _ hbs
      (fun s hs => (List.mem_append.mp hs).elim (hbs s) (hsegs s)) hat
    have hl := congrArg List.length e
    simp only [List.length_append] at hl
    have : 0 < segs.length := List.length_pos.mpr hse
    omega
  · intro hb hx
    have := isPathWithinBase_dotdot wd hwd base x hb hx
    simpa using this

/-- C2, witness: working directory `/home/u`, base `out`; the target
`out/a/b` is accepted and is `/home/u/out` followed by proper elements, the
target `out/../escape` is rejected. -/
theorem C2_isPathWithinBase_sound_witness :
    (∃ absBase absTarget segs, Abs (some "/home/u".toList) "out".toList = some absBase ∧
        Abs (some "/home/u".toList) "out/a/b".toList = some absTarget ∧
        segs ≠ [] ∧ (∀ s ∈ segs, ProperSeg s) ∧
        absTarget = absBase ++ Separator :: joinSep segs) ∧
    IsPathWithinBase (some "/home/u".toList) "out".toList
        ("out".toList ++ "/../".toList ++ "escape".toList) = false :=
  ⟨(C2_isPathWithinBase_sound (some "/home/u".toList) "out".toList "out/a/b".toList
      "escape".toList (by intro w hw; cases hw; decide)).1 (by decide),
   (C2_isPathWithinBase_sound (some "/home/u".toList) "out".toList "out/a/b".toList
      "escape".toList (by intro w hw; cases hw; decide)).2.2.1 (by decide)
      ⟨by decide, by decide, by decide, by decide⟩⟩

/-- The model of `filepath.Clean` on rows of the table `cleantests` of Go's
`path/filepath` tests. -/
theorem clean_examples :
    Clean "abc".toList = "abc".toList ∧ Clean "".toList = ".".toList ∧
    Clean "/".toList = "/".toList ∧ Clean "abc/".toList = "abc".toList ∧
    Clean "../../abc".toList = "../../abc".toList ∧
    Clean "abc//def//ghi".toList = "abc/def/ghi".toList ∧
    Clean "/./abc/def".toList = "/abc/def".toList ∧
    Clean "abc/def/../ghi/../jkl".toList = "abc/jkl".toList ∧
    Clean "abc/def/../..".toList = ".".toList ∧
    Clean "/abc/def/../../..".toList = "/".toList ∧
    Clean "abc/def/../../../ghi/jkl/../../../mno".toList = "../../mno".toList ∧
    Clean "/../abc".toList = "/abc".toList ∧
    Clean "a/../b:/../../c".toList = "../c".toList ∧
    Clean "abc/../../././../def".toList = "../../def".toList ∧
    Base "a/b/report.pdf".toList = "report.pdf".toList ∧ Base "a/b/".toList = "b".toList ∧
    Base "///".toList = "/".toList ∧ Base "".toList = ".".toList ∧
    Join "/tmp/output".toList "../evil".toList = "/tmp/evil".toList ∧
    Join "".toList "a/b".toList = "a/b".toList := by
  decide

/-! ## Theorems: `zip.go` and the sequential loop of `main` -/

/-- C4: the filter decision. `ShouldExtract(name, include, exclude)` is true
exactly when (include is empty or `filepath.Match(include, Base(name))`
matches) and (exclude is empty or `filepath.Match(exclude, Base(name))` does
not match); with both patterns empty every name is accepted, and a non-empty
exclude pattern that matches rejects the name whatever include is. -/
theorem C4_shouldExtract_iff (fpMatch : MatchFn) (name incl excl : GoString) :
    (ShouldExtract fpMatch name incl excl = true ↔
      (incl = [] ∨ (fpMatch incl (Base name)).1 = true) ∧
      (excl = [] ∨ (fpMatch excl (Base name)).1 = false)) ∧
    ShouldExtract fpMatch name [] [] = true ∧
    (excl ≠ [] → (fpMatch excl (Base name)).1 = true →
      ShouldExtract fpMatch name incl excl = false) := by
  refine ⟨?_, by simp [ShouldExtract], ?_⟩
  · unfold ShouldExtract
    by_cases hi : incl = [] <;> by_cases he : excl = [] <;>
      cases h1 : (fpMatch incl (Base name)).1 <;> cases h2 : (fpMatch excl (Base name)).1 <;>
      simp [hi, he, h1, h2]
  · intro he hm
    unfold ShouldExtract
    by_cases hi : incl = [] <;> cases h1 : (fpMatch incl (Base name)).1 <;> simp [hi, he, h1, hm]

/-- C4, witness: the entry `docs/x.png` with include `x.png` and exclude
`x.png` (patterns without metacharacters) is rejected: exclude wins. -/
theorem C4_shouldExtract_iff_witness :
    ShouldExtract literalMatch "docs/x.png".toList "x.png".toList "x.png".toList = false :=
  (C4_shouldExtract_iff literalMatch "docs/x.png".toList "x.png".toList "x.png".toList).2.2
    (by decide) (by decide)

/-- C3, the failing input: `ExtractSelectedFiles` on an archive with the entry
`../evil.txt`, selected, and output directory `/tmp/out` calls
`ExtractFile` with the target `/tmp/evil.txt`, for which `IsPathWithinBase`
is false. -/
theorem C3_extractSelectedFiles_unchecked :
    extractCalls (ExtractSelectedFiles (countingWorld 0 9) (.inr [⟨"../evil.txt".toList⟩])
        "/tmp/out".toList ["../evil.txt".toList] 0).events
      = [("../evil.txt".toList, "/tmp/evil.txt".toList)] ∧
    IsPathWithinBase (some "/srv".toList) "/tmp/out".toList "/tmp/evil.txt".toList = false := by
  decide

theorem extractCalls_append (a b : List Event) :
    extractCalls (a ++ b) = extractCalls a ++ extractCalls b := by
  induction a with
  | nil => rfl
  | cons e a ih => cases e <;> simp [extractCalls, ih]

theorem failedCalls_append (a b : List Event) :
    failedCalls (a ++ b) = failedCalls a ++ failedCalls b := by
  induction a with
  | nil => rfl
  | cons e a ih =>
    cases e with
    | extract n t err => cases err <;> simp [failedCalls, ih]
    | _ => simp [failedCalls, ih]

/-- One pass of the sequential loop of `main`, case by case. -/
theorem seqBody_spec {σ : Type} (w : World σ) (fl : Flags) (total i : Nat) (f : ZipFile)
    (st : MainState σ) :
    extractCalls (seqBody w fl total i f st).events
      = extractCalls st.events ++
        (if passesChecks fl f = true then [(f.Name, Join fl.outDir f.Name)] else []) ∧
    (seqBody w fl total i f st).skippedCount
      = st.skippedCount +
        (if ShouldExtract fl.fpMatch f.Name fl.incl fl.excl = true then 0 else 1) ∧
    (fl.skipErrors = false → st.errorList = failedCalls st.events →
      (seqBody w fl total i f st).errorList = failedCalls (seqBody w fl total i f st).events) ∧
    (fl.skipErrors = true → st.errorList = [] → (seqBody w fl total i f st).errorList = []) := by
  unfold seqBody passesChecks
  by_cases h1 : ShouldExtract fl.fpMatch f.Name fl.incl fl.excl = true
  · by_cases h2 : IsPathWithinBase fl.wd fl.outDir (Join fl.outDir f.Name) = true
    · simp only [h1, h2, not_true_eq_false, if_false, Bool.and_self, if_true, add_zero]
      rcases hx : w.extractFile st.world f (Join fl.outDir f.Name) with ⟨err, s1⟩
      cases err with
      | none =>
        simp only [extractCalls_append, failedCalls_append, extractCalls, failedCalls,
          List.append_nil, true_and]
        exact ⟨fun _ h => h, fun _ h => h⟩
      | some e =>
        simp only [extractCalls_append, failedCalls_append, extractCalls, failedCalls, true_and]
        constructor
        · intro hs he; simp [hs, he]
        · intro hs he; simp [hs, he]
    · simp [h1, h2]
  · simp [h1]

theorem seqLoop_spec {σ : Type} (w : World σ) (fl : Flags) (total : Nat) :
    ∀ (files : List ZipFile) (i : Nat) (st : MainState σ),
      extractCalls (seqLoop w fl total i files st).events
        = extractCalls st.events ++
          (files.filter (passesChecks fl)).map (fun f => (f.Name, Join fl.outDir f.Name)) ∧
      (seqLoop w fl total i files st).skippedCount
        = st.skippedCount +
          (files.filter (fun f => ! ShouldExtract fl.fpMatch f.Name fl.incl fl.excl)).length ∧
      (fl.skipErrors = false → st.errorList = failedCalls st.events →
        (seqLoop w fl total i files st).errorList
          = failedCalls (seqLoop w fl total i files st).events) ∧
      (fl.skipErrors = true → st.errorList = [] →
        (seqLoop w fl total i files st).errorList = []) := by
  intro files
  induction files with
  | nil => intro i st; simp [seqLoop]
  | cons f rest ih =>
    intro i st
    obtain ⟨b1, b2, b3, b4⟩ := seqBody_spec w fl total i f st
    obtain ⟨h1, h2, h3, h4⟩ := ih (i + 1) (seqBody w fl total i f st)
    simp only [seqLoop]
    refine ⟨?_, ?_, fun hs he => h3 hs (b3 hs he), fun hs he => h4 hs (b4 hs he)⟩
    · rw [h1, b1, List.filter_cons]
      by_cases hp : passesChecks fl f = true <;> simp [hp]
    · rw [h2, b2, List.filter_cons]
      by_cases hp : ShouldExtract fl.fpMatch f.Name fl.incl fl.excl = true <;> simp [hp]
      omega

/-- C7: unconditional tolerance of per-entry errors in the sequential mode of
the CLI. For every catalog, every world (which decides which calls of
`ExtractFile` fail) and every value of the flags, the calls of `ExtractFile`
are exactly the entries that pass `ShouldExtract` and `IsPathWithinBase`, in
catalog order, each with the target `Join(outDir, name)`; so the sequence is
the same in any other world and with the other value of `-skip-errors`. -/
theorem C7_sequential_tolerates_errors {σ τ : Type} (w : World σ) (w2 : World τ) (fl : Flags)
    (files : List ZipFile) (s : σ) (s2 : τ) (b : Bool) :
    extractCalls (mainSequential w fl files s).events
      = (files.filter (passesChecks fl)).map (fun f => (f.Name, Join fl.outDir f.Name)) ∧
    extractCalls (mainSequential w2 { fl with skipErrors := b } files s2).events
      = extractCalls (mainSequential w fl files s).events := by
  have h1 := (seqLoop_spec w fl files.length files 0
    { skippedCount := 0, errorList := [], events := [], world := s }).1
  have h2 := (seqLoop_spec w2 { fl with skipErrors := b } files.length files 0
    { skippedCount := 0, errorList := [], events := [], world := s2 }).1
  simp only [extractCalls, List.nil_append] at h1 h2
  refine ⟨h1, ?_⟩
  simp only [mainSequential]
  rw [h1, h2]
  rfl

/-- C8: the result of a direct sequential run. `totalCount` is the number of
catalog entries, `skippedCount` the number of entries that `ShouldExtract`
rejects; without `-skip-errors` the error list holds one
`{File, Reason}` for every call of `ExtractFile` that failed, in order, and
with `-skip-errors` it is empty. For the catalog `a`, `b`, `c` whose second
entry cannot be written: total 3, the one recorded error names `b`, and `a`
and `c` are extracted. -/
theorem C8_sequential_result {σ : Type} (w : World σ) (fl : Flags) (files : List ZipFile)
    (s : σ) :
    (mainSequential w fl files s).totalFiles = files.length ∧
    (mainSequential w fl files s).skippedCount
      = (files.filter (fun f => ! ShouldExtract fl.fpMatch f.Name fl.incl fl.excl)).length ∧
    (fl.skipErrors = false →
      (mainSequential w fl files s).errorList
        = failedCalls (mainSequential w fl files s).events) ∧
    (fl.skipErrors = true → (mainSequential w fl files s).errorList = []) ∧
    (mainSequential (countingWorld 2 9) (plainFlags false)
        [⟨"a".toList⟩, ⟨"b".toList⟩, ⟨"c".toList⟩] 0).totalFiles = 3 ∧
    (mainSequential (countingWorld 2 9) (plainFlags false)
        [⟨"a".toList⟩, ⟨"b".toList⟩, ⟨"c".toList⟩] 0).errorList
      = [⟨"b".toList, "permission denied".toList⟩] ∧
    (mainSequential (countingWorld 2 9) (plainFlags false)
        [⟨"a".toList⟩, ⟨"b".toList⟩, ⟨"c".toList⟩] 0).events
      = [.extract "a".toList "/out/a".toList none, .progress 1 3,
         .extract "b".toList "/out/b".toList (some "permission denied".toList), .progress 2 3,
         .extract "c".toList "/out/c".toList none, .progress 3 3] := by
  obtain ⟨-, h2, h3, h4⟩ := seqLoop_spec w fl files.length files 0
    { skippedCount := 0, errorList := [], events := [], world := s }
  refine ⟨rfl, by simpa using h2, fun hs => h3 hs rfl, fun hs => h4 hs rfl, ?_, ?_, ?_⟩
  · decide
  · decide
  · decide

/-- C8, witness: the three-entry run with and without `-skip-errors`. -/
theorem C8_sequential_result_witness :
    (mainSequential (countingWorld 2 9) (plainFlags false)
        [⟨"a".toList⟩, ⟨"b".toList⟩, ⟨"c".toList⟩] 0).errorList
      = failedCalls (mainSequential (countingWorld 2 9) (plainFlags false)
        [⟨"a".toList⟩, ⟨"b".toList⟩, ⟨"c".toList⟩] 0).events ∧
    (mainSequential (countingWorld 2 9) (plainFlags true)
        [⟨"a".toList⟩, ⟨"b".toList⟩, ⟨"c".toList⟩] 0).errorList = [] :=
  ⟨(C8_sequential_result (countingWorld 2 9) (plainFlags false)
      [⟨"a".toList⟩, ⟨"b".toList⟩, ⟨"c".toList⟩] 0).2.2.1 rfl,
   (C8_sequential_result (countingWorld 2 9) (plainFlags true)
      [⟨"a".toList⟩, ⟨"b".toList⟩, ⟨"c".toList⟩] 0).2.2.2.1 rfl⟩

theorem sentLines_append (a b : List Event) :
    sentLines (a ++ b) = sentLines a ++ sentLines b := by
  induction a with
  | nil => rfl
  | cons e a ih => cases e <;> simp [sentLines, ih]

/-- When the loop of `ExtractSelectedFiles` gets past the entries `pre`, it
has done for every one of them exactly its `entryEvents`, and goes on with the
rest of the archive from there. -/
theorem selectedReach_spec {σ : Type} (w : World σ) (outputDir : GoString)
    (selected : List GoString) :
    ∀ (pre rest : List ZipFile) (s sk : σ) (ev evk : List Event),
      selectedReach w outputDir selected pre s ev = some (sk, evk) →
      evk = ev ++ pre.flatMap (entryEvents outputDir selected) ∧
      selectedLoop w outputDir selected (pre ++ rest) s ev
        = selectedLoop w outputDir selected rest sk evk := by
  intro pre
  induction pre with
  | nil =>
    intro rest s sk ev evk h
    simp only [selectedReach, Option.some.injEq, Prod.mk.injEq] at h
    obtain ⟨rfl, rfl⟩ := h
    simp
  | cons f pre ih =>
    intro rest s sk ev evk h
    unfold selectedReach at h
    by_cases hd : w.done s = true
    · rw [if_pos hd] at h; cases h
    · rw [if_neg hd] at h
      by_cases hsel : f.Name ∈ selected
      · rw [if_neg (not_not.mpr hsel)] at h
        rcases hx : w.extractFile (w.send s (extractingLine f.Name)) f (Join outputDir f.Name)
          with ⟨err, s2⟩
        rw [hx] at h
        cases err with
        | some e => cases h
        | none =>
          simp only at h
          obtain ⟨h1, h2⟩ := ih rest s2 sk _ evk h
          refine ⟨?_, ?_⟩
          · rw [h1, List.flatMap_cons, entryEvents, if_pos hsel, List.append_assoc]
          · rw [List.cons_append, selectedLoop, if_neg hd, if_neg (not_not.mpr hsel)]
            simp only [hx]
            exact h2
      · rw [if_pos hsel] at h
        obtain ⟨h1, h2⟩ := ih rest s sk _ evk h
        refine ⟨?_, ?_⟩
        · rw [h1, List.flatMap_cons, entryEvents, if_neg hsel, List.append_assoc]
        · rw [List.cons_append, selectedLoop, if_neg hd, if_pos hsel]
          exact h2

theorem extractCalls_entryEvents (outputDir : GoString) (selected : List GoString)
    (files : List ZipFile) :
    extractCalls (files.flatMap (entryEvents outputDir selected))
      = (files.filter (fun f => decide (f.Name ∈ selected))).map
          (fun f => (f.Name, Join outputDir f.Name)) := by
  induction files with
  | nil => rfl
  | cons f files ih =>
    rw [List.flatMap_cons, extractCalls_append, ih, List.filter_cons]
    by_cases hsel : f.Name ∈ selected <;> simp [entryEvents, hsel, extractCalls]

theorem sentLines_entryEvents (outputDir : GoString) (selected : List GoString)
    (files : List ZipFile) :
    sentLines (files.flatMap (entryEvents outputDir selected))
      = (files.filter (fun f => decide (f.Name ∈ selected))).map
          (fun f => extractingLine f.Name) := by
  induction files with
  | nil => rfl
  | cons f files ih =>
    rw [List.flatMap_cons, sentLines_append, ih, List.filter_cons]
    by_cases hsel : f.Name ∈ selected <;> simp [entryEvents, hsel, sentLines]

/-- A run of the loop of `ExtractSelectedFiles` in which no poll finds the
context cancelled and every call of `ExtractFile` succeeds gets past every
entry. -/
theorem selectedReach_of_inv {σ : Type} (w : World σ) (outputDir : GoString)
    (selected : List GoString) (I : σ → Prop)
    (hI : ∀ s, I s → w.done s = false ∧ (∀ l, I (w.send s l)) ∧
      ∀ f t, (w.extractFile s f t).1 = none ∧ I (w.extractFile s f t).2) :
    ∀ (files : List ZipFile) (s : σ) (ev : List Event), I s →
      ∃ sk evk, selectedReach w outputDir selected files s ev = some (sk, evk) ∧ I sk := by
  intro files
  induction files with
  | nil => intro s ev h; exact ⟨s, ev, rfl, h⟩
  | cons f files ih =>
    intro s ev h
    obtain ⟨hd, hs, hx⟩ := hI s h
    unfold selectedReach
    rw [if_neg (by rw [hd]; simp)]
    by_cases hsel : f.Name ∈ selected
    · rw [if_neg (not_not.mpr hsel)]
      obtain ⟨h1, h2⟩ := (hI _ (hs (extractingLine f.Name))).2.2 f (Join outputDir f.Name)
      rcases hy : w.extractFile (w.send s (extractingLine f.Name)) f (Join outputDir f.Name)
        with ⟨err, s2⟩
      rw [hy] at h1 h2
      simp only at h1 h2
      subst h1
      exact ih s2 _ h2
    · rw [if_pos hsel]
      exact ih s _ h

/-- C16: a negative offset is rejected. For every reader, backend, buffer `p`
and `off < 0`, `ReadAt(p, off)` returns `n = 0` with the error "negative
offset" (not `nil`, not `io.EOF`), without a panic; it issues no range
request, leaves `p` as it was, and leaves the cache and the backend
untouched. -/
theorem C16_negative_offset_rejected {β : Type} (fetch : Fetch β) (d : DriveReaderAt) (svc : β)
    (p : List Byte) (off : Int) (hoff : off < 0) :
    ∃ r, ReadAt fetch d svc p off = some r ∧ r.n = 0 ∧ r.err = some .negativeOffset ∧
      r.err ≠ none ∧ r.err ≠ some .eof ∧ r.panicked = none ∧ r.fetches = [] ∧ r.p = p ∧
      r.cache = d.cache ∧ r.svc = svc := by
  rcases readAt_cases fetch d svc p off with ⟨_, e⟩ | ⟨h0, _, _⟩ | ⟨h0, _, _⟩
  · exact ⟨_, e, rfl, rfl, by simp [LoopState.ret], by simp [LoopState.ret], rfl, rfl, rfl,
      rfl, rfl⟩
  · omega
  · omega

/-- C16, witness: offset `-1` on a reader of an 8-byte object whose backend
would fail. -/
theorem C16_negative_offset_rejected_witness :
    ∃ r, ReadAt alwaysFails (NewDriveReaderAt 8 4) () [7, 7] (-1) = some r ∧ r.n = 0 ∧
      r.err = some .negativeOffset ∧ r.err ≠ none ∧ r.err ≠ some .eof ∧ r.panicked = none ∧
      r.fetches = [] ∧ r.p = [7, 7] ∧ r.cache = (NewDriveReaderAt 8 4).cache ∧ r.svc = () :=
  C16_negative_offset_rejected alwaysFails (NewDriveReaderAt 8 4) () [7, 7] (-1) (by decide)

/-- C17: reading at or past the end. For every reader of an object of size
`size ≥ 0`, every backend, every buffer `p` (the empty one included) and every
`off ≥ size`, `ReadAt(p, off)` returns `(0, io.EOF)` without a panic; it issues
no range request, leaves `p` as it was, and leaves the cache and the backend
untouched. -/
theorem C17_read_past_end {β : Type} (fetch : Fetch β) (d : DriveReaderAt) (svc : β)
    (p : List Byte) (off : Int) (hsize : 0 ≤ d.size) (hoff : d.size ≤ off) :
    ∃ r, ReadAt fetch d svc p off = some r ∧ r.n = 0 ∧ r.err = some .eof ∧
      r.panicked = none ∧ r.fetches = [] ∧ r.p = p ∧ r.cache = d.cache ∧ r.svc = svc := by
  rcases readAt_cases fetch d svc p off with ⟨h0, _⟩ | ⟨_, _, e⟩ | ⟨_, h1, _⟩
  · omega
  · exact ⟨_, e, rfl, rfl, rfl, rfl, rfl, rfl, rfl⟩
  · omega

/-- C17, witness: the empty buffer at offset 8 of an 8-byte object. -/
theorem C17_read_past_end_witness :
    ∃ r, ReadAt alwaysFails (NewDriveReaderAt 8 4) () [] 8 = some r ∧ r.n = 0 ∧
      r.err = some .eof ∧ r.panicked = none ∧ r.fetches = [] ∧ r.p = [] ∧
      r.cache = (NewDriveReaderAt 8 4).cache ∧ r.svc = () :=
  C17_read_past_end alwaysFails (NewDriveReaderAt 8 4) () [] 8 (by decide) (by decide)

/-! ## Theorems: `filepath.Base` and the filter -/

theorem base_of_no_sep (q : GoString) (hq : q ≠ []) (hs : Separator ∉ q) : Base q = q := by
  unfold Base
  rw [if_neg hq]
  have hr : q.reverse ≠ [] := by simpa using hq
  have hd : q.reverse.dropWhile (fun c => c == Separator) = q.reverse := by
    cases hrev : q.reverse with
    | nil => exact absurd hrev hr
    | cons c cs =>
      have hc : c ∈ q := by
        rw [← List.mem_reverse, hrev]; exact List.mem_cons_self _ _
      have : (c == Separator) = false := by
        rw [beq_eq_false_iff_ne]; intro h; exact hs (h ▸ hc)
      simp [List.dropWhile, this]
  have ht : q.reverse.takeWhile (fun c => c != Separator) = q.reverse := by
    rw [List.takeWhile_eq_self_iff]
    intro c hc
    have hc2 : c ∈ q := List.mem_reverse.mp hc
    simp only [bne_iff_ne, ne_eq]
    intro h
    exact hs (h ▸ hc2)
  simp only [hd, List.reverse_reverse, ht]
  rw [if_neg hq]

/-- `filepath.Base` applied twice is `filepath.Base`. -/
theorem base_idem (p : GoString) : Base (Base p) = Base p := by
  by_cases hp : p = []
  · subst hp; decide
  · have e : Base p =
        if ((((p.reverse.dropWhile (fun c => c == Separator)).reverse).reverse.takeWhile
            (fun c => c != Separator)).reverse) = [] then [Separator]
        else ((((p.reverse.dropWhile (fun c => c == Separator)).reverse).reverse.takeWhile
            (fun c => c != Separator)).reverse) := by
      unfold Base
      rw [if_neg hp]
    rw [e]
    split_ifs with hl
    · decide
    · apply base_of_no_sep _ hl
      intro hmem
      rw [List.mem_reverse] at hmem
      have := List.mem_takeWhile_imp hmem
      simp at this

/-- C15: the filter looks at the final path element only.
`ShouldExtract(name, include, exclude)` equals
`ShouldExtract(filepath.Base(name), include, exclude)` for every name, every
pair of patterns and whatever `filepath.Match` answers; so `a/b/report.pdf` and
`report.pdf` always receive the same decision. -/
theorem C15_filter_uses_base_name (fpMatch : MatchFn) (name incl excl : GoString) :
    ShouldExtract fpMatch name incl excl = ShouldExtract fpMatch (Base name) incl excl ∧
    ShouldExtract fpMatch "a/b/report.pdf".toList incl excl
      = ShouldExtract fpMatch "report.pdf".toList incl excl := by
  constructor
  · unfold ShouldExtract
    rw [base_idem]
  · unfold ShouldExtract
    have e1 : Base "a/b/report.pdf".toList = "report.pdf".toList := by decide
    have e2 : Base "report.pdf".toList = "report.pdf".toList := by decide
    rw [e1, e2]

/-! ## Theorems: completeness of `IsPathWithinBase` -/

theorem join_eq_joinList (a b : GoString) : Join a b = JoinList [a, b] := by
  unfold Join JoinList JoinList JoinList
  by_cases ha : a = []
  · by_cases hb : b = []
    · simp [ha, hb]
    · simp [ha, hb, joinSep]
  · simp [ha, joinSep]

theorem splitSep_joinSep (L : List GoString) (hne : L ≠ []) (hs : ∀ s ∈ L, Separator ∉ s) :
    splitSep (joinSep L) = L := by
  induction L with
  | nil => exact absurd rfl hne
  | cons s L ih =>
    cases L with
    | nil => simpa [joinSep] using splitSep_of_no_sep s (hs s (List.mem_cons_self _ _))
    | cons t ss =>
      simp only [joinSep]
      rw [splitSep_append, splitSep_of_no_sep s (hs s (List.mem_cons_self _ _)),
        ih (by simp) (fun x hx => hs x (List.mem_cons_of_mem _ hx))]
      rfl

theorem cleanStep_push (r : Bool) (S : List GoString) (s : GoString) (h : ProperSeg s) :
    cleanStep r S s = s :: S := by
  unfold cleanStep
  rw [if_neg (fun hx => hx.elim h.1 h.2.2.1), if_neg h.2.2.2]

theorem foldl_cleanStep_push (r : Bool) (segs : List GoString) (h : ∀ s ∈ segs, ProperSeg s) :
    ∀ S : List GoString, segs.foldl (cleanStep r) S = segs.reverse ++ S := by
  induction segs with
  | nil => intro S; rfl
  | cons s segs ih =>
    intro S
    simp only [List.foldl_cons, List.reverse_cons, List.append_assoc, List.singleton_append]
    rw [cleanStep_push r S s (h s (List.mem_cons_self _ _)),
      ih (fun x hx => h x (List.mem_cons_of_mem _ hx))]

theorem cleanStep_kept (stack : List GoString) (seg : GoString)
    (hst : ∀ s ∈ stack, KeptSeg s) (hseg : Separator ∉ seg) :
    ∀ s ∈ cleanStep false stack seg, KeptSeg s := by
  unfold cleanStep
  by_cases h1 : seg = [] ∨ seg = ['.']
  · rw [if_pos h1]; exact hst
  · rw [if_neg h1]
    by_cases h2 : seg = ['.', '.']
    · rw [if_pos h2]
      cases stack with
      | nil =>
        intro s hs
        simp only [Bool.false_eq_true, if_false, List.mem_singleton] at hs
        exact Or.inr (hs.trans h2)
      | cons top below =>
        simp only
        split_ifs
        · intro s hs
          rcases List.mem_cons.mp hs with rfl | hs
          · exact Or.inr h2
          · exact hst s hs
        · exact fun s hs => hst s (List.mem_cons_of_mem _ hs)
    · rw [if_neg h2]
      intro s hs
      rcases List.mem_cons.mp hs with rfl | hs
      · exact Or.inl ⟨fun h => h1 (Or.inl h), hseg, fun h => h1 (Or.inr h), h2⟩
      · exact hst s hs

theorem foldl_cleanStep_kept (segs : List GoString) (hsegs : ∀ s ∈ segs, Separator ∉ s) :
    ∀ stack : List GoString, (∀ s ∈ stack, KeptSeg s) →
      ∀ s ∈ segs.foldl (cleanStep false) stack, KeptSeg s := by
  induction segs with
  | nil => intro stack h; simpa using h
  | cons seg rest ih =>
    intro stack h
    simp only [List.foldl_cons]
    exact ih (fun s hs => hsegs s (List.mem_cons_of_mem _ hs)) _
      (cleanStep_kept stack seg h (hsegs seg (List.mem_cons_self _ _)))

/-- Cleaning a relative path first does not change what a rooted path
followed by it cleans to. -/
theorem foldl_clean_relative (segs : List GoString) (hsegs : ∀ s ∈ segs, Separator ∉ s)
    (S : List GoString) :
    ((segs.foldl (cleanStep false) []).reverse).foldl (cleanStep true) S
      = segs.foldl (cleanStep true) S := by
  induction segs using List.reverseRecOn with
  | nil => rfl
  | append_singleton init last ih =>
    have hinit : ∀ s ∈ init, Separator ∉ s := fun s hs => hsegs s (List.mem_append_left _ hs)
    have hkept := foldl_cleanStep_kept init hinit [] (by simp)
    have ih' := ih hinit
    simp only [List.foldl_append, List.foldl_cons, List.foldl_nil]
    rw [← ih']
    generalize init.foldl (cleanStep false) [] = R at hkept ⊢
    by_cases h1 : last = [] ∨ last = ['.']
    · simp only [cleanStep, if_pos h1]
    · by_cases h2 : last = ['.', '.']
      · subst h2
        cases R with
        | nil => simp [cleanStep]
        | cons top below =>
          by_cases ht : top = ['.', '.']
          · subst ht
            simp [cleanStep, List.foldl_append]
          · have htop : ProperSeg top := (hkept top (List.mem_cons_self _ _)).resolve_right ht
            have e1 : cleanStep false (top :: below) ['.', '.'] = below := by
              simp [cleanStep, ht]
            rw [e1, List.reverse_cons, List.foldl_append]
            simp only [List.foldl_cons, List.foldl_nil]
            rw [cleanStep_push true _ top htop]
            simp [cleanStep, ht]
      · have hp : ProperSeg last :=
          ⟨fun h => h1 (Or.inl h), hsegs last (by simp), fun h => h1 (Or.inr h), h2⟩
        rw [cleanStep_push false R last hp, List.reverse_cons, List.foldl_append]
        rfl

theorem keptSeg_ne_nil (s : GoString) (h : KeptSeg s) : s ≠ [] := by
  rcases h with h | h
  · exact h.1
  · rw [h]; simp

theorem keptSeg_no_sep (s : GoString) (h : KeptSeg s) : Separator ∉ s := by
  rcases h with h | h
  · exact h.2.1
  · rw [h]; decide

theorem cleanSegs_kept (q : GoString) : ∀ s ∈ cleanSegs false q, KeptSeg s := by
  intro s hs
  unfold cleanSegs at hs
  rw [List.mem_reverse] at hs
  exact foldl_cleanStep_kept _ (splitSep_no_sep q) [] (by simp) s hs

theorem joinSep_ne_nil (L : List GoString) (hne : L ≠ []) (h : ∀ s ∈ L, s ≠ []) :
    joinSep L ≠ [] := by
  cases L with
  | nil => exact absurd rfl hne
  | cons s L =>
    rw [joinSep_cons]
    have := h s (List.mem_cons_self _ _)
    cases s with
    | nil => exact absurd rfl this
    | cons c s => simp

theorem joinSep_head_not_sep (L : List GoString) (hne : L ≠ []) (h1 : ∀ s ∈ L, s ≠ [])
    (h2 : ∀ s ∈ L, Separator ∉ s) : IsAbs (joinSep L) = false := by
  cases L with
  | nil => exact absurd rfl hne
  | cons s L =>
    rw [joinSep_cons]
    have hs1 := h1 s (List.mem_cons_self _ _)
    have hs2 := h2 s (List.mem_cons_self _ _)
    cases s with
    | nil => exact absurd rfl hs1
    | cons c s =>
      have hc : c ≠ Separator := fun h => hs2 (h ▸ List.mem_cons_self _ _)
      simp [IsAbs, HasPrefix, hc]

/-- The relative case of `filepath.Clean`. -/
theorem clean_relative (q : GoString) (hq : IsAbs q = false) :
    (cleanSegs false q = [] ∧ Clean q = ['.']) ∨
    (cleanSegs false q ≠ [] ∧ Clean q = joinSep (cleanSegs false q)) := by
  by_cases hqe : q = []
  · subst hqe
    left
    exact ⟨by decide, by decide⟩
  · unfold Clean
    rw [if_neg hqe, hq]
    simp only [Bool.false_eq_true, if_false, List.nil_append]
    by_cases hL : cleanSegs false q = []
    · left
      rw [hL]
      exact ⟨rfl, by simp [joinSep]⟩
    · right
      have := joinSep_ne_nil _ hL (fun s hs => keptSeg_ne_nil s (cleanSegs_kept q s hs))
      exact ⟨hL, by rw [if_neg this]⟩

theorem foldl_splitSep_clean (q : GoString) (hq : IsAbs q = false) (S : List GoString) :
    (splitSep (Clean q)).foldl (cleanStep true) S = (splitSep q).foldl (cleanStep true) S := by
  have core := foldl_clean_relative (splitSep q) (splitSep_no_sep q) S
  have hL : cleanSegs false q = ((splitSep q).foldl (cleanStep false) []).reverse := rfl
  rw [← hL] at core
  rcases clean_relative q hq with ⟨h1, h2⟩ | ⟨h1, h2⟩
  · have e : splitSep ['.'] = [['.']] := by decide
    rw [h2, ← core, h1, e]
    simp [cleanStep]
  · rw [h2, splitSep_joinSep _ h1 (fun s hs => keptSeg_no_sep s (cleanSegs_kept q s hs)), core]

theorem isAbs_clean (q : GoString) : IsAbs (Clean q) = IsAbs q := by
  cases hq : IsAbs q with
  | true =>
    rw [clean_rooted q hq]
    simp [IsAbs, HasPrefix]
  | false =>
    rcases clean_relative q hq with ⟨_, h2⟩ | ⟨h1, h2⟩
    · rw [h2]; decide
    · rw [h2]
      exact joinSep_head_not_sep _ h1 (fun s hs => keptSeg_ne_nil s (cleanSegs_kept q s hs))
        (fun s hs => keptSeg_no_sep s (cleanSegs_kept q s hs))

theorem cleanSegs_clean_rooted (q : GoString) (hq : IsAbs q = true) :
    cleanSegs true (Clean q) = cleanSegs true q := by
  rw [clean_rooted q hq]
  have hp := cleanSegs_proper q
  generalize cleanSegs true q = L at hp
  unfold cleanSegs
  have e : splitSep (Separator :: joinSep L) = [] :: splitSep (joinSep L) := by
    simp [splitSep]
  rw [e]
  by_cases hL : L = []
  · subst hL
    simp [joinSep, splitSep, cleanStep]
  · rw [splitSep_joinSep L hL (fun s hs => (hp s hs).2.1)]
    simp only [List.foldl_cons]
    have : cleanStep true [] [] = [] := by simp [cleanStep]
    rw [this, foldl_cleanStep_push true L hp]
    simp

theorem abs_eq_absSegs (wd : Option GoString) (hwd : ∀ w, wd = some w → IsAbs w = true)
    (p : GoString) :
    Abs wd p = (absSegs wd p).map (fun L => Separator :: joinSep L) := by
  unfold Abs absSegs absPath
  cases hp : IsAbs p with
  | true =>
    simp only [if_true, Option.map_some']
    rw [clean_rooted p hp]
  | false =>
    simp only [Bool.false_eq_true, if_false]
    cases wd with
    | none => rfl
    | some w =>
      obtain ⟨rest, hw⟩ := (isAbs_iff w).mp (hwd w rfl)
      have hne : w ≠ [] := by rw [hw]; simp
      have habs : IsAbs (w ++ Separator :: p) = true := by
        rw [isAbs_iff]; exact ⟨rest ++ Separator :: p, by rw [hw]; rfl⟩
      simp only [Option.map_some', Join, if_pos hne]
      rw [clean_rooted _ habs]

theorem absSegs_clean (wd : Option GoString) (q : GoString) :
    absSegs wd (Clean q) = absSegs wd q := by
  unfold absSegs absPath
  rw [isAbs_clean]
  cases hq : IsAbs q with
  | true =>
    simp only [if_true, Option.map_some']
    rw [cleanSegs_clean_rooted q hq]
  | false =>
    simp only [Bool.false_eq_true, if_false]
    cases wd with
    | none => rfl
    | some w =>
      simp only [Option.map_some', Option.some.injEq]
      unfold cleanSegs
      rw [splitSep_append, splitSep_append, List.foldl_append, List.foldl_append,
        foldl_splitSep_clean q hq]

theorem isAbs_append (p y : GoString) (hp : p ≠ []) : IsAbs (p ++ y) = IsAbs p := by
  cases p with
  | nil => exact absurd rfl hp
  | cons c p => simp [IsAbs, HasPrefix]

theorem cleanSegs_append_segs (P : GoString) (segs : List GoString) (hne : segs ≠ [])
    (hp : ∀ s ∈ segs, ProperSeg s) :
    cleanSegs true (P ++ Separator :: joinSep segs) = cleanSegs true P ++ segs := by
  unfold cleanSegs
  rw [splitSep_append, splitSep_joinSep segs hne (fun s hs => (hp s hs).2.1), List.foldl_append,
    foldl_cleanStep_push true segs hp]
  simp

theorem absSegs_append_segs (wd : Option GoString) (p : GoString) (segs : List GoString)
    (hpne : p ≠ []) (hne : segs ≠ []) (hp : ∀ s ∈ segs, ProperSeg s) :
    absSegs wd (p ++ Separator :: joinSep segs) = (absSegs wd p).map (fun L => L ++ segs) := by
  unfold absSegs absPath
  rw [isAbs_append p _ hpne]
  cases hq : IsAbs p with
  | true =>
    simp only [if_true, Option.map_some']
    rw [cleanSegs_append_segs p segs hne hp]
  | false =>
    simp only [Bool.false_eq_true, if_false]
    cases wd with
    | none => rfl
    | some w =>
      simp only [Option.map_some', Option.some.injEq]
      have : w ++ Separator :: (p ++ Separator :: joinSep segs)
          = (w ++ Separator :: p) ++ Separator :: joinSep segs := by simp
      rw [this, cleanSegs_append_segs _ segs hne hp]

theorem absSegs_of_segs (wd : Option GoString) (segs : List GoString) (hne : segs ≠ [])
    (hp : ∀ s ∈ segs, ProperSeg s) :
    absSegs wd (joinSep segs) = (absSegs wd []).map (fun L => L ++ segs) := by
  unfold absSegs absPath
  rw [joinSep_head_not_sep segs hne (fun s hs => (hp s hs).1) (fun s hs => (hp s hs).2.1)]
  have : IsAbs [] = false := by decide
  rw [this]
  cases wd with
  | none => rfl
  | some w =>
    simp only [Bool.false_eq_true, if_false, Option.map_some', Option.some.injEq]
    rw [cleanSegs_append_segs w segs hne hp]
    unfold cleanSegs
    rw [splitSep_append]
    simp [splitSep, cleanStep, List.foldl_append]

/-- The path elements of `Abs(Join(base, segs...))` are those of `Abs(base)`
followed by `segs`. -/
theorem absSegs_joinList (wd : Option GoString) (base : GoString) (segs : List GoString)
    (hne : segs ≠ []) (hp : ∀ s ∈ segs, ProperSeg s) :
    absSegs wd (JoinList (base :: segs)) = (absSegs wd base).map (fun L => L ++ segs) := by
  by_cases hb : base = []
  · subst hb
    cases segs with
    | nil => exact absurd rfl hne
    | cons s rest =>
      have hs := hp s (List.mem_cons_self _ _)
      simp only [JoinList, ne_eq, not_true_eq_false, if_false, hs.1, not_false_eq_true, if_true]
      rw [absSegs_clean, absSegs_of_segs wd (s :: rest) hne hp]
  · simp only [JoinList, ne_eq, hb, not_false_eq_true, if_true]
    rw [absSegs_clean]
    cases segs with
    | nil => exact absurd rfl hne
    | cons s rest =>
      have : joinSep (base :: s :: rest) = base ++ Separator :: joinSep (s :: rest) := by
        simp [joinSep]
      rw [this, absSegs_append_segs wd base (s :: rest) hb hne hp]

/-- C14: completeness of `IsPathWithinBase` for genuine descendants (Unix
paths, rooted working directory). For every base that `filepath.Abs` resolves
to a path other than the root `/`, and every non-empty list of proper path
elements (not empty, no separator, neither `.` nor `..`),
`IsPathWithinBase(base, filepath.Join(base, elements...))` is true; so it is
for `base/file.txt`, `base/subdir/file.txt` and `base/a/b` with the base
`/tmp/output`. -/
theorem C14_isPathWithinBase_complete (wd : Option GoString) (base a : GoString)
    (segs : List GoString) (hwd : ∀ w, wd = some w → IsAbs w = true)
    (hab : Abs wd base = some a) (hroot : a ≠ [Separator]) (hne : segs ≠ [])
    (hp : ∀ s ∈ segs, ProperSeg s) :
    IsPathWithinBase wd base (JoinList (base :: segs)) = true ∧
    IsPathWithinBase wd "/tmp/output".toList
      (JoinList ["/tmp/output".toList, "file.txt".toList]) = true ∧
    IsPathWithinBase wd "/tmp/output".toList
      (JoinList ["/tmp/output".toList, "subdir".toList, "file.txt".toList]) = true ∧
    IsPathWithinBase wd "/tmp/output".toList
      (JoinList ["/tmp/output".toList, "a".toList, "b".toList]) = true := by
  refine ⟨?_, rfl, rfl, rfl⟩
  rw [isPathWithinBase_iff wd hwd]
  rw [abs_eq_absSegs wd hwd] at hab
  cases hbs : absSegs wd base with
  | none => rw [hbs] at hab; cases hab
  | some bs =>
    rw [hbs] at hab
    simp only [Option.map_some', Option.some.injEq] at hab
    have hbp : ∀ s ∈ bs, ProperSeg s := by
      unfold absSegs at hbs
      cases hP : absPath wd base with
      | none => rw [hP] at hbs; cases hbs
      | some P =>
        rw [hP] at hbs
        simp only [Option.map_some', Option.some.injEq] at hbs
        rw [← hbs]
        exact cleanSegs_proper P
    have hbne : bs ≠ [] := by
      intro h
      apply hroot
      rw [← hab, h]
      rfl
    refine ⟨bs, segs, hbp, hp, hbne, hne, ?_, ?_⟩
    · rw [abs_eq_absSegs wd hwd, hbs]; rfl
    · rw [abs_eq_absSegs wd hwd, absSegs_joinList wd base segs hne hp, hbs]; rfl

/-- C14, witness: working directory `/home/u`, the relative base `../out` and
the elements `a`, `b`. -/
theorem C14_isPathWithinBase_complete_witness :
    IsPathWithinBase (some "/home/u".toList) "../out".toList
      (JoinList ["../out".toList, "a".toList, "b".toList]) = true :=
  (C14_isPathWithinBase_complete (some "/home/u".toList) "../out".toList "/home/out".toList
    ["a".toList, "b".toList] (by intro w hw; cases hw; decide) (by decide) (by decide)
    (by decide) (by
      intro s hs
      simp only [List.mem_cons, List.mem_singleton, List.not_mem_nil, or_false] at hs
      rcases hs with rfl | rfl <;> exact ⟨by decide, by decide, by decide, by decide⟩)).1

/-! ## Theorems: `ExtractZip` and `DownloadAndUpload` -/

/-- When the loop of `ExtractZip` gets through the entries `pre` without an
error, it goes on with the rest of the archive from there. -/
theorem extractZipLoop_append {σ : Type} (w : World σ) (wd : Option GoString)
    (fpMatch : MatchFn) (outputDir incl excl : GoString) :
    ∀ (pre rest : List ZipFile) (s : σ) (ev : List Event),
      (extractZipLoop w wd fpMatch outputDir incl excl pre s ev).err = none →
      extractZipLoop w wd fpMatch outputDir incl excl (pre ++ rest) s ev
        = extractZipLoop w wd fpMatch outputDir incl excl rest
            (extractZipLoop w wd fpMatch outputDir incl excl pre s ev).world
            (extractZipLoop w wd fpMatch outputDir incl excl pre s ev).events := by
  intro pre
  induction pre with
  | nil => intro rest s ev _; rfl
  | cons f pre ih =>
    intro rest s ev h
    simp only [List.cons_append, extractZipLoop] at h ⊢
    by_cases h1 : IsPathWithinBase wd outputDir (Join outputDir f.Name) = true
    · simp only [h1, not_true_eq_false, if_false] at h ⊢
      by_cases h2 : ShouldExtract fpMatch f.Name incl excl = true
      · simp only [h2, not_true_eq_false, if_false] at h ⊢
        rcases hx : w.extractFile s f (Join outputDir f.Name) with ⟨err, s1⟩
        rw [hx] at h
        cases err with
        | some e => cases h
        | none => exact ih rest s1 _ h
      · simp only [h2, not_false_eq_true, if_true] at h ⊢
        exact ih rest s ev h
    · simp only [h1, not_false_eq_true, if_true] at h
      cases h

theorem downloadLoop_append {σ : Type} (w : World σ) (wd : Option GoString)
    (outDir : GoString) :
    ∀ (pre rest : List ZipFile) (s : σ) (ev : List Event),
      (downloadLoop w wd outDir pre s ev).err = none →
      downloadLoop w wd outDir (pre ++ rest) s ev
        = downloadLoop w wd outDir rest (downloadLoop w wd outDir pre s ev).world
            (downloadLoop w wd outDir pre s ev).events := by
  intro pre
  induction pre with
  | nil => intro rest s ev _; rfl
  | cons f pre ih =>
    intro rest s ev h
    simp only [List.cons_append, downloadLoop] at h ⊢
    by_cases h1 : IsPathWithinBase wd outDir (Join outDir f.Name) = true
    · simp only [h1, not_true_eq_false, if_false] at h ⊢
      rcases hx : w.extractFile s f (Join outDir f.Name) with ⟨err, s1⟩
      rw [hx] at h
      cases err with
      | some e => cases h
      | none => exact ih rest s1 _ h
    · simp only [h1, not_false_eq_true, if_true] at h
      cases h

/-- C18, the divergence: a path violation aborts `ExtractZip` and
`DownloadAndUpload`, where the claim has only the offending entry rejected and
the run continued. If `ExtractZip` gets through the entries `pre` without an
error and the target of the next entry `f` fails `IsPathWithinBase`, then its
run over `pre`, `f`, `post` returns the error "illegal path: <target>" and its
events and world are those of the run over `pre`: `ExtractFile` is called
neither for `f` nor for any entry of `post`, whatever checks these pass.
Likewise, on its own conditions, `DownloadAndUpload` returns "illegal file
path: <target>" and extracts nothing after `pre`. -/
theorem C18_path_violation_aborts_run {σ : Type} (w : World σ) (wd : Option GoString)
    (fpMatch : MatchFn) (outputDir incl excl : GoString) (d : DriveExtractor) (size : Int)
    (pre : List ZipFile) (f : ZipFile) (post : List ZipFile) (s : σ) :
    ((ExtractZip w wd fpMatch (.inr pre) outputDir incl excl s).err = none →
      IsPathWithinBase wd outputDir (Join outputDir f.Name) = false →
      ExtractZip w wd fpMatch (.inr (pre ++ f :: post)) outputDir incl excl s
        = { err := some (illegalPathError (Join outputDir f.Name)),
            events := (ExtractZip w wd fpMatch (.inr pre) outputDir incl excl s).events,
            world := (ExtractZip w wd fpMatch (.inr pre) outputDir incl excl s).world }) ∧
    (size ≠ 0 → (DownloadAndUpload w wd d (.inr size) (.inr pre) s).err = none →
      IsPathWithinBase wd d.OutDir (Join d.OutDir f.Name) = false →
      DownloadAndUpload w wd d (.inr size) (.inr (pre ++ f :: post)) s
        = { err := some (illegalFilePathError (Join d.OutDir f.Name)),
            events := (DownloadAndUpload w wd d (.inr size) (.inr pre) s).events,
            world := (DownloadAndUpload w wd d (.inr size) (.inr pre) s).world }) := by
  constructor
  · intro hz hfz
    simp only [ExtractZip] at hz ⊢
    rw [extractZipLoop_append w wd fpMatch outputDir incl excl pre (f :: post) s [] hz]
    simp only [extractZipLoop, hfz, Bool.false_eq_true, not_false_eq_true, if_true]
  · intro hsize hd hfd
    simp only [DownloadAndUpload, if_neg hsize] at hd ⊢
    rw [downloadLoop_append w wd d.OutDir pre (f :: post) s [] hd]
    simp only [downloadLoop, hfd, Bool.false_eq_true, not_false_eq_true, if_true]

/-- C18, failing input: the archive `a`, `../evil`, `good` extracted to `/out`.
Both functions extract `a`, return the error of the path violation at
`../evil` and never call `ExtractFile` for `good`, which passes the path guard
and the filter. (In `ExtractZip` the same happens when `a` is filtered out:
its run over `a` alone has no error either.) -/
theorem C18_path_violation_aborts_run_witness :
    (ExtractZip calmWorld (some "/".toList) literalMatch
        (.inr ([⟨"a".toList⟩] ++ ⟨"../evil".toList⟩ :: [⟨"good".toList⟩]))
        "/out".toList [] [] 0).err = some "illegal path: /evil".toList ∧
    extractCalls (ExtractZip calmWorld (some "/".toList) literalMatch
        (.inr ([⟨"a".toList⟩] ++ ⟨"../evil".toList⟩ :: [⟨"good".toList⟩]))
        "/out".toList [] [] 0).events = [("a".toList, "/out/a".toList)] ∧
    (DownloadAndUpload calmWorld (some "/".toList) ⟨"id".toList, "/out".toList⟩
        (.inr 100) (.inr ([⟨"a".toList⟩] ++ ⟨"../evil".toList⟩ :: [⟨"good".toList⟩])) 0).err
      = some "illegal file path: /evil".toList ∧
    extractCalls (DownloadAndUpload calmWorld (some "/".toList) ⟨"id".toList, "/out".toList⟩
        (.inr 100) (.inr ([⟨"a".toList⟩] ++ ⟨"../evil".toList⟩ :: [⟨"good".toList⟩])) 0).events
      = [("a".toList, "/out/a".toList)] ∧
    IsPathWithinBase (some "/".toList) "/out".toList (Join "/out".toList "good".toList) = true ∧
    ShouldExtract literalMatch "good".toList [] [] = true ∧
    extractCalls (ExtractZip calmWorld (some "/".toList) literalMatch
        (.inr ([⟨"a".toList⟩] ++ ⟨"../evil".toList⟩ :: [⟨"good".toList⟩]))
        "/out".toList [] "a".toList 0).events = [] := by
  have h := C18_path_violation_aborts_run calmWorld (some "/".toList) literalMatch "/out".toList
    [] [] ⟨"id".toList, "/out".toList⟩ 100 [⟨"a".toList⟩] ⟨"../evil".toList⟩ [⟨"good".toList⟩] 0
  have h2 := C18_path_violation_aborts_run calmWorld (some "/".toList) literalMatch
    "/out".toList [] "a".toList ⟨"id".toList, "/out".toList⟩ 100 [⟨"a".toList⟩]
    ⟨"../evil".toList⟩ [⟨"good".toList⟩] 0
  rw [h.1 (by decide) (by decide), h.2 (by decide) (by decide) (by decide),
    h2.1 (by decide) (by decide)]
  decide
/-- C13, the failing input: a run of `main` with `-fileId`, `-out /out` and
`-exclude malware.exe` on an archive with the entries `malware.exe` and
`notes.txt`. `ShouldExtract` rejects `malware.exe` and the sequential loop does
not extract it, but `DownloadAndUpload`, which `main` calls first and which has
no filter, has already called `ExtractFile` for it with the target
`/out/malware.exe`. -/
theorem C13_download_step_ignores_filter :
    NewDownloaderFromFlags [] [] "id".toList excludeFlags.outDir
      = some (.drive { FileID := "id".toList, OutDir := "/out".toList }) ∧
    ShouldExtract excludeFlags.fpMatch "malware.exe".toList excludeFlags.incl excludeFlags.excl
      = false ∧
    extractCalls (mainSequential calmWorld excludeFlags
        [⟨"malware.exe".toList⟩, ⟨"notes.txt".toList⟩] 0).events
      = [("notes.txt".toList, "/out/notes.txt".toList)] ∧
    extractCalls (mainDriveEvents calmWorld excludeFlags "id".toList (.inr 100)
        [⟨"malware.exe".toList⟩, ⟨"notes.txt".toList⟩] 0)
      = [("malware.exe".toList, "/out/malware.exe".toList),
         ("notes.txt".toList, "/out/notes.txt".toList),
         ("notes.txt".toList, "/out/notes.txt".toList)] := by
  decide

/-! ## Theorems: the session stream of the web backend -/

/-- The result of a run of `ExtractSelectedFiles` that is cancelled at the
entry after `pre`. -/
theorem extractSelected_cancelled {σ : Type} (w : World σ) (outputDir : GoString)
    (selected : List GoString) (pre : List ZipFile) (f : ZipFile) (post : List ZipFile)
    (s sk : σ) (evk : List Event)
    (hreach : selectedReach w outputDir selected pre s [] = some (sk, evk))
    (hdone : w.done sk = true) :
    ExtractSelectedFiles w (.inr (pre ++ f :: post)) outputDir selected s
      = { err := some (w.ctxErr sk),
          events := pre.flatMap (entryEvents outputDir selected)
            ++ [.poll true, .sent "Aborted".toList],
          world := w.send sk "Aborted".toList } := by
  obtain ⟨h1, h2⟩ := selectedReach_spec w outputDir selected pre (f :: post) s sk [] evk hreach
  simp only [ExtractSelectedFiles]
  rw [h2, selectedLoop, if_pos hdone, h1]
  rfl

/-- The result of a run of `ExtractSelectedFiles` in which no poll finds the
context cancelled and every call of `ExtractFile` succeeds. -/
theorem extractSelected_success {σ : Type} (w : World σ) (outputDir : GoString)
    (selected : List GoString) (files : List ZipFile) (s : σ) (I : σ → Prop) (h0 : I s)
    (hI : ∀ s, I s → w.done s = false ∧ (∀ l, I (w.send s l)) ∧
      ∀ f t, (w.extractFile s f t).1 = none ∧ I (w.extractFile s f t).2) :
    (ExtractSelectedFiles w (.inr files) outputDir selected s).err = none ∧
    (ExtractSelectedFiles w (.inr files) outputDir selected s).events
      = files.flatMap (entryEvents outputDir selected)
        ++ [.sent "Extraction complete.".toList] := by
  obtain ⟨sk, evk, hr, -⟩ := selectedReach_of_inv w outputDir selected I hI files s [] h0
  obtain ⟨h1, h2⟩ := selectedReach_spec w outputDir selected files [] s sk [] evk hr
  rw [List.append_nil] at h2
  simp only [ExtractSelectedFiles]
  rw [h2, h1]
  simp only [selectedLoop, List.nil_append, true_and]

theorem sessionLines_cancelled {σ : Type} (w : World σ) (tag outputDir : GoString)
    (selected : List GoString) (pre : List ZipFile) (f : ZipFile) (post : List ZipFile)
    (s sk : σ) (evk : List Event)
    (hreach : selectedReach w outputDir selected pre s [] = some (sk, evk))
    (hdone : w.done sk = true) :
    sessionLines tag (ExtractSelectedFiles w (.inr (pre ++ f :: post)) outputDir selected s)
      = (pre.filter (fun f => decide (f.Name ∈ selected))).map (fun f => extractingLine f.Name)
        ++ ["Aborted".toList, tag ++ w.ctxErr sk] := by
  rw [extractSelected_cancelled w outputDir selected pre f post s sk evk hreach hdone]
  simp only [sessionLines]
  rw [sentLines_append, sentLines_entryEvents]
  simp [sentLines]

theorem sessionLines_success {σ : Type} (w : World σ) (tag outputDir : GoString)
    (selected : List GoString) (files : List ZipFile) (s : σ) (I : σ → Prop) (h0 : I s)
    (hI : ∀ s, I s → w.done s = false ∧ (∀ l, I (w.send s l)) ∧
      ∀ f t, (w.extractFile s f t).1 = none ∧ I (w.extractFile s f t).2) :
    sessionLines tag (ExtractSelectedFiles w (.inr files) outputDir selected s)
      = (files.filter (fun f => decide (f.Name ∈ selected))).map (fun f => extractingLine f.Name)
        ++ ["Extraction complete.".toList] := by
  obtain ⟨h1, h2⟩ := extractSelected_success w outputDir selected files s I h0 hI
  simp only [sessionLines]
  rw [h1, h2, sentLines_append, sentLines_entryEvents]
  simp [sentLines]

/-- The stream of a handler whose writer can flush. When the run succeeds (no
poll finds the context cancelled, every `ExtractFile` succeeds) the stream is
the announcements followed by "Extraction complete."; when the run is
cancelled at the entry after `pre`, it is the announcements of `pre`, then
"Aborted", then one more line, `ERROR: <ctx.Err()>` from `ExtractZipHandler`
and `Error: <ctx.Err()>` from the minimal server. -/
theorem handlerStream_lines {σ : Type} (w : World σ) (outDir : GoString)
    (selected : List GoString) (s : σ) :
    (∀ (files : List ZipFile) (I : σ → Prop), I s →
      (∀ s, I s → w.done s = false ∧ (∀ l, I (w.send s l)) ∧
        ∀ f t, (w.extractFile s f t).1 = none ∧ I (w.extractFile s f t).2) →
      (ExtractZipHandlerStream w (.inr files) outDir selected s .server).lines
        = (files.filter (fun f => decide (f.Name ∈ selected))).map
            (fun f => extractingLine f.Name) ++ ["Extraction complete.".toList] ∧
      (extractZipHandlerStream w (.inr files) selected s .server).lines
        = (files.filter (fun f => decide (f.Name ∈ selected))).map
            (fun f => extractingLine f.Name) ++ ["Extraction complete.".toList]) ∧
    (∀ (pre : List ZipFile) (f : ZipFile) (post : List ZipFile) (sk : σ) (evk : List Event),
      selectedReach w (defaultOutDir outDir) selected pre s [] = some (sk, evk) →
      w.done sk = true →
      (ExtractZipHandlerStream w (.inr (pre ++ f :: post)) outDir selected s .server).lines
        = (pre.filter (fun f => decide (f.Name ∈ selected))).map
            (fun f => extractingLine f.Name)
          ++ ["Aborted".toList, "ERROR: ".toList ++ w.ctxErr sk]) ∧
    (∀ (pre : List ZipFile) (f : ZipFile) (post : List ZipFile) (sk : σ) (evk : List Event),
      selectedReach w "./output".toList selected pre s [] = some (sk, evk) →
      w.done sk = true →
      (extractZipHandlerStream w (.inr (pre ++ f :: post)) selected s .server).lines
        = (pre.filter (fun f => decide (f.Name ∈ selected))).map
            (fun f => extractingLine f.Name)
          ++ ["Aborted".toList, "Error: ".toList ++ w.ctxErr sk]) := by
  refine ⟨?_, ?_, ?_⟩
  · intro files I h0 hI
    exact ⟨sessionLines_success w "ERROR: ".toList (defaultOutDir outDir) selected files s I h0
        hI,
      sessionLines_success w "Error: ".toList "./output".toList selected files s I h0 hI⟩
  · intro pre f post sk evk hreach hdone
    exact sessionLines_cancelled w "ERROR: ".toList _ selected pre f post s sk evk hreach hdone
  · intro pre f post sk evk hreach hdone
    exact sessionLines_cancelled w "Error: ".toList _ selected pre f post s sk evk hreach hdone

/-- C11, the divergence. Through the routes of the backend, whose writer is the
`*responseWriter` of `wrapHandler`, `ExtractZipHandler` streams no line at all
for any session, successful or cancelled: it answers with the error "Streaming
not supported", so no stream ends with "Extraction complete." or "Aborted".
Where the writer can flush (the minimal server; `ExtractZipHandler` called
without the wrapper), a session of `e1`, `e2` that is cancelled during the
first write delivers one more line after "Aborted", the report of the error
`ExtractSelectedFiles` returned: the last line is `ERROR: context canceled`,
`Error: context canceled` in the minimal server. A successful session of the
minimal server ends with "Extraction complete.". -/
theorem C11_stream_end_diverges :
    (∀ (σ : Type) (w : World σ) (archive : GoString ⊕ List ZipFile) (outDir : GoString)
        (files : List GoString) (s : σ),
      ExtractZipHandlerStream w archive outDir files s backendWriter
        = { errorMessage := some "Streaming not supported".toList, lines := [] }) ∧
    (ExtractZipHandlerStream (countingWorld 0 1) (.inr [⟨"e1".toList⟩, ⟨"e2".toList⟩])
        "/out".toList ["e1".toList, "e2".toList] 0 .server).lines
      = ["Extracting e1...".toList, "Aborted".toList, "ERROR: context canceled".toList] ∧
    (extractZipHandlerStream (countingWorld 0 1) (.inr [⟨"e1".toList⟩, ⟨"e2".toList⟩])
        ["e1".toList, "e2".toList] 0 minimalWriter).lines
      = ["Extracting e1...".toList, "Aborted".toList, "Error: context canceled".toList] ∧
    (extractZipHandlerStream (countingWorld 0 1) (.inr [⟨"e1".toList⟩, ⟨"e2".toList⟩])
        ["e1".toList, "e2".toList] 0 minimalWriter).lines.getLast? ≠ some "Aborted".toList ∧
    (extractZipHandlerStream calmWorld (.inr [⟨"a".toList⟩, ⟨"b".toList⟩]) ["b".toList] 0
        minimalWriter).lines = ["Extracting b...".toList, "Extraction complete.".toList] := by
  refine ⟨fun σ w archive outDir files s => rfl, by decide, by decide, by decide, by decide⟩

/-! ## Theorems: the boost mode of the CLI -/

/-- C12, failing input: the archive `a`, `b`, no filter, output directory
`/out`, both calls of `ExtractFile` failing, `-boost -workers 2`. In the run
in which the two workers alternate, each loads the empty `errorList` before
the other has stored its result: every worker has left its loop, `ExtractFile`
was called for the same entries with the same targets as in the sequential
run, yet `errorList` ends with one record where the sequential run ends with
two. The run in which worker 0 finishes `a` before worker 1 receives `b`
records both. -/
theorem C12_boost_loses_error :
    (mainSequential failingWorld (plainFlags false) [⟨"a".toList⟩, ⟨"b".toList⟩] 0).errorList
      = [⟨"a".toList, "permission denied".toList⟩, ⟨"b".toList, "permission denied".toList⟩] ∧
    extractCalls
        (mainSequential failingWorld (plainFlags false) [⟨"a".toList⟩, ⟨"b".toList⟩] 0).events
      = [("a".toList, "/out/a".toList), ("b".toList, "/out/b".toList)] ∧
    (mainBoost failingWorld (plainFlags false) 2 [⟨"a".toList⟩, ⟨"b".toList⟩]
        [0, 1, 0, 1, 0, 1, 0, 1, 0, 1] 0).map (fun r => r.errorList)
      = some [⟨"b".toList, "permission denied".toList⟩] ∧
    (mainBoost failingWorld (plainFlags false) 2 [⟨"a".toList⟩, ⟨"b".toList⟩]
        [0, 1, 0, 1, 0, 1, 0, 1, 0, 1] 0).map (fun r => extractCalls r.events)
      = some [("a".toList, "/out/a".toList), ("b".toList, "/out/b".toList)] ∧
    (mainBoost failingWorld (plainFlags false) 2 [⟨"a".toList⟩, ⟨"b".toList⟩]
        [0, 0, 0, 0, 1, 1, 1, 1, 0, 1] 0).map (fun r => r.errorList)
      = some [⟨"a".toList, "permission denied".toList⟩,
          ⟨"b".toList, "permission denied".toList⟩] := by
  decide

/-! ## Theorems: the registry of cancel functions -/

theorem extractionID_ne_nil (userEmail : GoString) (now : Int) :
    extractionID userEmail now ≠ [] := by
  unfold extractionID
  cases userEmail <;> simp

theorem cancelHandler_lookup (b : Backend) (id : GoString) (bodyID : Option GoString)
    (hid : id ≠ []) :
    CancelHandler b "POST".toList id bodyID
      = match b.extractions id with
        | none => { status := 404, message := "Extraction not found: ".toList ++ id,
                    invoked := none }
        | some cancel => { status := 200, message := "Extraction cancelled successfully".toList,
                           invoked := some cancel } := by
  unfold CancelHandler
  simp only [ne_eq, not_true_eq_false, if_false, hid]

/-- C19, failing input. In the minimal server a second request to
`/extractZip` replaces `currentCancel` whatever it holds: the first session,
still in flight, can no longer be cancelled and `/cancel` cancels the second.
In `handlers/zip.go` two requests of the same user in the same millisecond get
the same extraction id: the second store replaces the first session's cancel
function, a cancel request for the id cancels the second session only, and when
the first handler returns its deferred delete removes the entry of the second
session, which is still running. -/
theorem C19_live_handle_overwritten :
    (∀ (cur : Option Nat) (c1 c2 : Nat),
      extractZipHandlerEnter (extractZipHandlerEnter cur c1) c2 = some c2 ∧
      (cancelHandler (extractZipHandlerEnter (extractZipHandlerEnter cur c1) c2)).1 = some c2) ∧
    (∀ (b : Backend) (userEmail : GoString) (now : Int) (c1 c2 : Nat),
      (ExtractZipHandlerEnter b userEmail now c1).extractions (extractionID userEmail now)
        = some c1 ∧
      (ExtractZipHandlerEnter (ExtractZipHandlerEnter b userEmail now c1) userEmail now c2
        ).extractions (extractionID userEmail now) = some c2 ∧
      (CancelHandler
        (ExtractZipHandlerEnter (ExtractZipHandlerEnter b userEmail now c1) userEmail now c2)
        "POST".toList (extractionID userEmail now) none).invoked = some c2 ∧
      (ExtractZipHandlerReturn (runReturned
        (ExtractZipHandlerEnter (ExtractZipHandlerEnter b userEmail now c1) userEmail now c2) c1)
        userEmail now).extractions (extractionID userEmail now) = none) ∧
    extractionID "u@x.io".toList 1700000000000 = "u@x.io_1700000000000".toList ∧
    (CancelHandler
      (ExtractZipHandlerEnter (ExtractZipHandlerEnter newBackend "u@x.io".toList 1700000000000 1)
        "u@x.io".toList 1700000000000 2)
      "POST".toList "u@x.io_1700000000000".toList none)
      = { status := 200, message := "Extraction cancelled successfully".toList,
          invoked := some 2 } := by
  refine ⟨fun cur c1 c2 => ⟨rfl, rfl⟩, ?_, by decide, by decide⟩
  intro b userEmail now c1 c2
  refine ⟨?_, ?_, ?_, ?_⟩
  · simp [ExtractZipHandlerEnter]
  · simp [ExtractZipHandlerEnter]
  · rw [cancelHandler_lookup _ _ _ (extractionID_ne_nil userEmail now)]
    simp [ExtractZipHandlerEnter]
  · simp [ExtractZipHandlerReturn]

/-- The registry after the deferred delete of a handler whose extraction id is
`extractionID userEmail now`: the map has no entry for that id, every entry
under another id is unchanged, and a call of `CancelHandler` that names the id,
in the query or in the body, invokes no cancel function and answers 404 with
the message `Extraction not found: <id>`. -/
theorem unregistered_on_return (b : Backend) (userEmail : GoString) (now : Int) :
    (ExtractZipHandlerReturn b userEmail now).extractions (extractionID userEmail now) = none ∧
    (∀ id, id ≠ extractionID userEmail now →
      (ExtractZipHandlerReturn b userEmail now).extractions id = b.extractions id) ∧
    (ExtractZipHandlerReturn b userEmail now).finished = b.finished ∧
    (∀ bodyID, CancelHandler (ExtractZipHandlerReturn b userEmail now) "POST".toList
        (extractionID userEmail now) bodyID
      = { status := 404,
          message := "Extraction not found: ".toList ++ extractionID userEmail now,
          invoked := none }) ∧
    CancelHandler (ExtractZipHandlerReturn b userEmail now) "POST".toList []
        (some (extractionID userEmail now))
      = { status := 404,
          message := "Extraction not found: ".toList ++ extractionID userEmail now,
          invoked := none } ∧
    (∀ method bodyID, (CancelHandler (ExtractZipHandlerReturn b userEmail now) method
        (extractionID userEmail now) bodyID).invoked = none) := by
  have hne := extractionID_ne_nil userEmail now
  have h0 : (ExtractZipHandlerReturn b userEmail now).extractions (extractionID userEmail now)
      = none := by simp [ExtractZipHandlerReturn]
  have h404 : ∀ bodyID, CancelHandler (ExtractZipHandlerReturn b userEmail now) "POST".toList
        (extractionID userEmail now) bodyID
      = { status := 404,
          message := "Extraction not found: ".toList ++ extractionID userEmail now,
          invoked := none } := by
    intro bodyID
    rw [cancelHandler_lookup _ _ _ hne, h0]
  refine ⟨h0, ?_, rfl, h404, ?_, ?_⟩
  · intro id hid
    simp [ExtractZipHandlerReturn, hid]
  · unfold CancelHandler
    simp only [ne_eq, not_true_eq_false, if_false, if_true, hne, not_false_eq_true, h0]
  · intro method bodyID
    by_cases hm : method = "POST".toList
    · rw [hm, h404]
    · unfold CancelHandler
      simp only [ne_eq, hm, not_false_eq_true, if_true]

/-- C20, the divergence. Through the routes of the backend the handler returns
at line 165, while the run it started goes on: for every registry, user and
time stamp, when the handler has returned the id of the session is gone from
the map although the run has not returned (the finished runs are those of
before), and a cancel request for the id invokes nothing and answers 404, so
the live run can no longer be cancelled. On the backend before any request:
the run with context 7 of `u@x.io` is live and unregistered. And with a
session 8 of the same user registered in the same millisecond, the return of
the handler of session 7 removes the entry that session 8 had registered,
while the run of session 8 has not ended. -/
theorem C20_unregistered_while_live :
    (∀ (b : Backend) (userEmail : GoString) (now : Int) (ctx : Nat) (bodyID : Option GoString),
      (ExtractZipHandlerRun b userEmail now ctx backendWriter).extractions
        (extractionID userEmail now) = none ∧
      (ExtractZipHandlerRun b userEmail now ctx backendWriter).finished = b.finished ∧
      CancelHandler (ExtractZipHandlerRun b userEmail now ctx backendWriter) "POST".toList
          (extractionID userEmail now) bodyID
        = { status := 404,
            message := "Extraction not found: ".toList ++ extractionID userEmail now,
            invoked := none }) ∧
    7 ∉ (ExtractZipHandlerRun newBackend "u@x.io".toList 5 7 backendWriter).finished ∧
    CancelHandler (ExtractZipHandlerRun newBackend "u@x.io".toList 5 7 backendWriter)
        "POST".toList "u@x.io_5".toList none
      = { status := 404, message := "Extraction not found: u@x.io_5".toList,
          invoked := none } ∧
    (ExtractZipHandlerEnter newBackend "u@x.io".toList 5 8).extractions "u@x.io_5".toList
      = some 8 ∧
    8 ∉ (ExtractZipHandlerRun (ExtractZipHandlerEnter newBackend "u@x.io".toList 5 8)
        "u@x.io".toList 5 7 backendWriter).finished ∧
    (ExtractZipHandlerRun (ExtractZipHandlerEnter newBackend "u@x.io".toList 5 8)
        "u@x.io".toList 5 7 backendWriter).extractions "u@x.io_5".toList = none := by
  refine ⟨?_, by decide, by decide, by decide, by decide, by decide⟩
  intro b userEmail now ctx bodyID
  have e : ExtractZipHandlerRun b userEmail now ctx backendWriter
      = ExtractZipHandlerReturn (ExtractZipHandlerEnter b userEmail now ctx) userEmail now := rfl
  rw [e]
  obtain ⟨h1, -, h3, h4, -, -⟩ :=
    unregistered_on_return (ExtractZipHandlerEnter b userEmail now ctx) userEmail now
  exact ⟨h1, h3, h4 bodyID⟩

/-! ## Theorems: progress and accounting of the sequential run of `main` -/

theorem progressCalls_append (a b : List Event) :
    progressCalls (a ++ b) = progressCalls a ++ progressCalls b := by
  induction a with
  | nil => rfl
  | cons e a ih => cases e <;> simp [progressCalls, ih]

theorem succeededCalls_append (a b : List Event) :
    succeededCalls (a ++ b) = succeededCalls a ++ succeededCalls b := by
  induction a with
  | nil => rfl
  | cons e a ih =>
    cases e with
    | extract n t err => cases err <;> simp [succeededCalls, ih]
    | _ => simp [succeededCalls, ih]

/-- Every call of `ExtractFile` either returned `nil` or failed. -/
theorem extractCalls_length (ev : List Event) :
    (extractCalls ev).length = (succeededCalls ev).length + (failedCalls ev).length := by
  induction ev with
  | nil => rfl
  | cons e ev ih =>
    cases e with
    | extract n t err =>
      cases err with
      | none => simp only [extractCalls, succeededCalls, failedCalls, List.length_cons, ih]; omega
      | some e => simp only [extractCalls, succeededCalls, failedCalls, List.length_cons, ih]; omega
    | _ => simpa only [extractCalls, succeededCalls, failedCalls] using ih

/-- The three tests of the sequential loop split a catalog. -/
theorem catalog_split (fl : Flags) (files : List ZipFile) :
    files.length
      = (files.filter (fun f => ! ShouldExtract fl.fpMatch f.Name fl.incl fl.excl)).length
        + (files.filter (rejectedByGuard fl)).length
        + (files.filter (passesChecks fl)).length := by
  induction files with
  | nil => rfl
  | cons f rest ih =>
    cases h1 : ShouldExtract fl.fpMatch f.Name fl.incl fl.excl <;>
      cases h2 : IsPathWithinBase fl.wd fl.outDir (Join fl.outDir f.Name) <;>
      simp only [List.filter_cons, List.length_cons, rejectedByGuard, passesChecks, h1, h2,
        Bool.not_false, Bool.not_true, Bool.and_true, Bool.and_false, Bool.true_and,
        Bool.false_and, Bool.false_eq_true, if_true, if_false] <;>
      simp only [rejectedByGuard, passesChecks] at ih <;>
      omega

/-- The calls of `PrintProgress` one pass of the sequential loop adds. -/
theorem seqBody_progress {σ : Type} (w : World σ) (fl : Flags) (total i : Nat) (f : ZipFile)
    (st : MainState σ) :
    progressCalls (seqBody w fl total i f st).events
      = progressCalls st.events ++
        (if passesChecks fl f = true then [(i + 1, total)] else []) ∧
    (∀ e ∈ (seqBody w fl total i f st).errorList,
      e ∈ st.errorList ∨ (e.File = f.Name ∧ passesChecks fl f = true)) := by
  unfold seqBody passesChecks
  by_cases h1 : ShouldExtract fl.fpMatch f.Name fl.incl fl.excl = true
  · by_cases h2 : IsPathWithinBase fl.wd fl.outDir (Join fl.outDir f.Name) = true
    · simp only [h1, h2, not_true_eq_false, if_false, Bool.and_self, if_true]
      rcases hx : w.extractFile st.world f (Join fl.outDir f.Name) with ⟨err, s1⟩
      cases err with
      | none =>
        simp only [progressCalls_append, progressCalls, true_and]
        intro e he; exact Or.inl he
      | some e =>
        simp only [progressCalls_append, progressCalls, true_and]
        intro e1 he
        by_cases hs : fl.skipErrors = true
        · simp only [hs, not_true_eq_false, if_false] at he
          exact Or.inl he
        · rw [if_pos hs] at he
          rcases List.mem_append.1 he with he | he
          · exact Or.inl he
          · rw [List.mem_singleton.1 he]
            exact Or.inr ⟨rfl, trivial⟩
    · simp only [h1, h2, not_true_eq_false, not_false_eq_true, if_false, if_true,
        Bool.and_false, Bool.false_eq_true, List.append_nil, true_and]
      intro e he; exact Or.inl he
  · simp only [h1, not_false_eq_true, if_true, Bool.false_and, Bool.false_eq_true, if_false,
      List.append_nil, true_and]
    intro e he; exact Or.inl he

theorem seqLoop_progress {σ : Type} (w : World σ) (fl : Flags) (total : Nat) :
    ∀ (files : List ZipFile) (i : Nat) (st : MainState σ),
      progressCalls (seqLoop w fl total i files st).events
        = progressCalls st.events ++ progressFrom fl total i files ∧
      (∀ e ∈ (seqLoop w fl total i files st).errorList,
        e ∈ st.errorList ∨ ∃ f ∈ files, e.File = f.Name ∧ passesChecks fl f = true) := by
  intro files
  induction files with
  | nil => intro i st; simp [seqLoop, progressFrom]
  | cons f rest ih =>
    intro i st
    obtain ⟨b1, b2⟩ := seqBody_progress w fl total i f st
    obtain ⟨h1, h2⟩ := ih (i + 1) (seqBody w fl total i f st)
    simp only [seqLoop]
    refine ⟨?_, ?_⟩
    · rw [h1, b1, progressFrom, List.append_assoc]
    · intro e he
      rcases h2 e he with h | ⟨g, hg, hn, hp⟩
      · rcases b2 e h with h | ⟨hn, hp⟩
        · exact Or.inl h
        · exact Or.inr ⟨f, List.mem_cons_self _ _, hn, hp⟩
      · exact Or.inr ⟨g, List.mem_cons_of_mem _ hg, hn, hp⟩

/-- When every entry passes the filter and the path guard, the arguments of
the progress calls are `(i + 1, total)` for every index of the catalog. -/
theorem progressFrom_all (fl : Flags) (total : Nat) :
    ∀ (files : List ZipFile) (i : Nat), (∀ f ∈ files, passesChecks fl f = true) →
      progressFrom fl total i files
        = (List.range' i files.length).map (fun j => (j + 1, total)) := by
  intro files
  induction files with
  | nil => intro i _; rfl
  | cons f rest ih =>
    intro i h
    have hf := h f (List.mem_cons_self _ _)
    have hr := ih (i + 1) (fun g hg => h g (List.mem_cons_of_mem _ hg))
    simp only [progressFrom, hf, if_true, hr, List.length_cons, List.range'_succ, List.map_cons,
      List.singleton_append]

/-- C21, failing input: the catalog `notes.txt`, `malware.exe` extracted with
`-exclude malware.exe`. `PrintProgress` is called once, with `(1, 2)`: there is
no call for the filtered entry and the last call is not `(2, 2)`. In every
sequential run the calls of `PrintProgress` are `(i + 1, total)` for exactly
the entries that pass the filter and the path guard, in catalog order (the
`continue` of lines 197 and 202 leaves the loop body before line 212); they
are `(1, total)` to `(total, total)` only when no entry is filtered or
rejected. -/
theorem C21_progress_skips_entries :
    progressCalls (mainSequential calmWorld excludeFlags
        [⟨"notes.txt".toList⟩, ⟨"malware.exe".toList⟩] 0).events = [(1, 2)] ∧
    (mainSequential calmWorld excludeFlags
        [⟨"notes.txt".toList⟩, ⟨"malware.exe".toList⟩] 0).totalFiles = 2 ∧
    (∀ (σ : Type) (w : World σ) (fl : Flags) (files : List ZipFile) (s : σ),
      progressCalls (mainSequential w fl files s).events
        = progressFrom fl files.length 0 files) ∧
    (∀ (σ : Type) (w : World σ) (fl : Flags) (files : List ZipFile) (s : σ),
      (∀ f ∈ files, passesChecks fl f = true) →
      progressCalls (mainSequential w fl files s).events
        = (List.range files.length).map (fun i => (i + 1, files.length))) := by
  have key : ∀ (σ : Type) (w : World σ) (fl : Flags) (files : List ZipFile) (s : σ),
      progressCalls (mainSequential w fl files s).events
        = progressFrom fl files.length 0 files := by
    intro σ w fl files s
    have h := (seqLoop_progress w fl files.length files 0
      { skippedCount := 0, errorList := [], events := [], world := s }).1
    simpa [mainSequential, progressCalls] using h
  refine ⟨by decide, by decide, key, ?_⟩
  intro σ w fl files s hall
  rw [key, progressFrom_all fl files.length files 0 hall, List.range_eq_range']

/-- C29: the accounting of a sequential run of `main`. The number of catalog
entries is the sum of `skippedCount`, the number of entries dropped at the path
guard, the number of calls of `ExtractFile` that returned `nil` and the number
that failed; `skippedCount` counts exactly the entries the filter rejects;
every record of `errorList` names an entry that passed the filter and the path
guard, so an entry dropped at the guard is in neither; and without
`-skip-errors` the records of `errorList` are the failed calls. -/
theorem C29_sequential_accounting {σ : Type} (w : World σ) (fl : Flags) (files : List ZipFile)
    (s : σ) :
    (mainSequential w fl files s).totalFiles
      = (mainSequential w fl files s).skippedCount
        + (files.filter (rejectedByGuard fl)).length
        + (succeededCalls (mainSequential w fl files s).events).length
        + (failedCalls (mainSequential w fl files s).events).length ∧
    (mainSequential w fl files s).skippedCount
      = (files.filter (fun f => ! ShouldExtract fl.fpMatch f.Name fl.incl fl.excl)).length ∧
    (∀ e ∈ (mainSequential w fl files s).errorList,
      ∃ f ∈ files, e.File = f.Name ∧ passesChecks fl f = true ∧ rejectedByGuard fl f = false) ∧
    (fl.skipErrors = false →
      (mainSequential w fl files s).errorList
        = failedCalls (mainSequential w fl files s).events ∧
      (mainSequential w fl files s).errorList.length
        = (failedCalls (mainSequential w fl files s).events).length) := by
  obtain ⟨h1, h2, h3, -⟩ := seqLoop_spec w fl files.length files 0
    { skippedCount := 0, errorList := [], events := [], world := s }
  have h5 := (seqLoop_progress w fl files.length files 0
    { skippedCount := 0, errorList := [], events := [], world := s }).2
  simp only [extractCalls, List.nil_append, Nat.zero_add] at h1 h2
  have hlen := extractCalls_length (mainSequential w fl files s).events
  have hcalls : (extractCalls (mainSequential w fl files s).events).length
      = (files.filter (passesChecks fl)).length := by
    simp only [mainSequential]
    rw [h1, List.length_map]
  have hsk : (mainSequential w fl files s).skippedCount
      = (files.filter (fun f => ! ShouldExtract fl.fpMatch f.Name fl.incl fl.excl)).length := h2
  refine ⟨?_, hsk, ?_, ?_⟩
  · have hsplit := catalog_split fl files
    have ht : (mainSequential w fl files s).totalFiles = files.length := rfl
    rw [ht, hsk]
    omega
  · intro e he
    rcases h5 e he with h | ⟨f, hf, hn, hp⟩
    · cases h
    · refine ⟨f, hf, hn, hp, ?_⟩
      unfold passesChecks at hp
      unfold rejectedByGuard
      simp only [Bool.and_eq_true] at hp
      simp [hp.1, hp.2]
  · intro hs
    have e1 : (mainSequential w fl files s).errorList
        = failedCalls (mainSequential w fl files s).events := h3 hs rfl
    exact ⟨e1, by rw [e1]⟩

/-- C29, witness: the catalog `a`, `../evil`, `malware.exe`, `b` with
`-exclude malware.exe`, the second call of `ExtractFile` failing: one entry in
each of the four classes. -/
theorem C29_sequential_accounting_witness :
    (mainSequential (countingWorld 2 9) excludeFlags
        [⟨"a".toList⟩, ⟨"../evil".toList⟩, ⟨"malware.exe".toList⟩, ⟨"b".toList⟩] 0).errorList
      = failedCalls (mainSequential (countingWorld 2 9) excludeFlags
        [⟨"a".toList⟩, ⟨"../evil".toList⟩, ⟨"malware.exe".toList⟩, ⟨"b".toList⟩] 0).events ∧
    (mainSequential (countingWorld 2 9) excludeFlags
        [⟨"a".toList⟩, ⟨"../evil".toList⟩, ⟨"malware.exe".toList⟩, ⟨"b".toList⟩] 0).errorList.length
      = (failedCalls (mainSequential (countingWorld 2 9) excludeFlags
        [⟨"a".toList⟩, ⟨"../evil".toList⟩, ⟨"malware.exe".toList⟩, ⟨"b".toList⟩] 0).events).length :=
  (C29_sequential_accounting (countingWorld 2 9) excludeFlags
    [⟨"a".toList⟩, ⟨"../evil".toList⟩, ⟨"malware.exe".toList⟩, ⟨"b".toList⟩] 0).2.2.2 rfl

/-! ## Theorems: backend selection, the failing session, boost mode without workers -/

/-- C22: backend selection by `NewDownloaderFromFlags`. A non-empty `url`
gives a `URLDownloader` with that URL; otherwise a non-empty `torrent` gives a
`TorrentDownloader` with that magnet URI; otherwise non-empty `fileId` and
`outDir` give a `DriveExtractor` with both; otherwise the result is `nil`. So
the result is `nil` exactly when `url` and `torrent` are empty and one of
`fileId`, `outDir` is empty. -/
theorem C22_backend_selection (url torrent fileId outDir : GoString) :
    (url ≠ [] → NewDownloaderFromFlags url torrent fileId outDir = some (.url url)) ∧
    (url = [] → torrent ≠ [] →
      NewDownloaderFromFlags url torrent fileId outDir = some (.torrent torrent)) ∧
    (url = [] → torrent = [] → fileId ≠ [] → outDir ≠ [] →
      NewDownloaderFromFlags url torrent fileId outDir
        = some (.drive { FileID := fileId, OutDir := outDir })) ∧
    (url = [] → torrent = [] → (fileId = [] ∨ outDir = []) →
      NewDownloaderFromFlags url torrent fileId outDir = none) ∧
    (NewDownloaderFromFlags url torrent fileId outDir = none ↔
      url = [] ∧ torrent = [] ∧ (fileId = [] ∨ outDir = [])) := by
  unfold NewDownloaderFromFlags
  by_cases hu : url = []
  · by_cases ht : torrent = []
    · by_cases hf : fileId = []
      · simp [hu, ht, hf]
      · by_cases ho : outDir = []
        · simp [hu, ht, hf, ho]
        · simp [hu, ht, hf, ho]
    · simp [hu, ht]
  · simp [hu]

/-- C22, witness: the four rows of `TestNewDownloaderFromFlags`. -/
theorem C22_backend_selection_witness :
    NewDownloaderFromFlags "https://example.com/file.zip".toList [] [] "/tmp".toList
      = some (.url "https://example.com/file.zip".toList) ∧
    NewDownloaderFromFlags [] "magnet:?xt=urn:btih:abc123".toList [] "/tmp".toList
      = some (.torrent "magnet:?xt=urn:btih:abc123".toList) ∧
    NewDownloaderFromFlags [] [] "drive-file-id".toList "/tmp".toList
      = some (.drive { FileID := "drive-file-id".toList, OutDir := "/tmp".toList }) ∧
    NewDownloaderFromFlags [] [] [] "/tmp".toList = none :=
  ⟨(C22_backend_selection "https://example.com/file.zip".toList [] [] "/tmp".toList).1
      (by decide),
   (C22_backend_selection [] "magnet:?xt=urn:btih:abc123".toList [] "/tmp".toList).2.1 rfl
      (by decide),
   (C22_backend_selection [] [] "drive-file-id".toList "/tmp".toList).2.2.1 rfl rfl
      (by decide) (by decide),
   (C22_backend_selection [] [] [] "/tmp".toList).2.2.2.1 rfl rfl (Or.inl rfl)⟩

theorem extractingLine_ne_terminal (name : GoString) :
    extractingLine name ≠ "Extraction complete.".toList ∧
    extractingLine name ≠ "Aborted".toList := by
  have e1 : extractingLine name
      = 'E' :: 'x' :: 't' :: 'r' :: 'a' :: 'c' :: 't' :: 'i' :: 'n' :: 'g' :: ' ' ::
        (name ++ "...".toList) := rfl
  have e2 : "Extraction complete.".toList
      = 'E' :: 'x' :: 't' :: 'r' :: 'a' :: 'c' :: 't' :: 'i' :: 'o' :: "n complete.".toList := rfl
  have e3 : "Aborted".toList = 'A' :: "borted".toList := rfl
  constructor
  · rw [e1, e2]
    intro h
    simp only [List.cons.injEq, true_and] at h
    exact absurd h.1 (by decide)
  · rw [e1, e3]
    intro h
    exact absurd (List.cons.inj h).1 (by decide)

/-- C27: a session stops at its first failing entry. If the loop of
`ExtractSelectedFiles` gets past the entries `pre`, the context is not
cancelled at the next entry `f`, `f` is selected and `ExtractFile` fails for it
with the error `e`, then the call returns the error `extract <name>: <e>`; the
events are those of `pre` followed by the poll, the line `Extracting <name>...`
and the failed call for `f`, so no entry of `post` is announced or written and
what was written for `pre` stays; the lines sent are the announcements of the
selected entries of `pre` and of `f`, and neither "Extraction complete." nor
"Aborted" is among them. -/
theorem C27_session_stops_at_failure {σ : Type} (w : World σ) (outputDir : GoString)
    (selected : List GoString) (pre : List ZipFile) (f : ZipFile) (post : List ZipFile)
    (s sk s2 : σ) (evk : List Event) (e : GoString)
    (hreach : selectedReach w outputDir selected pre s [] = some (sk, evk))
    (hdone : w.done sk = false) (hsel : f.Name ∈ selected)
    (hfail : w.extractFile (w.send sk (extractingLine f.Name)) f (Join outputDir f.Name)
      = (some e, s2)) :
    ExtractSelectedFiles w (.inr (pre ++ f :: post)) outputDir selected s
      = { err := some ("extract ".toList ++ f.Name ++ ": ".toList ++ e),
          events := pre.flatMap (entryEvents outputDir selected)
            ++ [.poll false, .sent (extractingLine f.Name),
                .extract f.Name (Join outputDir f.Name) (some e)],
          world := s2 } ∧
    sentLines (ExtractSelectedFiles w (.inr (pre ++ f :: post)) outputDir selected s).events
      = (pre.filter (fun f => decide (f.Name ∈ selected))).map (fun f => extractingLine f.Name)
        ++ [extractingLine f.Name] ∧
    "Extraction complete.".toList ∉
      sentLines (ExtractSelectedFiles w (.inr (pre ++ f :: post)) outputDir selected s).events ∧
    "Aborted".toList ∉
      sentLines (ExtractSelectedFiles w (.inr (pre ++ f :: post)) outputDir selected s).events ∧
    extractCalls (ExtractSelectedFiles w (.inr (pre ++ f :: post)) outputDir selected s).events
      = (pre.filter (fun f => decide (f.Name ∈ selected))).map
          (fun f => (f.Name, Join outputDir f.Name))
        ++ [(f.Name, Join outputDir f.Name)] := by
  obtain ⟨h1, h2⟩ := selectedReach_spec w outputDir selected pre (f :: post) s sk [] evk hreach
  have hres : ExtractSelectedFiles w (.inr (pre ++ f :: post)) outputDir selected s
      = { err := some ("extract ".toList ++ f.Name ++ ": ".toList ++ e),
          events := pre.flatMap (entryEvents outputDir selected)
            ++ [.poll false, .sent (extractingLine f.Name),
                .extract f.Name (Join outputDir f.Name) (some e)],
          world := s2 } := by
    simp only [ExtractSelectedFiles]
    rw [h2, selectedLoop]
    simp only [hdone, Bool.false_eq_true, if_false, hsel, not_true_eq_false, hfail, h1,
      List.nil_append, extractError]
  have hsent : sentLines
      (ExtractSelectedFiles w (.inr (pre ++ f :: post)) outputDir selected s).events
      = (pre.filter (fun f => decide (f.Name ∈ selected))).map (fun f => extractingLine f.Name)
        ++ [extractingLine f.Name] := by
    rw [hres]
    simp only [sentLines_append, sentLines_entryEvents, sentLines]
  refine ⟨hres, hsent, ?_, ?_, ?_⟩
  · rw [hsent]
    intro hmem
    rcases List.mem_append.1 hmem with hm | hm
    · obtain ⟨g, -, hg⟩ := List.mem_map.1 hm
      exact (extractingLine_ne_terminal g.Name).1 hg
    · exact (extractingLine_ne_terminal f.Name).1 (List.mem_singleton.1 hm).symm
  · rw [hsent]
    intro hmem
    rcases List.mem_append.1 hmem with hm | hm
    · obtain ⟨g, -, hg⟩ := List.mem_map.1 hm
      exact (extractingLine_ne_terminal g.Name).2 hg
    · exact (extractingLine_ne_terminal f.Name).2 (List.mem_singleton.1 hm).symm
  · rw [hres]
    simp only [extractCalls_append, extractCalls_entryEvents, extractCalls]

/-- C27, witness: the selected entries `a`, `b`, `c`, the second write
failing. -/
theorem C27_session_stops_at_failure_witness :
    ExtractSelectedFiles (countingWorld 2 9)
        (.inr ([⟨"a".toList⟩] ++ ⟨"b".toList⟩ :: [⟨"c".toList⟩])) "/out".toList
        ["a".toList, "b".toList, "c".toList] 0
      = { err := some ("extract ".toList ++ "b".toList ++ ": ".toList
            ++ "permission denied".toList),
          events := [⟨"a".toList⟩].flatMap
              (entryEvents "/out".toList ["a".toList, "b".toList, "c".toList])
            ++ [.poll false, .sent (extractingLine "b".toList),
                .extract "b".toList (Join "/out".toList "b".toList)
                  (some "permission denied".toList)],
          world := 2 } :=
  (C27_session_stops_at_failure (countingWorld 2 9) "/out".toList
    ["a".toList, "b".toList, "c".toList] [⟨"a".toList⟩] ⟨"b".toList⟩ [⟨"c".toList⟩] 0 1 2
    [.poll false, .sent "Extracting a...".toList, .extract "a".toList "/out/a".toList none]
    "permission denied".toList (by decide) (by decide) (by decide) (by decide)).1

theorem boostProduce_spec (fl : Flags) (files : List ZipFile) :
    (boostProduce fl files).1
      = files.filter (fun f => ShouldExtract fl.fpMatch f.Name fl.incl fl.excl) ∧
    (boostProduce fl files).2
      = (files.filter (fun f => ! ShouldExtract fl.fpMatch f.Name fl.incl fl.excl)).length := by
  induction files with
  | nil => exact ⟨rfl, rfl⟩
  | cons f rest ih =>
    simp only [boostProduce, List.filter_cons]
    cases h : ShouldExtract fl.fpMatch f.Name fl.incl fl.excl
    · simp [ih.1, ih.2]
    · simp [ih.1, ih.2]

theorem workerStep_no_workers {σ : Type} (w : World σ) (fl : Flags) (total i : Nat)
    (st : BoostState σ) (h : st.pcs = []) : workerStep w fl total i st = st := by
  unfold workerStep
  rw [h]
  rfl

theorem foldl_no_workers {σ : Type} (w : World σ) (fl : Flags) (total : Nat) :
    ∀ (schedule : List Nat) (st : BoostState σ), st.pcs = [] →
      schedule.foldl (fun st i => workerStep w fl total i st) st = st := by
  intro schedule
  induction schedule with
  | nil => intro st _; rfl
  | cons i rest ih =>
    intro st h
    simp only [List.foldl_cons]
    rw [workerStep_no_workers w fl total i st h]
    exact ih st h

/-- C28: boost mode without workers. With a value of `-workers` that is zero
or negative the loop of line 155 starts no worker; the producer sends the
entries that pass the filter to `jobs`, which are no more than the capacity
`totalFiles` of the channel, so no send blocks, and `wg.Wait()` has nothing to
wait for. The run ends with `totalFiles` the number of catalog entries, the
same `skippedCount` as the sequential run, an empty `errorList` and no call of
`ExtractFile`, whatever the schedule. -/
theorem C28_boost_without_workers {σ : Type} (w : World σ) (fl : Flags) (workers : Int)
    (files : List ZipFile) (schedule : List Nat) (s : σ) (hw : workers ≤ 0) :
    startedWorkers workers = 0 ∧
    (boostProduce fl files).1.length ≤ files.length ∧
    mainBoost w fl (startedWorkers workers) files schedule s
      = some { totalFiles := files.length,
               skippedCount := (mainSequential w fl files s).skippedCount,
               errorList := [], events := [], world := s } ∧
    (mainBoost w fl (startedWorkers workers) files schedule s).map
        (fun r => extractCalls r.events) = some [] := by
  have h0 : startedWorkers workers = 0 := by
    unfold startedWorkers
    omega
  have hsk : (mainSequential w fl files s).skippedCount = (boostProduce fl files).2 := by
    have h2 := (seqLoop_spec w fl files.length files 0
      { skippedCount := 0, errorList := [], events := [], world := s }).2.1
    rw [(boostProduce_spec fl files).2]
    simpa [mainSequential] using h2
  have hrun : mainBoost w fl (startedWorkers workers) files schedule s
      = some { totalFiles := files.length,
               skippedCount := (mainSequential w fl files s).skippedCount,
               errorList := [], events := [], world := s } := by
    rw [h0, hsk]
    simp only [mainBoost, List.replicate_zero]
    rw [foldl_no_workers w fl files.length schedule _ rfl]
    rfl
  refine ⟨h0, ?_, hrun, ?_⟩
  · rw [(boostProduce_spec fl files).1]
    exact List.length_filter_le _ _
  · rw [hrun]
    rfl

/-- C28, witness: `-boost -workers 0` and `-workers -3` on the catalog
`notes.txt`, `malware.exe` with `-exclude malware.exe`. -/
theorem C28_boost_without_workers_witness :
    mainBoost calmWorld excludeFlags (startedWorkers 0)
        [⟨"notes.txt".toList⟩, ⟨"malware.exe".toList⟩] [0, 1, 0] 0
      = some { totalFiles := 2,
               skippedCount := (mainSequential calmWorld excludeFlags
                 [⟨"notes.txt".toList⟩, ⟨"malware.exe".toList⟩] 0).skippedCount,
               errorList := [], events := [], world := 0 } ∧
    (mainBoost calmWorld excludeFlags (startedWorkers (-3))
        [⟨"notes.txt".toList⟩, ⟨"malware.exe".toList⟩] [] 0).map
        (fun r => extractCalls r.events) = some [] :=
  ⟨(C28_boost_without_workers calmWorld excludeFlags 0
      [⟨"notes.txt".toList⟩, ⟨"malware.exe".toList⟩] [0, 1, 0] 0 (by decide)).2.2.1,
   (C28_boost_without_workers calmWorld excludeFlags (-3)
      [⟨"notes.txt".toList⟩, ⟨"malware.exe".toList⟩] [] 0 (by decide)).2.2.2⟩

/-! ## Theorems: the chunk geometry of `ReadAt` -/

/-- The request `ReadAt` computes at a position `pos` of the object, when no
`int64` operation wraps: chunk `pos / c`, from `(pos / c) * c` to
`min((pos / c) * c + c, S) - 1`. -/
theorem reqFor_eq (S c pos : Int) (hc : 0 < c) (h0 : 0 ≤ pos) (h1 : pos < S)
    (hfit : (S - 1) / c * c + c - 1 ≤ maxInt64) :
    reqFor S c pos
      = { chunkIdx := pos / c, first := pos / c * c, last := min (pos / c * c + c) S - 1 } := by
  obtain ⟨g1, g2, g3, g4, g5, g6⟩ := chunk_geom S c pos hc h0 h1 hfit
  obtain ⟨-, -, s3, s4, s5, -⟩ := chunk_geom S c (S - 1) hc (by omega) (by omega) hfit
  have hcs : 0 ≤ pos / c * c := Int.mul_nonneg g2 hc.le
  unfold reqFor
  simp only
  rw [g1]
  simp only [maxInt64] at *
  have e1 : wrapInt64 (pos / c) = pos / c := by unfold wrapInt64; omega
  rw [e1]
  generalize pos / c * c = cs at *
  generalize (S - 1) / c * c = ls at *
  have e2 : wrapInt64 cs = cs := by unfold wrapInt64; omega
  have e3 : wrapInt64 (wrapInt64 (cs + c) - 1) = cs + c - 1 := by unfold wrapInt64; omega
  have e4 : wrapInt64 (S - 1) = S - 1 := by unfold wrapInt64; omega
  rw [e2, e3, e4]
  by_cases hge : cs + c - 1 ≥ S
  · rw [if_pos hge]
    have : min (cs + c) S = S := min_eq_right (by omega)
    rw [this]
  · rw [if_neg hge]
    have : min (cs + c) S = cs + c := min_eq_left (by omega)
    rw [this]

/-- Every request a run of the loop of `ReadAt` adds is the request computed
at a position between the position the run starts from and the end of the
object. -/
theorem readLoop_requests {β : Type} (fetch : Fetch β) (S c : Int) (len : Nat) (hc : c ≠ 0)
    (hlen : (len : Int) ≤ maxInt64) (hf : FetchBounded fetch) :
    ∀ (fuel : Nat) (st : LoopState β) (r : ReadResult β), CountInv len st →
      CacheBounded st.cache → 0 ≤ st.pos → st.pos + st.remaining ≤ maxInt64 →
      readLoop fetch S c fuel st = some r →
      ∀ q ∈ r.fetches, q ∈ st.fetches ∨ ∃ pos, st.pos ≤ pos ∧ pos < S ∧ q = reqFor S c pos := by
  intro fuel
  induction fuel with
  | zero =>
    intro st r inv hcb hp0 hp1 h q hq
    unfold readLoop at h
    by_cases hcond : st.remaining > 0 ∧ st.pos < S
    · rw [if_pos hcond] at h; cases h
    · rw [if_neg hcond] at h
      split_ifs at h <;> (cases h; exact Or.inl hq)
  | succ fuel ih =>
    intro st r inv hcb hp0 hp1 h q hq
    unfold readLoop at h
    by_cases hcond : st.remaining > 0 ∧ st.pos < S
    · rw [if_pos hcond] at h
      simp only at h
      have key : ∀ (st2 : LoopState β) (cs : Int) (buf : List Byte), CountInv len st2 →
          CacheBounded st2.cache → st2.remaining = st.remaining → st2.pos = st.pos →
          (buf.length : Int) ≤ maxInt64 →
          (match copyStep st2 cs buf with
              | .inl r => some r
              | .inr st1 => readLoop fetch S c fuel st1) = some r →
          q ∈ st2.fetches ∨ ∃ pos, st.pos ≤ pos ∧ pos < S ∧ q = reqFor S c pos := by
        intro st2 cs buf inv2 hcb2 hrem2 hpos2 hb h2
        rcases copyStep_count len st2 cs buf inv2 hlen hb (by omega) with
          ⟨-, e⟩ | ⟨o, t, -, -, h0, h1, h2', h3, e⟩
        · rw [e] at h2
          cases h2
          exact Or.inl hq
        · rw [e] at h2
          simp only at h2
          have hw : wrapInt64 (st2.pos + t) = st2.pos + t := by
            simp only [maxInt64] at hp1
            unfold wrapInt64
            omega
          rw [hw] at h2
          have inv3 := countInv_copy len st2 buf o t inv2 h0 h1 h2' h3
          rw [hw] at inv3
          rcases ih _ r inv3 hcb2 (by show 0 ≤ st2.pos + t; omega)
            (by show st2.pos + t + (st2.remaining - t) ≤ maxInt64; omega) h2 q hq with hl | hr
          · exact Or.inl hl
          · obtain ⟨pos, hp, hps, hqe⟩ := hr
            exact Or.inr ⟨pos, by
              have : st2.pos + t ≤ pos := hp
              omega, hps, hqe⟩
      rcases loopBody_cases fetch S c st hc with
        ⟨buf, hk, hb⟩ | ⟨hk, q0, svc1, hq0, hqr, ⟨e, he, hb⟩ | ⟨data, hfd, hb⟩⟩
      · rw [hb] at h
        exact key st _ buf inv hcb rfl rfl (hcb _ _ hk) h
      · rw [hb] at h
        cases h
        rcases List.mem_append.1 hq with hl | hr
        · exact Or.inl hl
        · exact Or.inr ⟨st.pos, le_refl _, hcond.2, by rw [List.mem_singleton.1 hr, hqr]⟩
      · rw [hb] at h
        have hd := hf _ _ _ _ _ hfd
        rcases key { st with svc := svc1, fetches := st.fetches ++ [q0],
                               cache := cacheSet st.cache (chunkIdxOf c st.pos) data }
          _ data ⟨inv.n_nonneg, inv.rem_nonneg, inv.n_rem, inv.len_eq⟩
          (cacheBounded_set _ _ _ hcb hd) rfl rfl hd h with hl | hr
        · rcases List.mem_append.1 hl with hl | hr
          · exact Or.inl hl
          · exact Or.inr ⟨st.pos, le_refl _, hcond.2, by rw [List.mem_singleton.1 hr, hqr]⟩
        · exact Or.inr hr
    · rw [if_neg hcond] at h
      split_ifs at h <;> (cases h; exact Or.inl hq)

/-- C24, counterexample to the claim as stated (any `S > 0`, any `c > 0`): with
`S = 2^62 + 5` and `c = 2^62 + 1` a one-byte read at offset `2^62 + 1`, which
is in chunk 1, issues the request `bytes=(2^62+1)-(-2^63+1)`; the claimed range
is `[2^62 + 1, 2^62 + 4]`. The requested range is empty and its end is not in
`[0, S - 1]`: the `int64` sum `chunkStart + chunkSize - 1` has wrapped. -/
theorem C24_counterexample :
    (ReadAt (exactFetch (fun _ => 0)) (NewDriveReaderAt (2 ^ 62 + 5) (2 ^ 62 + 1)) () [0]
        (2 ^ 62 + 1)).map (fun r => r.fetches)
      = some [{ chunkIdx := 1, first := 2 ^ 62 + 1, last := -2 ^ 63 + 1 }] ∧
    (min ((1 + 1) * (2 ^ 62 + 1)) (2 ^ 62 + 5) - 1 : Int) = 2 ^ 62 + 4 ∧
    ¬ ((2 ^ 62 + 1 : Int) ≤ -2 ^ 63 + 1) ∧ ¬ ((0 : Int) ≤ -2 ^ 63 + 1) := by
  refine ⟨by decide!, by decide, by decide, by decide⟩

/-- C24 (as amended): the chunk geometry of `ReadAt`. For a chunk size
`c > 0` and a size `S` such that the nominal end `((S-1)/c)*c + c - 1` of the
last chunk is an `int64`, any backend and any cache, a call `ReadAt(p, off)`
with `0 ≤ off < S` whose end `off + len(p)` is an `int64` returns, and every
range request it issued is for a chunk `k = pos / c` of a position
`off ≤ pos < S` that was not cached, no chunk being requested twice; the
request is for exactly `[k*c, min((k+1)*c, S) - 1]`, a non-empty range inside
`[0, S - 1]`. The range requested at `pos` holds a position `pos2` of the
object exactly when `pos2` is in the same chunk `pos2 / c = pos / c`: the
ranges of different chunks are disjoint and every position of `[0, S)` is in
the range of its chunk. -/
theorem C24_chunk_geometry {β : Type} (fetch : Fetch β) (S c : Int)
    (cache : Int → Option (List Byte)) (svc : β) (p : List Byte) (off : Int)
    (hc : 0 < c) (hfit : (S - 1) / c * c + c - 1 ≤ maxInt64) (hoff : 0 ≤ off)
    (hoff2 : off < S) (hend : off + (p.length : Int) ≤ maxInt64)
    (hf : FetchBounded fetch) (hcb : CacheBounded cache) :
    (∃ r, ReadAt fetch { size := S, chunkSize := c, cache := cache } svc p off = some r ∧
      (r.fetches.map (fun q => q.chunkIdx)).Nodup ∧
      ∀ q ∈ r.fetches, ∃ pos, off ≤ pos ∧ pos < S ∧ q.chunkIdx = pos / c ∧
        cache q.chunkIdx = none ∧
        q.first = q.chunkIdx * c ∧ q.last = min ((q.chunkIdx + 1) * c) S - 1 ∧
        0 ≤ q.first ∧ q.first ≤ q.last ∧ q.last ≤ S - 1) ∧
    (∀ pos pos2, 0 ≤ pos → pos < S → 0 ≤ pos2 → pos2 < S →
      (((reqFor S c pos).first ≤ pos2 ∧ pos2 ≤ (reqFor S c pos).last) ↔
        pos2 / c = pos / c)) := by
  have hplen : (p.length : Int) ≤ maxInt64 := by omega
  constructor
  · obtain ⟨r, hr, -, -, -, -, htrace⟩ :=
      readAt_total fetch { size := S, chunkSize := c, cache := cache } svc p off (by omega)
        hplen hf hcb
    refine ⟨r, hr, ?_, ?_⟩
    · obtain ⟨new, hnew, -, hnd, -, -⟩ := htrace.fetched
      rw [hnew]
      exact hnd
    · intro q hq
      rcases readAt_cases fetch { size := S, chunkSize := c, cache := cache } svc p off with
        ⟨hneg, -⟩ | ⟨-, hge, -⟩ | ⟨-, -, hloop⟩
      · omega
      · have : S ≤ off := hge
        omega
      · rw [hloop] at hr
        have hreq := readLoop_requests fetch S c p.length (ne_of_gt hc) hplen hf p.length
          (initState { size := S, chunkSize := c, cache := cache } svc p off) r
          (initState_count _ svc p off) hcb hoff hend hr q hq
        rcases hreq with hin | ⟨pos, hp1, hp2, hqe⟩
        · cases hin
        · have hp1' : off ≤ pos := hp1
          obtain ⟨new, hnew, hnone, -, -, -⟩ := htrace.fetched
          have hqn : q ∈ new := by
            rw [hnew] at hq
            simpa [initState] using hq
          have hcache : cache q.chunkIdx = none := hnone q hqn
          obtain ⟨-, g2, g3, g4, -, -⟩ := chunk_geom S c pos hc (by omega) hp2 hfit
          have hcs : 0 ≤ pos / c * c := Int.mul_nonneg g2 hc.le
          rw [reqFor_eq S c pos hc (by omega) hp2 hfit] at hqe
          subst hqe
          refine ⟨pos, hp1', hp2, rfl, hcache, rfl, ?_, hcs, ?_, ?_⟩
          · show min (pos / c * c + c) S - 1 = min ((pos / c + 1) * c) S - 1
            rw [add_mul, one_mul]
          · show pos / c * c ≤ min (pos / c * c + c) S - 1
            generalize pos / c * c = cs at *
            rcases le_total (cs + c) S with h | h
            · rw [min_eq_left h]; omega
            · rw [min_eq_right h]; omega
          · show min (pos / c * c + c) S - 1 ≤ S - 1
            generalize pos / c * c = cs at *
            rcases le_total (cs + c) S with h | h
            · rw [min_eq_left h]; omega
            · rw [min_eq_right h]
  · intro pos pos2 h0 h1 h20 h21
    rw [reqFor_eq S c pos hc h0 h1 hfit]
    simp only
    obtain ⟨-, -, g3, g4, -, -⟩ := chunk_geom S c pos hc h0 h1 hfit
    obtain ⟨-, -, k3, k4, -, -⟩ := chunk_geom S c pos2 hc h20 h21 hfit
    constructor
    · rintro ⟨a1, a2⟩
      have a3 : pos2 < pos / c * c + c := by
        rcases le_total (pos / c * c + c) S with h | h
        · rw [min_eq_left h] at a2; omega
        · rw [min_eq_right h] at a2; omega
      have b1 : pos / c ≤ pos2 / c := (Int.le_ediv_iff_mul_le hc).2 a1
      have b2 : pos2 / c < pos / c + 1 := by
        rw [Int.ediv_lt_iff_lt_mul hc, add_mul, one_mul]
        exact a3
      omega
    · intro he
      rw [← he]
      refine ⟨k3, ?_⟩
      rcases le_total (pos2 / c * c + c) S with h | h
      · rw [min_eq_left h]; omega
      · rw [min_eq_right h]; omega

/-- C24, witness: a 10-byte object with chunk size 4 read into a 6-byte buffer
at offset 3 on a fresh reader: the requests are `[0, 3]`, `[4, 7]` and
`[8, 9]`. -/
theorem C24_chunk_geometry_witness :
    (∃ r, ReadAt fourBytes { size := 10, chunkSize := 4, cache := fun _ => none } ()
        [0, 0, 0, 0, 0, 0] 3 = some r ∧
      (r.fetches.map (fun q => q.chunkIdx)).Nodup ∧
      ∀ q ∈ r.fetches, ∃ pos, 3 ≤ pos ∧ pos < 10 ∧ q.chunkIdx = pos / 4 ∧
        (fun _ => none : Int → Option (List Byte)) q.chunkIdx = none ∧
        q.first = q.chunkIdx * 4 ∧ q.last = min ((q.chunkIdx + 1) * 4) 10 - 1 ∧
        0 ≤ q.first ∧ q.first ≤ q.last ∧ q.last ≤ 10 - 1) ∧
    (ReadAt fourBytes { size := 10, chunkSize := 4, cache := fun _ => none } ()
        [0, 0, 0, 0, 0, 0] 3).map (fun r => r.fetches)
      = some [⟨0, 0, 3⟩, ⟨1, 4, 7⟩, ⟨2, 8, 9⟩] :=
  ⟨(C24_chunk_geometry fourBytes 10 4 (fun _ => none) () [0, 0, 0, 0, 0, 0] 3 (by decide)
      (by decide) (by decide) (by decide) (by decide) fourBytes_bounded emptyCache_bounded).1,
   by decide!⟩

/-! ## Theorems: `ReadAt` against any backend response -/

theorem newReader_chunkSize (size chunkSize : Int) :
    0 < (NewDriveReaderAt size chunkSize).chunkSize := by
  unfold NewDriveReaderAt
  by_cases h : chunkSize ≤ 0
  · simp only [h, if_true]
    decide
  · simp only [h, if_false]
    omega

/-- One pass through the loop body of `ReadAt` from a state with room left in
the buffer: it returns with "offset outside chunk" or with the error of a
failed fetch, having copied nothing, or it copies at least one byte. -/
theorem loopBody_progress {β : Type} (fetch : Fetch β) (size c : Int) (len : Nat)
    (st : LoopState β) (hc : c ≠ 0) (hlen : (len : Int) ≤ maxInt64) (hf : FetchBounded fetch)
    (inv : CountInv len st) (hcb : CacheBounded st.cache) (hrem : 0 < st.remaining) :
    (∃ r, loopBody fetch size c st = .inl r ∧ r.n = st.n ∧ r.p = st.p ∧ r.panicked = none ∧
      (r.err = some .offsetOutsideChunk ∨ isFetchFailure r.err = true)) ∨
    (∃ st1, loopBody fetch size c st = .inr st1 ∧ st.n + 1 ≤ st1.n ∧
      st1.remaining = st.remaining - (st1.n - st.n) ∧ CountInv len st1 ∧
      CacheBounded st1.cache) := by
  have key : ∀ (st2 : LoopState β) (cs : Int) (buf : List Byte), CountInv len st2 →
      CacheBounded st2.cache → st2.remaining = st.remaining → st2.n = st.n → st2.p = st.p →
      (buf.length : Int) ≤ maxInt64 →
      (∃ r, copyStep st2 cs buf = .inl r ∧ r.n = st.n ∧ r.p = st.p ∧ r.panicked = none ∧
        (r.err = some .offsetOutsideChunk ∨ isFetchFailure r.err = true)) ∨
      (∃ st1, copyStep st2 cs buf = .inr st1 ∧ st.n + 1 ≤ st1.n ∧
        st1.remaining = st.remaining - (st1.n - st.n) ∧ CountInv len st1 ∧
        CacheBounded st1.cache) := by
    intro st2 cs buf inv2 hcb2 hrem2 hn2 hp2 hb
    rcases copyStep_count len st2 cs buf inv2 hlen hb (by omega) with
      ⟨-, e⟩ | ⟨o, t, -, -, h0, h1, h2, h3, e⟩
    · exact Or.inl ⟨_, e, hn2, hp2, rfl, Or.inl rfl⟩
    · refine Or.inr ⟨_, e, ?_, ?_, countInv_copy len st2 buf o t inv2 h0 h1 h2 h3, hcb2⟩
      · show st.n + 1 ≤ st2.n + t
        omega
      · show st2.remaining - t = st.remaining - (st2.n + t - st.n)
        omega
  rcases loopBody_cases fetch size c st hc with
    ⟨buf, hk, hb⟩ | ⟨hk, q0, svc1, hq0, hqr, ⟨e, he, hb⟩ | ⟨data, hfd, hb⟩⟩
  · rw [hb]
    exact key st _ buf inv hcb rfl rfl rfl (hcb _ _ hk)
  · rw [hb]
    exact Or.inl ⟨_, rfl, rfl, rfl, rfl, Or.inr he⟩
  · rw [hb]
    have hd := hf _ _ _ _ _ hfd
    exact key { st with svc := svc1, fetches := st.fetches ++ [q0],
                        cache := cacheSet st.cache (chunkIdxOf c st.pos) data }
      _ data ⟨inv.n_nonneg, inv.rem_nonneg, inv.n_rem, inv.len_eq⟩
      (cacheBounded_set _ _ _ hcb hd) rfl rfl rfl hd

/-- Against a backend that answers every request with a body, a pass through
the loop body of `ReadAt` never returns the error of a failed fetch. -/
theorem loopBody_responds {β : Type} (fetch : Fetch β) (size c : Int) (st : LoopState β)
    (hresp : ∀ s a b, ∃ data s1, fetch s a b = (.ok data, s1)) (r : ReadResult β)
    (h : loopBody fetch size c st = .inl r) : isFetchFailure r.err = false := by
  by_cases hc : c = 0
  · subst hc
    rw [loopBody_zero] at h
    rw [← Sum.inl.inj h]
    rfl
  · rcases loopBody_cases fetch size c st hc with
      ⟨buf, hk, hb⟩ | ⟨hk, q0, svc1, hq0, hqr, ⟨e, he, hb⟩ | ⟨data, hfd, hb⟩⟩
    · rw [hb] at h
      exact (copyStep_inl _ _ _ _ h).2.2.2.2.2
    · exfalso
      obtain ⟨data, s1, hd⟩ := hresp st.svc (reqFor size c st.pos).first
        (reqFor size c st.pos).last
      have hb2 : ∃ st2 cs, loopBody fetch size c st = copyStep st2 cs data := by
        have hn : st.cache (wrapInt64 (Int.tdiv st.pos c)) = none := hk
        have hfe := hd
        unfold reqFor at hfe
        simp only at hfe
        unfold loopBody
        rw [if_neg hc]
        simp only
        rw [hn]
        simp only
        rw [hfe]
        exact ⟨_, _, rfl⟩
      obtain ⟨st2, cs, hb3⟩ := hb2
      rw [hb3] at hb
      have h1 := (copyStep_inl _ _ _ _ hb).2.2.2.2.2
      simp only [LoopState.ret] at h1
      rw [h1] at he
      cases he
    · rw [hb] at h
      exact (copyStep_inl _ _ _ _ h).2.2.2.2.2

/-- A run of the loop of `ReadAt` keeps every cache entry it finds. -/
theorem readLoop_cache_extends {β : Type} (fetch : Fetch β) (size c : Int) :
    ∀ (fuel : Nat) (st : LoopState β) (r : ReadResult β),
      readLoop fetch size c fuel st = some r → CacheExtends st.cache r.cache := by
  intro fuel
  induction fuel with
  | zero =>
    intro st r h
    unfold readLoop at h
    by_cases hcond : st.remaining > 0 ∧ st.pos < size
    · rw [if_pos hcond] at h; cases h
    · rw [if_neg hcond] at h
      split_ifs at h <;> (cases h; exact fun _ _ hk => hk)
  | succ fuel ih =>
    intro st r h
    unfold readLoop at h
    by_cases hcond : st.remaining > 0 ∧ st.pos < size
    · rw [if_pos hcond] at h
      simp only at h
      have key : ∀ (st2 : LoopState β) (cs : Int) (buf : List Byte),
          (match copyStep st2 cs buf with
              | .inl r => some r
              | .inr st1 => readLoop fetch size c fuel st1) = some r →
          CacheExtends st2.cache r.cache := by
        intro st2 cs buf h2
        cases hcs : copyStep st2 cs buf with
        | inl r1 =>
          rw [hcs] at h2
          cases h2
          rw [(copyStep_inl _ _ _ _ hcs).1]
          exact fun _ _ hk => hk
        | inr st1 =>
          rw [hcs] at h2
          have := ih st1 r h2
          rw [(copyStep_inr _ _ _ _ hcs).1] at this
          exact this
      by_cases hc : c = 0
      · subst hc
        rw [loopBody_zero] at h
        cases h
        exact fun _ _ hk => hk
      · rcases loopBody_cases fetch size c st hc with
          ⟨buf, hk, hb⟩ | ⟨hk, q0, svc1, hq0, hqr, ⟨e, he, hb⟩ | ⟨data, hfd, hb⟩⟩
        · rw [hb] at h
          exact key st _ buf h
        · rw [hb] at h
          cases h
          exact fun _ _ hk => hk
        · rw [hb] at h
          have h3 := key _ _ data h
          intro k buf hkb
          apply h3
          show cacheSet st.cache (chunkIdxOf c st.pos) data k = some buf
          unfold cacheSet
          by_cases hkk : k = chunkIdxOf c st.pos
          · rw [hkk, hk] at hkb; cases hkb
          · rw [if_neg hkk]; exact hkb
    · rw [if_neg hcond] at h
      split_ifs at h <;> (cases h; exact fun _ _ hk => hk)

/-- Whatever body the backend returns for a chunk that is not cached, the
first pass of a read that starts in that chunk stores it in the cache as it
is. -/
theorem readAt_caches_body {β : Type} (fetch : Fetch β) (d : DriveReaderAt) (svc svc1 : β)
    (p : List Byte) (off : Int) (data : List Byte) (r : ReadResult β)
    (hc : d.chunkSize ≠ 0) (hoff : 0 ≤ off) (hoff2 : off < d.size) (hp : 0 < p.length)
    (hnone : d.cache (chunkIdxOf d.chunkSize off) = none)
    (hfetch : fetch svc (reqFor d.size d.chunkSize off).first
        (reqFor d.size d.chunkSize off).last = (.ok data, svc1))
    (h : ReadAt fetch d svc p off = some r) :
    r.cache (chunkIdxOf d.chunkSize off) = some data := by
  rcases readAt_cases fetch d svc p off with ⟨hneg, -⟩ | ⟨-, hge, -⟩ | ⟨-, -, hloop⟩
  · omega
  · omega
  · rw [hloop] at h
    obtain ⟨fuel, hfuel⟩ : ∃ fuel, p.length = fuel + 1 := ⟨p.length - 1, by omega⟩
    rw [hfuel] at h
    unfold readLoop at h
    have hcond : (initState d svc p off).remaining > 0 ∧ (initState d svc p off).pos < d.size := by
      constructor
      · show ((p.length : Nat) : Int) > 0
        omega
      · exact hoff2
    rw [if_pos hcond] at h
    simp only at h
    rcases loopBody_cases fetch d.size d.chunkSize (initState d svc p off) hc with
      ⟨buf, hk, hb⟩ | ⟨hk, q0, svc2, hq0, hqr, ⟨e, he, hb⟩ | ⟨data2, hfd, hb⟩⟩
    · have : d.cache (chunkIdxOf d.chunkSize off) = some buf := hk
      rw [hnone] at this
      cases this
    · exfalso
      have hb2 : loopBody fetch d.size d.chunkSize (initState d svc p off)
          = copyStep { (initState d svc p off) with
              svc := svc1
              fetches := (initState d svc p off).fetches ++ [reqFor d.size d.chunkSize off]
              cache := cacheSet (initState d svc p off).cache (chunkIdxOf d.chunkSize off) data }
            (reqFor d.size d.chunkSize off).first data := by
        have hn : (initState d svc p off).cache
            (wrapInt64 (Int.tdiv (initState d svc p off).pos d.chunkSize)) = none := hnone
        have hfe : fetch (initState d svc p off).svc
            (wrapInt64 (wrapInt64 (Int.tdiv (initState d svc p off).pos d.chunkSize)
              * d.chunkSize))
            (reqFor d.size d.chunkSize off).last = (.ok data, svc1) := hfetch
        unfold loopBody
        rw [if_neg hc]
        simp only
        rw [hn]
        simp only
        have hfe2 := hfe
        unfold reqFor at hfe2
        simp only at hfe2
        rw [show (initState d svc p off).pos = off from rfl] at hfe2 ⊢
        rw [hfe2]
        rfl
      rw [hb2] at hb
      cases hcs : copyStep { (initState d svc p off) with
              svc := svc1
              fetches := (initState d svc p off).fetches ++ [reqFor d.size d.chunkSize off]
              cache := cacheSet (initState d svc p off).cache (chunkIdxOf d.chunkSize off) data }
            (reqFor d.size d.chunkSize off).first data with
      | inl r1 =>
        rw [hcs] at hb
        have h1 := (copyStep_inl _ _ _ _ hcs).2.2.2.2.2
        have h2 := Sum.inl.inj hb
        rw [h2] at h1
        simp only [LoopState.ret] at h1
        rw [h1] at he
        cases he
      | inr st1 =>
        rw [hcs] at hb
        cases hb
    · have hpos : (initState d svc p off).pos = off := rfl
      rw [hqr, hpos] at hfd
      have hfd2 : fetch svc (reqFor d.size d.chunkSize off).first
          (reqFor d.size d.chunkSize off).last = (.ok data2, svc2) := hfd
      rw [hfetch] at hfd2
      have hdata : data = data2 := FetchResult.ok.inj (Prod.mk.inj hfd2).1
      subst hdata
      rw [hb] at h
      have hset : cacheSet (initState d svc p off).cache
          (chunkIdxOf d.chunkSize (initState d svc p off).pos) data
          (chunkIdxOf d.chunkSize off) = some data := by
        unfold cacheSet
        exact if_pos rfl
      cases hcs : copyStep { (initState d svc p off) with
              svc := svc2
              fetches := (initState d svc p off).fetches ++ [q0]
              cache := cacheSet (initState d svc p off).cache
                (chunkIdxOf d.chunkSize (initState d svc p off).pos) data }
            (wrapInt64 (chunkIdxOf d.chunkSize (initState d svc p off).pos * d.chunkSize))
            data with
      | inl r1 =>
        rw [hcs] at h
        cases h
        rw [(copyStep_inl _ _ _ _ hcs).1]
        exact hset
      | inr st1 =>
        rw [hcs] at h
        have hext := readLoop_cache_extends fetch d.size d.chunkSize fuel st1 r h
        apply hext
        rw [(copyStep_inr _ _ _ _ hcs).1]
        exact hset

theorem ediv_of_bounds (c x k : Int) (hc : 0 < c) (h1 : k * c ≤ x) (h2 : x < k * c + c) :
    x / c = k := by
  have b1 : k ≤ x / c := (Int.le_ediv_iff_mul_le hc).2 h1
  have b2 : x / c < k + 1 := by
    rw [Int.ediv_lt_iff_lt_mul hc, add_mul, one_mul]
    exact h2
  omega

/-- The chunk index `ReadAt` computes at a position that is an `int64` and
not negative, for a positive chunk size: `pos / c`, and `(pos / c) * c` does
not wrap. -/
theorem chunkIdxOf_eq (c pos : Int) (hc : 0 < c) (h0 : 0 ≤ pos) (h1 : pos ≤ maxInt64) :
    chunkIdxOf c pos = pos / c ∧ wrapInt64 (pos / c * c) = pos / c * c ∧
      0 ≤ pos / c * c ∧ pos / c * c ≤ pos ∧ pos < pos / c * c + c := by
  have hk : 0 ≤ pos / c := Int.ediv_nonneg h0 hc.le
  have h2 : pos / c * c ≤ pos := Int.ediv_mul_le pos hc.ne'
  have h3 : pos < pos / c * c + c := by
    have := Int.lt_ediv_add_one_mul_self pos hc
    linarith
  have h6 : pos / c ≤ pos / c * c := by nlinarith
  have hcs : 0 ≤ pos / c * c := Int.mul_nonneg hk hc.le
  simp only [maxInt64] at h1
  refine ⟨?_, ?_, hcs, h2, h3⟩
  · unfold chunkIdxOf
    rw [Int.tdiv_eq_ediv h0 hc.le]
    unfold wrapInt64
    omega
  · unfold wrapInt64
    omega

/-- A read that reaches the missing part of a cached chunk whose body is
shorter than the chunk: it copies what the body holds from its offset on, then
stops with "offset outside chunk", without a request. -/
theorem readAt_short_chunk {β : Type} (fetch : Fetch β) (d : DriveReaderAt) (svc : β)
    (p : List Byte) (off : Int) (buf : List Byte)
    (hc : 0 < d.chunkSize) (hoff : 0 ≤ off) (hoff2 : off < d.size) (hsize : d.size ≤ maxInt64)
    (hp : (p.length : Int) ≤ maxInt64)
    (hbuf : d.cache (off / d.chunkSize) = some buf)
    (hshort1 : (buf.length : Int) < d.chunkSize)
    (hshort2 : off / d.chunkSize * d.chunkSize + (buf.length : Int) < d.size)
    (hreach : max 0 ((buf.length : Int) - off % d.chunkSize) < (p.length : Int)) :
    ∃ r, ReadAt fetch d svc p off = some r ∧
      r.n = max 0 ((buf.length : Int) - off % d.chunkSize) ∧
      r.err = some .offsetOutsideChunk ∧ r.panicked = none ∧ r.fetches = [] ∧
      r.cache = d.cache ∧ r.svc = svc := by
  obtain ⟨k1, k2, k3, k4, k5⟩ := chunkIdxOf_eq d.chunkSize off hc hoff (by omega)
  have hmod : off % d.chunkSize = off - off / d.chunkSize * d.chunkSize := by
    rw [Int.emod_def, mul_comm]
  have hL : (buf.length : Int) ≤ maxInt64 := by omega
  rcases readAt_cases fetch d svc p off with ⟨hneg, -⟩ | ⟨-, hge, -⟩ | ⟨-, -, hloop⟩
  · omega
  · omega
  rw [hloop]
  have hplen : 0 < (p.length : Int) := by
    have := le_max_left 0 ((buf.length : Int) - off % d.chunkSize)
    omega
  obtain ⟨fuel, hfuel⟩ : ∃ fuel, p.length = fuel + 1 := ⟨p.length - 1, by omega⟩
  have inv0 := initState_count d svc p off
  have hpos0 : (initState d svc p off).pos = off := rfl
  have hrem0 : (initState d svc p off).remaining = (p.length : Int) := rfl
  have hn0 : (initState d svc p off).n = 0 := rfl
  have hcache0 : (initState d svc p off).cache = d.cache := rfl
  have hfet0 : (initState d svc p off).fetches = [] := rfl
  have hsvc0 : (initState d svc p off).svc = svc := rfl
  generalize initState d svc p off = st0 at *
  have hcond : st0.remaining > 0 ∧ st0.pos < d.size := by
    rw [hrem0, hpos0]
    exact ⟨hplen, hoff2⟩
  have hlb : loopBody fetch d.size d.chunkSize st0
      = copyStep st0 (off / d.chunkSize * d.chunkSize) buf := by
    have hcached : st0.cache (chunkIdxOf d.chunkSize st0.pos) = some buf := by
      rw [hcache0, hpos0, k1]
      exact hbuf
    rw [loopBody_cached fetch d.size d.chunkSize st0 buf (ne_of_gt hc) hcached, hpos0, k1, k2]
  have hk1 : chunkIdxOf d.chunkSize (off / d.chunkSize * d.chunkSize + (buf.length : Int))
      = off / d.chunkSize := by
    obtain ⟨j1, -, -, -, -⟩ := chunkIdxOf_eq d.chunkSize
      (off / d.chunkSize * d.chunkSize + (buf.length : Int)) hc (by omega) (by omega)
    rw [j1]
    exact ediv_of_bounds _ _ _ hc (by omega) (by omega)
  have hrl : readLoop fetch d.size d.chunkSize p.length st0
      = readLoop fetch d.size d.chunkSize (fuel + 1) st0 := by rw [hfuel]
  rw [hrl]
  unfold readLoop
  rw [if_pos hcond]
  simp only
  rw [hlb]
  rw [hmod] at hreach ⊢
  generalize hcsdef : off / d.chunkSize * d.chunkSize = cs at *
  have hw0 : wrapInt64 (st0.pos - cs) = off - cs := by
    rw [hpos0]
    simp only [maxInt64] at hsize
    unfold wrapInt64
    omega
  rcases copyStep_count p.length st0 cs buf inv0 hp hL hcond.1 with
    ⟨hout, e⟩ | ⟨o, t, ho, ht, h0, h1, h2, h3, e⟩
  · rw [e]
    rw [hw0] at hout
    refine ⟨_, rfl, ?_, rfl, rfl, hfet0, hcache0, hsvc0⟩
    show st0.n = max 0 ((buf.length : Int) - (off - cs))
    rw [hn0, max_eq_left (by omega)]
  · rw [e]
    simp only
    rw [hw0] at ho
    subst ho
    have hlt : (buf.length : Int) - (off - cs) < (p.length : Int) := by
      have := le_max_right 0 ((buf.length : Int) - (off - cs))
      omega
    have htv : t = (buf.length : Int) - (off - cs) := by
      rw [ht, hrem0]
      unfold minInt64
      rw [if_neg (by omega)]
    have hw1 : wrapInt64 (st0.pos + t) = cs + (buf.length : Int) := by
      rw [hpos0, htv]
      simp only [maxInt64] at hsize
      unfold wrapInt64
      omega
    rw [hw1]
    have inv1 := countInv_copy p.length st0 buf (off - cs) t inv0 h0 h1 h2 h3
    rw [hw1] at inv1
    obtain ⟨st1, hst1⟩ : ∃ st1 : LoopState β, st1 = { st0 with
        p := copyInto st0.p st0.n.toNat buf (off - cs).toNat t.toNat
        n := st0.n + t
        remaining := st0.remaining - t
        pos := cs + (buf.length : Int) } := ⟨_, rfl⟩
    rw [← hst1] at inv1 ⊢
    have hpos1 : st1.pos = cs + (buf.length : Int) := by rw [hst1]
    have hrem1 : st1.remaining = (p.length : Int) - t := by rw [hst1, ← hrem0]
    have hn1 : st1.n = t := by rw [hst1]; show st0.n + t = t; rw [hn0, zero_add]
    have hcache1 : st1.cache = d.cache := by rw [hst1]; exact hcache0
    have hfet1 : st1.fetches = [] := by rw [hst1]; exact hfet0
    have hsvc1 : st1.svc = svc := by rw [hst1]; exact hsvc0
    have hcond1 : st1.remaining > 0 ∧ st1.pos < d.size := by
      rw [hrem1, hpos1]
      exact ⟨by omega, hshort2⟩
    obtain ⟨fuel1, hfuel1⟩ : ∃ fuel1, fuel = fuel1 + 1 := ⟨fuel - 1, by omega⟩
    rw [hfuel1]
    unfold readLoop
    rw [if_pos hcond1]
    simp only
    have hlb1 : loopBody fetch d.size d.chunkSize st1 = copyStep st1 cs buf := by
      have hcached : st1.cache (chunkIdxOf d.chunkSize st1.pos) = some buf := by
        rw [hcache1, hpos1, hk1]
        exact hbuf
      rw [loopBody_cached fetch d.size d.chunkSize st1 buf (ne_of_gt hc) hcached, hpos1, hk1,
        hcsdef, k2]
    rw [hlb1]
    have hw2 : wrapInt64 (st1.pos - cs) = (buf.length : Int) := by
      rw [hpos1]
      simp only [maxInt64] at hL
      unfold wrapInt64
      omega
    rcases copyStep_count p.length st1 cs buf inv1 hp hL hcond1.1 with
      ⟨-, e1⟩ | ⟨o1, t1, ho1, -, -, g1, -, g3, -⟩
    · rw [e1]
      refine ⟨_, rfl, ?_, rfl, rfl, hfet1, hcache1, hsvc1⟩
      show st1.n = max 0 ((buf.length : Int) - (off - cs))
      rw [hn1, htv, max_eq_right (by omega)]
    · rw [hw2] at ho1
      omega
theorem twoBytes_bounded : FetchBounded twoBytes := by
  intro s a b data s1 h
  simp only [twoBytes, Prod.mk.injEq, FetchResult.ok.injEq] at h
  rw [← h.1]
  decide

/-- C25: `ReadAt` is safe against any backend response. For a reader whose
chunk size is the one `NewDriveReaderAt` stores for any argument `chunkSize`
(so it is positive), any backend whose bodies are Go slices and any cache of
slices: `ReadAt(p, off)` returns within `len(p)` passes of its loop, without a
division by zero or a slice out of bounds, with `0 ≤ n ≤ len(p)` and `p` of the
same length. Every pass of the loop from a state with room left in `p` either
copies at least one byte, or returns with "offset outside chunk", or returns
the error of a failed fetch, in both cases having copied nothing in that pass.
Against a backend that answers every request with a body the last case does
not occur. The body fetched for the chunk at `off` is cached as it is, whatever
its length. And when the cached body of the chunk at `off` is shorter than the
chunk and ends before the end of the object, a read that reaches its missing
part copies what the body holds from `off` on and returns "offset outside
chunk" without a request, the cache unchanged. -/
theorem C25_readAt_safe {β : Type} (fetch : Fetch β) (d : DriveReaderAt) (chunkSize : Int)
    (svc : β) (p : List Byte) (off : Int)
    (hd : d.chunkSize = (NewDriveReaderAt d.size chunkSize).chunkSize)
    (hp : (p.length : Int) ≤ maxInt64)
    (hf : FetchBounded fetch) (hcb : CacheBounded d.cache) :
    0 < d.chunkSize ∧
    (∃ r, ReadAt fetch d svc p off = some r ∧ r.panicked = none ∧ 0 ≤ r.n ∧
      r.n ≤ (p.length : Int) ∧ r.p.length = p.length ∧ CacheBounded r.cache) ∧
    (∀ st : LoopState β, CountInv p.length st → CacheBounded st.cache → 0 < st.remaining →
      (∃ r, loopBody fetch d.size d.chunkSize st = .inl r ∧ r.n = st.n ∧ r.p = st.p ∧
        r.panicked = none ∧
        (r.err = some .offsetOutsideChunk ∨ isFetchFailure r.err = true)) ∨
      (∃ st1, loopBody fetch d.size d.chunkSize st = .inr st1 ∧ st.n + 1 ≤ st1.n ∧
        st1.remaining = st.remaining - (st1.n - st.n) ∧ CountInv p.length st1 ∧
        CacheBounded st1.cache)) ∧
    ((∀ s a b, ∃ data s1, fetch s a b = (.ok data, s1)) →
      ∀ st : LoopState β, CountInv p.length st → CacheBounded st.cache → 0 < st.remaining →
        (∃ r, loopBody fetch d.size d.chunkSize st = .inl r ∧ r.n = st.n ∧ r.p = st.p ∧
          r.panicked = none ∧ r.err = some .offsetOutsideChunk) ∨
        (∃ st1, loopBody fetch d.size d.chunkSize st = .inr st1 ∧ st.n + 1 ≤ st1.n ∧
          st1.remaining = st.remaining - (st1.n - st.n))) ∧
    (∀ (data : List Byte) (svc1 : β) (r : ReadResult β), 0 ≤ off → off < d.size →
      0 < p.length → d.cache (chunkIdxOf d.chunkSize off) = none →
      fetch svc (reqFor d.size d.chunkSize off).first (reqFor d.size d.chunkSize off).last
        = (.ok data, svc1) →
      ReadAt fetch d svc p off = some r →
      r.cache (chunkIdxOf d.chunkSize off) = some data) ∧
    (∀ buf : List Byte, 0 ≤ off → off < d.size → d.size ≤ maxInt64 →
      d.cache (off / d.chunkSize) = some buf →
      (buf.length : Int) < d.chunkSize →
      off / d.chunkSize * d.chunkSize + (buf.length : Int) < d.size →
      max 0 ((buf.length : Int) - off % d.chunkSize) < (p.length : Int) →
      ∃ r, ReadAt fetch d svc p off = some r ∧
        r.n = max 0 ((buf.length : Int) - off % d.chunkSize) ∧
        r.err = some .offsetOutsideChunk ∧ r.panicked = none ∧ r.fetches = [] ∧
        r.cache = d.cache ∧ r.svc = svc) := by
  have hc : 0 < d.chunkSize := by
    rw [hd]
    exact newReader_chunkSize d.size chunkSize
  refine ⟨hc, ?_, ?_, ?_, ?_, ?_⟩
  · rcases readAt_cases fetch d svc p off with ⟨-, e⟩ | ⟨-, -, e⟩ | ⟨-, -, e⟩
    · exact ⟨_, e, rfl, le_refl _, by show (0 : Int) ≤ p.length; omega, rfl, hcb⟩
    · exact ⟨_, e, rfl, le_refl _, by show (0 : Int) ≤ p.length; omega, rfl, hcb⟩
    · obtain ⟨r, hr, h1, h2, h3, h4, h5⟩ :=
        readLoop_total fetch d.size d.chunkSize p.length hp hf p.length
          (initState d svc p off) (initState_count d svc p off) hcb (by simp [initState])
      exact ⟨r, by rw [e]; exact hr, h5 (ne_of_gt hc), h2, h3, h4, h1⟩
  · intro st inv hcs hrem
    exact loopBody_progress fetch d.size d.chunkSize p.length st (ne_of_gt hc) hp hf inv hcs hrem
  · intro hresp st inv hcs hrem
    rcases loopBody_progress fetch d.size d.chunkSize p.length st (ne_of_gt hc) hp hf inv hcs
      hrem with ⟨r, h1, h2, h3, h4, h5⟩ | ⟨st1, h1, h2, h3, -, -⟩
    · rcases h5 with h5 | h5
      · exact Or.inl ⟨r, h1, h2, h3, h4, h5⟩
      · have := loopBody_responds fetch d.size d.chunkSize st hresp r h1
        rw [this] at h5
        cases h5
    · exact Or.inr ⟨st1, h1, h2, h3⟩
  · intro data svc1 r h0 h1 hp0 hnone hfetch hr
    exact readAt_caches_body fetch d svc svc1 p off data r (ne_of_gt hc) h0 h1 hp0 hnone hfetch hr
  · intro buf h0 h1 hsize hbuf hs1 hs2 hreach
    exact readAt_short_chunk fetch d svc p off buf hc h0 h1 hsize hp hbuf hs1 hs2 hreach

/-- C25, witness: a reader of a 10-byte object built with `chunkSize = 0`
(stored: 1 MiB) against a backend that returns two bytes for every request.
The first read, at offset 0 into a 4-byte buffer, caches the short body as it
is and returns `n = 2` with "offset outside chunk"; a read at offset 2 on the
cache it left returns `n = 0` with the same error and no request. -/
theorem C25_readAt_safe_witness :
    (0 : Int) < (NewDriveReaderAt 10 0).chunkSize ∧
    (ReadAt twoBytes (NewDriveReaderAt 10 0) () [0, 0, 0, 0] 0).map
        (fun r => (r.n, r.err, r.panicked))
      = some (2, some .offsetOutsideChunk, none) ∧
    (ReadAt twoBytes (NewDriveReaderAt 10 0) () [0, 0, 0, 0] 0).map
        (fun r => (r.p, r.fetches, r.cache 0))
      = some ([7, 8, 0, 0], [⟨0, 0, 9⟩], some [7, 8]) ∧
    (∃ r, ReadAt twoBytes { NewDriveReaderAt 10 0 with cache := cacheSet (fun _ => none) 0 [7, 8] }
        () [0, 0, 0, 0] 2 = some r ∧
      r.n = max 0 ((([7, 8] : List Byte).length : Int) - 2 % (NewDriveReaderAt 10 0).chunkSize) ∧
      r.err = some .offsetOutsideChunk ∧ r.panicked = none ∧ r.fetches = [] ∧
      r.cache = cacheSet (fun _ => none) 0 [7, 8] ∧ r.svc = ()) :=
  ⟨(C25_readAt_safe twoBytes (NewDriveReaderAt 10 0) 0 () [0, 0, 0, 0] 0 rfl
      (by decide) twoBytes_bounded emptyCache_bounded).1,
   by decide!, by decide!,
   (C25_readAt_safe twoBytes { NewDriveReaderAt 10 0 with cache := cacheSet (fun _ => none) 0 [7, 8] }
      0 () [0, 0, 0, 0] 2 rfl (by decide) twoBytes_bounded
      (cacheBounded_set _ _ _ emptyCache_bounded (by decide))).2.2.2.2.2 [7, 8] (by decide)
      (by decide) (by decide) (by decide) (by decide) (by decide) (by decide)⟩

/-! ## Theorems: request validation -/

theorem contains_of_infix (a sub b : GoString) : contains (a ++ sub ++ b) sub = true := by
  unfold contains
  rw [List.any_eq_true]
  refine ⟨a.length, ?_, ?_⟩
  · rw [List.mem_range]
    simp only [List.length_append]
    omega
  · rw [decide_eq_true_eq, List.append_assoc, List.drop_left, List.take_left]

theorem splitSep_parts (s : GoString) :
    ∃ first rest, splitSep s = first :: rest ∧ (∃ b, s = first ++ b) ∧
      ∀ seg ∈ rest, ∃ a b, s = a ++ seg ++ b := by
  induction s with
  | nil => exact ⟨[], [], rfl, ⟨[], rfl⟩, fun _ h => absurd h (List.not_mem_nil _)⟩
  | cons c cs ih =>
    obtain ⟨f, r, hfr, ⟨b, hb⟩, hr⟩ := ih
    by_cases hc : c = Separator
    · refine ⟨[], f :: r, ?_, ⟨c :: cs, rfl⟩, ?_⟩
      · simp only [splitSep, hc, if_true, hfr]
      · intro seg hseg
        rcases List.mem_cons.1 hseg with h | h
        · exact ⟨[c], b, by rw [h, hb]; rfl⟩
        · obtain ⟨a, b2, hab⟩ := hr seg h
          exact ⟨c :: a, b2, by rw [hab]; rfl⟩
    · refine ⟨c :: f, r, ?_, ⟨b, by rw [hb]; rfl⟩, ?_⟩
      · simp only [splitSep, hc, if_false, hfr]
      · intro seg hseg
        obtain ⟨a, b2, hab⟩ := hr seg hseg
        exact ⟨c :: a, b2, by rw [hab]; rfl⟩

/-- Every element of `strings.Split(s, "/")` is a substring of `s`. -/
theorem splitSep_infix (s : GoString) : ∀ seg ∈ splitSep s, ∃ a b, s = a ++ seg ++ b := by
  obtain ⟨f, r, hfr, ⟨b, hb⟩, hr⟩ := splitSep_parts s
  intro seg hseg
  rw [hfr] at hseg
  rcases List.mem_cons.1 hseg with h | h
  · exact ⟨[], b, by rw [h, hb]; rfl⟩
  · exact hr seg h

/-- A name without the substring `..` has no path element `..`. -/
theorem no_dotdot_elem (name : GoString) (h : contains name ['.', '.'] = false) :
    ∀ seg ∈ splitSep name, seg ≠ ['.', '.'] := by
  intro seg hseg he
  obtain ⟨a, b, hab⟩ := splitSep_infix name seg hseg
  rw [hab, he, contains_of_infix] at h
  cases h

theorem foldl_cleanStep_filter (r : Bool) (segs : List GoString)
    (h : ∀ s ∈ segs, s ≠ ['.', '.']) :
    ∀ S : List GoString, segs.foldl (cleanStep r) S
      = (segs.filter (fun s => decide (s ≠ [] ∧ s ≠ ['.']))).reverse ++ S := by
  induction segs with
  | nil => intro S; rfl
  | cons s rest ih =>
    intro S
    have hs := h s (List.mem_cons_self _ _)
    have hr := ih (fun t ht => h t (List.mem_cons_of_mem _ ht))
    simp only [List.foldl_cons, List.filter_cons]
    by_cases h1 : s = [] ∨ s = ['.']
    · have e : cleanStep r S s = S := by
        unfold cleanStep
        rw [if_pos h1]
      have e2 : decide (s ≠ [] ∧ s ≠ ['.']) = false := by
        rw [decide_eq_false_iff_not]
        rcases h1 with h1 | h1 <;> simp [h1]
      rw [e, e2, hr]
      rfl
    · have e : cleanStep r S s = s :: S := by
        unfold cleanStep
        rw [if_neg h1, if_neg hs]
      have e2 : decide (s ≠ [] ∧ s ≠ ['.']) = true := by
        rw [decide_eq_true_eq]
        exact ⟨fun h => h1 (Or.inl h), fun h => h1 (Or.inr h)⟩
      rw [e, e2, hr]
      simp

theorem keptElems_proper (name : GoString) (h : contains name ['.', '.'] = false) :
    ∀ s ∈ keptElems name, ProperSeg s := by
  intro s hs
  unfold keptElems at hs
  rw [List.mem_filter, decide_eq_true_eq] at hs
  exact ⟨hs.2.1, splitSep_no_sep name s hs.1, hs.2.2, no_dotdot_elem name h s hs.1⟩

theorem cleanSegs_append_name (P name : GoString) (h : contains name ['.', '.'] = false) :
    cleanSegs true (P ++ Separator :: name) = cleanSegs true P ++ keptElems name := by
  unfold cleanSegs keptElems
  rw [splitSep_append, List.foldl_append,
    foldl_cleanStep_filter true (splitSep name) (no_dotdot_elem name h)]
  simp

/-- The path elements of `filepath.Abs(filepath.Join(outDir, name))` for a
non-empty `outDir` and a name without the substring `..`: those of
`filepath.Abs(outDir)` followed by the kept elements of `name`. -/
theorem absSegs_join_name (wd : Option GoString) (outDir name : GoString) (ho : outDir ≠ [])
    (h : contains name ['.', '.'] = false) :
    absSegs wd (Join outDir name) = (absSegs wd outDir).map (fun L => L ++ keptElems name) := by
  have hj : Join outDir name = Clean (outDir ++ Separator :: name) := by
    unfold Join
    rw [if_pos ho]
  rw [hj, absSegs_clean]
  unfold absSegs absPath
  rw [isAbs_append outDir _ ho]
  cases hq : IsAbs outDir with
  | true =>
    simp only [if_true, Option.map_some']
    rw [cleanSegs_append_name outDir name h]
  | false =>
    simp only [Bool.false_eq_true, if_false]
    cases wd with
    | none => rfl
    | some w =>
      simp only [Option.map_some', Option.some.injEq]
      have : w ++ Separator :: (outDir ++ Separator :: name)
          = (w ++ Separator :: outDir) ++ Separator :: name := by simp
      rw [this, cleanSegs_append_name _ name h]

theorem validateFiles_ok : ∀ (files : List GoString) (i : Nat), validateFiles i files = none →
    ∀ name ∈ files, name ≠ [] ∧ byteLen name ≤ 1000 ∧ containsPathTraversal name = false := by
  intro files
  induction files with
  | nil => intro i _ name h; exact absurd h (List.not_mem_nil _)
  | cons f rest ih =>
    intro i hv name hn
    unfold validateFiles at hv
    by_cases h1 : f = []
    · rw [if_pos h1] at hv; cases hv
    · rw [if_neg h1] at hv
      by_cases h2 : byteLen f > 1000
      · rw [if_pos h2] at hv; cases hv
      · rw [if_neg h2] at hv
        by_cases h3 : containsPathTraversal f = true
        · rw [if_pos h3] at hv; cases hv
        · rw [if_neg h3] at hv
          rcases List.mem_cons.1 hn with h | h
          · rw [h]
            exact ⟨h1, by omega, by simpa using h3⟩
          · exact ih (i + 1) hv name h

theorem containsPathTraversal_false (name : GoString) (h : containsPathTraversal name = false) :
    ∀ pattern ∈ dangerous, contains name pattern = false := by
  intro pattern hp
  unfold containsPathTraversal at h
  rw [List.any_eq_false] at h
  simpa using h pattern hp

/-- Every call of `ExtractFile` in a run of the loop of `ExtractSelectedFiles`
is for a selected name, with the target `filepath.Join(outputDir, name)`. -/
theorem selectedLoop_targets {σ : Type} (w : World σ) (outputDir : GoString)
    (selected : List GoString) :
    ∀ (files : List ZipFile) (s : σ) (ev : List Event),
      (∀ c ∈ extractCalls ev, c.1 ∈ selected ∧ c.2 = Join outputDir c.1) →
      ∀ c ∈ extractCalls (selectedLoop w outputDir selected files s ev).events,
        c.1 ∈ selected ∧ c.2 = Join outputDir c.1 := by
  intro files
  induction files with
  | nil =>
    intro s ev hev c hc
    simp only [selectedLoop, extractCalls_append] at hc
    rcases List.mem_append.1 hc with h | h
    · exact hev c h
    · simp [extractCalls] at h
  | cons f rest ih =>
    intro s ev hev c hc
    simp only [selectedLoop] at hc
    by_cases hd : w.done s = true
    · rw [if_pos hd] at hc
      simp only [extractCalls_append] at hc
      rcases List.mem_append.1 hc with h | h
      · exact hev c h
      · simp [extractCalls] at h
    · rw [if_neg hd] at hc
      by_cases hs : f.Name ∈ selected
      · rw [if_neg (not_not.2 hs)] at hc
        have hstep : ∀ e, ∀ c ∈ extractCalls (ev ++ [Event.poll false,
            Event.sent (extractingLine f.Name),
            Event.extract f.Name (Join outputDir f.Name) e]),
            c.1 ∈ selected ∧ c.2 = Join outputDir c.1 := by
          intro e c hc
          rw [extractCalls_append] at hc
          rcases List.mem_append.1 hc with h | h
          · exact hev c h
          · simp only [extractCalls, List.mem_singleton] at h
            rw [h]
            exact ⟨hs, rfl⟩
        rcases hx : w.extractFile (w.send s (extractingLine f.Name)) f
          (Join outputDir f.Name) with ⟨err, s2⟩
        rw [hx] at hc
        cases err with
        | some e => exact hstep (some e) c hc
        | none => exact ih s2 _ (hstep none) c hc
      · rw [if_pos hs] at hc
        refine ih s _ ?_ c hc
        intro c hc
        rw [extractCalls_append] at hc
        rcases List.mem_append.1 hc with h | h
        · exact hev c h
        · simp [extractCalls] at h

/-- C26: request validation keeps session targets inside the output directory.
Every name in `Files` of a request accepted by `Validate` is non-empty, at most
1000 bytes long and contains none of the substrings of `dangerous`. The output
directory of the session is never empty: `ExtractZipHandler` replaces an empty
`OutDir` by `./extracted_files`. Every call of `ExtractFile` of the session is
for a name of `Files`, with the target `filepath.Join(outDir, name)`. And for
every name of `Files` and every non-empty `outDir`, that of the session in
particular, the path elements of `filepath.Abs(filepath.Join(outDir, name))`
are those of `filepath.Abs(outDir)` followed by the elements of `name` that are
neither empty nor `.`, all of them proper: the target is `outDir` itself or
beneath it. When `name` has such an element and `outDir` does not resolve to
the root, `IsPathWithinBase(outDir, target)` is true. -/
theorem C26_validated_targets (r : ExtractZipRequest) (hv : r.Validate = none) :
    (∀ name ∈ r.Files, name ≠ [] ∧ byteLen name ≤ 1000 ∧
      ∀ pattern ∈ dangerous, contains name pattern = false ∧
        ∀ a b, name ≠ a ++ pattern ++ b) ∧
    defaultOutDir r.OutDir ≠ [] ∧
    (∀ (σ : Type) (w : World σ) (archive : GoString ⊕ List ZipFile) (s : σ),
      ∀ c ∈ extractCalls
          (ExtractSelectedFiles w archive (defaultOutDir r.OutDir) r.Files s).events,
        c.1 ∈ r.Files ∧ c.2 = Join (defaultOutDir r.OutDir) c.1) ∧
    (∀ name ∈ r.Files, ∀ (wd : Option GoString) (outDir : GoString), outDir ≠ [] →
      (∀ s ∈ keptElems name, ProperSeg s) ∧
      absSegs wd (Join outDir name)
        = (absSegs wd outDir).map (fun L => L ++ keptElems name) ∧
      ((∀ w, wd = some w → IsAbs w = true) → ∀ a, Abs wd outDir = some a →
        a ≠ [Separator] → keptElems name ≠ [] →
        IsPathWithinBase wd outDir (Join outDir name) = true)) := by
  have hfiles : validateFiles 0 r.Files = none := by
    unfold ExtractZipRequest.Validate at hv
    split_ifs at hv
    exact hv
  have hok := validateFiles_ok r.Files 0 hfiles
  refine ⟨?_, ?_, ?_, ?_⟩
  · intro name hn
    obtain ⟨h1, h2, h3⟩ := hok name hn
    refine ⟨h1, h2, ?_⟩
    intro pattern hp
    have hc := containsPathTraversal_false name h3 pattern hp
    refine ⟨hc, ?_⟩
    intro a b hab
    rw [hab, contains_of_infix] at hc
    cases hc
  · unfold defaultOutDir
    by_cases h : r.OutDir = []
    · rw [if_pos h]; decide
    · rw [if_neg h]; exact h
  · intro σ w archive s c hc
    cases archive with
    | inl e => simp [ExtractSelectedFiles, extractCalls] at hc
    | inr files =>
      exact selectedLoop_targets w _ r.Files files s [] (by simp [extractCalls]) c hc
  · intro name hn wd outDir ho
    obtain ⟨-, -, h3⟩ := hok name hn
    have hdd : contains name ['.', '.'] = false :=
      containsPathTraversal_false name h3 ['.', '.'] (by decide)
    have hkp := keptElems_proper name hdd
    have hseg := absSegs_join_name wd outDir name ho hdd
    refine ⟨hkp, hseg, ?_⟩
    intro hwd a hab hroot hne
    rw [isPathWithinBase_iff wd hwd]
    rw [abs_eq_absSegs wd hwd] at hab
    cases hbs : absSegs wd outDir with
    | none => rw [hbs] at hab; cases hab
    | some bs =>
      rw [hbs] at hab
      simp only [Option.map_some', Option.some.injEq] at hab
      have hbp : ∀ s ∈ bs, ProperSeg s := by
        unfold absSegs at hbs
        cases hP : absPath wd outDir with
        | none => rw [hP] at hbs; cases hbs
        | some P =>
          rw [hP] at hbs
          simp only [Option.map_some', Option.some.injEq] at hbs
          rw [← hbs]
          exact cleanSegs_proper P
      have hbne : bs ≠ [] := by
        intro h
        apply hroot
        rw [← hab, h]
        rfl
      refine ⟨bs, keptElems name, hbp, hkp, hbne, hne, ?_, ?_⟩
      · rw [abs_eq_absSegs wd hwd, hbs]; rfl
      · rw [abs_eq_absSegs wd hwd, hseg, hbs]; rfl

/-- C26, witness: a request for `docs/./readme.txt` and `/etc/passwd` that
names no output directory, working directory `/srv`. The session gets the
output directory `./extracted_files`, and the target of `/etc/passwd` is
`extracted_files/etc/passwd`, inside it. -/
theorem C26_validated_targets_witness :
    defaultOutDir [] = "./extracted_files".toList ∧
    absSegs (some "/srv".toList) (Join (defaultOutDir []) "docs/./readme.txt".toList)
      = (absSegs (some "/srv".toList) (defaultOutDir [])).map
          (fun L => L ++ keptElems "docs/./readme.txt".toList) ∧
    keptElems "docs/./readme.txt".toList = ["docs".toList, "readme.txt".toList] ∧
    IsPathWithinBase (some "/srv".toList) (defaultOutDir [])
      (Join (defaultOutDir []) "/etc/passwd".toList) = true ∧
    Join (defaultOutDir []) "/etc/passwd".toList = "extracted_files/etc/passwd".toList ∧
    extractCalls (ExtractSelectedFiles calmWorld (.inr [⟨"/etc/passwd".toList⟩])
        (defaultOutDir []) ["docs/./readme.txt".toList, "/etc/passwd".toList] 0).events
      = [("/etc/passwd".toList, "extracted_files/etc/passwd".toList)] :=
  ⟨by decide,
   ((C26_validated_targets
      { ZipPath := "a.zip".toList, Files := ["docs/./readme.txt".toList, "/etc/passwd".toList],
        OutDir := [] } (by decide)).2.2.2 "docs/./readme.txt".toList
      (by decide) (some "/srv".toList) (defaultOutDir []) (by decide)).2.1,
   by decide,
   ((C26_validated_targets
      { ZipPath := "a.zip".toList, Files := ["docs/./readme.txt".toList, "/etc/passwd".toList],
        OutDir := [] } (by decide)).2.2.2 "/etc/passwd".toList
      (by decide) (some "/srv".toList) (defaultOutDir []) (by decide)).2.2
      (by intro w hw; cases hw; decide) "/srv/extracted_files".toList (by decide) (by decide)
      (by decide),
   by decide, by decide⟩

/-! ## Theorems: `filepath.Match` and malformed patterns -/

theorem decodeTail_width (s0 sz lo hi : Nat) (t : Bytes) :
    1 ≤ (decodeTail s0 sz lo hi t).2 := by
  unfold decodeTail
  repeat' first
    | exact le_refl _
    | exact (by decide : (1 : Nat) ≤ 2)
    | exact (by decide : (1 : Nat) ≤ 3)
    | exact (by decide : (1 : Nat) ≤ 4)
    | split

theorem decodeRune_width (s : Bytes) (h : s ≠ []) : 1 ≤ (DecodeRune s).2 := by
  cases s with
  | nil => exact absurd rfl h
  | cons s0 t =>
    unfold DecodeRune
    simp only
    by_cases h1 : s0 < 0x80
    · rw [if_pos h1]
    · rw [if_neg h1]
      by_cases h2 : s0 < 0xC2 ∨ 0xF4 < s0
      · rw [if_pos h2]
      · rw [if_neg h2]
        split_ifs
        all_goals first | exact le_refl _ | exact decodeTail_width _ _ _ _ _

theorem getEsc_length (chunk : Bytes) (r : Nat) (nchunk : Bytes)
    (h : getEsc chunk = some (r, nchunk)) : nchunk ≠ [] ∧ nchunk.length < chunk.length := by
  cases chunk with
  | nil => simp [getEsc] at h
  | cons c0 t =>
    unfold getEsc at h
    simp only at h
    obtain ⟨chunk1, hc1⟩ : ∃ chunk1, chunk1 = if c0 = 92 then t else c0 :: t := ⟨_, rfl⟩
    rw [← hc1] at h
    have hl : chunk1.length ≤ (c0 :: t).length := by
      rw [hc1]
      split_ifs <;> simp
    by_cases h1 : c0 = 45 ∨ c0 = 93
    · rw [if_pos h1] at h; cases h
    · rw [if_neg h1] at h
      by_cases h2 : chunk1 = []
      · rw [if_pos h2] at h; cases h
      · rw [if_neg h2] at h
        by_cases h3 : (DecodeRune chunk1).1 = RuneError ∧ (DecodeRune chunk1).2 = 1
        · rw [if_pos h3] at h; cases h
        · rw [if_neg h3] at h
          by_cases h4 : chunk1.drop (DecodeRune chunk1).2 = []
          · rw [if_pos h4] at h; cases h
          · rw [if_neg h4] at h
            simp only [Option.some.injEq, Prod.mk.injEq] at h
            have hw := decodeRune_width _ h2
            have hne : chunk1.length ≠ 0 := by
              rw [ne_eq, List.length_eq_zero]; exact h2
            rw [← h.2]
            refine ⟨h4, ?_⟩
            rw [List.length_drop]
            omega

theorem classLoop_total : ∀ (fuel : Nat) (chunk : Bytes) (r : Nat) (m : Bool) (nrange : Nat),
    chunk.length < fuel →
    ∃ res, classLoop fuel chunk r m nrange = some res ∧
      ∀ chunk2 m2, res = some (chunk2, m2) → chunk2.length < chunk.length := by
  intro fuel
  induction fuel with
  | zero => intro chunk r m nrange h; omega
  | succ fuel ih =>
    intro chunk r m nrange h
    unfold classLoop
    by_cases h1 : chunk.head? = some 93 ∧ nrange > 0
    · rw [if_pos h1]
      refine ⟨_, rfl, ?_⟩
      intro chunk2 m2 he
      simp only [Option.some.injEq, Prod.mk.injEq] at he
      rw [← he.1]
      cases chunk with
      | nil => simp at h1
      | cons c t => simp
    · rw [if_neg h1]
      cases h2 : getEsc chunk with
      | none => exact ⟨none, rfl, fun _ _ he => by cases he⟩
      | some x =>
        obtain ⟨lo, chunk1⟩ := x
        obtain ⟨-, hl1⟩ := getEsc_length chunk lo chunk1 h2
        simp only
        by_cases h3 : chunk1.head? = some 45
        · rw [if_pos h3]
          cases h4 : getEsc chunk1.tail with
          | none => exact ⟨none, rfl, fun _ _ he => by cases he⟩
          | some y =>
            obtain ⟨hi, chunk2⟩ := y
            obtain ⟨-, hl2⟩ := getEsc_length chunk1.tail hi chunk2 h4
            have hl3 : chunk1.tail.length ≤ chunk1.length := by simp
            simp only
            obtain ⟨res, e, hres⟩ := ih chunk2 r (m || (decide (lo ≤ r) && decide (r ≤ hi)))
              (nrange + 1) (by omega)
            exact ⟨res, e, fun c2 m2 he => by have := hres c2 m2 he; omega⟩
        · rw [if_neg h3]
          obtain ⟨res, e, hres⟩ := ih chunk1 r (m || (decide (lo ≤ r) && decide (r ≤ lo)))
            (nrange + 1) (by omega)
          exact ⟨res, e, fun c2 m2 he => by have := hres c2 m2 he; omega⟩

theorem matchChunkLoop_total : ∀ (fuel : Nat) (chunk s : Bytes) (failed : Bool),
    chunk.length < fuel → ∃ res, matchChunkLoop fuel chunk s failed = some res := by
  intro fuel
  induction fuel with
  | zero => intro chunk s failed h; omega
  | succ fuel ih =>
    intro chunk s failed h
    unfold matchChunkLoop
    cases chunk with
    | nil => exact ⟨_, rfl⟩
    | cons c0 ctail =>
      simp only [List.length_cons] at h
      simp only
      by_cases h1 : c0 = 91
      · rw [if_pos h1]
        have hl : (if decide (ctail.head? = some 94) = true then ctail.tail else ctail).length
            ≤ ctail.length := by
          split_ifs <;> simp
        obtain ⟨res, e, hres⟩ := classLoop_total
          ((if decide (ctail.head? = some 94) = true then ctail.tail else ctail).length + 1)
          (if decide (ctail.head? = some 94) = true then ctail.tail else ctail)
          (if (failed || decide (s = [])) = true then 0 else (DecodeRune s).1) false 0
          (by omega)
        rw [e]
        cases res with
        | none => exact ⟨_, rfl⟩
        | some x =>
          obtain ⟨chunk2, m⟩ := x
          have := hres chunk2 m rfl
          exact ih chunk2 _ _ (by omega)
      · rw [if_neg h1]
        by_cases h2 : c0 = 63
        · rw [if_pos h2]
          exact ih ctail _ _ (by omega)
        · rw [if_neg h2]
          by_cases h3 : c0 = 92
          · rw [if_pos h3]
            cases ctail with
            | nil => exact ⟨_, rfl⟩
            | cons c1 ctail1 =>
              simp only [List.length_cons] at h
              exact ih ctail1 _ _ (by omega)
          · rw [if_neg h3]
            exact ih ctail _ _ (by omega)

theorem matchChunk_total (chunk s : Bytes) : ∃ res, matchChunk chunk s = some res :=
  matchChunkLoop_total _ chunk s false (by omega)

theorem stripStars_length (p : Bytes) : (stripStars p).length ≤ p.length := by
  induction p with
  | nil => exact le_refl _
  | cons b rest ih =>
    unfold stripStars
    split_ifs
    · simp only [List.length_cons]; omega
    · exact le_refl _

/-- Every call of `scanChunk` on a non-empty pattern takes at least one byte of
it. -/
theorem scanChunk_length (pattern : Bytes) (h : pattern ≠ []) :
    (scanChunk pattern).2.2.length < pattern.length := by
  cases pattern with
  | nil => exact absurd rfl h
  | cons b rest =>
    unfold scanChunk
    simp only [List.length_drop, List.length_cons]
    by_cases hb : b = 42
    · have e : stripStars (b :: rest) = stripStars rest := by
        show (if b = 42 then stripStars rest else b :: rest) = stripStars rest
        rw [if_pos hb]
      rw [e]
      have := stripStars_length rest
      omega
    · have e : stripStars (b :: rest) = b :: rest := by
        show (if b = 42 then stripStars rest else b :: rest) = b :: rest
        rw [if_neg hb]
      rw [e]
      have hs : 1 ≤ scanLen false (b :: rest) := by
        unfold scanLen
        split_ifs
        · split <;> omega
        all_goals omega
      simp only [List.length_cons]
      omega

theorem checkRest_total : ∀ (fuel : Nat) (pattern : Bytes), pattern.length < fuel →
    ∃ b, checkRest fuel pattern = some b := by
  intro fuel
  induction fuel with
  | zero => intro pattern h; omega
  | succ fuel ih =>
    intro pattern h
    unfold checkRest
    by_cases hp : pattern = []
    · rw [if_pos hp]; exact ⟨_, rfl⟩
    · rw [if_neg hp]
      obtain ⟨res, e⟩ := matchChunk_total (scanChunk pattern).2.1 []
      rw [e]
      have hl := scanChunk_length pattern hp
      cases res with
      | bad => exact ⟨_, rfl⟩
      | ok t => exact ih _ (by omega)
      | fail => exact ih _ (by omega)

theorem starLoop_total (chunk : Bytes) (lastChunk : Bool) :
    ∀ name : Bytes, ∃ res, starLoop chunk lastChunk name = some res := by
  intro name
  induction name with
  | nil => exact ⟨_, rfl⟩
  | cons b rest ih =>
    unfold starLoop
    by_cases hb : b = 47
    · rw [if_pos hb]; exact ⟨_, rfl⟩
    · rw [if_neg hb]
      obtain ⟨res, e⟩ := matchChunk_total chunk rest
      rw [e]
      cases res with
      | bad => exact ⟨_, rfl⟩
      | fail => exact ih
      | ok t =>
        simp only
        split_ifs
        · exact ih
        · exact ⟨_, rfl⟩

/-- The loop of `Match` returns when its fuel exceeds the length of the
pattern, and a result with an error is never a match. -/
theorem matchLoop_total : ∀ (fuel : Nat) (pattern name : Bytes), pattern.length < fuel →
    ∃ m e, matchLoop fuel pattern name = some (m, e) ∧ (e = true → m = false) := by
  intro fuel
  induction fuel with
  | zero => intro pattern name h; omega
  | succ fuel ih =>
    intro pattern name h
    unfold matchLoop
    by_cases hp : pattern = []
    · rw [if_pos hp]; exact ⟨_, _, rfl, fun h => by cases h⟩
    · rw [if_neg hp]
      have hl := scanChunk_length pattern hp
      by_cases hs : (scanChunk pattern).1 = true ∧ (scanChunk pattern).2.1 = []
      · rw [if_pos hs]; exact ⟨_, _, rfl, fun h => by cases h⟩
      · rw [if_neg hs]
        obtain ⟨res, e⟩ := matchChunk_total (scanChunk pattern).2.1 name
        rw [e]
        simp only
        have hrest : ∀ t, ∃ m e, matchLoop fuel (scanChunk pattern).2.2 t = some (m, e) ∧
            (e = true → m = false) := fun t => ih _ t (by omega)
        have htail : ∃ m e,
            (match (if (scanChunk pattern).1 = true then
                     starLoop (scanChunk pattern).2.1
                       (decide ((scanChunk pattern).2.2 = [])) name
                   else some .notFound) with
            | none => none
            | some (.found t) => matchLoop fuel (scanChunk pattern).2.2 t
            | some .bad => some (false, true)
            | some .notFound =>
              match checkRest ((scanChunk pattern).2.2.length + 1) (scanChunk pattern).2.2 with
              | none => none
              | some true => some (false, true)
              | some false => some (false, false)) = some (m, e) ∧ (e = true → m = false) := by
          have hst : ∃ sr, (if (scanChunk pattern).1 = true then
                     starLoop (scanChunk pattern).2.1
                       (decide ((scanChunk pattern).2.2 = [])) name
                   else some .notFound) = some sr := by
            split_ifs
            · exact starLoop_total _ _ name
            · exact ⟨_, rfl⟩
          obtain ⟨sr, hsr⟩ := hst
          rw [hsr]
          cases sr with
          | found t => exact hrest t
          | bad => exact ⟨_, _, rfl, fun _ => rfl⟩
          | notFound =>
            obtain ⟨b, hb⟩ := checkRest_total ((scanChunk pattern).2.2.length + 1)
              (scanChunk pattern).2.2 (by omega)
            simp only
            rw [hb]
            cases b
            · exact ⟨_, _, rfl, fun h => by cases h⟩
            · exact ⟨_, _, rfl, fun _ => rfl⟩
        cases res with
        | ok t =>
          simp only
          by_cases ht : t = [] ∨ (scanChunk pattern).2.2 ≠ []
          · rw [if_pos ht]
            exact hrest t
          · rw [if_neg ht]
            simp only [reduceCtorEq, if_false]
            exact htail
        | fail =>
          simp only [reduceCtorEq, if_false]
          exact htail
        | bad =>
          simp only [if_true]
          exact ⟨_, _, rfl, fun _ => rfl⟩

/-- `Match` returns for every pattern and every name. -/
theorem match_total (pattern name : Bytes) :
    ∃ m e, Match pattern name = some (m, e) ∧ (e = true → m = false) :=
  matchLoop_total _ pattern name (by omega)

theorem match_open_bracket (name : Bytes) : Match [91] name = some (false, true) := rfl

/-- Whether the loop "parse all ranges" reports `ErrBadPattern`, and the chunk
it leaves, do not depend on the rune that is matched. -/
theorem classLoop_shape : ∀ (fuel : Nat) (chunk : Bytes) (r r2 : Nat) (m m2 : Bool)
    (nrange : Nat),
    (classLoop fuel chunk r m nrange).map (Option.map Prod.fst)
      = (classLoop fuel chunk r2 m2 nrange).map (Option.map Prod.fst) := by
  intro fuel
  induction fuel with
  | zero => intro chunk r r2 m m2 nrange; rfl
  | succ fuel ih =>
    intro chunk r r2 m m2 nrange
    unfold classLoop
    by_cases h1 : chunk.head? = some 93 ∧ nrange > 0
    · rw [if_pos h1, if_pos h1]; rfl
    · rw [if_neg h1, if_neg h1]
      cases h2 : getEsc chunk with
      | none => rfl
      | some x =>
        obtain ⟨lo, chunk1⟩ := x
        simp only
        by_cases h3 : chunk1.head? = some 45
        · rw [if_pos h3, if_pos h3]
          cases h4 : getEsc chunk1.tail with
          | none => rfl
          | some y =>
            obtain ⟨hi, chunk2⟩ := y
            exact ih chunk2 r r2 _ _ (nrange + 1)
        · rw [if_neg h3, if_neg h3]
          exact ih chunk1 r r2 _ _ (nrange + 1)

/-- Whether `matchChunk` reports `ErrBadPattern` depends on the chunk only. -/
theorem matchChunkLoop_bad : ∀ (fuel : Nat) (chunk s s2 : Bytes) (failed failed2 : Bool),
    matchChunkLoop fuel chunk s failed = some .bad →
    matchChunkLoop fuel chunk s2 failed2 = some .bad := by
  intro fuel
  induction fuel with
  | zero => intro chunk s s2 failed failed2 h; cases h
  | succ fuel ih =>
    intro chunk s s2 failed failed2 h
    unfold matchChunkLoop at h ⊢
    cases chunk with
    | nil =>
      simp only at h
      split_ifs at h <;> cases h
    | cons c0 ctail =>
      simp only at h ⊢
      by_cases h1 : c0 = 91
      · rw [if_pos h1] at h ⊢
        obtain ⟨chunk1, hc1⟩ : ∃ chunk1, chunk1
            = if decide (ctail.head? = some 94) = true then ctail.tail else ctail := ⟨_, rfl⟩
        rw [← hc1] at h ⊢
        have hsh := classLoop_shape (chunk1.length + 1) chunk1
          (if (failed || decide (s = [])) = true then 0 else (DecodeRune s).1)
          (if (failed2 || decide (s2 = [])) = true then 0 else (DecodeRune s2).1) false false 0
        cases hA : classLoop (chunk1.length + 1) chunk1
            (if (failed || decide (s = [])) = true then 0 else (DecodeRune s).1) false 0 with
        | none => rw [hA] at h; cases h
        | some a =>
          rw [hA] at h hsh
          cases hB : classLoop (chunk1.length + 1) chunk1
              (if (failed2 || decide (s2 = [])) = true then 0 else (DecodeRune s2).1) false 0 with
          | none => rw [hB] at hsh; cases hsh
          | some b =>
            rw [hB] at hsh
            simp only [Option.map_some', Option.some.injEq] at hsh
            cases a with
            | none =>
              cases b with
              | none => rfl
              | some y => cases hsh
            | some x =>
              cases b with
              | none => cases hsh
              | some y =>
                obtain ⟨ca, ma⟩ := x
                obtain ⟨cb, mb⟩ := y
                simp only [Option.map_some', Option.some.injEq] at hsh
                simp only at h ⊢
                rw [← hsh]
                exact ih ca _ _ _ _ h
      · rw [if_neg h1] at h ⊢
        by_cases h2 : c0 = 63
        · rw [if_pos h2] at h ⊢
          exact ih ctail _ _ _ _ h
        · rw [if_neg h2] at h ⊢
          by_cases h3 : c0 = 92
          · rw [if_pos h3] at h ⊢
            cases ctail with
            | nil => rfl
            | cons c1 ctail1 =>
              simp only at h ⊢
              exact ih ctail1 _ _ _ _ h
          · rw [if_neg h3] at h ⊢
            exact ih ctail _ _ _ _ h

theorem matchChunk_bad (chunk s s2 : Bytes) (h : matchChunk chunk s = some .bad) :
    matchChunk chunk s2 = some .bad :=
  matchChunkLoop_bad _ chunk s s2 false false h

theorem checkRest_fuel : ∀ (f1 f2 : Nat) (pattern : Bytes), pattern.length < f1 →
    pattern.length < f2 → checkRest f1 pattern = checkRest f2 pattern := by
  intro f1
  induction f1 with
  | zero => intro f2 pattern h; omega
  | succ f1 ih =>
    intro f2 pattern h1 h2
    cases f2 with
    | zero => omega
    | succ f2 =>
      unfold checkRest
      by_cases hp : pattern = []
      · rw [if_pos hp, if_pos hp]
      · rw [if_neg hp, if_neg hp]
        have hl := scanChunk_length pattern hp
        cases matchChunk (scanChunk pattern).2.1 [] with
        | none => rfl
        | some res =>
          cases res with
          | bad => rfl
          | ok t => exact ih f2 _ (by omega) (by omega)
          | fail => exact ih f2 _ (by omega) (by omega)

/-- A chunk that `scanChunk` returns empty is the end of the pattern. -/
theorem scanChunk_empty (pattern : Bytes) (h : (scanChunk pattern).2.1 = []) :
    (scanChunk pattern).2.2 = [] := by
  unfold scanChunk at h ⊢
  simp only at h ⊢
  have hs : ∀ p : Bytes, stripStars p = [] ∨ ∃ b rest, stripStars p = b :: rest ∧ b ≠ 42 := by
    intro p
    induction p with
    | nil => exact Or.inl rfl
    | cons b rest ih =>
      by_cases hb : b = 42
      · have e : stripStars (b :: rest) = stripStars rest := by
          show (if b = 42 then stripStars rest else b :: rest) = stripStars rest
          rw [if_pos hb]
        rw [e]; exact ih
      · have e : stripStars (b :: rest) = b :: rest := by
          show (if b = 42 then stripStars rest else b :: rest) = b :: rest
          rw [if_neg hb]
        exact Or.inr ⟨b, rest, e, hb⟩
  rcases hs pattern with h0 | ⟨b, rest, e, hb⟩
  · rw [h0]; rfl
  · rw [e] at h ⊢
    have hlen : 1 ≤ scanLen false (b :: rest) := by
      unfold scanLen
      split_ifs
      · split <;> omega
      all_goals omega
    exfalso
    have := congrArg List.length h
    simp only [List.length_take, List.length_cons, List.length_nil] at this
    omega

/-- A pattern with a syntax error makes `Match` report `ErrBadPattern` for
every name. -/
theorem matchLoop_bad_pattern : ∀ (fuel : Nat) (pattern name : Bytes), pattern.length < fuel →
    checkRest (pattern.length + 1) pattern = some true →
    matchLoop fuel pattern name = some (false, true) := by
  intro fuel
  induction fuel with
  | zero => intro pattern name h; omega
  | succ fuel ih =>
    intro pattern name h hbad
    unfold checkRest at hbad
    unfold matchLoop
    by_cases hp : pattern = []
    · rw [if_pos hp] at hbad; cases hbad
    · rw [if_neg hp] at hbad ⊢
      have hl := scanChunk_length pattern hp
      have hrest : checkRest pattern.length (scanChunk pattern).2.2 = some true →
          ∀ t, matchLoop fuel (scanChunk pattern).2.2 t = some (false, true) := by
        intro hb t
        refine ih _ t (by omega) ?_
        rw [← hb]
        exact checkRest_fuel _ _ _ (by omega) (by omega)
      by_cases hs : (scanChunk pattern).1 = true ∧ (scanChunk pattern).2.1 = []
      · exfalso
        have he := scanChunk_empty pattern hs.2
        rw [hs.2, he] at hbad
        have e1 : matchChunk [] [] = some (.ok []) := rfl
        rw [e1] at hbad
        simp only at hbad
        cases hpl : pattern.length with
        | zero => rw [List.length_eq_zero] at hpl; exact hp hpl
        | succ n =>
          rw [hpl] at hbad
          simp [checkRest] at hbad
      · rw [if_neg hs]
        obtain ⟨res0, e0⟩ := matchChunk_total (scanChunk pattern).2.1 []
        obtain ⟨res, e⟩ := matchChunk_total (scanChunk pattern).2.1 name
        rw [e0] at hbad
        rw [e]
        simp only
        by_cases hb0 : res0 = .bad
        · have : res = .bad := by
            rw [hb0] at e0
            have := matchChunk_bad _ [] name e0
            rw [e] at this
            exact Option.some.inj this
          rw [this]
          simp only [if_true]
        · have hbad2 : checkRest pattern.length (scanChunk pattern).2.2 = some true := by
            cases res0 with
            | bad => exact absurd rfl hb0
            | ok t => exact hbad
            | fail => exact hbad
          have hnb : res ≠ .bad := by
            intro hr
            rw [hr] at e
            have := matchChunk_bad _ name [] e
            rw [e0] at this
            exact hb0 (Option.some.inj this)
          have htail :
              (match (if (scanChunk pattern).1 = true then
                       starLoop (scanChunk pattern).2.1
                         (decide ((scanChunk pattern).2.2 = [])) name
                     else some .notFound) with
              | none => none
              | some (.found t) => matchLoop fuel (scanChunk pattern).2.2 t
              | some .bad => some (false, true)
              | some .notFound =>
                match checkRest ((scanChunk pattern).2.2.length + 1)
                    (scanChunk pattern).2.2 with
                | none => none
                | some true => some (false, true)
                | some false => some (false, false)) = some (false, true) := by
            have hst : ∃ sr, (if (scanChunk pattern).1 = true then
                       starLoop (scanChunk pattern).2.1
                         (decide ((scanChunk pattern).2.2 = [])) name
                     else some .notFound) = some sr := by
              split_ifs
              · exact starLoop_total _ _ name
              · exact ⟨_, rfl⟩
            obtain ⟨sr, hsr⟩ := hst
            rw [hsr]
            cases sr with
            | found t => exact hrest hbad2 t
            | bad => rfl
            | notFound =>
              simp only
              rw [checkRest_fuel ((scanChunk pattern).2.2.length + 1) pattern.length _
                (by omega) (by omega), hbad2]
          cases res with
          | bad => exact absurd rfl hnb
          | fail =>
            simp only [reduceCtorEq, if_false]
            exact htail
          | ok t =>
            simp only
            by_cases ht : t = [] ∨ (scanChunk pattern).2.2 ≠ []
            · rw [if_pos ht]
              exact hrest hbad2 t
            · rw [if_neg ht]
              simp only [reduceCtorEq, if_false]
              exact htail

theorem filepathMatch_bad (pattern name : GoString) (h : badPattern (toBytes pattern) = true) :
    filepathMatch pattern name = (false, true) := by
  unfold badPattern at h
  rw [decide_eq_true_eq] at h
  unfold filepathMatch Match
  rw [matchLoop_bad_pattern _ (toBytes pattern) (toBytes name) (by omega) h]

/-- C30: a malformed glob pattern is silently treated as "no match".
`filepath.Match` returns for every pattern and name, and a result with
`ErrBadPattern` is never a match; `ShouldExtract` drops the error and returns a
plain boolean. For a malformed pattern `Match` reports the error for every
name: with a malformed include pattern `ShouldExtract` is false for every name
and every exclude pattern, and with an empty include and a malformed exclude
pattern it is true for every name. The pattern `[` is malformed. -/
theorem C30_malformed_pattern_no_match :
    (∀ pattern name : GoString, ∃ m e,
      Match (toBytes pattern) (toBytes name) = some (m, e) ∧
      filepathMatch pattern name = (m, e) ∧ (e = true → m = false)) ∧
    (∀ incl : GoString, badPattern (toBytes incl) = true →
      incl ≠ [] ∧ ∀ name excl : GoString,
        filepathMatch incl (Base name) = (false, true) ∧
        ShouldExtract filepathMatch name incl excl = false) ∧
    (∀ excl : GoString, badPattern (toBytes excl) = true →
      excl ≠ [] ∧ ∀ name : GoString,
        filepathMatch excl (Base name) = (false, true) ∧
        ShouldExtract filepathMatch name [] excl = true) ∧
    (∀ name incl excl : GoString, incl ≠ [] → (filepathMatch incl (Base name)).2 = true →
      ShouldExtract filepathMatch name incl excl = false) ∧
    (∀ name excl : GoString, (filepathMatch excl (Base name)).2 = true →
      ShouldExtract filepathMatch name [] excl = true) ∧
    badPattern (toBytes "[".toList) = true := by
  have herr : ∀ pattern name : GoString, (filepathMatch pattern name).2 = true →
      (filepathMatch pattern name).1 = false := by
    intro pattern name h
    obtain ⟨m, e, h1, h2⟩ := match_total (toBytes pattern) (toBytes name)
    unfold filepathMatch at h ⊢
    rw [h1] at h ⊢
    exact h2 h
  have hne : ∀ p : GoString, badPattern (toBytes p) = true → p ≠ [] := by
    intro p h hp
    rw [hp] at h
    revert h
    decide
  refine ⟨?_, ?_, ?_, ?_, ?_, by decide⟩
  · intro pattern name
    obtain ⟨m, e, h1, h2⟩ := match_total (toBytes pattern) (toBytes name)
    refine ⟨m, e, h1, ?_, h2⟩
    unfold filepathMatch
    rw [h1]
  · intro incl hbad
    refine ⟨hne incl hbad, ?_⟩
    intro name excl
    have hm := filepathMatch_bad incl (Base name) hbad
    refine ⟨hm, ?_⟩
    unfold ShouldExtract
    rw [hm]
    simp [hne incl hbad]
  · intro excl hbad
    refine ⟨hne excl hbad, ?_⟩
    intro name
    have hm := filepathMatch_bad excl (Base name) hbad
    refine ⟨hm, ?_⟩
    unfold ShouldExtract
    rw [hm]
    simp
  · intro name incl excl hi he
    have := herr incl (Base name) he
    unfold ShouldExtract
    rw [this]
    simp [hi]
  · intro name excl he
    have := herr excl (Base name) he
    unfold ShouldExtract
    rw [this]
    simp

/-- C30, witness: the malformed patterns `[` and `[a-` as include and as
exclude pattern, and the rows of `TestShouldExtract` on the model of
`filepath.Match`. -/
theorem C30_malformed_pattern_no_match_witness :
    (∀ name excl : GoString,
      filepathMatch "[".toList (Base name) = (false, true) ∧
      ShouldExtract filepathMatch name "[".toList excl = false) ∧
    (∀ name : GoString,
      filepathMatch "[a-".toList (Base name) = (false, true) ∧
      ShouldExtract filepathMatch name [] "[a-".toList = true) ∧
    ShouldExtract filepathMatch "report.pdf".toList "*.pdf".toList [] = true ∧
    ShouldExtract filepathMatch "malware.exe".toList [] "*.exe".toList = false ∧
    ShouldExtract filepathMatch "image.png".toList "*.png".toList "*.png".toList = false ∧
    ShouldExtract filepathMatch "notes.txt".toList "*.txt".toList "*.exe".toList = true ∧
    ShouldExtract filepathMatch "archive.zip".toList [] [] = true :=
  ⟨(C30_malformed_pattern_no_match.2.1 "[".toList (by decide)).2,
   (C30_malformed_pattern_no_match.2.2.1 "[a-".toList (by decide)).2,
   by decide, by decide, by decide, by decide, by decide⟩

/-! ## Theorems: `ExtractFile` -/

theorem path_decomp (path : GoString) :
    path = dirPart path ++ lastElem path ∧ Separator ∉ lastElem path ∧
      (dirPart path = [] ∨ ∃ Y, dirPart path = Y ++ [Separator]) := by
  unfold dirPart lastElem
  refine ⟨?_, ?_, ?_⟩
  · rw [← List.reverse_append, List.takeWhile_append_dropWhile, List.reverse_reverse]
  · intro h
    rw [List.mem_reverse] at h
    have := List.mem_takeWhile_imp h
    simp at this
  · cases hd : path.reverse.dropWhile (fun c => c != Separator) with
    | nil => exact Or.inl rfl
    | cons c rest =>
      right
      have hc : c = Separator := by
        have := List.head_dropWhile_not (fun c => c != Separator) path.reverse
          (by rw [hd]; exact List.cons_ne_nil _ _)
        simp only [hd, List.head_cons] at this
        simpa using this
      exact ⟨rest.reverse, by rw [List.reverse_cons, hc]⟩

theorem absSegs_some (wd path : GoString) :
    absSegs (some wd) path = some (absElems wd path) := by
  unfold absElems absSegs absPath
  split_ifs <;> rfl

theorem properName_proper (s : GoString) (h : properName s = true) (hs : Separator ∉ s) :
    ProperSeg s := by
  unfold properName at h
  rw [decide_eq_true_eq] at h
  exact ⟨h.1, hs, h.2.1, h.2.2⟩

theorem absSegs_append_name (wd : Option GoString) (p name : GoString) (hp : p ≠ [])
    (h : contains name ['.', '.'] = false) :
    absSegs wd (p ++ Separator :: name) = (absSegs wd p).map (fun L => L ++ keptElems name) := by
  unfold absSegs absPath
  rw [isAbs_append p _ hp]
  cases hq : IsAbs p with
  | true =>
    simp only [if_true, Option.map_some']
    rw [cleanSegs_append_name p name h]
  | false =>
    simp only [Bool.false_eq_true, if_false]
    cases wd with
    | none => rfl
    | some w =>
      simp only [Option.map_some', Option.some.injEq]
      have : w ++ Separator :: (p ++ Separator :: name)
          = (w ++ Separator :: p) ++ Separator :: name := by simp
      rw [this, cleanSegs_append_name _ name h]

/-- For a path whose last element is a name, the path resolves to what
`filepath.Dir` of it resolves to, followed by that name. -/
theorem absElems_dir (wd path : GoString) (h : properName (lastElem path) = true) :
    absElems wd path = absElems wd (Dir path) ++ [lastElem path] := by
  obtain ⟨hsplit, hns, hdir⟩ := path_decomp path
  have hp := properName_proper _ h hns
  have hone : ∀ s ∈ [lastElem path], ProperSeg s := by
    intro s hs
    rw [List.mem_singleton.1 hs]
    exact hp
  have key : absSegs (some wd) path
      = (absSegs (some wd) (Dir path)).map (fun L => L ++ [lastElem path]) := by
    unfold Dir
    rw [absSegs_clean]
    rcases hdir with h0 | ⟨Y, hY⟩
    · rw [h0]
      have e : path = joinSep [lastElem path] := by
        conv_lhs => rw [hsplit, h0]
        rfl
      conv_lhs => rw [e]
      exact absSegs_of_segs (some wd) [lastElem path] (List.cons_ne_nil _ _) hone
    · rw [hY]
      have e : path = Y ++ Separator :: joinSep [lastElem path] := by
        conv_lhs => rw [hsplit, hY]
        simp [joinSep]
      conv_lhs => rw [e]
      by_cases hYe : Y = []
      · subst hYe
        simp only [List.nil_append]
        have hi : ∀ x : GoString, IsAbs (Separator :: x) = true := by
          intro x
          simp [IsAbs, HasPrefix]
        have e1 : absSegs (some wd) [Separator] = some [] := by
          unfold absSegs absPath
          rw [hi, if_pos rfl]
          exact congrArg some (by decide)
        have e2 : absSegs (some wd) (Separator :: joinSep [lastElem path])
            = some (cleanSegs true ([] ++ Separator :: joinSep [lastElem path])) := by
          unfold absSegs absPath
          rw [hi, if_pos rfl]
          rfl
        rw [e1, e2, cleanSegs_append_segs [] [lastElem path] (List.cons_ne_nil _ _) hone]
        rfl
      · rw [absSegs_append_segs (some wd) Y [lastElem path] hYe (List.cons_ne_nil _ _) hone]
        have e3 : Y ++ [Separator] = Y ++ Separator :: [] := rfl
        rw [e3, absSegs_append_name (some wd) Y [] hYe (by decide)]
        have e4 : keptElems [] = [] := by decide
        rw [e4]
        cases absSegs (some wd) Y <;> simp
  rw [absSegs_some, absSegs_some] at key
  simpa using key

theorem clean_ne_nil (path : GoString) : Clean path ≠ [] := by
  unfold Clean
  by_cases h1 : path = []
  · rw [if_pos h1]
    exact List.cons_ne_nil _ _
  · rw [if_neg h1]
    simp only
    by_cases h2 : (if IsAbs path = true then [Separator] else [])
        ++ joinSep (cleanSegs (IsAbs path) path) = []
    · rw [if_pos h2]
      exact List.cons_ne_nil _ _
    · rw [if_neg h2]
      exact h2

theorem set_wd (fs : FileSys) (P : Path) (n : Node) : (fs.set P n).wd = fs.wd := rfl

/-- What `os.MkdirAll` does along a list of paths: it changes no other path
and no regular file; it succeeds exactly when none of the paths is a regular
file, and then every one of them is a directory. -/
theorem mkdirList_spec : ∀ (L : List Path) (fs : FileSys),
    (mkdirList fs L).2.wd = fs.wd ∧
    (∀ Q, Q ∉ L → (mkdirList fs L).2.node Q = fs.node Q) ∧
    (∀ Q c, (mkdirList fs L).2.node Q = some (.file c) ↔ fs.node Q = some (.file c)) ∧
    (∀ Q, fs.node Q = some .dir → (mkdirList fs L).2.node Q = some .dir) ∧
    ((mkdirList fs L).1 = none → ∀ P ∈ L, (mkdirList fs L).2.node P = some .dir) ∧
    ((mkdirList fs L).1 = none ↔ ∀ P ∈ L, ∀ c, fs.node P ≠ some (.file c)) := by
  intro L
  induction L with
  | nil =>
    intro fs
    refine ⟨rfl, fun _ _ => rfl, fun _ _ => Iff.rfl, fun _ h => h, ?_, ?_⟩
    · intro _ P hP; exact absurd hP (List.not_mem_nil _)
    · exact ⟨fun _ P hP => absurd hP (List.not_mem_nil _), fun _ => rfl⟩
  | cons P rest ih =>
    intro fs
    unfold mkdirList
    cases hn : fs.node P with
    | none =>
      simp only
      obtain ⟨i1, i2, i3, i4, i5, i6⟩ := ih (fs.set P .dir)
      have hset : ∀ Q, Q ≠ P → (fs.set P .dir).node Q = fs.node Q := by
        intro Q hQ
        show (if Q = P then some Node.dir else fs.node Q) = fs.node Q
        rw [if_neg hQ]
      have hsetP : (fs.set P .dir).node P = some .dir := by
        show (if P = P then some Node.dir else fs.node P) = some Node.dir
        rw [if_pos rfl]
      refine ⟨i1, ?_, ?_, ?_, ?_, ?_⟩
      · intro Q hQ
        rw [List.mem_cons, not_or] at hQ
        rw [i2 Q hQ.2, hset Q hQ.1]
      · intro Q c
        rw [i3 Q c]
        by_cases hQ : Q = P
        · rw [hQ, hsetP, hn]
          simp
        · rw [hset Q hQ]
      · intro Q hQ
        apply i4
        by_cases hQP : Q = P
        · rw [hQP]; exact hsetP
        · rw [hset Q hQP]; exact hQ
      · intro he Q hQ
        rcases List.mem_cons.1 hQ with h | h
        · rw [h]; exact i4 P hsetP
        · exact i5 he Q h
      · rw [i6]
        constructor
        · intro h Q hQ c
          rcases List.mem_cons.1 hQ with hq | hq
          · rw [hq, hn]; simp
          · by_cases hQP : Q = P
            · rw [hQP, hn]; simp
            · have := h Q hq c
              rw [hset Q hQP] at this
              exact this
        · intro h Q hQ c
          by_cases hQP : Q = P
          · rw [hQP, hsetP]; simp
          · rw [hset Q hQP]
            exact h Q (List.mem_cons_of_mem _ hQ) c
    | some n =>
      cases n with
      | dir =>
        simp only
        obtain ⟨i1, i2, i3, i4, i5, i6⟩ := ih fs
        refine ⟨i1, ?_, i3, i4, ?_, ?_⟩
        · intro Q hQ
          rw [List.mem_cons, not_or] at hQ
          exact i2 Q hQ.2
        · intro he Q hQ
          rcases List.mem_cons.1 hQ with h | h
          · rw [h]; exact i4 P hn
          · exact i5 he Q h
        · rw [i6]
          constructor
          · intro h Q hQ c
            rcases List.mem_cons.1 hQ with hq | hq
            · rw [hq, hn]; simp
            · exact h Q hq c
          · intro h Q hQ c
            exact h Q (List.mem_cons_of_mem _ hQ) c
      | file c0 =>
        refine ⟨rfl, fun _ _ => rfl, fun _ _ => Iff.rfl, fun _ h => h, ?_, ?_⟩
        · intro he; cases he
        · constructor
          · intro he; cases he
          · intro h
            exact absurd hn (h P (List.mem_cons_self _ _) c0)

theorem prefixesOf_dropLast (T : Path) (P : Path) (h : P ∈ prefixesOf T.dropLast) :
    P ∈ prefixesOf T ∧ P ≠ T := by
  unfold prefixesOf at h ⊢
  rw [List.mem_map] at h
  obtain ⟨k, hk, hP⟩ := h
  rw [List.mem_range, List.length_dropLast] at hk
  have e : T.dropLast.take (k + 1) = T.take (k + 1) := by
    rw [List.dropLast_eq_take, List.take_take]
    congr 1
    omega
  rw [e] at hP
  refine ⟨List.mem_map.2 ⟨k, by rw [List.mem_range]; omega, hP⟩, ?_⟩
  intro hPT
  have := congrArg List.length hPT
  rw [← hP, List.length_take] at this
  omega

theorem mem_prefixesOf_self (T : Path) (h : T ≠ []) : T ∈ prefixesOf T := by
  unfold prefixesOf
  rw [List.mem_map]
  have hl : 0 < T.length := List.length_pos.2 h
  refine ⟨T.length - 1, by rw [List.mem_range]; omega, ?_⟩
  have : T.length - 1 + 1 = T.length := by omega
  rw [this, List.take_length]

theorem prefixesOf_concat (T : Path) (e : GoString) :
    prefixesOf (T ++ [e]) = prefixesOf T ++ [T ++ [e]] := by
  unfold prefixesOf
  rw [List.length_append, List.length_singleton, List.range_succ, List.map_append]
  congr 1
  · apply List.map_congr_left
    intro k hk
    rw [List.mem_range] at hk
    rw [List.take_append_of_le_length (by omega)]
  · simp

theorem visits_cons_name (cur : Path) (e : GoString) (rest : List GoString)
    (he : ProperSeg e) :
    visits cur (e :: rest) = (cur ++ [e]) :: visits (cur ++ [e]) rest := by
  show (if e = [] ∨ e = ['.'] then visits cur rest
    else if e = ['.', '.'] then visits cur.dropLast rest
    else (cur ++ [e]) :: visits (cur ++ [e]) rest) = _
  rw [if_neg (by rintro (h1 | h1); exact he.1 h1; exact he.2.2.1 h1), if_neg he.2.2.2]

theorem visits_cons_up (cur : Path) (rest : List GoString) :
    visits cur (['.', '.'] :: rest) = visits cur.dropLast rest := rfl

theorem lookup_cons_up (fs : FileSys) (cur : Path) (rest : List GoString) :
    lookup fs cur (['.', '.'] :: rest) = lookup fs cur.dropLast rest := rfl

theorem take_ups (cur : Path) (k : Nat) :
    cur.dropLast.take (cur.dropLast.length - k) = cur.take (cur.length - (k + 1)) := by
  rw [List.dropLast_eq_take, List.take_take, List.length_take]
  congr 1
  omega

/-- The locations a lookup of names passes, from the directory `cur`, are the
prefixes of the location it ends at that are longer than `cur`. -/
theorem visits_names : ∀ (names : List GoString) (cur : Path),
    (∀ s ∈ names, ProperSeg s) →
    prefixesOf (cur ++ names) = prefixesOf cur ++ visits cur names := by
  intro names
  induction names with
  | nil => intro cur _; simp [visits]
  | cons e rest ih =>
    intro cur h
    have he := h e (List.mem_cons_self _ _)
    have e1 := visits_cons_name cur e rest he
    have e2 : cur ++ e :: rest = (cur ++ [e]) ++ rest := by simp
    rw [e1, e2, ih (cur ++ [e]) (fun s hs => h s (List.mem_cons_of_mem _ hs)),
      prefixesOf_concat]
    simp

theorem visits_ups (es : List GoString) : ∀ (k : Nat) (cur : Path),
    visits cur (List.replicate k ['.', '.'] ++ es) = visits (cur.take (cur.length - k)) es := by
  intro k
  induction k with
  | zero => intro cur; simp
  | succ k ih =>
    intro cur
    rw [List.replicate_succ, List.cons_append, visits_cons_up, ih, take_ups]

theorem lookup_ups (fs : FileSys) (es : List GoString) : ∀ (k : Nat) (cur : Path),
    lookup fs cur (List.replicate k ['.', '.'] ++ es)
      = lookup fs (cur.take (cur.length - k)) es := by
  intro k
  induction k with
  | zero => intro cur; simp
  | succ k ih =>
    intro cur
    rw [List.replicate_succ, List.cons_append, lookup_cons_up, ih, take_ups]

/-- The lookup of a path of names succeeds when every directory on the way
exists. -/
theorem lookup_names (fs : FileSys) : ∀ (names : List GoString) (cur : Path),
    (∀ s ∈ names, ProperSeg s) →
    (∀ P ∈ (visits cur names).dropLast, fs.node P = some .dir) →
    lookup fs cur names = .ok (cur ++ names) := by
  intro names
  induction names with
  | nil => intro cur _ _; simp [lookup]
  | cons e rest ih =>
    intro cur h hd
    have he := h e (List.mem_cons_self _ _)
    have e1 := visits_cons_name cur e rest he
    have e0 : lookup fs cur (e :: rest)
        = if rest = [] then Except.ok (cur ++ [e])
          else match fs.node (cur ++ [e]) with
            | some .dir => lookup fs (cur ++ [e]) rest
            | some (.file _) => .error (.notDir (cur ++ [e]))
            | none => .error (.notExist (cur ++ [e])) := by
      show (if e = [] ∨ e = ['.'] then lookup fs cur rest
        else if e = ['.', '.'] then lookup fs cur.dropLast rest
        else if rest = [] then Except.ok (cur ++ [e])
          else match fs.node (cur ++ [e]) with
            | some .dir => lookup fs (cur ++ [e]) rest
            | some (.file _) => .error (.notDir (cur ++ [e]))
            | none => .error (.notExist (cur ++ [e]))) = _
      rw [if_neg (by rintro (h1 | h1); exact he.1 h1; exact he.2.2.1 h1), if_neg he.2.2.2]
    rw [e0]
    by_cases hr : rest = []
    · rw [if_pos hr, hr]
    · rw [if_neg hr]
      have hv : visits (cur ++ [e]) rest ≠ [] := by
        cases rest with
        | nil => exact absurd rfl hr
        | cons e2 r2 =>
          have he2 := h e2 (List.mem_cons_of_mem _ (List.mem_cons_self _ _))
          rw [visits_cons_name _ _ _ he2]
          exact List.cons_ne_nil _ _
      rw [e1, List.dropLast_cons_of_ne_nil hv] at hd
      rw [hd (cur ++ [e]) (List.mem_cons_self _ _)]
      simp only
      rw [ih (cur ++ [e]) (fun s hs => h s (List.mem_cons_of_mem _ hs))
        (fun P hP => hd P (List.mem_cons_of_mem _ hP))]
      simp

theorem fold_ups : ∀ (k : Nat) (S : List GoString), (∀ s ∈ S, ProperSeg s) →
    (List.replicate k ['.', '.']).foldl (cleanStep true) S = S.drop k := by
  intro k
  induction k with
  | zero => intro S _; simp
  | succ k ih =>
    intro S hS
    rw [List.replicate_succ, List.foldl_cons]
    cases S with
    | nil =>
      have e : cleanStep true [] ['.', '.'] = [] := by decide
      rw [e, ih [] (by simp)]
      simp
    | cons top below =>
      have ht := hS top (List.mem_cons_self _ _)
      have e : cleanStep true (top :: below) ['.', '.'] = below := by
        unfold cleanStep
        rw [if_neg (by decide), if_pos rfl]
        simp only
        rw [if_neg ht.2.2.2]
      rw [e, ih below (fun s hs => hS s (List.mem_cons_of_mem _ hs))]
      simp

/-- The elements `filepath.Clean` keeps in a relative path are some `..`
followed by names. -/
theorem cleanSegs_shape (q : GoString) :
    ∃ (k : Nat) (names : List GoString),
      cleanSegs false q = List.replicate k ['.', '.'] ++ names ∧ ∀ s ∈ names, ProperSeg s := by
  have key : ∀ (segs : List GoString), (∀ s ∈ segs, Separator ∉ s) →
      ∀ stack : List GoString,
        (∃ (k : Nat) (nr : List GoString), stack = nr ++ List.replicate k ['.', '.'] ∧
          ∀ s ∈ nr, ProperSeg s) →
        ∃ (k : Nat) (nr : List GoString),
          segs.foldl (cleanStep false) stack = nr ++ List.replicate k ['.', '.'] ∧
          ∀ s ∈ nr, ProperSeg s := by
    intro segs
    induction segs with
    | nil => intro _ stack h; exact h
    | cons seg rest ih =>
      intro hs stack hst
      rw [List.foldl_cons]
      apply ih (fun s h => hs s (List.mem_cons_of_mem _ h))
      obtain ⟨k, nr, hst, hnr⟩ := hst
      have hseg := hs seg (List.mem_cons_self _ _)
      unfold cleanStep
      by_cases h1 : seg = [] ∨ seg = ['.']
      · rw [if_pos h1]
        exact ⟨k, nr, hst, hnr⟩
      · rw [if_neg h1]
        by_cases h2 : seg = ['.', '.']
        · rw [if_pos h2]
          cases nr with
          | nil =>
            rw [List.nil_append] at hst
            cases k with
            | zero =>
              rw [hst]
              exact ⟨1, [], by simp [h2], by simp⟩
            | succ k =>
              rw [hst, List.replicate_succ]
              simp only [Bool.false_eq_true, if_false, if_true]
              exact ⟨k + 2, [], by simp [h2, List.replicate_succ], by simp⟩
          | cons top nr' =>
            rw [hst, List.cons_append]
            simp only
            rw [if_neg (hnr top (List.mem_cons_self _ _)).2.2.2]
            exact ⟨k, nr', rfl, fun s h => hnr s (List.mem_cons_of_mem _ h)⟩
        · rw [if_neg h2]
          refine ⟨k, seg :: nr, by rw [hst]; rfl, ?_⟩
          intro s h
          rcases List.mem_cons.1 h with h | h
          · rw [h]
            exact ⟨fun h0 => h1 (Or.inl h0), hseg, fun h0 => h1 (Or.inr h0), h2⟩
          · exact hnr s h
  obtain ⟨k, nr, h, hnr⟩ := key (splitSep q) (splitSep_no_sep q) [] ⟨0, [], by simp, by simp⟩
  refine ⟨k, nr.reverse, ?_, fun s hs => hnr s (List.mem_reverse.1 hs)⟩
  unfold cleanSegs
  rw [h, List.reverse_append, List.reverse_replicate]

/-- The lexical resolution of a relative path: the elements `filepath.Clean`
keeps of it, processed from the working directory. -/
theorem absElems_rel (wd x : GoString) (hx : IsAbs x = false) :
    absElems wd x
      = ((cleanSegs false x).foldl (cleanStep true) (cleanSegs true wd).reverse).reverse := by
  have e1 : absElems wd x = cleanSegs true (wd ++ Separator :: x) := by
    unfold absElems absSegs absPath
    rw [hx]
    rfl
  rw [e1]
  unfold cleanSegs
  rw [splitSep_append, List.foldl_append, List.reverse_reverse,
    foldl_clean_relative (splitSep x) (splitSep_no_sep x)]

theorem absElems_abs (wd x : GoString) (hx : IsAbs x = true) :
    absElems wd x = cleanSegs true x := by
  unfold absElems absSegs absPath
  rw [hx]
  rfl

/-- What a cleaned path names, lexically and by lookup: from a prefix `B` of
the directory in which the lookup starts (the root, or the working directory
with as many elements taken off its end as the path has leading `..`) it goes
down through the names `names`. -/
theorem clean_lookup_shape (fs : FileSys) (x : GoString) :
    ∃ (B : Path) (names : List GoString),
      B <+: startDir fs (Clean x) ∧ (∀ s ∈ names, ProperSeg s) ∧
      absElems fs.wd (Clean x) = B ++ names ∧
      visits (startDir fs (Clean x)) (splitSep (Clean x)) = visits B names ∧
      ∀ fs1 : FileSys,
        lookup fs1 (startDir fs (Clean x)) (splitSep (Clean x)) = lookup fs1 B names := by
  have habs : absElems fs.wd (Clean x) = absElems fs.wd x := by
    unfold absElems
    rw [absSegs_clean]
  have hst : startDir fs (Clean x) = startDir fs x := by
    unfold startDir
    rw [isAbs_clean]
  rw [habs, hst]
  cases hx : IsAbs x with
  | true =>
    have hs : startDir fs x = [] := by
      unfold startDir
      rw [hx]
      rfl
    rw [hs, absElems_abs _ _ hx, clean_rooted x hx]
    have hsplit : splitSep (Separator :: joinSep (cleanSegs true x))
        = [] :: splitSep (joinSep (cleanSegs true x)) := by
      show (if Separator = Separator then [] :: splitSep (joinSep (cleanSegs true x))
        else _) = _
      rw [if_pos rfl]
    have hv0 : ∀ es, visits [] ([] :: es) = visits [] es := by
      intro es
      show (if ([] : GoString) = [] ∨ ([] : GoString) = ['.'] then visits [] es else _) = _
      rw [if_pos (Or.inl rfl)]
    have hl0 : ∀ (fs1 : FileSys) es, lookup fs1 [] ([] :: es) = lookup fs1 [] es := by
      intro fs1 es
      show (if ([] : GoString) = [] ∨ ([] : GoString) = ['.'] then lookup fs1 [] es
        else _) = _
      rw [if_pos (Or.inl rfl)]
    refine ⟨[], cleanSegs true x, List.prefix_refl _, cleanSegs_proper x, by simp, ?_, ?_⟩
    · rw [hsplit, hv0]
      by_cases hne : cleanSegs true x = []
      · rw [hne]
        show visits [] (splitSep []) = _
        rw [show splitSep [] = [[]] from rfl, hv0]
      · rw [splitSep_joinSep _ hne (fun s h => (cleanSegs_proper x s h).2.1)]
    · intro fs1
      rw [hsplit, hl0]
      by_cases hne : cleanSegs true x = []
      · rw [hne]
        show lookup fs1 [] (splitSep []) = _
        rw [show splitSep [] = [[]] from rfl, hl0]
      · rw [splitSep_joinSep _ hne (fun s h => (cleanSegs_proper x s h).2.1)]
  | false =>
    obtain ⟨k, names, hshape, hnames⟩ := cleanSegs_shape x
    have hs : startDir fs x = cleanSegs true fs.wd := by
      unfold startDir
      rw [hx]
      rfl
    have hW := cleanSegs_proper fs.wd
    have hab : absElems fs.wd x
        = (cleanSegs true fs.wd).take ((cleanSegs true fs.wd).length - k) ++ names := by
      rw [absElems_rel _ _ hx, hshape, List.foldl_append,
        fold_ups k _ (fun s h => hW s (List.mem_reverse.1 h)),
        foldl_cleanStep_push true names hnames, List.reverse_append, List.reverse_reverse,
        List.drop_reverse, List.reverse_reverse]
    rw [hs, hab]
    refine ⟨_, names, List.take_prefix _ _, hnames, rfl, ?_, ?_⟩
    · rcases clean_relative x hx with ⟨h0, hc⟩ | ⟨hne, hc⟩
      · rw [hc]
        rw [h0] at hshape
        have hk : k = 0 := by
          cases k with
          | zero => rfl
          | succ k => rw [List.replicate_succ] at hshape; cases hshape
        have hn : names = [] := by
          rw [hk] at hshape
          simpa using hshape.symm
        rw [hk, hn]
        simp [splitSep, visits, Separator]
      · rw [hc, splitSep_joinSep _ hne (fun s h => keptSeg_no_sep s (cleanSegs_kept x s h)),
          hshape, visits_ups]
    · intro fs1
      rcases clean_relative x hx with ⟨h0, hc⟩ | ⟨hne, hc⟩
      · rw [hc]
        rw [h0] at hshape
        have hk : k = 0 := by
          cases k with
          | zero => rfl
          | succ k => rw [List.replicate_succ] at hshape; cases hshape
        have hn : names = [] := by
          rw [hk] at hshape
          simpa using hshape.symm
        rw [hk, hn]
        simp [splitSep, lookup, Separator]
      · rw [hc, splitSep_joinSep _ hne (fun s h => keptSeg_no_sep s (cleanSegs_kept x s h)),
          hshape, lookup_ups]

theorem mkdirList_skip (fs : FileSys) : ∀ (L1 L2 : List Path),
    (∀ P ∈ L1, fs.node P = some .dir) → mkdirList fs (L1 ++ L2) = mkdirList fs L2 := by
  intro L1
  induction L1 with
  | nil => intro L2 _; rfl
  | cons P rest ih =>
    intro L2 h
    show (match fs.node P with
      | some (Node.file _) => (some (OSError.notDir P), fs)
      | some Node.dir => mkdirList fs (rest ++ L2)
      | none => mkdirList (fs.set P Node.dir) (rest ++ L2)) = _
    rw [h P (List.mem_cons_self _ _)]
    exact ih L2 (fun Q hQ => h Q (List.mem_cons_of_mem _ hQ))

theorem prefixesOf_prefix (B W : Path) (h : B <+: W) : ∀ P ∈ prefixesOf B, P ∈ prefixesOf W := by
  intro P hP
  unfold prefixesOf at hP ⊢
  rw [List.mem_map] at hP ⊢
  obtain ⟨k, hk, e⟩ := hP
  rw [List.mem_range] at hk
  obtain ⟨t, ht⟩ := h
  refine ⟨k, ?_, ?_⟩
  · rw [List.mem_range, ← ht, List.length_append]
    omega
  · rw [← e, ← ht, List.take_append_of_le_length (by omega)]

/-- On a cleaned path, in a process whose working directory exists,
`os.MkdirAll` makes the missing ones among the ancestors of the location the
path resolves to and that location itself. -/
theorem mkdirAll_clean (fs : FileSys) (x : GoString) (hwd : fs.WorkingDirExists) :
    MkdirAll fs (Clean x) = mkdirList fs (prefixesOf (absElems fs.wd (Clean x))) := by
  obtain ⟨B, names, hB, hn, hab, hv, -⟩ := clean_lookup_shape fs x
  unfold MkdirAll
  rw [if_neg (clean_ne_nil x), hv, hab, visits_names names B hn, mkdirList_skip]
  intro P hP
  have hP2 := prefixesOf_prefix B _ hB P hP
  unfold startDir at hP2
  by_cases hi : IsAbs (Clean x) = true
  · rw [if_pos hi] at hP2
    simp [prefixesOf] at hP2
  · rw [if_neg hi] at hP2
    exact hwd P hP2

/-- On a cleaned path whose last element is a name and whose ancestors all are
directories, `os.Create` makes the file at the location the path resolves to,
unless a directory is there. -/
theorem create_clean (fs : FileSys) (x : GoString)
    (hp : properName (lastElem (Clean x)) = true)
    (hd : ∀ P ∈ prefixesOf (absElems fs.wd (Clean x)).dropLast, fs.node P = some .dir) :
    Create fs (Clean x)
      = match fs.node (absElems fs.wd (Clean x)) with
        | some .dir => .error (.isDir (absElems fs.wd (Clean x)))
        | _ => .ok (absElems fs.wd (Clean x),
                 fs.set (absElems fs.wd (Clean x)) (.file [])) := by
  obtain ⟨B, names, hB, hn, hab, hv, hl⟩ := clean_lookup_shape fs x
  have hT := absElems_dir fs.wd (Clean x) hp
  have hTne : absElems fs.wd (Clean x) ≠ [] := by
    rw [hT]
    exact List.append_ne_nil_of_right_ne_nil _ (List.cons_ne_nil _ _)
  have hpre : prefixesOf (absElems fs.wd (Clean x))
      = prefixesOf (absElems fs.wd (Clean x)).dropLast ++ [absElems fs.wd (Clean x)] := by
    conv_lhs => rw [← List.dropLast_append_getLast hTne]
    rw [prefixesOf_concat, List.dropLast_append_getLast hTne]
  have hvis : ∀ P ∈ (visits B names).dropLast, fs.node P = some .dir := by
    intro P hP
    apply hd
    have e := visits_names names B hn
    rw [← hab, hpre] at e
    by_cases hvn : visits B names = []
    · rw [hvn] at hP
      simp at hP
    · rw [← List.dropLast_append_getLast hvn, ← List.append_assoc] at e
      have e2 := List.append_inj_left' e rfl
      rw [e2]
      exact List.mem_append_right _ hP
  have hlook : lookup fs (startDir fs (Clean x)) (splitSep (Clean x))
      = .ok (absElems fs.wd (Clean x)) := by
    rw [hl fs, lookup_names fs names B hn hvis, hab]
  have hdir : fs.isDirAt (absElems fs.wd (Clean x)).dropLast = true := by
    unfold FileSys.isDirAt
    by_cases h0 : (absElems fs.wd (Clean x)).dropLast = []
    · simp [h0]
    · have := hd _ (mem_prefixesOf_self _ h0)
      simp [this]
  unfold Create
  rw [if_neg (clean_ne_nil x), hlook]
  simp only
  rw [if_neg (by rw [hp]; decide), if_neg (by rw [hdir]; decide)]

theorem extractFile_mkdir_fails (fs : FileSys) (f : ZipEntry) (t : GoString) (e : OSError)
    (hf : f.IsDir = false) (hm : (MkdirAll fs (Dir t)).1 = some e) :
    ExtractFile fs f t = (some (.mkdirParents e), (MkdirAll fs (Dir t)).2) := by
  unfold ExtractFile
  rw [if_neg (by rw [hf]; decide)]
  rcases hx : MkdirAll fs (Dir t) with ⟨err, fs1⟩
  rw [hx] at hm
  simp only at hm
  subst hm
  rfl

theorem extractFile_open_fails (fs : FileSys) (f : ZipEntry) (t : GoString) (e : GoString)
    (hf : f.IsDir = false) (hm : (MkdirAll fs (Dir t)).1 = none) (hd : f.data = .openFails e) :
    ExtractFile fs f t = (some (.openZipEntry e), (MkdirAll fs (Dir t)).2) := by
  unfold ExtractFile
  rw [if_neg (by rw [hf]; decide)]
  rcases hx : MkdirAll fs (Dir t) with ⟨err, fs1⟩
  rw [hx] at hm
  simp only at hm
  subst hm
  simp only [hd]

theorem extractFile_create_fails (fs : FileSys) (f : ZipEntry) (t : GoString)
    (bytes : List Byte) (readErr : Option GoString) (e : OSError)
    (hf : f.IsDir = false) (hm : (MkdirAll fs (Dir t)).1 = none)
    (hd : f.data = .stream bytes readErr)
    (hc : Create (MkdirAll fs (Dir t)).2 t = .error e) :
    ExtractFile fs f t = (some (.createFile e), (MkdirAll fs (Dir t)).2) := by
  unfold ExtractFile
  rw [if_neg (by rw [hf]; decide)]
  rcases hx : MkdirAll fs (Dir t) with ⟨err, fs1⟩
  rw [hx] at hm hc
  simp only at hm hc
  subst hm
  simp only [hd, hc]

theorem extractFile_copies (fs : FileSys) (f : ZipEntry) (t : GoString)
    (bytes : List Byte) (readErr : Option GoString) (T : Path) (fs2 : FileSys)
    (hf : f.IsDir = false) (hm : (MkdirAll fs (Dir t)).1 = none)
    (hd : f.data = .stream bytes readErr)
    (hc : Create (MkdirAll fs (Dir t)).2 t = .ok (T, fs2)) :
    ExtractFile fs f t = (readErr.map .writeFile, fs2.set T (.file bytes)) := by
  unfold ExtractFile
  rw [if_neg (by rw [hf]; decide)]
  rcases hx : MkdirAll fs (Dir t) with ⟨err, fs1⟩
  rw [hx] at hm hc
  simp only at hm hc
  subst hm
  simp only [hd, hc]
  cases readErr <;> rfl

/-- C23: per-entry extraction by `ExtractFile`, over a file system without
symbolic links, for a cleaned target path (as `filepath.Join` returns it) in a
process whose working directory exists. For a directory entry the result is
that of `os.MkdirAll(targetPath)`: no regular file is created or changed, and
on success `targetPath` and all its ancestors are directories. For a file
entry whose stream delivers `bytes` without a read error and a writable target
(its last element is a name, no ancestor is a regular file, it is not a
directory), `ExtractFile` returns `nil`, the target is a regular file with
content exactly `bytes` whatever was there before, all its ancestors are
directories, and no other location is changed. A failure of `MkdirAll`, of
`f.Open`, of `os.Create` or of the copy is returned as the corresponding
error; `nil` is returned only when every step succeeded. -/
theorem C23_extractFile (fs : FileSys) (f : ZipEntry) (targetPath : GoString)
    (hclean : Clean targetPath = targetPath) (hwd : fs.WorkingDirExists) :
    (f.IsDir = true →
      (ExtractFile fs f targetPath).1 = (MkdirAll fs targetPath).1.map .mkdirAll ∧
      (∀ Q c, (ExtractFile fs f targetPath).2.node Q = some (.file c) ↔
        fs.node Q = some (.file c)) ∧
      ((ExtractFile fs f targetPath).1 = none →
        ∀ P ∈ prefixesOf (absElems fs.wd targetPath),
          (ExtractFile fs f targetPath).2.node P = some .dir)) ∧
    (f.IsDir = false → ∀ bytes, f.data = .stream bytes none → Writable fs targetPath →
      (ExtractFile fs f targetPath).1 = none ∧
      (ExtractFile fs f targetPath).2.node (absElems fs.wd targetPath) = some (.file bytes) ∧
      (∀ P ∈ prefixesOf (absElems fs.wd targetPath).dropLast,
        (ExtractFile fs f targetPath).2.node P = some .dir) ∧
      (∀ Q, Q ≠ absElems fs.wd targetPath →
        Q ∉ prefixesOf (absElems fs.wd targetPath).dropLast →
        (ExtractFile fs f targetPath).2.node Q = fs.node Q)) ∧
    (f.IsDir = false →
      (∀ e, (MkdirAll fs (Dir targetPath)).1 = some e →
        (ExtractFile fs f targetPath).1 = some (.mkdirParents e)) ∧
      ((MkdirAll fs (Dir targetPath)).1 = none →
        (∀ e, f.data = .openFails e →
          (ExtractFile fs f targetPath).1 = some (.openZipEntry e)) ∧
        (∀ bytes readErr e, f.data = .stream bytes readErr →
          Create (MkdirAll fs (Dir targetPath)).2 targetPath = .error e →
          (ExtractFile fs f targetPath).1 = some (.createFile e)) ∧
        (∀ bytes e T fs2, f.data = .stream bytes (some e) →
          Create (MkdirAll fs (Dir targetPath)).2 targetPath = .ok (T, fs2) →
          (ExtractFile fs f targetPath).1 = some (.writeFile e))) ∧
      ((ExtractFile fs f targetPath).1 = none →
        (MkdirAll fs (Dir targetPath)).1 = none ∧
        (∃ T fs2, Create (MkdirAll fs (Dir targetPath)).2 targetPath = .ok (T, fs2)) ∧
        ∃ bytes, f.data = .stream bytes none)) := by
  refine ⟨?_, ?_, ?_⟩
  · intro hd
    have e : ExtractFile fs f targetPath
        = ((MkdirAll fs targetPath).1.map .mkdirAll, (MkdirAll fs targetPath).2) := by
      unfold ExtractFile
      rw [if_pos hd]
    have hm : MkdirAll fs targetPath
        = mkdirList fs (prefixesOf (absElems fs.wd targetPath)) := by
      have := mkdirAll_clean fs targetPath hwd
      rwa [hclean] at this
    rw [e, hm]
    obtain ⟨-, -, i3, -, i5, -⟩ := mkdirList_spec (prefixesOf (absElems fs.wd targetPath)) fs
    refine ⟨rfl, i3, ?_⟩
    intro h
    apply i5
    cases hx : (mkdirList fs (prefixesOf (absElems fs.wd targetPath))).1 with
    | none => rfl
    | some e1 => rw [hx] at h; cases h
  · intro hf bytes hdata hw
    obtain ⟨w1, w2, w3⟩ := hw
    have hT := absElems_dir fs.wd targetPath w1
    have hdrop : (absElems fs.wd targetPath).dropLast = absElems fs.wd (Dir targetPath) := by
      rw [hT, List.dropLast_concat]
    have hmk : MkdirAll fs (Dir targetPath)
        = mkdirList fs (prefixesOf (absElems fs.wd (Dir targetPath))) := by
      unfold Dir
      exact mkdirAll_clean fs (dirPart targetPath) hwd
    obtain ⟨i1, i2, -, -, i5, i6⟩ :=
      mkdirList_spec (prefixesOf (absElems fs.wd (Dir targetPath))) fs
    rw [← hmk] at i1 i2 i5 i6
    rw [hdrop] at w2 ⊢
    have hm : (MkdirAll fs (Dir targetPath)).1 = none := i6.2 w2
    have hdirs := i5 hm
    have hnot : absElems fs.wd targetPath ∉ prefixesOf (absElems fs.wd (Dir targetPath)) := by
      intro hmem
      rw [← hdrop] at hmem
      exact (prefixesOf_dropLast _ _ hmem).2 rfl
    have hnodeT : (MkdirAll fs (Dir targetPath)).2.node (absElems fs.wd targetPath)
        = fs.node (absElems fs.wd targetPath) := i2 _ hnot
    have hcreate : Create (MkdirAll fs (Dir targetPath)).2 targetPath
        = .ok (absElems fs.wd targetPath,
            (MkdirAll fs (Dir targetPath)).2.set (absElems fs.wd targetPath) (.file [])) := by
      have hc := create_clean (MkdirAll fs (Dir targetPath)).2 targetPath
        (by rw [hclean]; exact w1)
        (by rw [hclean, i1, hdrop]; exact hdirs)
      rw [hclean, i1, hnodeT] at hc
      rw [hc]
      cases hn : fs.node (absElems fs.wd targetPath) with
      | none => rfl
      | some n =>
        cases n with
        | dir => exact absurd hn w3
        | file c => rfl
    rw [extractFile_copies fs f targetPath bytes none _ _ hf hm hdata hcreate]
    simp only [Option.map_none', true_and]
    refine ⟨?_, ?_, ?_⟩
    · show (if absElems fs.wd targetPath = absElems fs.wd targetPath
        then some (Node.file bytes) else _) = some (Node.file bytes)
      rw [if_pos rfl]
    · intro P hP
      have hPT : P ≠ absElems fs.wd targetPath := by
        intro h
        rw [h] at hP
        exact hnot hP
      show (if P = absElems fs.wd targetPath then some (Node.file bytes)
        else (if P = absElems fs.wd targetPath then some (Node.file [])
          else (MkdirAll fs (Dir targetPath)).2.node P)) = some Node.dir
      rw [if_neg hPT, if_neg hPT]
      exact hdirs P hP
    · intro Q hQT hQ
      show (if Q = absElems fs.wd targetPath then some (Node.file bytes)
        else (if Q = absElems fs.wd targetPath then some (Node.file [])
          else (MkdirAll fs (Dir targetPath)).2.node Q)) = fs.node Q
      rw [if_neg hQT, if_neg hQT]
      exact i2 Q hQ
  · intro hf
    refine ⟨?_, ?_, ?_⟩
    · intro e hm
      rw [extractFile_mkdir_fails fs f targetPath e hf hm]
    · intro hm
      refine ⟨?_, ?_, ?_⟩
      · intro e hd
        rw [extractFile_open_fails fs f targetPath e hf hm hd]
      · intro bytes readErr e hd hc
        rw [extractFile_create_fails fs f targetPath bytes readErr e hf hm hd hc]
      · intro bytes e T fs2 hd hc
        rw [extractFile_copies fs f targetPath bytes (some e) T fs2 hf hm hd hc]
        rfl
    · intro hnone
      cases hm : (MkdirAll fs (Dir targetPath)).1 with
      | some e =>
        rw [extractFile_mkdir_fails fs f targetPath e hf hm] at hnone
        cases hnone
      | none =>
        cases hd : f.data with
        | openFails e =>
          rw [extractFile_open_fails fs f targetPath e hf hm hd] at hnone
          cases hnone
        | stream bytes readErr =>
          cases hc : Create (MkdirAll fs (Dir targetPath)).2 targetPath with
          | error e =>
            rw [extractFile_create_fails fs f targetPath bytes readErr e hf hm hd hc] at hnone
            cases hnone
          | ok r =>
            obtain ⟨T, fs2⟩ := r
            rw [extractFile_copies fs f targetPath bytes readErr T fs2 hf hm hd hc] at hnone
            cases readErr with
            | some e => cases hnone
            | none => exact ⟨rfl, ⟨T, fs2, rfl⟩, bytes, rfl⟩

theorem emptyFS_writable (t : GoString) (h : properName (lastElem t) = true) :
    Writable emptyFS t := by
  refine ⟨h, ?_, ?_⟩
  · intro P _ c hc
    cases hc
  · intro hc
    cases hc

theorem emptyFS_workingDir : emptyFS.WorkingDirExists := by
  intro P hP
  have e : prefixesOf (cleanSegs true emptyFS.wd) = [] := by decide
  rw [e] at hP
  cases hP

/-- C23, witness: the scenario of `TestExtractFile`, the entry `test.txt` with
the content "Hello, Streamline!" extracted to `/tmp/t/test.txt` on an empty
file system, and the same extraction when the target already holds other
bytes, and when `/tmp` is a regular file. A target that is not cleaned is not
covered: `nonexistent/../file.txt` fails in `os.Create`, which looks
`nonexistent` up, although `filepath.Dir` of it is `.`. -/
theorem C23_extractFile_witness :
    ((ExtractFile emptyFS ⟨"test.txt".toList, false, .stream (toBytes "Hello, Streamline!".toList) none⟩
        "/tmp/t/test.txt".toList).1 = none ∧
      (ExtractFile emptyFS ⟨"test.txt".toList, false, .stream (toBytes "Hello, Streamline!".toList) none⟩
        "/tmp/t/test.txt".toList).2.node (absElems emptyFS.wd "/tmp/t/test.txt".toList)
        = some (.file (toBytes "Hello, Streamline!".toList))) ∧
    absElems emptyFS.wd "/tmp/t/test.txt".toList = ["tmp".toList, "t".toList, "test.txt".toList] ∧
    (ExtractFile (emptyFS.set ["tmp".toList, "t".toList, "test.txt".toList] (.file [1, 2, 3]))
        ⟨"test.txt".toList, false, .stream (toBytes "Hello, Streamline!".toList) none⟩
        "/tmp/t/test.txt".toList).2.node ["tmp".toList, "t".toList, "test.txt".toList]
      = some (.file (toBytes "Hello, Streamline!".toList)) ∧
    (ExtractFile (emptyFS.set ["tmp".toList] (.file [1, 2, 3]))
        ⟨"test.txt".toList, false, .stream (toBytes "Hello, Streamline!".toList) none⟩
        "/tmp/t/test.txt".toList).1 = some (.mkdirParents (.notDir ["tmp".toList])) ∧
    Clean "nonexistent/../file.txt".toList ≠ "nonexistent/../file.txt".toList ∧
    (ExtractFile emptyFS ⟨"file.txt".toList, false, .stream [1] none⟩
        "nonexistent/../file.txt".toList).1
      = some (.createFile (.notExist ["nonexistent".toList])) :=
  ⟨⟨((C23_extractFile emptyFS
        ⟨"test.txt".toList, false, .stream (toBytes "Hello, Streamline!".toList) none⟩
        "/tmp/t/test.txt".toList (by decide) emptyFS_workingDir).2.1 rfl
        (toBytes "Hello, Streamline!".toList) rfl (emptyFS_writable _ (by decide))).1,
     ((C23_extractFile emptyFS
        ⟨"test.txt".toList, false, .stream (toBytes "Hello, Streamline!".toList) none⟩
        "/tmp/t/test.txt".toList (by decide) emptyFS_workingDir).2.1 rfl
        (toBytes "Hello, Streamline!".toList) rfl (emptyFS_writable _ (by decide))).2.1⟩,
   by decide, by decide, by decide, by decide, by decide⟩
/-! ## Theorems: overlapping calls of `ReadAt` -/

theorem callRun_add {β : Type} (fetch : Fetch β) (size c : Int) (a b : Nat) :
    ∀ s : Shared β × Call,
      callRun fetch size c (a + b) s = callRun fetch size c b (callRun fetch size c a s) := by
  induction a with
  | zero => intro s; simp [callRun]
  | succ a ih =>
    intro s
    rw [Nat.succ_add]
    simp only [callRun]
    exact ih _

/-- A call of `ReadAt` that has returned takes no further step. -/
theorem callRun_returned {β : Type} (fetch : Fetch β) (size c : Int) (k : Nat)
    (sh : Shared β) (n remaining pos : Int) (p : List Byte) (err : Option ReadErr)
    (pan : Option Panic) :
    callRun fetch size c k (sh, ⟨n, remaining, pos, p, .returned err pan⟩)
      = (sh, ⟨n, remaining, pos, p, .returned err pan⟩) := by
  induction k with
  | zero => rfl
  | succ k ih => simp only [callRun, callStep]; exact ih

/-- One pass through the loop body of `ReadAt`, taken step by step with no
other call in between, is the pass of the sequential embedding. -/
theorem callRun_body {β : Type} (fetch : Fetch β) (size c : Int) (st : LoopState β)
    (hcond : st.remaining > 0 ∧ st.pos < size) :
    (∀ r, loopBody fetch size c st = .inl r →
      ∃ k, callRun fetch size c k
          (⟨st.cache, st.svc, st.fetches⟩, ⟨st.n, st.remaining, st.pos, st.p, .lookup⟩)
        = (⟨r.cache, r.svc, r.fetches⟩,
           ⟨r.n, st.remaining, st.pos, r.p, .returned r.err r.panicked⟩)) ∧
    (∀ st1, loopBody fetch size c st = .inr st1 →
      ∃ k, callRun fetch size c k
          (⟨st.cache, st.svc, st.fetches⟩, ⟨st.n, st.remaining, st.pos, st.p, .lookup⟩)
        = (⟨st1.cache, st1.svc, st1.fetches⟩,
           ⟨st1.n, st1.remaining, st1.pos, st1.p, .lookup⟩)) := by
  have hcopy : ∀ (st0 : LoopState β) (cs : Int) (buf : List Byte),
      (∀ r, copyStep st0 cs buf = .inl r →
        callStep fetch size c ⟨st0.cache, st0.svc, st0.fetches⟩
            ⟨st0.n, st0.remaining, st0.pos, st0.p, .copying cs buf⟩
          = (⟨r.cache, r.svc, r.fetches⟩,
             ⟨r.n, st0.remaining, st0.pos, r.p, .returned r.err r.panicked⟩)) ∧
      (∀ st1, copyStep st0 cs buf = .inr st1 →
        callStep fetch size c ⟨st0.cache, st0.svc, st0.fetches⟩
            ⟨st0.n, st0.remaining, st0.pos, st0.p, .copying cs buf⟩
          = (⟨st1.cache, st1.svc, st1.fetches⟩,
             ⟨st1.n, st1.remaining, st1.pos, st1.p, .lookup⟩)) := by
    intro st0 cs buf
    have e : (Call.loopState ⟨st0.n, st0.remaining, st0.pos, st0.p, .copying cs buf⟩
        (⟨st0.cache, st0.svc, st0.fetches⟩ : Shared β)) = st0 := rfl
    constructor
    · intro r h
      obtain ⟨h1, h2, h3, h4, h5, -⟩ := copyStep_inl _ _ _ _ h
      simp only [callStep, e, h]
      rw [h1, h2, h3, h4, h5]
    · intro st1 h
      obtain ⟨h1, h2, h3, -⟩ := copyStep_inr _ _ _ _ h
      simp only [callStep, e, h]
      rw [h1, h2, h3]
  by_cases hc : c = 0
  · subst hc
    rw [loopBody_zero]
    refine ⟨fun r h => ?_, fun st1 h => (by cases h)⟩
    cases h
    refine ⟨1, ?_⟩
    simp only [callRun, callStep, if_pos hcond, if_true, LoopState.panic]
  · rcases loopBody_cases fetch size c st hc with ⟨buf, hk, hb⟩ | ⟨hk, -⟩
    · have hstep : callStep fetch size c ⟨st.cache, st.svc, st.fetches⟩
          ⟨st.n, st.remaining, st.pos, st.p, .lookup⟩
          = (⟨st.cache, st.svc, st.fetches⟩,
             ⟨st.n, st.remaining, st.pos, st.p,
               .copying (wrapInt64 (chunkIdxOf c st.pos * c)) buf⟩) := by
        unfold chunkIdxOf at hk ⊢
        simp only [callStep, if_pos hcond, if_neg hc, hk]
      rw [hb]
      obtain ⟨c1, c2⟩ := hcopy st (wrapInt64 (chunkIdxOf c st.pos * c)) buf
      constructor
      · intro r h
        exact ⟨2, by simp only [callRun]; rw [hstep]; exact c1 r h⟩
      · intro st1 h
        exact ⟨2, by simp only [callRun]; rw [hstep]; exact c2 st1 h⟩
    · obtain ⟨m1, m2, m3⟩ := loopBody_miss fetch size c st hc hk
      have hstep : callStep fetch size c ⟨st.cache, st.svc, st.fetches⟩
          ⟨st.n, st.remaining, st.pos, st.p, .lookup⟩
          = (⟨st.cache, st.svc, st.fetches⟩,
             ⟨st.n, st.remaining, st.pos, st.p,
               .fetching (reqFor size c st.pos).chunkIdx (reqFor size c st.pos).first
                 (reqFor size c st.pos).last⟩) := by
        unfold chunkIdxOf at hk
        unfold reqFor
        simp only [callStep, if_pos hcond, if_neg hc, hk]
      have hq : (RangeReq.mk (reqFor size c st.pos).chunkIdx (reqFor size c st.pos).first
          (reqFor size c st.pos).last) = reqFor size c st.pos := rfl
      have hki : (reqFor size c st.pos).chunkIdx = chunkIdxOf c st.pos := rfl
      rcases hx : fetch st.svc (reqFor size c st.pos).first (reqFor size c st.pos).last
        with ⟨res, svc1⟩
      rw [hx] at m1 m2 m3
      cases res with
      | downloadFailed =>
        rw [m1 rfl]
        refine ⟨fun r h => ?_, fun st1 h => (by cases h)⟩
        cases h
        refine ⟨2, ?_⟩
        simp only [callRun]
        rw [hstep]
        simp only [callStep, hx, hq]
      | readFailed =>
        rw [m2 rfl]
        refine ⟨fun r h => ?_, fun st1 h => (by cases h)⟩
        cases h
        refine ⟨2, ?_⟩
        simp only [callRun]
        rw [hstep]
        simp only [callStep, hx, hq]
      | ok data =>
        rw [m3 data rfl]
        have h3 : callRun fetch size c 3
            (⟨st.cache, st.svc, st.fetches⟩, ⟨st.n, st.remaining, st.pos, st.p, .lookup⟩)
            = (⟨cacheSet st.cache (chunkIdxOf c st.pos) data, svc1,
                st.fetches ++ [reqFor size c st.pos]⟩,
               ⟨st.n, st.remaining, st.pos, st.p,
                 .copying (reqFor size c st.pos).first data⟩) := by
          simp only [callRun]
          rw [hstep]
          simp only [callStep, hx]
          rfl
        obtain ⟨c1, c2⟩ := hcopy
          { st with svc := svc1, fetches := st.fetches ++ [reqFor size c st.pos],
                    cache := cacheSet st.cache (chunkIdxOf c st.pos) data }
          (reqFor size c st.pos).first data
        constructor
        · intro r h
          refine ⟨3 + 1, ?_⟩
          rw [callRun_add, h3]
          simp only [callRun]
          exact c1 r h
        · intro st1 h
          refine ⟨3 + 1, ?_⟩
          rw [callRun_add, h3]
          simp only [callRun]
          exact c2 st1 h

/-- A run of the loop of `ReadAt`, taken step by step with no other call in
between, ends with the call returned and with the result of the sequential
embedding. -/
theorem callRun_readLoop {β : Type} (fetch : Fetch β) (size c : Int) :
    ∀ (fuel : Nat) (st : LoopState β) (r : ReadResult β),
      readLoop fetch size c fuel st = some r →
      ∃ k rem pos, callRun fetch size c k
          (⟨st.cache, st.svc, st.fetches⟩, ⟨st.n, st.remaining, st.pos, st.p, .lookup⟩)
        = (⟨r.cache, r.svc, r.fetches⟩, ⟨r.n, rem, pos, r.p, .returned r.err r.panicked⟩) := by
  intro fuel
  induction fuel with
  | zero =>
    intro st r h
    unfold readLoop at h
    split_ifs at h with hcond hlt
    · cases h
      exact ⟨1, st.remaining, st.pos, by
        simp only [callRun, callStep, if_neg hcond, if_pos hlt, LoopState.ret]⟩
    · cases h
      exact ⟨1, st.remaining, st.pos, by
        simp only [callRun, callStep, if_neg hcond, if_neg hlt, LoopState.ret]⟩
  | succ fuel ih =>
    intro st r h
    unfold readLoop at h
    split_ifs at h with hcond hlt
    · simp only at h
      obtain ⟨b1, b2⟩ := callRun_body fetch size c st hcond
      cases hb : loopBody fetch size c st with
      | inl r1 =>
        rw [hb] at h
        cases h
        obtain ⟨k, hk⟩ := b1 r hb
        exact ⟨k, _, _, hk⟩
      | inr st1 =>
        rw [hb] at h
        obtain ⟨k1, hk1⟩ := b2 st1 hb
        obtain ⟨k2, rem, pos, hk2⟩ := ih st1 r h
        exact ⟨k1 + k2, rem, pos, by rw [callRun_add, hk1, hk2]⟩
    · cases h
      exact ⟨1, st.remaining, st.pos, by
        simp only [callRun, callStep, if_neg hcond, if_pos hlt, LoopState.ret]⟩
    · cases h
      exact ⟨1, st.remaining, st.pos, by
        simp only [callRun, callStep, if_neg hcond, if_neg hlt, LoopState.ret]⟩

/-- A call of `ReadAt` whose steps are taken with no other call in between ends
returned, with the result of the sequential embedding `ReadAt`. -/
theorem callRun_readAt {β : Type} (fetch : Fetch β) (d : DriveReaderAt) (svc : β)
    (p : List Byte) (off : Int) (r : ReadResult β) (h : ReadAt fetch d svc p off = some r) :
    ∃ k rem pos, callRun fetch d.size d.chunkSize k (⟨d.cache, svc, []⟩, startCall d p off)
      = (⟨r.cache, r.svc, r.fetches⟩, ⟨r.n, rem, pos, r.p, .returned r.err r.panicked⟩) := by
  rcases readAt_cases fetch d svc p off with ⟨h0, e⟩ | ⟨h0, h1, e⟩ | ⟨h0, h1, e⟩
  · rw [e] at h
    cases h
    exact ⟨0, p.length, off, by simp only [callRun, startCall, if_pos h0, LoopState.ret, initState]⟩
  · rw [e] at h
    cases h
    have h0' : ¬ off < 0 := by omega
    have h1' : off ≥ d.size := h1
    exact ⟨0, p.length, off, by
      simp only [callRun, startCall, if_neg h0', if_pos h1', LoopState.ret, initState]⟩
  · rw [e] at h
    have h0' : ¬ off < 0 := by omega
    have h1' : ¬ off ≥ d.size := by omega
    obtain ⟨k, rem, pos, hk⟩ := callRun_readLoop fetch d.size d.chunkSize p.length _ r h
    refine ⟨k, rem, pos, ?_⟩
    have es : startCall d p off = ⟨0, p.length, off, p, .lookup⟩ := by
      simp only [startCall, if_neg h0', if_neg h1']
    rw [es]
    exact hk

/-- A schedule that names one call only is a run of that call with no other
call in between. -/
theorem runSchedule_single {β : Type} (fetch : Fetch β) (size c : Int) (other : Call) :
    ∀ (k : Nat) (sh : Shared β) (call : Call),
      runSchedule fetch size c (List.replicate k 0) (sh, [call, other])
        = ((callRun fetch size c k (sh, call)).1,
           [(callRun fetch size c k (sh, call)).2, other]) := by
  intro k
  induction k with
  | zero => intro sh call; rfl
  | succ k ih =>
    intro sh call
    rw [List.replicate_succ]
    show runSchedule fetch size c (List.replicate k 0)
      (sysStep fetch size c (sh, [call, other]) 0) = _
    have e : sysStep fetch size c (sh, [call, other]) 0
        = ((callStep fetch size c sh call).1, [(callStep fetch size c sh call).2, other]) := rfl
    rw [e, ih]
    rfl

/-- Two calls that have both found chunk `k` missing both fetch it, and the
store of the later one replaces the entry of the earlier one. -/
theorem overlapping_fetches {β : Type} (fetch : Fetch β) (size c : Int) (sh : Shared β)
    (n1 r1 p1 : Int) (b1 : List Byte) (n2 r2 p2 : Int) (b2 : List Byte) (k cs ce : Int)
    (data1 data2 : List Byte) (s1 s2 : β)
    (h1 : fetch sh.svc cs ce = (.ok data1, s1)) (h2 : fetch s1 cs ce = (.ok data2, s2)) :
    (runSchedule fetch size c [0, 0]
        (sh, [⟨n1, r1, p1, b1, .fetching k cs ce⟩, ⟨n2, r2, p2, b2, .fetching k cs ce⟩])
      ).1.cache k = some data1 ∧
    (runSchedule fetch size c [0, 0, 1, 1]
        (sh, [⟨n1, r1, p1, b1, .fetching k cs ce⟩, ⟨n2, r2, p2, b2, .fetching k cs ce⟩])
      ).1.cache k = some data2 ∧
    (runSchedule fetch size c [0, 0, 1, 1]
        (sh, [⟨n1, r1, p1, b1, .fetching k cs ce⟩, ⟨n2, r2, p2, b2, .fetching k cs ce⟩])
      ).1.fetches = sh.fetches ++ [⟨k, cs, ce⟩, ⟨k, cs, ce⟩] := by
  simp [runSchedule, sysStep, callStep, h1, h2, cacheSet]

/-- C5, counterexample to the claim as stated (calls that overlap in time): two
calls `ReadAt(p, 0)` with two-byte buffers on a fresh reader of an 8-byte
object with chunk size 4. Both look chunk 0 up before either has stored it.
The first call then fetches the chunk, stores it (the cache entry is
`[0, 0, 0, 0]`) and returns; after that the second call fetches chunk 0 again
and its store replaces the entry, by `[1, 1, 1, 1]`. Both calls return `n = 2`
and no error. When the two calls do not overlap, chunk 0 is requested once. -/
theorem C5_counterexample :
    ((runSchedule numbered 8 4 [0, 1, 0, 0, 0, 0] twoCalls).1.fetches = [⟨0, 0, 3⟩] ∧
      (runSchedule numbered 8 4 [0, 1, 0, 0, 0, 0] twoCalls).1.cache 0 = some [0, 0, 0, 0] ∧
      (runSchedule numbered 8 4 [0, 1, 0, 0, 0, 0] twoCalls).2
        = [⟨2, 0, 2, [0, 0], .returned none none⟩, ⟨0, 2, 0, [0, 0], .fetching 0 0 3⟩]) ∧
    ((runSchedule numbered 8 4 [0, 1, 0, 0, 0, 0, 1, 1, 1, 1] twoCalls).1.fetches
        = [⟨0, 0, 3⟩, ⟨0, 0, 3⟩] ∧
      (runSchedule numbered 8 4 [0, 1, 0, 0, 0, 0, 1, 1, 1, 1] twoCalls).1.cache 0
        = some [1, 1, 1, 1] ∧
      (runSchedule numbered 8 4 [0, 1, 0, 0, 0, 0, 1, 1, 1, 1] twoCalls).2
        = [⟨2, 0, 2, [0, 0], .returned none none⟩, ⟨2, 0, 2, [1, 1], .returned none none⟩]) ∧
    ((runSchedule numbered 8 4 [0, 0, 0, 0, 0, 1, 1, 1, 1, 1] twoCalls).1.fetches
        = [⟨0, 0, 3⟩] ∧
      (runSchedule numbered 8 4 [0, 0, 0, 0, 0, 1, 1, 1, 1, 1] twoCalls).2
        = [⟨2, 0, 2, [0, 0], .returned none none⟩,
           ⟨2, 0, 2, [0, 0], .returned none none⟩]) := by
  refine ⟨⟨by decide!, by decide!, by decide!⟩, ⟨by decide!, by decide!, by decide!⟩,
    ⟨by decide!, by decide!⟩⟩

/-- C5 (as amended): cache idempotence of `ReadAt` for calls that do not
overlap in time (`int`-sized slices). A call whose steps are taken with no
other call on the reader in between returns, with the result `r` of the
sequential embedding; it keeps every cache entry it found, unchanged; it
requests only chunks that were not cached when it was called, and none twice;
if no fetch failed, every chunk it requested is cached afterwards, and any
later call with the same offset and buffer length on a cache that still holds
those entries issues no request at all, leaves the cache as it is and returns
the same `n`, the same error value and the same bytes `p[0:n]`. Calls that
overlap are not covered: two calls that have both found chunk `k` missing both
fetch it, and the store of the later one replaces the entry of the earlier
one. -/
theorem C5_readAt_cache_idempotence {β γ : Type} (f : Fetch β) (g : Fetch γ)
    (d : DriveReaderAt) (svc : β) (svc2 : γ) (p p2 : List Byte) (off : Int)
    (hoff : off ≤ maxInt64) (hp : (p.length : Int) ≤ maxInt64) (hp2 : p2.length = p.length)
    (hf : FetchBounded f) (hg : FetchBounded g) (hcb : CacheBounded d.cache) :
    (∃ r, ReadAt f d svc p off = some r ∧
      (∃ k rem pos, callRun f d.size d.chunkSize k (⟨d.cache, svc, []⟩, startCall d p off)
        = (⟨r.cache, r.svc, r.fetches⟩,
           ⟨r.n, rem, pos, r.p, .returned r.err r.panicked⟩)) ∧
      CacheExtends d.cache r.cache ∧
      (∀ q ∈ r.fetches, d.cache q.chunkIdx = none) ∧
      (r.fetches.map (fun q => q.chunkIdx)).Nodup ∧
      (isFetchFailure r.err = false →
        (∀ q ∈ r.fetches, (r.cache q.chunkIdx).isSome = true) ∧
        ∀ cache2, CacheExtends r.cache cache2 → CacheBounded cache2 →
          ∃ r2, ReadAt g { d with cache := cache2 } svc2 p2 off = some r2 ∧
            r2.fetches = [] ∧ r2.cache = cache2 ∧ r2.n = r.n ∧ r2.err = r.err ∧
            r2.p.take r.n.toNat = r.p.take r.n.toNat)) ∧
    (∀ (sh : Shared β) (n1 r1 p1 : Int) (b1 : List Byte) (n2 r2 p2 : Int) (b2 : List Byte)
        (k cs ce : Int) (data1 data2 : List Byte) (s1 s2 : β),
      f sh.svc cs ce = (.ok data1, s1) → f s1 cs ce = (.ok data2, s2) →
      (runSchedule f d.size d.chunkSize [0, 0]
          (sh, [⟨n1, r1, p1, b1, .fetching k cs ce⟩, ⟨n2, r2, p2, b2, .fetching k cs ce⟩])
        ).1.cache k = some data1 ∧
      (runSchedule f d.size d.chunkSize [0, 0, 1, 1]
          (sh, [⟨n1, r1, p1, b1, .fetching k cs ce⟩, ⟨n2, r2, p2, b2, .fetching k cs ce⟩])
        ).1.cache k = some data2 ∧
      (runSchedule f d.size d.chunkSize [0, 0, 1, 1]
          (sh, [⟨n1, r1, p1, b1, .fetching k cs ce⟩, ⟨n2, r2, p2, b2, .fetching k cs ce⟩])
        ).1.fetches = sh.fetches ++ [⟨k, cs, ce⟩, ⟨k, cs, ce⟩]) := by
  refine ⟨?_, fun sh n1 r1 p1 b1 n2 r2 p2 b2 k cs ce data1 data2 s1 s2 h1 h2 =>
    overlapping_fetches f d.size d.chunkSize sh n1 r1 p1 b1 n2 r2 p2 b2 k cs ce data1 data2
      s1 s2 h1 h2⟩
  obtain ⟨r, hr, -, -, -, -, htr⟩ := readAt_total f d svc p off hoff hp hf hcb
  obtain ⟨new, hnew, hnone, hnd, hok, -⟩ := htr.fetched
  have hnew' : r.fetches = new := by simpa [initState] using hnew
  refine ⟨r, hr, callRun_readAt f d svc p off r hr, htr.extends_cache, ?_, ?_, ?_⟩
  · rw [hnew']; exact hnone
  · rw [hnew']; exact hnd
  · intro hnf
    refine ⟨by rw [hnew']; exact hok hnf, ?_⟩
    intro cache2 hext hcb2
    obtain ⟨r2, e1, e2, e3, -, e5, e6, -, e8⟩ :=
      (readAt_replay f g d svc svc2 p p2 off r cache2 hoff hp hp2 hf hg hcb hcb2 hr hext).1 hnf
    exact ⟨r2, e1, e2, e3, e5, e6, e8⟩

/-- C5, witness: a fresh reader of an 8-byte object with chunk size 4, a
3-byte read at offset 2 served by `fourBytes`, then replayed against a backend
that would fail. -/
theorem C5_readAt_cache_idempotence_witness :
    ∃ r, ReadAt fourBytes (NewDriveReaderAt 8 4) () [0, 0, 0] 2 = some r ∧
      (∃ k rem pos, callRun fourBytes (NewDriveReaderAt 8 4).size
          (NewDriveReaderAt 8 4).chunkSize k
          (⟨(NewDriveReaderAt 8 4).cache, (), []⟩, startCall (NewDriveReaderAt 8 4) [0, 0, 0] 2)
        = (⟨r.cache, r.svc, r.fetches⟩,
           ⟨r.n, rem, pos, r.p, .returned r.err r.panicked⟩)) ∧
      CacheExtends (NewDriveReaderAt 8 4).cache r.cache ∧
      (∀ q ∈ r.fetches, (NewDriveReaderAt 8 4).cache q.chunkIdx = none) ∧
      (r.fetches.map (fun q => q.chunkIdx)).Nodup ∧
      (isFetchFailure r.err = false →
        (∀ q ∈ r.fetches, (r.cache q.chunkIdx).isSome = true) ∧
        ∀ cache2, CacheExtends r.cache cache2 → CacheBounded cache2 →
          ∃ r2, ReadAt alwaysFails { NewDriveReaderAt 8 4 with cache := cache2 } () [9, 9, 9] 2
              = some r2 ∧
            r2.fetches = [] ∧ r2.cache = cache2 ∧ r2.n = r.n ∧ r2.err = r.err ∧
            r2.p.take r.n.toNat = r.p.take r.n.toNat) :=
  (C5_readAt_cache_idempotence fourBytes alwaysFails (NewDriveReaderAt 8 4) () () [0, 0, 0]
    [9, 9, 9] 2 (by decide) (by decide) rfl fourBytes_bounded alwaysFails_bounded
    emptyCache_bounded).1

end Streamline
